import Mathlib

/-!
The encryption engine, the content store, the validators of `auth`, the
`Auth` middleware and the string splitting of `config` of pochew
(`backend/internal/encryption`, `backend/internal/storage`,
`backend/internal/auth`, `backend/internal/middleware`,
`backend/internal/config`).

A shallow embedding of `encryption.Service` (`GenerateUserKey`, `DeriveKey`,
`Encrypt`, `Decrypt`, `EncryptFile`, `DecryptFile`), of `storage.Service`
(`SaveContent`, `SaveEncryptedContent`, `GetContent`, `GetDecryptedContent`,
`DeleteContent`, `ListUserContent`, `GetStorageStats`), of `auth.Service`
(`ValidatePassword`, `ValidateUsername`, `GenerateUserEncryptionKey`,
`ValidateJWT`), of `middleware.Auth` and of `config.splitString`, together
with the library routines they call: `encoding/base64` (standard encoding),
`crypto/sha256`, `crypto/hmac`, `golang.org/x/crypto/pbkdf2`, `crypto/aes`,
the GCM mode of `crypto/cipher`, `path/filepath`, the file operations of `os`,
`unicode/utf8`, `encoding/hex` and `strings`.

Conventions.

* A Go `string` and a Go `[]byte` are both a `List Byte`; the conversions
  `[]byte(s)` and `string(b)` are the identity.  A `rune` is a natural number.
* A Go `(value, error)` result is a pair `α × Option Error` (`Result α`), so
  that the value returned next to a non-nil error stays visible; a library
  constructor that returns a nil interface next to its error is an `Except`.
* The bytes delivered by `crypto/rand` are an explicit argument: `some bytes`
  for a successful read, `none` for a failing entropy source.  The readings
  of `time.Now()` are explicit arguments too.
* Lengths are unbounded naturals: the size limits of the runtime and of the
  library (maximal slice length, maximal GCM message length) are not modelled.
* The file system is a tree of directories and regular files that the
  methods of the store take and return.  A name with a NUL byte is refused
  with `EINVAL`, as the system call wrappers of Go do.  The limits of the
  system on the lengths of names are not part of the operations: `os.accepted`
  states them, and a theorem that depends on them takes it as a hypothesis.
  Permissions, links and failures of the device are not modelled, and the
  process is alone on the file system.
* `encoding/json` is a parameter of the methods of the store: a codec with
  the laws of its round trip on `ArticleContent`.  The log is not modelled.
* Of the token library `golang-jwt` the count of the segments of a token is
  modelled; the verification of a token of three segments is a parameter.
  Of a `gin.Context` the `Authorization` header, the response, the abort flag,
  the keys and the call of the next handler are modelled.
* A loop that the source does not bound takes a number of steps (`fuel`) and
  returns `none` when they do not suffice.
-/

namespace Pochew

/-- Go's `byte`: an unsigned 8-bit value. -/
abbrev Byte := Fin 256

/-- Go's `string` and `[]byte`: a finite sequence of bytes. -/
abbrev Bytes := List Byte

/-- The error numbers of the system calls that the file system model returns. -/
inductive Errno where
  /-- No such file or directory. -/
  | ENOENT : Errno
  /-- A component of the path is not a directory. -/
  | ENOTDIR : Errno
  /-- The path is a directory. -/
  | EISDIR : Errno
  /-- The directory is not empty. -/
  | ENOTEMPTY : Errno
  /-- The directory is in use (the root). -/
  | EBUSY : Errno
  /-- The argument is invalid: a name with a NUL byte. -/
  | EINVAL : Errno
  deriving DecidableEq, Repr

/-- Go's `error` values that occur in the model.  `errorf msg` is
`fmt.Errorf(msg)`, `wrap msg e` is `fmt.Errorf(msg + ": %w", e)` and
`errorfArg msg arg` is `fmt.Errorf(msg + ": %s", arg)`. -/
inductive Error where
  /-- Value `base64.CorruptInputError` (its byte offset is not modelled). -/
  | corruptInput : Error
  /-- Value `aes.KeySizeError(n)`. -/
  | keySize (n : Nat) : Error
  /-- The error of `cipher.NewGCM` for a block size other than 16. -/
  | gcmBlockSize : Error
  /-- The `errOpen` of `crypto/cipher`: "cipher: message authentication failed". -/
  | openFailed : Error
  /-- A failure of the entropy source `crypto/rand`. -/
  | entropy : Error
  /-- An error built by `fmt.Errorf` from a constant text. -/
  | errorf (msg : String) : Error
  /-- An error built by `fmt.Errorf` with the verb `%w` around `cause`. -/
  | wrap (msg : String) (cause : Error) : Error
  /-- An error built by `fmt.Errorf` with the verb `%s` for a string argument. -/
  | errorfArg (msg : String) (arg : List (Fin 256)) : Error
  /-- A `*fs.PathError` of the operation `op` (its path is not modelled). -/
  | pathError (op : String) (errno : Errno) : Error
  deriving DecidableEq, Repr

/-- A Go `(value, error)` return pair. -/
abbrev Result (α : Type) := α × Option Error

/-! ## `encoding/base64`, `StdEncoding` -/

namespace base64

/-- The padding character `'='`. -/
def padChar : Byte := 61

/-- The standard alphabet `A-Z a-z 0-9 + /`, as a map from a 6-bit value to
its character (`enc.encode[v]`). -/
def encodeStd (v : Nat) : Byte :=
  if v < 26 then Fin.ofNat (65 + v)
  else if v < 52 then Fin.ofNat (97 + (v - 26))
  else if v < 62 then Fin.ofNat (48 + (v - 52))
  else if v = 62 then 43
  else 47

/-- The inverse table `enc.decodeMap`; `none` stands for the entry `0xff`. -/
def decodeMap (c : Byte) : Option Nat :=
  if 65 ≤ c.val ∧ c.val ≤ 90 then some (c.val - 65)
  else if 97 ≤ c.val ∧ c.val ≤ 122 then some (c.val - 97 + 26)
  else if 48 ≤ c.val ∧ c.val ≤ 57 then some (c.val - 48 + 52)
  else if c.val = 43 then some 62
  else if c.val = 47 then some 63
  else none

/-- Function `StdEncoding.EncodeToString`: three bytes become four
characters, a final group of one or two bytes is padded with `'='`. -/
def EncodeToString : Bytes → Bytes
  | a :: b :: c :: rest =>
    let val := a.val * 65536 + b.val * 256 + c.val
    encodeStd (val / 262144 % 64) :: encodeStd (val / 4096 % 64) ::
      encodeStd (val / 64 % 64) :: encodeStd (val % 64) :: EncodeToString rest
  | [a, b] =>
    let val := a.val * 65536 + b.val * 256
    [encodeStd (val / 262144 % 64), encodeStd (val / 4096 % 64),
      encodeStd (val / 64 % 64), padChar]
  | [a] =>
    let val := a.val * 65536
    [encodeStd (val / 262144 % 64), encodeStd (val / 4096 % 64), padChar, padChar]
  | [] => []

/-- Whether a character is `'\n'` or `'\r'`; the decoder ignores both. -/
def isNewline (c : Byte) : Bool := c.val = 10 || c.val = 13

/-- The `skip over newlines` loops of `decodeQuantum`. -/
def skipNewlines : Bytes → Bytes
  | [] => []
  | c :: rest => if isNewline c then skipNewlines rest else c :: rest

/-- The bytes of a quantum: `val = d0<<18 | d1<<12 | d2<<6 | d3` and the
bytes are `val>>16`, `val>>8`, `val` (the fields are disjoint, so the
bitwise or is a sum). -/
def quantumBytes (d0 d1 d2 d3 : Nat) : Bytes :=
  let val := d0 * 262144 + d1 * 4096 + d2 * 64 + d3
  [Fin.ofNat (val / 65536), Fin.ofNat (val / 256), Fin.ofNat val]

/-- The decoding loop of `Encoding.Decode` and `decodeQuantum` for
`StdEncoding` (padded, not strict).  `dbuf` holds the 6-bit values of the
quantum read so far.  Newlines are ignored everywhere, padding is accepted
only in the last quantum, and a quantum cut short without padding is an
error; `none` stands for a `CorruptInputError`. -/
def decodeLoop : Bytes → List Nat → Option Bytes
  | [], dbuf => if dbuf = [] then some [] else none
  | c :: rest, dbuf =>
    match decodeMap c with
    | some v =>
      match dbuf with
      | [d0, d1, d2] => (decodeLoop rest []).map (fun out => quantumBytes d0 d1 d2 v ++ out)
      | _ => decodeLoop rest (dbuf ++ [v])
    | none =>
      if isNewline c then decodeLoop rest dbuf
      else if c ≠ padChar then none
      else
        match dbuf with
        | [d0, d1] =>
          match skipNewlines rest with
          | [] => none
          | c2 :: rest2 =>
            if c2 ≠ padChar then none
            else if skipNewlines rest2 = [] then some ((quantumBytes d0 d1 0 0).take 1)
            else none
        | [d0, d1, d2] =>
          if skipNewlines rest = [] then some ((quantumBytes d0 d1 d2 0).take 2) else none
        | _ => none

/-- Function `StdEncoding.DecodeString`; `none` is a non-nil error. -/
def DecodeString (s : Bytes) : Option Bytes := decodeLoop s []

end base64

/-! ## Byte strings as numbers -/

/-- Bytewise exclusive or of two byte strings, up to the shorter length
(`subtle.XORBytes`). -/
def xorBytes (a b : Bytes) : Bytes := List.zipWith (fun x y => x ^^^ y) a b

/-- The big-endian number spelled by a byte string. -/
def beToNat (bs : Bytes) : Nat := bs.foldl (fun acc b => acc * 256 + b.val) 0

/-- The `n` bytes of the big-endian representation of `v` modulo `256 ^ n`. -/
def natToBE (n v : Nat) : Bytes :=
  (List.range n).map (fun i => Fin.ofNat (v / 256 ^ (n - 1 - i)))

/-! ## `crypto/sha256` -/

namespace sha256

/-- The digest size in bytes (`sha256.Size`). -/
def Size : Nat := 32

/-- The block size in bytes (`sha256.BlockSize`). -/
def BlockSize : Nat := 64

/-- The round constants. -/
def K : List Nat :=
  [0x428a2f98, 0x71374491, 0xb5c0fbcf, 0xe9b5dba5, 0x3956c25b, 0x59f111f1, 0x923f82a4, 0xab1c5ed5,
   0xd807aa98, 0x12835b01, 0x243185be, 0x550c7dc3, 0x72be5d74, 0x80deb1fe, 0x9bdc06a7, 0xc19bf174,
   0xe49b69c1, 0xefbe4786, 0x0fc19dc6, 0x240ca1cc, 0x2de92c6f, 0x4a7484aa, 0x5cb0a9dc, 0x76f988da,
   0x983e5152, 0xa831c66d, 0xb00327c8, 0xbf597fc7, 0xc6e00bf3, 0xd5a79147, 0x06ca6351, 0x14292967,
   0x27b70a85, 0x2e1b2138, 0x4d2c6dfc, 0x53380d13, 0x650a7354, 0x766a0abb, 0x81c2c92e, 0x92722c85,
   0xa2bfe8a1, 0xa81a664b, 0xc24b8b70, 0xc76c51a3, 0xd192e819, 0xd6990624, 0xf40e3585, 0x106aa070,
   0x19a4c116, 0x1e376c08, 0x2748774c, 0x34b0bcb5, 0x391c0cb3, 0x4ed8aa4a, 0x5b9cca4f, 0x682e6ff3,
   0x748f82ee, 0x78a5636f, 0x84c87814, 0x8cc70208, 0x90befffa, 0xa4506ceb, 0xbef9a3f7, 0xc67178f2]

/-- The initial hash value. -/
def init : List Nat :=
  [0x6a09e667, 0xbb67ae85, 0x3c6ef372, 0xa54ff53a, 0x510e527f, 0x9b05688c, 0x1f83d9ab, 0x5be0cd19]

/-- Rotation of a 32-bit word to the right. -/
def rotr (x n : Nat) : Nat := (x >>> n ||| x <<< (32 - n)) % 2 ^ 32

/-- Complement of a 32-bit word. -/
def not32 (x : Nat) : Nat := 2 ^ 32 - 1 - x % 2 ^ 32

/-- One step of the message schedule: the next word from the words so far. -/
def scheduleStep (w : List Nat) : List Nat :=
  let t := w.length
  let v1 := w.getD (t - 2) 0
  let v2 := w.getD (t - 15) 0
  let t1 := rotr v1 17 ^^^ rotr v1 19 ^^^ (v1 >>> 10)
  let t2 := rotr v2 7 ^^^ rotr v2 18 ^^^ (v2 >>> 3)
  w ++ [(t1 + w.getD (t - 7) 0 + t2 + w.getD (t - 16) 0) % 2 ^ 32]

/-- The 64 words of the message schedule of a 64-byte block. -/
def schedule (block : Bytes) : List Nat :=
  Nat.iterate scheduleStep 48
    ((List.range 16).map (fun i => beToNat ((block.drop (4 * i)).take 4)))

/-- One round of the compression function on the working variables
`a, b, c, d, e, f, g, h`. -/
def round (v : List Nat) (kw : Nat × Nat) : List Nat :=
  let a := v.getD 0 0
  let b := v.getD 1 0
  let c := v.getD 2 0
  let d := v.getD 3 0
  let e := v.getD 4 0
  let f := v.getD 5 0
  let g := v.getD 6 0
  let h := v.getD 7 0
  let t1 := h + (rotr e 6 ^^^ rotr e 11 ^^^ rotr e 25) + ((e &&& f) ^^^ (not32 e &&& g)) +
    kw.1 + kw.2
  let t2 := (rotr a 2 ^^^ rotr a 13 ^^^ rotr a 22) + ((a &&& b) ^^^ (a &&& c) ^^^ (b &&& c))
  [(t1 + t2) % 2 ^ 32, a, b, c, (d + t1) % 2 ^ 32, e, f, g]

/-- The compression of one 64-byte block into the chaining value. -/
def block (h : List Nat) (p : Bytes) : List Nat :=
  List.zipWith (fun x y => (x + y) % 2 ^ 32) h ((K.zip (schedule p)).foldl round h)

/-- The padding: `0x80`, zeros up to 56 modulo 64, and the bit length as a
64-bit big-endian number. -/
def pad (msg : Bytes) : Bytes :=
  msg ++ [Fin.ofNat 0x80] ++ List.replicate ((119 - msg.length % 64) % 64) 0 ++
    natToBE 8 (8 * msg.length)

/-- The chaining value after the first `n` blocks of `data`. -/
def blocks (h : List Nat) (data : Bytes) : Nat → List Nat
  | 0 => h
  | n + 1 => blocks (block h (data.take 64)) (data.drop 64) n

/-- Function `sha256.Sum256`: the 32-byte digest of `msg`. -/
def Sum256 (msg : Bytes) : Bytes :=
  let h := blocks init (pad msg) ((pad msg).length / 64)
  (List.range 8).flatMap (fun i => natToBE 4 (h.getD i 0))

end sha256

/-! ## `crypto/hmac` with SHA-256 -/

namespace hmac

/-- The key block of `hmac.New`: a key longer than the block size is hashed
first, and the key is then filled up with zeros to the block size. -/
def keyBlock (key : Bytes) : Bytes :=
  let k := if key.length > sha256.BlockSize then sha256.Sum256 key else key
  k ++ List.replicate (sha256.BlockSize - k.length) 0

/-- HMAC-SHA256 of `msg` under `key`. -/
def Sum (key msg : Bytes) : Bytes :=
  let kb := keyBlock key
  sha256.Sum256 (kb.map (fun b => b ^^^ 0x5c) ++ sha256.Sum256 (kb.map (fun b => b ^^^ 0x36) ++ msg))

end hmac

/-! ## `golang.org/x/crypto/pbkdf2` with HMAC-SHA256 -/

namespace pbkdf2

/-- The inner loop `for n := 2; n <= iter; n++` of `pbkdf2.Key`, run `n`
times from the running block `T` and the last value `U`. -/
def iterate (password : Bytes) : Nat → Bytes → Bytes → Bytes
  | 0, T, _ => T
  | n + 1, T, U =>
    let U2 := hmac.Sum password U
    iterate password n (xorBytes T U2) U2

/-- The block `T_i = U_1 ^ U_2 ^ ... ^ U_iter` with
`U_1 = PRF(password, salt || uint32(i))`. -/
def blockT (password salt : Bytes) (iter : Int) (i : Nat) : Bytes :=
  let U1 := hmac.Sum password (salt ++ natToBE 4 i)
  iterate password (iter - 1).toNat U1 U1

/-- Function `pbkdf2.Key(password, salt, iter, keyLen, sha256.New)`. -/
def Key (password salt : Bytes) (iter : Int) (keyLen : Nat) : Bytes :=
  let numBlocks := (keyLen + sha256.Size - 1) / sha256.Size
  ((List.range numBlocks).flatMap (fun b => blockT password salt iter (b + 1))).take keyLen

end pbkdf2

/-! ## `crypto/cipher`: the interface of a block cipher -/

/-- Go's `cipher.Block`: a block cipher under a fixed key. -/
structure cipher.Block where
  /-- Method `BlockSize`. -/
  blockSize : Nat
  /-- Method `Encrypt` on one block. -/
  encrypt : Bytes → Bytes

/-! ## `crypto/aes` -/

namespace aes

/-- The block size in bytes (`aes.BlockSize`). -/
def BlockSize : Nat := 16

/-- Multiplication by `x` in GF(2^8) modulo `x^8 + x^4 + x^3 + x + 1`. -/
def xtime (a : Nat) : Nat := if a < 128 then 2 * a else (2 * a) % 256 ^^^ 0x1b

/-- The S-box of FIPS 197 as a table (`sbox0`). -/
def sbox0 : List Nat :=
  [0x63, 0x7c, 0x77, 0x7b, 0xf2, 0x6b, 0x6f, 0xc5, 0x30, 0x01, 0x67, 0x2b, 0xfe, 0xd7, 0xab, 0x76,
   0xca, 0x82, 0xc9, 0x7d, 0xfa, 0x59, 0x47, 0xf0, 0xad, 0xd4, 0xa2, 0xaf, 0x9c, 0xa4, 0x72, 0xc0,
   0xb7, 0xfd, 0x93, 0x26, 0x36, 0x3f, 0xf7, 0xcc, 0x34, 0xa5, 0xe5, 0xf1, 0x71, 0xd8, 0x31, 0x15,
   0x04, 0xc7, 0x23, 0xc3, 0x18, 0x96, 0x05, 0x9a, 0x07, 0x12, 0x80, 0xe2, 0xeb, 0x27, 0xb2, 0x75,
   0x09, 0x83, 0x2c, 0x1a, 0x1b, 0x6e, 0x5a, 0xa0, 0x52, 0x3b, 0xd6, 0xb3, 0x29, 0xe3, 0x2f, 0x84,
   0x53, 0xd1, 0x00, 0xed, 0x20, 0xfc, 0xb1, 0x5b, 0x6a, 0xcb, 0xbe, 0x39, 0x4a, 0x4c, 0x58, 0xcf,
   0xd0, 0xef, 0xaa, 0xfb, 0x43, 0x4d, 0x33, 0x85, 0x45, 0xf9, 0x02, 0x7f, 0x50, 0x3c, 0x9f, 0xa8,
   0x51, 0xa3, 0x40, 0x8f, 0x92, 0x9d, 0x38, 0xf5, 0xbc, 0xb6, 0xda, 0x21, 0x10, 0xff, 0xf3, 0xd2,
   0xcd, 0x0c, 0x13, 0xec, 0x5f, 0x97, 0x44, 0x17, 0xc4, 0xa7, 0x7e, 0x3d, 0x64, 0x5d, 0x19, 0x73,
   0x60, 0x81, 0x4f, 0xdc, 0x22, 0x2a, 0x90, 0x88, 0x46, 0xee, 0xb8, 0x14, 0xde, 0x5e, 0x0b, 0xdb,
   0xe0, 0x32, 0x3a, 0x0a, 0x49, 0x06, 0x24, 0x5c, 0xc2, 0xd3, 0xac, 0x62, 0x91, 0x95, 0xe4, 0x79,
   0xe7, 0xc8, 0x37, 0x6d, 0x8d, 0xd5, 0x4e, 0xa9, 0x6c, 0x56, 0xf4, 0xea, 0x65, 0x7a, 0xae, 0x08,
   0xba, 0x78, 0x25, 0x2e, 0x1c, 0xa6, 0xb4, 0xc6, 0xe8, 0xdd, 0x74, 0x1f, 0x4b, 0xbd, 0x8b, 0x8a,
   0x70, 0x3e, 0xb5, 0x66, 0x48, 0x03, 0xf6, 0x0e, 0x61, 0x35, 0x57, 0xb9, 0x86, 0xc1, 0x1d, 0x9e,
   0xe1, 0xf8, 0x98, 0x11, 0x69, 0xd9, 0x8e, 0x94, 0x9b, 0x1e, 0x87, 0xe9, 0xce, 0x55, 0x28, 0xdf,
   0x8c, 0xa1, 0x89, 0x0d, 0xbf, 0xe6, 0x42, 0x68, 0x41, 0x99, 0x2d, 0x0f, 0xb0, 0x54, 0xbb, 0x16]

/-- The S-box applied to a byte. -/
def sbox (a : Nat) : Nat := sbox0.getD a 0

/-- Multiplication in GF(2^8), over the 8 bits of `b`. -/
def gmulAux : Nat → Nat → Nat → Nat
  | 0, _, _ => 0
  | n + 1, a, b => (if b % 2 = 1 then a else 0) ^^^ gmulAux n (xtime a) (b / 2)

/-- Multiplication in GF(2^8). -/
def gmul (a b : Nat) : Nat := gmulAux 8 a b

/-- The multiplicative inverse in GF(2^8) (zero is sent to zero): `a^254`. -/
def ginv (a : Nat) : Nat :=
  let a2 := gmul a a
  let a4 := gmul a2 a2
  let a8 := gmul a4 a4
  let a16 := gmul a8 a8
  let a32 := gmul a16 a16
  let a64 := gmul a32 a32
  let a128 := gmul a64 a64
  gmul a128 (gmul a64 (gmul a32 (gmul a16 (gmul a8 (gmul a4 a2)))))

/-- Rotation of a byte to the left. -/
def rotl8 (x n : Nat) : Nat := (x <<< n ||| x >>> (8 - n)) % 256

/-- The S-box as FIPS 197 defines it: the inverse in GF(2^8) followed by the
affine map.  The table `sbox0` lists its values. -/
def sboxField (a : Nat) : Nat :=
  let b := ginv a
  b ^^^ rotl8 b 1 ^^^ rotl8 b 2 ^^^ rotl8 b 3 ^^^ rotl8 b 4 ^^^ 0x63

/-- The S-box applied to the four bytes of a word (`SubWord`). -/
def subWord (w : Nat) : Nat :=
  sbox (w / 16777216 % 256) * 16777216 + sbox (w / 65536 % 256) * 65536 +
    sbox (w / 256 % 256) * 256 + sbox (w % 256)

/-- Rotation of a word by one byte to the left (`RotWord`). -/
def rotWord (w : Nat) : Nat := (w % 16777216) * 256 + w / 16777216 % 256

/-- The round constant `Rcon[i]` as a word: `x^(i-1)` in the top byte. -/
def rcon (i : Nat) : Nat := Nat.iterate xtime (i - 1) 1 * 16777216

/-- One step of the key expansion: the next word from the words so far, for
a key of `nk` words. -/
def expandStep (nk : Nat) (w : List Nat) : List Nat :=
  let i := w.length
  let prev := w.getD (i - 1) 0
  let temp :=
    if i % nk = 0 then subWord (rotWord prev) ^^^ rcon (i / nk)
    else if nk > 6 ∧ i % nk = 4 then subWord prev
    else prev
  w ++ [w.getD (i - nk) 0 ^^^ temp]

/-- The key schedule of FIPS 197: `4 * (nk + 7)` words for a key of `nk`
words. -/
def expandKey (key : Bytes) : List Nat :=
  let nk := key.length / 4
  Nat.iterate (expandStep nk) (4 * (nk + 7) - nk)
    ((List.range nk).map (fun i => beToNat ((key.drop (4 * i)).take 4)))

/-- The 16 bytes of round key `r`. -/
def roundKey (w : List Nat) (r : Nat) : List Nat :=
  (List.range 16).map (fun i => w.getD (4 * r + i / 4) 0 / 256 ^ (3 - i % 4) % 256)

/-- Step `AddRoundKey`. -/
def addRoundKey (st rk : List Nat) : List Nat := List.zipWith (fun x y => x ^^^ y) st rk

/-- Step `SubBytes`. -/
def subBytes (st : List Nat) : List Nat := st.map sbox

/-- Step `ShiftRows`: row `r` of the column-major state moves `r` columns to
the left. -/
def shiftRows (st : List Nat) : List Nat :=
  (List.range 16).map (fun i => st.getD (i % 4 + 4 * ((i / 4 + i % 4) % 4)) 0)

/-- Step `MixColumns`: each column is multiplied by the matrix with the rows
`2 3 1 1`, `1 2 3 1`, `1 1 2 3`, `3 1 1 2` over GF(2^8), where `2 * a` is
`xtime a` and `3 * a` is `xtime a ^^^ a`. -/
def mixColumns (st : List Nat) : List Nat :=
  (List.range 16).map (fun i =>
    let c := 4 * (i / 4)
    let r := i % 4
    let a1 := st.getD (c + (r + 1) % 4) 0
    xtime (st.getD (c + r) 0) ^^^ (xtime a1 ^^^ a1) ^^^
      st.getD (c + (r + 2) % 4) 0 ^^^ st.getD (c + (r + 3) % 4) 0)

/-- The middle rounds `1 .. n` of the cipher. -/
def rounds (w : List Nat) : Nat → List Nat → List Nat
  | 0, st => st
  | n + 1, st =>
    addRoundKey (mixColumns (shiftRows (subBytes (rounds w n st)))) (roundKey w (n + 1))

/-- The cipher of FIPS 197 on one 16-byte block, for the expanded key `w`
with `nr` rounds. -/
def encryptBlock (w : List Nat) (nr : Nat) (src : Bytes) : Bytes :=
  let st0 := addRoundKey ((List.range 16).map (fun i => (src.getD i 0).val)) (roundKey w 0)
  let st := rounds w (nr - 1) st0
  let last := addRoundKey (shiftRows (subBytes st)) (roundKey w nr)
  (List.range 16).map (fun i => Fin.ofNat (last.getD i 0))

end aes

/-- The unexported `newCipher`: the block cipher for a key of valid length,
with `len(key)/4 + 6` rounds. -/
def aes.newCipher (key : Bytes) : cipher.Block :=
  ⟨aes.BlockSize, aes.encryptBlock (aes.expandKey key) (key.length / 4 + 6)⟩

/-- Function `aes.NewCipher`: the key must have 16, 24 or 32 bytes, else the
result is a `KeySizeError`. -/
def aes.NewCipher (key : Bytes) : Except Error cipher.Block :=
  if key.length = 16 ∨ key.length = 24 ∨ key.length = 32 then .ok (aes.newCipher key)
  else .error (Error.keySize key.length)

/-! ## `crypto/cipher`: Galois/Counter mode -/

namespace cipher.gcm

/-- The nonce size of the standard GCM (`gcmStandardNonceSize`). -/
def NonceSize : Nat := 12

/-- The tag size of the standard GCM (`gcmTagSize`). -/
def TagSize : Nat := 16

/-- Multiplication in GF(2^128) in the bit order of GCM, blocks read as
128-bit big-endian numbers: the loop over the 128 bits of `x`. -/
def mulAux : Nat → Nat → Nat → Nat → Nat
  | 0, _, _, z => z
  | n + 1, x, v, z =>
    mulAux n x (if v % 2 = 1 then v / 2 ^^^ 0xe1000000000000000000000000000000 else v / 2)
      (if x / 2 ^ n % 2 = 1 then z ^^^ v else z)

/-- Multiplication in GF(2^128). -/
def mul (x y : Nat) : Nat := mulAux 128 x y 0

/-- The running hash `y` updated with the 16-byte blocks of `data`, the last
block filled up with zeros; `n` is the number of blocks. -/
def ghashBlocks (h : Nat) : Nat → Bytes → Nat → Nat
  | 0, _, y => y
  | n + 1, data, y =>
    let blk := data.take 16 ++ List.replicate (16 - (data.take 16).length) 0
    ghashBlocks h n (data.drop 16) (mul (y ^^^ beToNat blk) h)

/-- Function `GHASH` over the additional data and the ciphertext. -/
def ghash (h : Nat) (aad ct : Bytes) : Nat :=
  let y1 := ghashBlocks h ((aad.length + 15) / 16) aad 0
  let y2 := ghashBlocks h ((ct.length + 15) / 16) ct y1
  mul (y2 ^^^ (8 * aad.length * 2 ^ 64 + 8 * ct.length)) h

/-- The counter block: the 12-byte nonce followed by a 32-bit counter. -/
def counterBlock (nonce : Bytes) (ctr : Nat) : Bytes := nonce ++ natToBE 4 ctr

/-- The key stream of counter mode: `n` blocks from counter `ctr` on. -/
def keyStream (b : Block) (nonce : Bytes) : Nat → Nat → Bytes
  | 0, _ => []
  | n + 1, ctr => b.encrypt (counterBlock nonce ctr) ++ keyStream b nonce n (ctr + 1)

/-- Counter mode on `data`, the first counter being 2. -/
def counterCrypt (b : Block) (nonce data : Bytes) : Bytes :=
  xorBytes data (keyStream b nonce ((data.length + 15) / 16) 2)

/-- The authentication tag of the ciphertext `ct`. -/
def auth (b : Block) (nonce aad ct : Bytes) : Bytes :=
  xorBytes (natToBE 16 (ghash (beToNat (b.encrypt (List.replicate 16 0))) aad ct))
    (b.encrypt (counterBlock nonce 1))

/-- The sealing of GCM: the ciphertext followed by its tag. -/
def output (b : Block) (nonce plaintext aad : Bytes) : Bytes :=
  let ct := counterCrypt b nonce plaintext
  ct ++ auth b nonce aad ct

end cipher.gcm

/-- Go's `cipher.AEAD` as built by `cipher.NewGCM`: GCM over a 128-bit block
cipher, with the standard nonce and tag sizes. -/
structure cipher.AEAD where
  /-- The underlying block cipher. -/
  cipher : cipher.Block

namespace cipher.AEAD

/-- Method `NonceSize`. -/
def NonceSize (_ : AEAD) : Nat := gcm.NonceSize

/-- Method `Overhead`: the length of the tag. -/
def Overhead (_ : AEAD) : Nat := gcm.TagSize

/-- Method `Seal`: appends the ciphertext and its tag to `dst`. -/
def Seal (g : AEAD) (dst nonce plaintext additionalData : Bytes) : Bytes :=
  dst ++ gcm.output g.cipher nonce plaintext additionalData

/-- Method `Open`: an input shorter than the tag, or whose tag differs from
the expected one, is rejected with `errOpen` and a nil slice; otherwise the
plaintext is appended to `dst`. -/
def Open (g : AEAD) (dst nonce ciphertext additionalData : Bytes) : Result Bytes :=
  if ciphertext.length < gcm.TagSize then ([], some Error.openFailed)
  else
    let tag := ciphertext.drop (ciphertext.length - gcm.TagSize)
    let ct := ciphertext.take (ciphertext.length - gcm.TagSize)
    if gcm.auth g.cipher nonce additionalData ct ≠ tag then ([], some Error.openFailed)
    else (dst ++ gcm.counterCrypt g.cipher nonce ct, none)

end cipher.AEAD

/-- Function `cipher.NewGCM`: the block size of the cipher must be 16. -/
def cipher.NewGCM (b : cipher.Block) : Except Error cipher.AEAD :=
  if b.blockSize ≠ 16 then .error Error.gcmBlockSize else .ok ⟨b⟩

/-! ## Package `encryption` -/

namespace encryption

/-- Type `Service`: the encryption service with its PBKDF2 iteration count. -/
structure Service where
  /-- Field `iterations` (a Go `int`). -/
  iterations : Int

/-- Function `NewService`. -/
def NewService (iterations : Int) : Service := ⟨iterations⟩

/-- Method `GenerateUserKey`.  `key` is the outcome of `rand.Read` on the
32-byte buffer: the bytes read, or `none` when the source fails. -/
def Service.GenerateUserKey (_ : Service) (key : Option Bytes) : Result Bytes :=
  match key with
  | none => ([], some (.wrap "failed to generate user key" .entropy))
  | some key => (base64.EncodeToString key, none)

/-- Method `DeriveKey`: both arguments are base64 text; the key is
PBKDF2-HMAC-SHA256 with 32 bytes of output. -/
def Service.DeriveKey (s : Service) (masterKey salt : Bytes) : Result Bytes :=
  match base64.DecodeString masterKey with
  | none => ([], some (.wrap "failed to decode master key" .corruptInput))
  | some masterKeyBytes =>
    match base64.DecodeString salt with
    | none => ([], some (.wrap "failed to decode salt" .corruptInput))
    | some saltBytes => (pbkdf2.Key masterKeyBytes saltBytes s.iterations 32, none)

/-- Method `Encrypt`.  `salt` is the outcome of `rand.Read` on the 16-byte
salt buffer and `nonce` the outcome of `io.ReadFull(rand.Reader, ...)` on the
nonce buffer of `gcm.NonceSize()` bytes: the bytes read, or `none` when the
source fails. -/
def Service.Encrypt (s : Service) (salt nonce : Option Bytes) (data userKey : Bytes) :
    Result Bytes :=
  match salt with
  | none => ([], some (.wrap "failed to generate salt" .entropy))
  | some salt =>
    match s.DeriveKey userKey (base64.EncodeToString salt) with
    | (_, some err) => ([], some (.wrap "failed to derive key" err))
    | (key, none) =>
      match aes.NewCipher key with
      | .error err => ([], some (.wrap "failed to create cipher" err))
      | .ok block =>
        match cipher.NewGCM block with
        | .error err => ([], some (.wrap "failed to create GCM" err))
        | .ok gcm =>
          match nonce with
          | none => ([], some (.wrap "failed to generate nonce" .entropy))
          | some nonce =>
            let ciphertext := gcm.Seal nonce nonce data []
            let result := salt ++ ciphertext
            (base64.EncodeToString result, none)

/-- Method `Decrypt`. -/
def Service.Decrypt (s : Service) (encryptedData userKey : Bytes) : Result Bytes :=
  match base64.DecodeString encryptedData with
  | none => ([], some (.wrap "failed to decode encrypted data" .corruptInput))
  | some data =>
    if data.length < 16 then ([], some (.errorf "encrypted data too short"))
    else
      let salt := data.take 16
      let ciphertext := data.drop 16
      match s.DeriveKey userKey (base64.EncodeToString salt) with
      | (_, some err) => ([], some (.wrap "failed to derive key" err))
      | (key, none) =>
        match aes.NewCipher key with
        | .error err => ([], some (.wrap "failed to create cipher" err))
        | .ok block =>
          match cipher.NewGCM block with
          | .error err => ([], some (.wrap "failed to create GCM" err))
          | .ok gcm =>
            let nonceSize := gcm.NonceSize
            if ciphertext.length < nonceSize then ([], some (.errorf "ciphertext too short"))
            else
              let nonce := ciphertext.take nonceSize
              let encData := ciphertext.drop nonceSize
              match gcm.Open [] nonce encData [] with
              | (_, some err) => ([], some (.wrap "failed to decrypt" err))
              | (plaintext, none) => (plaintext, none)

/-- Method `EncryptFile`: the file content is encrypted as a string and the
blob is returned as bytes; `salt` and `nonce` are the draws of `Encrypt`. -/
def Service.EncryptFile (s : Service) (salt nonce : Option Bytes) (content userKey : Bytes) :
    Result Bytes :=
  match s.Encrypt salt nonce content userKey with
  | (_, some err) => ([], some err)
  | (encrypted, none) => (encrypted, none)

/-- Method `DecryptFile`. -/
def Service.DecryptFile (s : Service) (encryptedContent userKey : Bytes) : Result Bytes :=
  match s.Decrypt encryptedContent userKey with
  | (_, some err) => ([], some err)
  | (decrypted, none) => (decrypted, none)

end encryption

/-! ## Notions of the specification -/

/-- A string is valid standard base64 when `StdEncoding.DecodeString` accepts
it. -/
def base64.Valid (s : Bytes) : Prop := ∃ b, base64.DecodeString s = some b

instance (s : Bytes) : Decidable (base64.Valid s) :=
  decidable_of_iff ((base64.DecodeString s).isSome = true) (by
    unfold base64.Valid
    cases base64.DecodeString s <;> simp)

namespace encryption

/-- The failure modes of `Decrypt` that the specification tells apart. -/
inductive FailureMode where
  /-- The input is not base64 text (`EncodingError`). -/
  | encoding : FailureMode
  /-- The blob is too short to hold the salt and the nonce (`StructuralError`). -/
  | structural : FailureMode
  /-- The key material is malformed (`KeyDerivationError`). -/
  | keyDerivation : FailureMode
  /-- The authentication tag does not verify (`AuthenticationError`). -/
  | authentication : FailureMode
  deriving DecidableEq, Repr

/-- What a caller reads off an error of `Decrypt`: the failure mode named by
the text of the error. -/
def FailureMode.ofError : Error → Option FailureMode
  | .wrap msg _ =>
    if msg = "failed to decode encrypted data" then some .encoding
    else if msg = "failed to derive key" then some .keyDerivation
    else if msg = "failed to decrypt" then some .authentication
    else none
  | .errorf msg =>
    if msg = "encrypted data too short" ∨ msg = "ciphertext too short" then some .structural
    else none
  | _ => none

/-- The last step of `Decrypt`: an error of `Open` is wrapped and the string
is empty, a plaintext is passed on. -/
def openOutcome (r : Result Bytes) : Result Bytes :=
  match r with
  | (_, some err) => ([], some (.wrap "failed to decrypt" err))
  | (plaintext, none) => (plaintext, none)

/-- The AES-256-GCM instance that `Encrypt` and `Decrypt` build from the
decoded key bytes `m` and the salt. -/
def Service.aead (s : Service) (m salt : Bytes) : cipher.AEAD :=
  ⟨aes.newCipher (pbkdf2.Key m salt s.iterations 32)⟩

/-- The failure mode of a run of `Decrypt`, told from its inputs alone:
undecodable input; fewer than 16 decoded bytes, or fewer than 28 once the key
is derived; an undecodable user key; a sealed part that `Open` rejects under
the derived key.  `none` when no failure occurs. -/
def Service.failureMode (s : Service) (encryptedData userKey : Bytes) : Option FailureMode :=
  match base64.DecodeString encryptedData with
  | none => some .encoding
  | some data =>
    if data.length < 16 then some .structural
    else
      match base64.DecodeString userKey with
      | none => some .keyDerivation
      | some masterKeyBytes =>
        if data.length < 28 then some .structural
        else
          let g := s.aead masterKeyBytes (data.take 16)
          if (g.Open [] ((data.drop 16).take 12) (data.drop 28) []).2 = none then none
          else some .authentication

end encryption

/-! ## `path/filepath` (Unix)

`Clean` and `Join` are lexical: a path is split at the separators, the
elements `""` and `.` are dropped, and an element `..` removes the element
before it (at the start of a rooted path it is dropped, at the start of a
relative path it is kept). -/

namespace filepath

/-- The path separator `'/'`. -/
def Separator : Byte := 47

/-- The element `.`. -/
def dot : Bytes := [46]

/-- The element `..`. -/
def dotdot : Bytes := [46, 46]

/-- The elements of a path between its separators, empty elements included. -/
def splitList : Bytes → List Bytes
  | [] => [[]]
  | c :: rest =>
    if c = Separator then [] :: splitList rest
    else
      match splitList rest with
      | [] => [[c]]
      | x :: xs => (c :: x) :: xs

/-- The lexical form of a path: whether it is rooted, the number of leading
`..` elements, and the other elements, the innermost first. -/
structure Lexical where
  /-- The path begins with a separator. -/
  rooted : Bool
  /-- The number of leading `..` elements of a relative path. -/
  up : Nat
  /-- The elements below, the last one first. -/
  stack : List Bytes
  deriving DecidableEq, Repr

/-- One element more at the end of a path in lexical form. -/
def Lexical.push (l : Lexical) (elem : Bytes) : Lexical :=
  if elem = [] ∨ elem = dot then l
  else if elem = dotdot then
    match l.stack with
    | _ :: rest => { l with stack := rest }
    | [] => if l.rooted then l else { l with up := l.up + 1 }
  else { l with stack := elem :: l.stack }

/-- The lexical form of a path. -/
def lexical (path : Bytes) : Lexical :=
  (splitList path).foldl Lexical.push ⟨path.head? = some Separator, 0, []⟩

/-- Function `strings.Join` with the separator `/`. -/
def joinElems : List Bytes → Bytes
  | [] => []
  | [x] => x
  | x :: y :: rest => x ++ Separator :: joinElems (y :: rest)

/-- The shortest path with a given lexical form; `.` for the empty relative
path and `/` for the root. -/
def Lexical.render (l : Lexical) : Bytes :=
  let s := joinElems (List.replicate l.up dotdot ++ l.stack.reverse)
  if l.rooted then Separator :: s else if s = [] then dot else s

/-- Function `filepath.Clean`. -/
def Clean (path : Bytes) : Bytes := (lexical path).render

/-- Function `filepath.Join`: the elements from the first non-empty one on
are joined with separators and the result is cleaned; without a non-empty
element the result is empty. -/
def Join (elem : List Bytes) : Bytes :=
  match elem.dropWhile (fun e => e = []) with
  | [] => []
  | rest => Clean (joinElems rest)

end filepath

/-! ## `os`: a file system

A tree of directories and regular files, without permissions, links or
limits on names.  The names that reach the functions below are cleaned, so a
name is resolved lexically against the working directory. -/

namespace os

/-- A node of the file system: a regular file with its content or a
directory with its entries. -/
inductive Node where
  /-- A regular file. -/
  | file (data : Bytes) : Node
  /-- A directory. -/
  | dir (entries : List (Bytes × Node)) : Node

/-- The file system: the working directory of the process and the root. -/
structure FS where
  /-- The elements of the working directory, from the root. -/
  cwd : List Bytes
  /-- The root directory. -/
  root : Node

/-- The elements, from the root, of the place that a name stands for. -/
def FS.resolve (fs : FS) (name : Bytes) : List Bytes :=
  let l := filepath.lexical name
  if l.rooted then l.stack.reverse
  else fs.cwd.take (fs.cwd.length - l.up) ++ l.stack.reverse

/-- The entries of a directory with the entry `c` set to `n`. -/
def setEntry (es : List (Bytes × Node)) (c : Bytes) (n : Node) : List (Bytes × Node) :=
  match es with
  | [] => [(c, n)]
  | (k, v) :: rest => if k = c then (k, n) :: rest else (k, v) :: setEntry rest c n

/-- The entries of a directory without the entry `c`. -/
def eraseEntry (es : List (Bytes × Node)) (c : Bytes) : List (Bytes × Node) :=
  es.filter (fun e => e.1 ≠ c)

/-- The walk from a node along a path: `ENOENT` when an element is missing
and `ENOTDIR` when the walk has to pass through a regular file. -/
def Node.find : Node → List Bytes → Except Errno Node
  | n, [] => .ok n
  | .file _, _ :: _ => .error .ENOTDIR
  | .dir es, c :: rest =>
    match es.lookup c with
    | none => .error .ENOENT
    | some child => child.find rest

/-- The tree with the node at a path replaced or, in an existing directory,
added. -/
def Node.put : Node → List Bytes → Node → Node
  | _, [], new => new
  | .file d, _ :: _, _ => .file d
  | .dir es, c :: rest, new =>
    match es.lookup c with
    | some child => .dir (setEntry es c (child.put rest new))
    | none =>
      match rest with
      | [] => .dir (setEntry es c new)
      | _ :: _ => .dir es

/-- The tree with all missing directories along a path created. -/
def Node.mkdirAll : Node → List Bytes → Node
  | n, [] => n
  | .file d, _ :: _ => .file d
  | .dir es, c :: rest =>
    match es.lookup c with
    | some child => .dir (setEntry es c (child.mkdirAll rest))
    | none => .dir (setEntry es c ((Node.dir []).mkdirAll rest))

/-- Whether the walk along a path meets a regular file, at the end or before. -/
def Node.blocked : Node → List Bytes → Bool
  | .file _, _ => true
  | .dir _, [] => false
  | .dir es, c :: rest =>
    match es.lookup c with
    | none => false
    | some child => child.blocked rest

/-- The tree without the node at a path. -/
def Node.remove : Node → List Bytes → Node
  | n, [] => n
  | .file d, _ :: _ => .file d
  | .dir es, c :: rest =>
    match rest with
    | [] => .dir (eraseEntry es c)
    | _ :: _ =>
      match es.lookup c with
      | some child => .dir (setEntry es c (child.remove rest))
      | none => .dir es

/-- Go's `fs.FileInfo`, as far as it is used. -/
structure FileInfo where
  /-- Method `IsDir`. -/
  isDir : Bool
  /-- Method `Size`. -/
  size : Nat
  deriving DecidableEq, Repr

/-- Function `os.Stat`.  A name with a NUL byte does not reach the system:
the system call wrappers of Go refuse it with `EINVAL`. -/
def Stat (fs : FS) (name : Bytes) : Except Error FileInfo :=
  if (0 : Byte) ∈ name then .error (.pathError "stat" .EINVAL)
  else
    match fs.root.find (fs.resolve name) with
    | .ok (.file d) => .ok ⟨false, d.length⟩
    | .ok (.dir _) => .ok ⟨true, 0⟩
    | .error e => .error (.pathError "stat" e)

/-- Function `os.IsNotExist`. -/
def IsNotExist (err : Error) : Bool :=
  match err with
  | .pathError _ .ENOENT => true
  | _ => false

/-- The test `_, err := os.Stat(name); os.IsNotExist(err)`. -/
def statNotExist (fs : FS) (name : Bytes) : Bool :=
  match Stat fs name with
  | .ok _ => false
  | .error err => IsNotExist err

/-- Function `os.ReadFile`. -/
def ReadFile (fs : FS) (name : Bytes) : Except Error Bytes :=
  if (0 : Byte) ∈ name then .error (.pathError "open" .EINVAL)
  else
    match fs.root.find (fs.resolve name) with
    | .ok (.file d) => .ok d
    | .ok (.dir _) => .error (.pathError "read" .EISDIR)
    | .error e => .error (.pathError "open" e)

/-- Function `os.WriteFile`: the file is created in an existing directory or
truncated, and the data written. -/
def WriteFile (fs : FS) (name : Bytes) (data : Bytes) : Option Error × FS :=
  let p := fs.resolve name
  if (0 : Byte) ∈ name then (some (.pathError "open" .EINVAL), fs)
  else
    match fs.root.find p with
    | .ok (.dir _) => (some (.pathError "open" .EISDIR), fs)
    | .ok (.file _) => (none, { fs with root := fs.root.put p (.file data) })
    | .error .ENOENT =>
      match fs.root.find p.dropLast with
      | .ok (.dir _) => (none, { fs with root := fs.root.put p (.file data) })
      | .ok (.file _) => (some (.pathError "open" .ENOTDIR), fs)
      | .error e => (some (.pathError "open" e), fs)
    | .error e => (some (.pathError "open" e), fs)

/-- Function `os.MkdirAll`: all missing directories along the path are
created; a regular file on the path is an error.  For a name with a NUL byte
`Stat` fails on the name and on every parent that holds the byte, so the
function goes up to the parent before the first element with a NUL byte,
creates the directories down to it, and fails with `EINVAL` on the `Mkdir`
of that element. -/
def MkdirAll (fs : FS) (name : Bytes) : Option Error × FS :=
  let p := fs.resolve name
  if (0 : Byte) ∈ name then
    if fs.root.blocked (p.takeWhile (fun e => decide ((0 : Byte) ∉ e))) then
      (some (.pathError "mkdir" .ENOTDIR), fs)
    else
      (some (.pathError "mkdir" .EINVAL),
        { fs with root := fs.root.mkdirAll (p.takeWhile (fun e => decide ((0 : Byte) ∉ e))) })
  else if fs.root.blocked p then (some (.pathError "mkdir" .ENOTDIR), fs)
  else (none, { fs with root := fs.root.mkdirAll p })

/-- Function `os.Remove`: removes a regular file or an empty directory. -/
def Remove (fs : FS) (name : Bytes) : Option Error × FS :=
  let p := fs.resolve name
  if (0 : Byte) ∈ name then (some (.pathError "remove" .EINVAL), fs)
  else
    match fs.root.find p with
    | .error e => (some (.pathError "remove" e), fs)
    | .ok (.file _) =>
      if p = [] then (some (.pathError "remove" .EBUSY), fs)
      else (none, { fs with root := fs.root.remove p })
    | .ok (.dir es) =>
      if p = [] then (some (.pathError "remove" .EBUSY), fs)
      else if es.isEmpty then (none, { fs with root := fs.root.remove p })
      else (some (.pathError "remove" .ENOTEMPTY), fs)

end os

/-! ## `time` -/

/-- Go's `time.Time`: the seconds and nanoseconds since January 1 of year 1,
00:00:00 UTC, and the offset of the time zone. -/
structure time.Time where
  /-- The seconds since the zero time. -/
  sec : Int
  /-- The nanoseconds within the second. -/
  nsec : Nat
  /-- The offset of the zone in seconds. -/
  offset : Int
  deriving DecidableEq, Repr

/-- Method `IsZero`. -/
def time.Time.IsZero (t : time.Time) : Bool := t.sec = 0 ∧ t.nsec = 0

/-! ## Package `storage`: the stored record -/

/-- Type `ArticleContent`.  A nil slice or map is `none`. -/
structure storage.ArticleContent where
  /-- Field `id`. -/
  ID : Bytes
  /-- Field `user_id`. -/
  UserID : Bytes
  /-- Field `title`. -/
  Title : Bytes
  /-- Field `url`. -/
  URL : Bytes
  /-- Field `content`. -/
  Content : Bytes
  /-- Field `summary`. -/
  Summary : Bytes
  /-- Field `tags`. -/
  Tags : Option (List Bytes)
  /-- Field `metadata`. -/
  Metadata : Option (List (Bytes × Bytes))
  /-- Field `created_at`. -/
  CreatedAt : time.Time
  /-- Field `updated_at`. -/
  UpdatedAt : time.Time
  /-- Field `is_encrypted`. -/
  IsEncrypted : Bool
  deriving DecidableEq, Repr

/-! ## `encoding/json` on `ArticleContent`

The codec of the library is a parameter.  What is assumed of it is its round
trip: a record that was written is read back field by field, strings coerced
to valid UTF-8 (which leaves ASCII text as it is), and a record that was read
is written and read back unchanged; writing fails only for a time that cannot
be encoded, and a time that was read can be encoded. -/

namespace json

/-- A record as it is read back after writing, for given coercions of
strings, tag lists, metadata maps and times. -/
def normalize (str : Bytes → Bytes) (tags : Option (List Bytes) → Option (List Bytes))
    (metadata : Option (List (Bytes × Bytes)) → Option (List (Bytes × Bytes)))
    (tm : time.Time → time.Time) (r : storage.ArticleContent) : storage.ArticleContent :=
  { ID := str r.ID, UserID := str r.UserID, Title := str r.Title, URL := str r.URL,
    Content := str r.Content, Summary := str r.Summary, Tags := tags r.Tags,
    Metadata := metadata r.Metadata, CreatedAt := tm r.CreatedAt, UpdatedAt := tm r.UpdatedAt,
    IsEncrypted := r.IsEncrypted }

/-- The functions `json.Marshal` and `json.Unmarshal` on `ArticleContent`,
with the coercions of a round trip. -/
structure Codec where
  /-- Function `json.Marshal` on a record. -/
  Marshal : storage.ArticleContent → Except Error Bytes
  /-- Function `json.Unmarshal` into a zero record. -/
  Unmarshal : Bytes → Except Error storage.ArticleContent
  /-- The coercion of a string by a round trip. -/
  str : Bytes → Bytes
  /-- The coercion of a tag list by a round trip. -/
  tags : Option (List Bytes) → Option (List Bytes)
  /-- The coercion of a metadata map by a round trip. -/
  metadata : Option (List (Bytes × Bytes)) → Option (List (Bytes × Bytes))
  /-- The coercion of a time by a round trip. -/
  tm : time.Time → time.Time
  /-- The times that can be encoded. -/
  okTime : time.Time → Bool

/-- A record as it is read back after writing. -/
def Codec.normal (J : Codec) (r : storage.ArticleContent) : storage.ArticleContent :=
  normalize J.str J.tags J.metadata J.tm r

/-- The laws assumed of the codec. -/
structure Codec.Lawful (J : Codec) : Prop where
  /-- What was written is read back field by field. -/
  unmarshal_marshal : ∀ r b, J.Marshal r = .ok b → J.Unmarshal b = .ok (J.normal r)
  /-- What was read is not changed by a round trip. -/
  normal_unmarshal : ∀ b r, J.Unmarshal b = .ok r → J.normal r = r
  /-- ASCII text is not changed by a round trip. -/
  str_ascii : ∀ s : Bytes, (∀ c ∈ s, c.val < 128) → J.str s = s
  /-- Writing succeeds when both times can be encoded. -/
  marshal_ok : ∀ r, J.okTime r.CreatedAt = true → J.okTime r.UpdatedAt = true →
    ∃ b, J.Marshal r = .ok b
  /-- Times that were read can be encoded. -/
  okTime_unmarshal : ∀ b r, J.Unmarshal b = .ok r →
    J.okTime r.CreatedAt = true ∧ J.okTime r.UpdatedAt = true

end json

/-! ## Package `config` -/

/-- Type `Config`, as far as the storage service reads it. -/
structure config.Config where
  /-- Field `LocalStoragePath`. -/
  LocalStoragePath : Bytes

/-! ## Package `storage`

The methods take the codec, the file system and, where they read the clock
or the entropy source, the values read; they return the file system after
the call next to their result.  The log is not modelled. -/

namespace storage

/-- Type `Service`. -/
structure Service where
  /-- Field `config`. -/
  config : config.Config
  /-- Field `encryption`. -/
  encryption : encryption.Service

/-- Function `NewService`: 100000 iterations of PBKDF2. -/
def NewService (cfg : config.Config) : Service := ⟨cfg, encryption.NewService 100000⟩

/-- The directory name `users`. -/
def usersDir : Bytes := [117, 115, 101, 114, 115]

/-- The suffix `.json` of a record file. -/
def jsonExt : Bytes := [46, 106, 115, 111, 110]

/-- Method `getUserStoragePath`. -/
def Service.getUserStoragePath (s : Service) (userID : Bytes) : Bytes :=
  filepath.Join [s.config.LocalStoragePath, usersDir, userID]

/-- The name of the record file, as `SaveContent`, `GetContent` and
`DeleteContent` compute it. -/
def Service.filePath (s : Service) (userID articleID : Bytes) : Bytes :=
  filepath.Join [s.getUserStoragePath userID, articleID ++ jsonExt]

/-- Method `SaveContent`.  `now1` and `now2` are the two readings of
`time.Now()`. -/
def Service.SaveContent (J : json.Codec) (s : Service) (fs : os.FS) (now1 now2 : time.Time)
    (userID articleID content : Bytes) : Result Bytes × os.FS :=
  match J.Unmarshal content with
  | .error err => (([], some (.wrap "failed to parse article content" err)), fs)
  | .ok articleContent =>
    let userDir := s.getUserStoragePath userID
    match os.MkdirAll fs userDir with
    | (some err, fs1) => (([], some (.wrap "failed to create user directory" err)), fs1)
    | (none, fs1) =>
      let articleContent :=
        { articleContent with UserID := userID, ID := articleID, UpdatedAt := now1 }
      let articleContent :=
        if articleContent.CreatedAt.IsZero then { articleContent with CreatedAt := now2 }
        else articleContent
      match J.Marshal articleContent with
      | .error err => (([], some (.wrap "failed to serialize content" err)), fs1)
      | .ok contentBytes =>
        let filePath := filepath.Join [userDir, articleID ++ jsonExt]
        match os.WriteFile fs1 filePath contentBytes with
        | (some err, fs2) => (([], some (.wrap "failed to write file" err)), fs2)
        | (none, fs2) => ((filePath, none), fs2)

/-- Method `SaveEncryptedContent`.  `salt1`, `nonce1` are the draws of the
encryption of the content and `salt2`, `nonce2` those of the encryption of
the summary. -/
def Service.SaveEncryptedContent (J : json.Codec) (s : Service) (fs : os.FS)
    (salt1 nonce1 salt2 nonce2 : Option Bytes) (now1 now2 : time.Time)
    (userID articleID content userKey : Bytes) : Result Bytes × os.FS :=
  match J.Unmarshal content with
  | .error err => (([], some (.wrap "failed to parse article content" err)), fs)
  | .ok articleContent =>
    match s.encryption.Encrypt salt1 nonce1 articleContent.Content userKey with
    | (_, some err) => (([], some (.wrap "failed to encrypt content" err)), fs)
    | (encryptedContent, none) =>
      let summary : Result Bytes :=
        if articleContent.Summary ≠ [] then
          match s.encryption.Encrypt salt2 nonce2 articleContent.Summary userKey with
          | (_, some err) => ([], some (.wrap "failed to encrypt summary" err))
          | (encryptedSummary, none) => (encryptedSummary, none)
        else (articleContent.Summary, none)
      match summary with
      | (_, some err) => (([], some err), fs)
      | (newSummary, none) =>
        let articleContent :=
          { articleContent with
            Summary := newSummary, Content := encryptedContent, IsEncrypted := true }
        match J.Marshal articleContent with
        | .error err => (([], some (.wrap "failed to serialize encrypted content" err)), fs)
        | .ok contentBytes => s.SaveContent J fs now1 now2 userID articleID contentBytes

/-- Method `GetContent`. -/
def Service.GetContent (s : Service) (fs : os.FS) (userID articleID : Bytes) :
    Result Bytes × os.FS :=
  let filePath := filepath.Join [s.getUserStoragePath userID, articleID ++ jsonExt]
  if os.statNotExist fs filePath then
    (([], some (.errorfArg "article not found" articleID)), fs)
  else
    match os.ReadFile fs filePath with
    | .error err => (([], some (.wrap "failed to read file" err)), fs)
    | .ok contentBytes => ((contentBytes, none), fs)

/-- Method `GetDecryptedContent`. -/
def Service.GetDecryptedContent (J : json.Codec) (s : Service) (fs : os.FS)
    (userID articleID userKey : Bytes) : Result Bytes × os.FS :=
  match s.GetContent fs userID articleID with
  | ((_, some err), fs1) => (([], some err), fs1)
  | ((content, none), fs1) =>
    match J.Unmarshal content with
    | .error err => (([], some (.wrap "failed to parse article content" err)), fs1)
    | .ok articleContent =>
      if !articleContent.IsEncrypted then ((content, none), fs1)
      else
        match s.encryption.Decrypt articleContent.Content userKey with
        | (_, some err) => (([], some (.wrap "failed to decrypt content" err)), fs1)
        | (decryptedContent, none) =>
          let articleContent := { articleContent with Content := decryptedContent }
          let summary : Result Bytes :=
            if articleContent.Summary ≠ [] then
              match s.encryption.Decrypt articleContent.Summary userKey with
              | (_, some err) => ([], some (.wrap "failed to decrypt summary" err))
              | (decryptedSummary, none) => (decryptedSummary, none)
            else (articleContent.Summary, none)
          match summary with
          | (_, some err) => (([], some err), fs1)
          | (newSummary, none) =>
            let articleContent :=
              { articleContent with Summary := newSummary, IsEncrypted := false }
            match J.Marshal articleContent with
            | .error err =>
              (([], some (.wrap "failed to serialize decrypted content" err)), fs1)
            | .ok decryptedBytes => ((decryptedBytes, none), fs1)

/-- Method `DeleteContent`. -/
def Service.DeleteContent (s : Service) (fs : os.FS) (userID articleID : Bytes) :
    Option Error × os.FS :=
  let filePath := filepath.Join [s.getUserStoragePath userID, articleID ++ jsonExt]
  if os.statNotExist fs filePath then (some (.errorfArg "article not found" articleID), fs)
  else
    match os.Remove fs filePath with
    | (some err, fs1) => (some (.wrap "failed to delete file" err), fs1)
    | (none, fs1) => (none, fs1)

end storage

/-! ## A codec that meets the laws

A stand-in for `encoding/json` where a concrete codec is needed: a record is
written as the list of its eleven fields, every field as a string whose bytes
are each preceded by the byte `1` and which ends with the byte `2`, the list
ending with the byte `0`.  A list of tags, a metadata map and a time are
written in the same way inside their field. -/

namespace json.plain

/-- A list of strings as bytes. -/
def encList (l : List Bytes) : Bytes :=
  l.flatMap (fun s => s.flatMap (fun b => [1, b]) ++ [2]) ++ [0]

/-- The list of strings at the start of the bytes, and the bytes after it;
`data` tells that the next byte is a byte of a string. -/
def decFrom : Bool → Bytes → Option (List Bytes × Bytes)
  | _, [] => none
  | true, b :: rest =>
    match decFrom false rest with
    | some (s :: l, r) => some ((b :: s) :: l, r)
    | _ => none
  | false, c :: rest =>
    if c = 0 then some ([], rest)
    else if c = 2 then
      match decFrom false rest with
      | some (l, r) => some ([] :: l, r)
      | none => none
    else decFrom true rest

/-- The list of strings at the start of the bytes, and the bytes after it. -/
def decList (b : Bytes) : Option (List Bytes × Bytes) := decFrom false b

/-- The strings of a whole input. -/
def decAll (b : Bytes) : Option (List Bytes) :=
  match decList b with
  | some (l, []) => some l
  | _ => none

/-- The digits of a number to the base 256, the lowest first; `fuel` bounds
their number. -/
def encNatAux : Nat → Nat → Bytes
  | 0, _ => []
  | fuel + 1, n => if n = 0 then [] else Fin.ofNat (n % 256) :: encNatAux fuel (n / 256)

/-- A natural number as its digits to the base 256. -/
def encNat (n : Nat) : Bytes := encNatAux n n

/-- The number with given digits. -/
def decNat : Bytes → Nat
  | [] => 0
  | b :: rest => b.val + 256 * decNat rest

/-- An integer: its sign and its absolute value. -/
def encInt (i : Int) : Bytes := (if i < 0 then 1 else 0) :: encNat i.natAbs

/-- The integer with a given sign and absolute value. -/
def decInt : Bytes → Option Int
  | [] => none
  | c :: rest => some (if c = 1 then - (decNat rest : Int) else (decNat rest : Int))

/-- A time as the list of its three numbers. -/
def encTime (t : time.Time) : Bytes := encList [encInt t.sec, encNat t.nsec, encInt t.offset]

/-- The time written by `encTime`. -/
def decTime (b : Bytes) : Option time.Time :=
  match decAll b with
  | some [s, n, o] =>
    match decInt s, decInt o with
    | some sec, some offset => some ⟨sec, decNat n, offset⟩
    | _, _ => none
  | _ => none

/-- A nil or non-nil list of strings. -/
def encTags (t : Option (List Bytes)) : Bytes :=
  match t with
  | none => []
  | some l => 1 :: encList l

/-- The list written by `encTags`. -/
def decTags : Bytes → Option (Option (List Bytes))
  | [] => some none
  | _ :: rest => (decAll rest).map some

/-- The keys and values of a map, one after the other. -/
def flatten : List (Bytes × Bytes) → List Bytes
  | [] => []
  | (k, v) :: rest => k :: v :: flatten rest

/-- The pairs of a list of keys and values. -/
def pairs : List Bytes → Option (List (Bytes × Bytes))
  | [] => some []
  | [_] => none
  | k :: v :: rest => (pairs rest).map (fun l => (k, v) :: l)

/-- A nil or non-nil map. -/
def encMetadata (m : Option (List (Bytes × Bytes))) : Bytes :=
  match m with
  | none => []
  | some l => 1 :: encList (flatten l)

/-- The map written by `encMetadata`. -/
def decMetadata : Bytes → Option (Option (List (Bytes × Bytes)))
  | [] => some none
  | _ :: rest =>
    match decAll rest with
    | some l => (pairs l).map some
    | none => none

/-- The record as bytes. -/
def encode (r : storage.ArticleContent) : Bytes :=
  encList [r.ID, r.UserID, r.Title, r.URL, r.Content, r.Summary, encTags r.Tags,
    encMetadata r.Metadata, encTime r.CreatedAt, encTime r.UpdatedAt,
    [if r.IsEncrypted then 1 else 0]]

/-- Writing a record never fails. -/
def Marshal (r : storage.ArticleContent) : Except Error Bytes := .ok (encode r)

/-- The record written by `Marshal`; any other input is a syntax error. -/
def Unmarshal (b : Bytes) : Except Error storage.ArticleContent :=
  match decAll b with
  | some [id, userID, title, url, content, summary, tags, metadata, created, updated, [e]] =>
    match decTags tags, decMetadata metadata, decTime created, decTime updated with
    | some t, some m, some c, some u =>
      .ok ⟨id, userID, title, url, content, summary, t, m, c, u, e = 1⟩
    | _, _, _, _ => .error (.errorf "invalid character")
  | _ => .error (.errorf "invalid character")

end json.plain

/-- The stand-in codec: nothing is coerced and every time can be encoded. -/
def json.plainCodec : json.Codec :=
  ⟨json.plain.Marshal, json.plain.Unmarshal, id, id, id, id, fun _ => true⟩

/-! ## Notions of the specification: names and paths -/

namespace filepath

/-- An element that `Clean` keeps: not empty, not `.` and not `..`, and
without a separator. -/
def Proper (e : Bytes) : Prop := e ≠ [] ∧ e ≠ dot ∧ e ≠ dotdot ∧ Separator ∉ e

instance (e : Bytes) : Decidable (Proper e) := by
  unfold Proper
  infer_instance

/-- The lexical forms that `Clean` produces. -/
def Lexical.Normal (l : Lexical) : Prop :=
  (∀ e ∈ l.stack, Proper e) ∧ (l.rooted = true → l.up = 0)

end filepath

namespace os

/-- Two paths that part ways: after a common beginning the next elements
differ. -/
def Diverge (p q : List Bytes) : Prop :=
  ∃ (d : List Bytes) (x : Bytes) (xs : List Bytes) (y : Bytes) (ys : List Bytes),
    p = d ++ x :: xs ∧ q = d ++ y :: ys ∧ x ≠ y

/-- Whether `WriteFile` can write to a name: the name has no NUL byte, and
it is a regular file or it is missing in an existing directory. -/
def writable (fs : FS) (name : Bytes) : Bool :=
  if (0 : Byte) ∈ name then false
  else
    match fs.root.find (fs.resolve name) with
    | .ok (.dir _) => false
    | .ok (.file _) => true
    | .error .ENOENT =>
      match fs.root.find (fs.resolve name).dropLast with
      | .ok (.dir _) => true
      | _ => false
    | .error _ => false

/-- The limit `NAME_MAX` of Linux on the bytes of an element of a path. -/
def NameMax : Nat := 255

/-- The limit `PATH_MAX` of Linux on the bytes of a path, its final NUL byte
counted. -/
def PathMax : Nat := 4096

/-- A name that the system accepts: it has no NUL byte, which the functions
of `os` refuse with `EINVAL`, and it is within the limits of Linux on the
length of a path and of its elements, beyond which the system answers
`ENAMETOOLONG` and which the operations of the model do not carry. -/
def accepted (name : Bytes) : Prop :=
  (0 : Byte) ∉ name ∧ name.length < PathMax ∧
    ∀ e ∈ filepath.splitList name, e.length ≤ NameMax

instance (name : Bytes) : Decidable (accepted name) := by
  unfold accepted
  infer_instance

end os

namespace os

/-- The elements, from the root, of the place that a lexical form stands for. -/
def FS.locate (fs : FS) (l : filepath.Lexical) : List Bytes :=
  if l.rooted then l.stack.reverse
  else fs.cwd.take (fs.cwd.length - l.up) ++ l.stack.reverse

end os

namespace storage

/-- The record that `SaveContent` writes for a parsed record: the ids and the
update time set, the creation time set when it was zero. -/
def stamp (r : ArticleContent) (now1 now2 : time.Time) (userID articleID : Bytes) :
    ArticleContent :=
  if r.CreatedAt.IsZero then
    { r with UserID := userID, ID := articleID, UpdatedAt := now1, CreatedAt := now2 }
  else { r with UserID := userID, ID := articleID, UpdatedAt := now1 }

/-- The record that `SaveEncryptedContent` serializes: the content and the
summary replaced, the flag set. -/
def sealed (r : ArticleContent) (content summary : Bytes) : ArticleContent :=
  { r with Summary := summary, Content := content, IsEncrypted := true }

/-- The record that `GetDecryptedContent` serializes: the content and the
summary replaced, the flag cleared. -/
def opened (r : ArticleContent) (content summary : Bytes) : ArticleContent :=
  { r with Content := content, Summary := summary, IsEncrypted := false }

/-- The record that `SaveEncryptedContent` serializes for a parsed record, a
user key and successful draws: the content encrypted, and the summary when it
is not empty. -/
def Service.sealedRecord (s : Service) (salt1 nonce1 salt2 nonce2 : Bytes)
    (r : ArticleContent) (userKey : Bytes) : ArticleContent :=
  sealed r (s.encryption.Encrypt (some salt1) (some nonce1) r.Content userKey).1
    (if r.Summary ≠ [] then
      (s.encryption.Encrypt (some salt2) (some nonce2) r.Summary userKey).1
    else r.Summary)

/-- The place of the directory `users` of the service. -/
def Service.usersPlace (s : Service) (fs : os.FS) : List Bytes :=
  fs.locate ((filepath.lexical s.config.LocalStoragePath).push usersDir)

end storage

/-! ## `unicode/utf8` and the `range` clause over a string

A `range` over a string yields the code points that `utf8.DecodeRuneInString`
reads, one after the other; an invalid byte yields `RuneError` and a step of
one byte. -/

namespace utf8

/-- The code point `RuneError`, U+FFFD. -/
def RuneError : Nat := 65533

/-- The table `first` with `acceptRanges`, for a first byte from `0x80` on:
the length of the sequence and the bounds of its second byte; `none` for a
byte that starts no sequence. -/
def first (s0 : Nat) : Option (Nat × Nat × Nat) :=
  if 194 ≤ s0 ∧ s0 ≤ 223 then some (2, 128, 191)
  else if s0 = 224 then some (3, 160, 191)
  else if 225 ≤ s0 ∧ s0 ≤ 236 then some (3, 128, 191)
  else if s0 = 237 then some (3, 128, 159)
  else if 238 ≤ s0 ∧ s0 ≤ 239 then some (3, 128, 191)
  else if s0 = 240 then some (4, 144, 191)
  else if 241 ≤ s0 ∧ s0 ≤ 243 then some (4, 128, 191)
  else if s0 = 244 then some (4, 128, 143)
  else none

/-- Function `DecodeRuneInString`: the first code point of a string and its
width in bytes.  The masks and shifts of the source are written as remainders
and products: `s0&mask2<<6 | s1&maskx` is `s0 % 32 * 64 + s1 % 64`. -/
def DecodeRuneInString (s : Bytes) : Nat × Nat :=
  match s with
  | [] => (RuneError, 0)
  | s0 :: rest =>
    if s0.val < 128 then (s0.val, 1)
    else
      match first s0.val with
      | none => (RuneError, 1)
      | some (sz, lo, hi) =>
        if s.length < sz then (RuneError, 1)
        else
          match rest with
          | [] => (RuneError, 1)
          | s1 :: rest1 =>
            if s1.val < lo ∨ hi < s1.val then (RuneError, 1)
            else if sz ≤ 2 then (s0.val % 32 * 64 + s1.val % 64, 2)
            else
              match rest1 with
              | [] => (RuneError, 1)
              | s2 :: rest2 =>
                if s2.val < 128 ∨ 191 < s2.val then (RuneError, 1)
                else if sz ≤ 3 then
                  (s0.val % 16 * 4096 + s1.val % 64 * 64 + s2.val % 64, 3)
                else
                  match rest2 with
                  | [] => (RuneError, 1)
                  | s3 :: _ =>
                    if s3.val < 128 ∨ 191 < s3.val then (RuneError, 1)
                    else
                      (s0.val % 8 * 262144 + s1.val % 64 * 4096 + s2.val % 64 * 64 +
                        s3.val % 64, 4)

/-- The code points of at most `fuel` steps of a `range` over a string. -/
def runesAux : Nat → Bytes → List Nat
  | 0, _ => []
  | _ + 1, [] => []
  | fuel + 1, s0 :: rest =>
    (DecodeRuneInString (s0 :: rest)).1 ::
      runesAux fuel ((s0 :: rest).drop (DecodeRuneInString (s0 :: rest)).2)

/-- The code points that `for _, char := range s` yields: every step takes at
least one byte, so `len(s)` steps reach the end. -/
def runes (s : Bytes) : List Nat := runesAux s.length s

end utf8

/-! ## `encoding/hex` -/

namespace hex

/-- The table `hextable`: `0123456789abcdef`. -/
def hextable : Bytes := [48, 49, 50, 51, 52, 53, 54, 55, 56, 57, 97, 98, 99, 100, 101, 102]

/-- Function `hex.EncodeToString`: two characters for every byte,
`hextable[v>>4]` and `hextable[v&0x0f]`. -/
def EncodeToString (src : Bytes) : Bytes :=
  src.flatMap (fun v => [hextable.getD (v.val / 16) 0, hextable.getD (v.val % 16) 0])

end hex

/-! ## Package `auth` -/

namespace auth

/-- Type `Service`. -/
structure Service where
  /-- Field `config`. -/
  config : config.Config

/-- The characters of `isSpecialChar`: `!@#$%^&*()_+-=[]{}|;:,.<>?`. -/
def specialChars : Bytes :=
  [33, 64, 35, 36, 37, 94, 38, 42, 40, 41, 95, 43, 45, 61, 91, 93, 123, 125, 124, 59, 58, 44,
    46, 60, 62, 63]

/-- The loop of `isSpecialChar` over the code points of `specialChars`. -/
def isSpecialChar.loop (char : Nat) : List Nat → Bool
  | [] => false
  | special :: rest => if char = special then true else isSpecialChar.loop char rest

/-- Function `isSpecialChar`. -/
def isSpecialChar (char : Nat) : Bool := isSpecialChar.loop char (utf8.runes specialChars)

/-- Function `isAlphanumeric`. -/
def isAlphanumeric (char : Nat) : Bool :=
  (97 ≤ char && char ≤ 122) || (65 ≤ char && char ≤ 90) || (48 ≤ char && char ≤ 57)

/-- The four flags of `ValidatePassword`. -/
structure PasswordFlags where
  /-- Variable `hasUpper`. -/
  hasUpper : Bool
  /-- Variable `hasLower`. -/
  hasLower : Bool
  /-- Variable `hasDigit`. -/
  hasDigit : Bool
  /-- Variable `hasSpecial`. -/
  hasSpecial : Bool
  deriving DecidableEq, Repr

/-- The `switch` in the loop of `ValidatePassword`: the first case that
matches sets its flag. -/
def passwordStep (f : PasswordFlags) (char : Nat) : PasswordFlags :=
  if 65 ≤ char ∧ char ≤ 90 then { f with hasUpper := true }
  else if 97 ≤ char ∧ char ≤ 122 then { f with hasLower := true }
  else if 48 ≤ char ∧ char ≤ 57 then { f with hasDigit := true }
  else if isSpecialChar char then { f with hasSpecial := true }
  else f

/-- Method `ValidatePassword`; `none` is the nil error. -/
def Service.ValidatePassword (_ : Service) (password : Bytes) : Option Error :=
  if password.length < 8 then
    some (.errorf "password must be at least 8 characters long")
  else
    let f := (utf8.runes password).foldl passwordStep ⟨false, false, false, false⟩
    if !f.hasUpper then
      some (.errorf "password must contain at least one uppercase letter")
    else if !f.hasLower then
      some (.errorf "password must contain at least one lowercase letter")
    else if !f.hasDigit then some (.errorf "password must contain at least one digit")
    else if !f.hasSpecial then
      some (.errorf "password must contain at least one special character")
    else none

/-- The loop of `ValidateUsername` over the code points of the name. -/
def ValidateUsername.loop : List Nat → Option Error
  | [] => none
  | char :: rest =>
    if !isAlphanumeric char && char ≠ 95 && char ≠ 45 then
      some (.errorf "username can only contain letters, numbers, underscores, and hyphens")
    else ValidateUsername.loop rest

/-- An index expression `s[i]` on a string: `none` is the run-time panic for
an index out of range. -/
def index (s : Bytes) (i : Int) : Option Byte :=
  if i < 0 then none else s.get? i.toNat

/-- Method `ValidateUsername`.  The outer `none` is a run-time panic, the
inner `none` the nil error. -/
def Service.ValidateUsername (_ : Service) (username : Bytes) : Option (Option Error) :=
  if username.length < 3 then
    some (some (.errorf "username must be at least 3 characters long"))
  else if username.length > 50 then
    some (some (.errorf "username must be at most 50 characters long"))
  else
    match ValidateUsername.loop (utf8.runes username) with
    | some err => some (some err)
    | none =>
      match index username 0, index username 0 with
      | some c0, some c1 =>
        if c0.val = 95 ∨ c1.val = 45 then
          some (some (.errorf "username cannot start with underscore or hyphen"))
        else
          match index username ((username.length : Int) - 1),
            index username ((username.length : Int) - 1) with
          | some c2, some c3 =>
            if c2.val = 95 ∨ c3.val = 45 then
              some (some (.errorf "username cannot end with underscore or hyphen"))
            else some none
          | _, _ => none
      | _, _ => none

/-- Method `GenerateUserEncryptionKey`.  `bytes` is the outcome of `rand.Read`
on the 32-byte buffer: the bytes read, or `none` when the source fails. -/
def Service.GenerateUserEncryptionKey (_ : Service) (bytes : Option Bytes) : Result Bytes :=
  match bytes with
  | none => ([], some (.wrap "failed to generate encryption key" .entropy))
  | some bytes => (hex.EncodeToString bytes, none)

end auth

/-! ## `strings` -/

namespace strings

/-- Function `HasPrefix`. -/
def HasPrefix (s pre : Bytes) : Bool := pre.isPrefixOf s

/-- Function `TrimPrefix`. -/
def TrimPrefix (s pre : Bytes) : Bytes := if HasPrefix s pre then s.drop pre.length else s

/-- Function `Index`: the index of the first instance of `substr` in `s`;
`none` is the result `-1`. -/
def Index : Bytes → Bytes → Option Nat
  | [], substr => if substr = [] then some 0 else none
  | c :: rest, substr =>
    if HasPrefix (c :: rest) substr then some 0 else (Index rest substr).map (· + 1)

/-- Function `Contains`. -/
def Contains (s substr : Bytes) : Bool := (Index s substr).isSome

/-- The loop of `Count` for a non-empty `substr`, at most `fuel` times. -/
def countAux (substr : Bytes) : Nat → Bytes → Nat
  | 0, _ => 0
  | fuel + 1, s =>
    match Index s substr with
    | none => 0
    | some i => 1 + countAux substr fuel (s.drop (i + substr.length))

/-- Function `Count`: the number of non-overlapping instances of `substr`;
for an empty `substr`, one more than the number of code points.  Every
instance of a non-empty `substr` takes a byte, so `len(s)` steps of the loop
reach the end. -/
def Count (s substr : Bytes) : Nat :=
  if substr = [] then (utf8.runes s).length + 1 else countAux substr s.length s

/-- The loop of `genSplit` with `sepSave = 0`: at most `n` pieces are cut
off, the rest of the string is the last piece. -/
def genSplit.loop (sep : Bytes) : Nat → Bytes → List Bytes
  | 0, s => [s]
  | n + 1, s =>
    match Index s sep with
    | none => [s]
    | some m => s.take m :: genSplit.loop sep n (s.drop (m + sep.length))

/-- Function `explode` without a limit: the UTF-8 sequences of a string, an
invalid byte before the last piece written as U+FFFD. -/
def explode : Nat → Bytes → List Bytes
  | 0, _ => []
  | _ + 1, [] => []
  | fuel + 1, s0 :: rest =>
    if (s0 :: rest).length ≤ (utf8.DecodeRuneInString (s0 :: rest)).2 then [s0 :: rest]
    else
      (if (utf8.DecodeRuneInString (s0 :: rest)).1 = utf8.RuneError then [239, 191, 189]
        else (s0 :: rest).take (utf8.DecodeRuneInString (s0 :: rest)).2) ::
        explode fuel ((s0 :: rest).drop (utf8.DecodeRuneInString (s0 :: rest)).2)

/-- Function `Split`, which is `genSplit(s, sep, 0, -1)`: the loop runs
`Count(s, sep)` times. -/
def Split (s sep : Bytes) : List Bytes :=
  if sep = [] then explode s.length s else genSplit.loop sep (Count s sep) s

/-- Function `Join`. -/
def Join : List Bytes → Bytes → Bytes
  | [], _ => []
  | [x], _ => x
  | x :: y :: rest, sep => x ++ sep ++ Join (y :: rest) sep

end strings

/-! ## Package `config`: `splitString` -/

namespace config

/-- A slice expression `s[lo:hi]` on a string; `none` is the run-time panic
for bounds out of range. -/
def slice (s : Bytes) (lo hi : Int) : Option Bytes :=
  if 0 ≤ lo ∧ lo ≤ hi ∧ hi ≤ (s.length : Int) then some ((s.take hi.toNat).drop lo.toNat)
  else none

/-- The run-time panic of a slice expression. -/
def sliceBounds : Error := .errorf "runtime error: slice bounds out of range"

/-- The loop of `splitString` and the statements after it, from the test of
the loop condition with the variables `i`, `start` and `parts`.  Go's `int`
is an integer here: a string is far shorter than `2^63`.  `none` is a loop
that has not ended after `fuel` tests of its condition, an error a run-time
panic. -/
def splitString.loop (s sep : Bytes) :
    Nat → Int → Int → List Bytes → Option (Except Error (List Bytes))
  | 0, _, _, _ => none
  | fuel + 1, i, start, parts =>
    if i ≤ (s.length : Int) - (sep.length : Int) then
      match slice s i (i + (sep.length : Int)) with
      | none => some (.error sliceBounds)
      | some x =>
        if x = sep then
          match slice s start i with
          | none => some (.error sliceBounds)
          | some part =>
            splitString.loop s sep fuel (i + ((sep.length : Int) - 1) + 1)
              (i + (sep.length : Int)) (parts ++ [part])
        else splitString.loop s sep fuel (i + 1) start parts
    else
      match slice s start (s.length : Int) with
      | none => some (.error sliceBounds)
      | some last => some (.ok (parts ++ [last]))

/-- Function `splitString`, with at most `fuel` tests of the loop condition. -/
def splitString (fuel : Nat) (s sep : Bytes) : Option (Except Error (List Bytes)) :=
  if s = [] then some (.ok []) else splitString.loop s sep fuel 0 0 []

end config

/-! ## `time`: the order of instants -/

/-- Method `Before`: the instant `t` is before the instant `u`. -/
def time.Time.Before (t u : time.Time) : Bool :=
  t.sec < u.sec ∨ (t.sec = u.sec ∧ t.nsec < u.nsec)

/-! ## `github.com/golang-jwt/jwt/v5`

The parser of the library cuts the token at the dots and refuses a token that
has not three segments.  What it does with three segments is a parameter:
the decoding of the segments, the key function of the caller, the check of
the signature and the validation of the registered claims. -/

namespace jwt

/-- Type `Token`, as far as the callers read it. -/
structure Token (C : Type) where
  /-- Field `Claims`. -/
  Claims : C
  /-- Field `Valid`. -/
  Valid : Bool

/-- What the parser does with the three segments of a token. -/
abbrev Verifier (C : Type) := Bytes → Bytes → Bytes → Except Error (Token C)

/-- Function `ParseWithClaims`. -/
def ParseWithClaims {C : Type} (verify : Verifier C) (tokenString : Bytes) :
    Except Error (Token C) :=
  match strings.Split tokenString [46] with
  | [header, claims, signature] => verify header claims signature
  | _ => .error (.errorf "token is malformed: token contains an invalid number of segments")

end jwt

/-! ## Package `auth`: the tokens -/

namespace auth

/-- Type `Claims`; of the registered claims the source reads `ExpiresAt`,
which is `none` for a nil pointer. -/
structure Claims where
  /-- Field `UserID`, the 16 bytes of a `uuid.UUID`. -/
  UserID : Bytes
  /-- Field `Email`. -/
  Email : Bytes
  /-- Field `Username`. -/
  Username : Bytes
  /-- Field `ExpiresAt` of the registered claims. -/
  ExpiresAt : Option time.Time
  deriving DecidableEq, Repr

/-- Method `ValidateJWT`.  Every return of the source gives either the claims
or an error; `now` is the clock reading of `time.Now()`.  The key function
that the source hands to the parser is part of `verify`. -/
def Service.ValidateJWT (_ : Service) (verify : jwt.Verifier Claims) (now : time.Time)
    (tokenString : Bytes) : Except Error Claims :=
  match jwt.ParseWithClaims verify tokenString with
  | .error err => .error (.wrap "failed to parse token" err)
  | .ok token =>
    if !token.Valid then .error (.errorf "invalid token")
    else
      match token.Claims.ExpiresAt with
      | none => .ok token.Claims
      | some t => if t.Before now then .error (.errorf "token is expired") else .ok token.Claims

end auth

/-! ## `github.com/gin-gonic/gin`: the context of a request -/

namespace gin

/-- A value stored in the context by the middleware. -/
inductive Value where
  /-- A string. -/
  | str (s : Bytes) : Value
  /-- A `uuid.UUID`. -/
  | uuid (u : Bytes) : Value
  deriving DecidableEq, Repr

/-- Type `Context`, as far as the middleware reads and writes it. -/
structure Context where
  /-- The `Authorization` header of the request, empty when absent. -/
  authorization : Bytes
  /-- The status of the response, once one is written. -/
  status : Option Nat
  /-- The `error` field of the JSON body of the response. -/
  body : Option String
  /-- Whether the chain of handlers is aborted. -/
  aborted : Bool
  /-- Field `Keys`. -/
  Keys : List (String × Value)
  /-- Whether the request was passed on to the next handler. -/
  passed : Bool
  deriving DecidableEq, Repr

/-- Method `GetHeader` for the key `Authorization`. -/
def Context.GetHeader (c : Context) : Bytes := c.authorization

/-- Method `JSON` with a body `gin.H{"error": msg}`. -/
def Context.JSON (c : Context) (code : Nat) (msg : String) : Context :=
  { c with status := some code, body := some msg }

/-- Method `Abort`. -/
def Context.Abort (c : Context) : Context := { c with aborted := true }

/-- Method `Set`. -/
def Context.Set (c : Context) (key : String) (value : Value) : Context :=
  { c with Keys := (key, value) :: c.Keys.filter (fun p => p.1 ≠ key) }

/-- Method `Next`: the remaining handlers of the chain run. -/
def Context.Next (c : Context) : Context := { c with passed := true }

end gin

/-! ## Package `middleware` -/

namespace middleware

/-- The constant `http.StatusUnauthorized`. -/
def StatusUnauthorized : Nat := 401

/-- The text `Bearer ` with its blank. -/
def bearer : Bytes := [66, 101, 97, 114, 101, 114, 32]

/-- The text `placeholder-jwt-token`. -/
def placeholderToken : Bytes :=
  [112, 108, 97, 99, 101, 104, 111, 108, 100, 101, 114, 45, 106, 119, 116, 45, 116, 111, 107,
    101, 110]

/-- The text `new-placeholder-jwt-token`. -/
def newPlaceholderToken : Bytes :=
  [110, 101, 119, 45, 112, 108, 97, 99, 101, 104, 111, 108, 100, 101, 114, 45, 106, 119, 116,
    45, 116, 111, 107, 101, 110]

/-- The text `placeholder-user-id`. -/
def placeholderUserID : Bytes :=
  [112, 108, 97, 99, 101, 104, 111, 108, 100, 101, 114, 45, 117, 115, 101, 114, 45, 105, 100]

/-- The text `user@example.com`. -/
def placeholderEmail : Bytes :=
  [117, 115, 101, 114, 64, 101, 120, 97, 109, 112, 108, 101, 46, 99, 111, 109]

/-- The text `placeholder-user`. -/
def placeholderUsername : Bytes :=
  [112, 108, 97, 99, 101, 104, 111, 108, 100, 101, 114, 45, 117, 115, 101, 114]

/-- The handler that `Auth` returns, on the context of a request.  The user
service, which the handler does not use, is left out. -/
def Auth (authService : auth.Service) (verify : jwt.Verifier auth.Claims) (now : time.Time)
    (c : gin.Context) : gin.Context :=
  if c.GetHeader = [] then
    (c.JSON StatusUnauthorized "Authorization header required").Abort
  else if strings.TrimPrefix c.GetHeader bearer = c.GetHeader then
    (c.JSON StatusUnauthorized "Bearer token required").Abort
  else if strings.TrimPrefix c.GetHeader bearer = placeholderToken ∨
      strings.TrimPrefix c.GetHeader bearer = newPlaceholderToken then
    (((c.Set "user_id" (.str placeholderUserID)).Set "user_email"
      (.str placeholderEmail)).Set "user_username" (.str placeholderUsername)).Next
  else
    match authService.ValidateJWT verify now (strings.TrimPrefix c.GetHeader bearer) with
    | .error _ => (c.JSON StatusUnauthorized "Invalid token").Abort
    | .ok claims =>
      (((c.Set "user_id" (.uuid claims.UserID)).Set "user_email"
        (.str claims.Email)).Set "user_username" (.str claims.Username)).Next

/-- The request `c` is refused with the outcome `d`: the answer is 401, the
chain is aborted, and the request is not passed on by this handler. -/
def Refused (c d : gin.Context) : Prop :=
  d.status = some StatusUnauthorized ∧ d.aborted = true ∧ d.passed = c.passed ∧ d.Keys = c.Keys

end middleware

/-! ## `path/filepath`: `Ext` and `WalkDir`

`WalkDir` calls the walk function for the root and for every file and
directory below it, in lexical order: a directory before its entries, and
the entries of a directory in the order of their names.  The first error
that the walk function returns ends the walk and is returned.  The file
system does not change during the walk, so reading a directory that the walk
has reached does not fail.  The walk functions of the source return only nil
or the error they were given, never `SkipDir` or `SkipAll`. -/

namespace filepath

/-- The loop of `Ext` from the end of the path: the bytes still to scan, the
last one first, and the bytes scanned. -/
def Ext.loop : Bytes → Bytes → Bytes
  | [], _ => []
  | c :: rest, scanned =>
    if c = Separator then []
    else if c = 46 then c :: scanned
    else Ext.loop rest (c :: scanned)

/-- Function `Ext`: the suffix from the last dot in the last element of the
path, empty without such a dot. -/
def Ext (path : Bytes) : Bytes := Ext.loop path.reverse []

end filepath

namespace fs

/-- Type `fs.DirEntry`, as far as the walk functions read it.  The file that
the entry describes exists throughout the walk, so `Info` does not fail. -/
structure DirEntry where
  /-- Whether the entry describes a directory. -/
  isDir : Bool
  /-- The size of a regular file. -/
  size : Nat
  deriving DecidableEq, Repr

/-- Method `IsDir`. -/
def DirEntry.IsDir (d : DirEntry) : Bool := d.isDir

/-- Method `Info`. -/
def DirEntry.Info (d : DirEntry) : Except Error os.FileInfo := .ok ⟨d.isDir, d.size⟩

end fs

namespace os

/-- The order `a <= b` of two names, byte by byte. -/
def nameLE : Bytes → Bytes → Bool
  | [], _ => true
  | _ :: _, [] => false
  | a :: as, b :: bs => if a < b then true else if b < a then false else nameLE as bs

/-- The lexical order of two places below the root of a walk: element by
element, a directory before what is below it. -/
def walkLE : List Bytes → List Bytes → Bool
  | [], _ => true
  | _ :: _, [] => false
  | a :: as, b :: bs => if a = b then walkLE as bs else nameLE a b

mutual

/-- A node and all nodes below it, each with its names from the node. -/
def Node.entries : Node → List (List Bytes × Node)
  | .file d => [([], .file d)]
  | .dir es => ([], .dir es) :: Node.entriesList es

/-- The nodes in and below the entries of a directory. -/
def Node.entriesList : List (Bytes × Node) → List (List Bytes × Node)
  | [] => []
  | (name, n) :: rest =>
    n.entries.map (fun e => (name :: e.1, e.2)) ++ Node.entriesList rest

end

/-- The directory entry of a node. -/
def Node.dirEntry : Node → fs.DirEntry
  | .file d => ⟨false, d.length⟩
  | .dir _ => ⟨true, 0⟩

/-- A node and all nodes below it in the order of the walk. -/
def Node.walkOrder (n : Node) : List (List Bytes × Node) :=
  n.entries.insertionSort (fun a b => walkLE a.1 b.1 = true)

end os

namespace filepath

/-- The path that the walk passes for a place below the root: one `Join` for
every element. -/
def walkPath (root : Bytes) (rel : List Bytes) : Bytes :=
  rel.foldl (fun path name => Join [path, name]) root

/-- The calls of the walk function one after the other, until one returns an
error. -/
def WalkDir.run {σ : Type} (fn : σ → Bytes → Except Error fs.DirEntry → σ × Option Error) :
    List (Bytes × fs.DirEntry) → σ → σ × Option Error
  | [], st => (st, none)
  | (path, d) :: rest, st =>
    match fn st path (.ok d) with
    | (st1, some err) => (st1, some err)
    | (st1, none) => WalkDir.run fn rest st1

/-- Function `WalkDir`.  The walk function takes the variables that the
closure of the source captures, the path, and either the directory entry or,
for a root on which `os.Lstat` fails, the error; it returns the variables and
its error.  `os.Lstat` fails with `EINVAL` on a root with a NUL byte and with
the error of the look-up when nothing is found at the root. -/
def WalkDir {σ : Type} (fsys : os.FS) (root : Bytes)
    (fn : σ → Bytes → Except Error fs.DirEntry → σ × Option Error) (st : σ) :
    σ × Option Error :=
  if (0 : Byte) ∈ root then fn st root (.error (.pathError "lstat" .EINVAL))
  else
    match fsys.root.find (fsys.resolve root) with
    | .error e => fn st root (.error (.pathError "lstat" e))
    | .ok n =>
      WalkDir.run fn (n.walkOrder.map (fun e => (walkPath root e.1, e.2.dirEntry))) st

end filepath

/-! ## Package `storage`: listing and counting -/

namespace storage

/-- The map that `GetStorageStats` returns, by its keys.  The counters are
natural numbers: the sizes of the files of a file system sum to less than
`2^63`. -/
structure Stats where
  /-- Key `total_articles`. -/
  total_articles : Nat
  /-- Key `total_size`. -/
  total_size : Nat
  /-- Key `encrypted_articles`. -/
  encrypted_articles : Nat
  deriving DecidableEq, Repr

/-- The walk function of `ListUserContent`; the variable `articles` is `none`
for the nil slice. -/
def Service.ListUserContent.fn (J : json.Codec) (fsys : os.FS)
    (articles : Option (List ArticleContent)) (path : Bytes) (d : Except Error fs.DirEntry) :
    Option (List ArticleContent) × Option Error :=
  match d with
  | .error err => (articles, some err)
  | .ok d =>
    if d.IsDir || filepath.Ext path ≠ jsonExt then (articles, none)
    else
      match os.ReadFile fsys path with
      | .error _ => (articles, none)
      | .ok contentBytes =>
        match J.Unmarshal contentBytes with
        | .error _ => (articles, none)
        | .ok article => (some (articles.getD [] ++ [article]), none)

/-- Method `ListUserContent`; the slice returned is `none` when it is nil. -/
def Service.ListUserContent (J : json.Codec) (s : Service) (fsys : os.FS) (userID : Bytes) :
    Result (Option (List ArticleContent)) :=
  if os.statNotExist fsys (s.getUserStoragePath userID) then (some [], none)
  else
    match filepath.WalkDir fsys (s.getUserStoragePath userID) (Service.ListUserContent.fn J fsys)
      none with
    | (_, some err) => (none, some (.wrap "failed to list user content" err))
    | (articles, none) => (articles, none)

/-- The walk function of `GetStorageStats`. -/
def Service.GetStorageStats.fn (J : json.Codec) (fsys : os.FS) (stats : Stats) (path : Bytes)
    (d : Except Error fs.DirEntry) : Stats × Option Error :=
  match d with
  | .error err => (stats, some err)
  | .ok d =>
    if d.IsDir || filepath.Ext path ≠ jsonExt then (stats, none)
    else
      match d.Info with
      | .error _ => (stats, none)
      | .ok info =>
        match os.ReadFile fsys path with
        | .error _ =>
          (⟨stats.total_articles + 1, stats.total_size + info.size, stats.encrypted_articles⟩,
            none)
        | .ok contentBytes =>
          match J.Unmarshal contentBytes with
          | .error _ =>
            (⟨stats.total_articles + 1, stats.total_size + info.size,
              stats.encrypted_articles⟩, none)
          | .ok article =>
            if article.IsEncrypted then
              (⟨stats.total_articles + 1, stats.total_size + info.size,
                stats.encrypted_articles + 1⟩, none)
            else
              (⟨stats.total_articles + 1, stats.total_size + info.size,
                stats.encrypted_articles⟩, none)

/-- Method `GetStorageStats`; the map returned is `none` when it is nil. -/
def Service.GetStorageStats (J : json.Codec) (s : Service) (fsys : os.FS) (userID : Bytes) :
    Result (Option Stats) :=
  if os.statNotExist fsys (s.getUserStoragePath userID) then (some ⟨0, 0, 0⟩, none)
  else
    match filepath.WalkDir fsys (s.getUserStoragePath userID) (Service.GetStorageStats.fn J fsys)
      ⟨0, 0, 0⟩ with
    | (_, some err) => (none, some (.wrap "failed to calculate storage stats" err))
    | (stats, none) => (some stats, none)

end storage

/-! ## Notions of the specification: file trees and record files -/

namespace os

mutual

/-- A file tree as a file system holds it: in every directory the names are
elements that `Clean` keeps, and no name occurs twice. -/
def Node.wellFormed : Node → Bool
  | .file _ => true
  | .dir es => Node.wellFormedList es []

/-- The entries of a directory are well formed, with names that are not among
`seen`. -/
def Node.wellFormedList : List (Bytes × Node) → List Bytes → Bool
  | [], _ => true
  | (name, n) :: rest, seen =>
    decide (filepath.Proper name) && decide (name ∉ seen) && n.wellFormed &&
      Node.wellFormedList rest (name :: seen)

end

end os

namespace storage

/-- Whether a node at a place below a directory is a record file: a regular
file whose name ends in `.json`. -/
def isRecordFile (e : List Bytes × os.Node) : Bool :=
  match e.1.getLast?, e.2 with
  | some name, .file _ => jsonExt.isSuffixOf name
  | _, _ => false

/-- The content of a node, empty for a directory. -/
def nodeData : os.Node → Bytes
  | .file d => d
  | .dir _ => []

/-- The contents of the record files below a node. -/
def recordFiles (n : os.Node) : List Bytes :=
  (n.entries.filter isRecordFile).map (fun e => nodeData e.2)

/-- Whether the content of a record file parses as a record with the flag
`is_encrypted` set. -/
def parsesEncrypted (J : json.Codec) (b : Bytes) : Bool :=
  match J.Unmarshal b with
  | .ok article => article.IsEncrypted
  | .error _ => false

/-- The slice that `ListUserContent` holds after appending the records `l` to
the slice `st`: it stays nil as long as no record is appended. -/
def listed (st : Option (List ArticleContent)) (l : List ArticleContent) :
    Option (List ArticleContent) :=
  if l = [] then st else some (st.getD [] ++ l)

/-- The record that the content of a record file parses as. -/
def parsed (J : json.Codec) (b : Bytes) : Option ArticleContent :=
  match J.Unmarshal b with
  | .ok article => some article
  | .error _ => none

end storage

/-! ## Facts about the base64 codec -/

namespace base64

theorem decodeMap_encodeStd_fin : ∀ v : Fin 64, decodeMap (encodeStd v.val) = some v.val := by
  decide

theorem decodeMap_encodeStd {v : Nat} (h : v < 64) : decodeMap (encodeStd v) = some v :=
  decodeMap_encodeStd_fin ⟨v, h⟩

theorem decodeMap_padChar : decodeMap padChar = none := by decide

theorem isNewline_padChar : isNewline padChar = false := by decide

theorem quantumBytes_full (a b c : Byte) :
    quantumBytes ((a.val * 65536 + b.val * 256 + c.val) / 262144 % 64)
      ((a.val * 65536 + b.val * 256 + c.val) / 4096 % 64)
      ((a.val * 65536 + b.val * 256 + c.val) / 64 % 64)
      ((a.val * 65536 + b.val * 256 + c.val) % 64) = [a, b, c] := by
  have ha := a.isLt
  have hb := b.isLt
  have hc := c.isLt
  simp only [quantumBytes, List.cons.injEq, and_true]
  refine ⟨?_, ?_, ?_⟩ <;> apply Fin.ext <;> simp only [Fin.ofNat, Fin.val_mk] <;> omega

theorem quantumBytes_two (a b : Byte) :
    (quantumBytes ((a.val * 65536 + b.val * 256) / 262144 % 64)
      ((a.val * 65536 + b.val * 256) / 4096 % 64)
      ((a.val * 65536 + b.val * 256) / 64 % 64) 0).take 2 = [a, b] := by
  have ha := a.isLt
  have hb := b.isLt
  simp only [quantumBytes, List.take, List.cons.injEq, and_true]
  refine ⟨?_, ?_⟩ <;> apply Fin.ext <;> simp only [Fin.ofNat, Fin.val_mk] <;> omega

theorem quantumBytes_one (a : Byte) :
    (quantumBytes ((a.val * 65536) / 262144 % 64) ((a.val * 65536) / 4096 % 64) 0 0).take 1
      = [a] := by
  have ha := a.isLt
  simp only [quantumBytes, List.take, List.cons.injEq, and_true]
  apply Fin.ext
  simp only [Fin.ofNat, Fin.val_mk]
  omega

/-- The decoder reads a full quantum of alphabet characters as three bytes. -/
theorem decodeLoop_quantum {d0 d1 d2 d3 : Nat} (h0 : d0 < 64) (h1 : d1 < 64) (h2 : d2 < 64)
    (h3 : d3 < 64) (rest : Bytes) :
    decodeLoop (encodeStd d0 :: encodeStd d1 :: encodeStd d2 :: encodeStd d3 :: rest) [] =
      (decodeLoop rest []).map (fun out => quantumBytes d0 d1 d2 d3 ++ out) := by
  simp [decodeLoop, decodeMap_encodeStd, h0, h1, h2, h3]

/-- Decoding inverts encoding. -/
theorem DecodeString_EncodeToString (bs : Bytes) :
    DecodeString (EncodeToString bs) = some bs := by
  unfold DecodeString
  induction bs using EncodeToString.induct with
  | case1 a b c rest ih =>
    simp only [EncodeToString]
    rw [decodeLoop_quantum (Nat.mod_lt _ (by decide)) (Nat.mod_lt _ (by decide))
      (Nat.mod_lt _ (by decide)) (Nat.mod_lt _ (by decide)), ih, quantumBytes_full]
    rfl
  | case2 a b =>
    simp only [EncodeToString]
    simp [decodeLoop, decodeMap_encodeStd, Nat.mod_lt, decodeMap_padChar, isNewline_padChar,
      skipNewlines]
    exact quantumBytes_two a b
  | case3 a =>
    simp only [EncodeToString]
    simp [decodeLoop, decodeMap_encodeStd, Nat.mod_lt, decodeMap_padChar, isNewline_padChar,
      skipNewlines]
    exact quantumBytes_one a
  | case4 => simp [EncodeToString, decodeLoop]

/-- The length of an encoding: four characters for every started group of
three bytes. -/
theorem length_EncodeToString (bs : Bytes) :
    (EncodeToString bs).length = 4 * ((bs.length + 2) / 3) := by
  induction bs using EncodeToString.induct with
  | case1 a b c rest ih => simp only [EncodeToString, List.length_cons, ih]; omega
  | case2 a b => simp [EncodeToString]
  | case3 a => simp [EncodeToString]
  | case4 => simp [EncodeToString]

/-- Encoding is injective. -/
theorem EncodeToString_injective {a b : Bytes} (h : EncodeToString a = EncodeToString b) :
    a = b := by
  have := congrArg DecodeString h
  simpa [DecodeString_EncodeToString] using this

end base64

/-! ## Facts about the primitives -/

theorem byte_xor_cancel (x y : Byte) : (x ^^^ y) ^^^ y = x := by
  apply Fin.ext
  show ((x.val ^^^ y.val) % 256 ^^^ y.val) % 256 = x.val
  have hx : x.val < 2 ^ 8 := x.isLt
  have hy : y.val < 2 ^ 8 := y.isLt
  have h1 : x.val ^^^ y.val < 256 := Nat.xor_lt_two_pow hx hy
  rw [Nat.mod_eq_of_lt h1, Nat.xor_assoc, Nat.xor_self, Nat.xor_zero]
  exact Nat.mod_eq_of_lt x.isLt

theorem length_xorBytes (a b : Bytes) : (xorBytes a b).length = min a.length b.length := by
  simp [xorBytes]

/-- Applying the same key stream twice gives the data back, when the stream is
long enough. -/
theorem xorBytes_cancel : ∀ (a k : Bytes), a.length ≤ k.length →
    xorBytes (xorBytes a k) k = a
  | [], _, _ => by simp [xorBytes]
  | _ :: _, [], h => by simp at h
  | x :: a, y :: k, h => by
    have ih := xorBytes_cancel a k (by simpa using h)
    simp only [xorBytes, List.zipWith_cons_cons, List.cons.injEq] at ih ⊢
    exact ⟨byte_xor_cancel x y, ih⟩

theorem length_natToBE (n v : Nat) : (natToBE n v).length = n := by
  simp [natToBE]

theorem sha256.length_Sum256 (msg : Bytes) : (sha256.Sum256 msg).length = 32 := by
  have h : List.range 8 = [0, 1, 2, 3, 4, 5, 6, 7] := by decide
  simp [sha256.Sum256, h, List.flatMap, length_natToBE]

theorem hmac.length_Sum (key msg : Bytes) : (hmac.Sum key msg).length = 32 := by
  simp [hmac.Sum, sha256.length_Sum256]

theorem pbkdf2.length_iterate (password : Bytes) :
    ∀ (n : Nat) (T U : Bytes), T.length = 32 → (pbkdf2.iterate password n T U).length = 32
  | 0, _, _, h => by simpa [pbkdf2.iterate] using h
  | n + 1, T, U, h => by
    simp only [pbkdf2.iterate]
    apply pbkdf2.length_iterate password n
    simp [length_xorBytes, h, hmac.length_Sum]

theorem pbkdf2.length_blockT (password salt : Bytes) (iter : Int) (i : Nat) :
    (pbkdf2.blockT password salt iter i).length = 32 := by
  simp only [pbkdf2.blockT]
  exact pbkdf2.length_iterate password _ _ _ (hmac.length_Sum _ _)

/-- The derived key has the requested 32 bytes. -/
theorem pbkdf2.length_Key (password salt : Bytes) (iter : Int) :
    (pbkdf2.Key password salt iter 32).length = 32 := by
  have h : (32 + sha256.Size - 1) / sha256.Size = 1 := by decide
  have h1 : List.range 1 = [0] := by decide
  unfold pbkdf2.Key
  simp only [h, h1]
  simp [List.flatMap, pbkdf2.length_blockT]

/-- HMAC fills the key up with zeros to the block size, so a key shorter than
the block and the same key followed by a zero byte give the same key block. -/
theorem hmac.keyBlock_append_zero (key : Bytes) (h : key.length < 64) :
    hmac.keyBlock (key ++ [0]) = hmac.keyBlock key := by
  have h1 : ¬ key.length + 1 > sha256.BlockSize := by
    simp [sha256.BlockSize]; omega
  have h2 : ¬ key.length > sha256.BlockSize := by
    simp [sha256.BlockSize]; omega
  have h3 : sha256.BlockSize - key.length = (sha256.BlockSize - (key.length + 1)) + 1 := by
    simp [sha256.BlockSize]; omega
  simp only [hmac.keyBlock, List.length_append, List.length_singleton, if_neg h1, if_neg h2,
    List.append_assoc, List.singleton_append]
  rw [h3, List.replicate_succ]

theorem hmac.Sum_append_zero (key msg : Bytes) (h : key.length < 64) :
    hmac.Sum (key ++ [0]) msg = hmac.Sum key msg := by
  simp only [hmac.Sum, hmac.keyBlock_append_zero key h]

theorem pbkdf2.iterate_append_zero (password : Bytes) (h : password.length < 64) :
    ∀ (n : Nat) (T U : Bytes),
      pbkdf2.iterate (password ++ [0]) n T U = pbkdf2.iterate password n T U
  | 0, _, _ => rfl
  | n + 1, T, U => by
    simp only [pbkdf2.iterate, hmac.Sum_append_zero password _ h,
      pbkdf2.iterate_append_zero password h n]

/-- Two passwords of different bytes with the same derived key: a password
shorter than 64 bytes and the same password followed by a zero byte. -/
theorem pbkdf2.Key_append_zero (password salt : Bytes) (iter : Int) (keyLen : Nat)
    (h : password.length < 64) :
    pbkdf2.Key (password ++ [0]) salt iter keyLen = pbkdf2.Key password salt iter keyLen := by
  simp only [pbkdf2.Key, pbkdf2.blockT, hmac.Sum_append_zero password _ h,
    pbkdf2.iterate_append_zero password h]

theorem aes.length_encryptBlock (w : List Nat) (nr : Nat) (src : Bytes) :
    (aes.encryptBlock w nr src).length = 16 := by
  simp [aes.encryptBlock]

theorem aes.length_newCipher_encrypt (key x : Bytes) :
    ((aes.newCipher key).encrypt x).length = 16 :=
  aes.length_encryptBlock _ _ x

/-- A 32-byte key is accepted by `aes.NewCipher`. -/
theorem aes.NewCipher_of_length {key : Bytes} (h : key.length = 32) :
    aes.NewCipher key = .ok (aes.newCipher key) := by
  simp [aes.NewCipher, h]

theorem cipher.NewGCM_newCipher (key : Bytes) :
    cipher.NewGCM (aes.newCipher key) = .ok ⟨aes.newCipher key⟩ := by
  simp [cipher.NewGCM, aes.newCipher, aes.BlockSize]

namespace cipher.gcm

theorem length_keyStream (b : Block) (hb : ∀ x, (b.encrypt x).length = 16) (nonce : Bytes) :
    ∀ (n ctr : Nat), (keyStream b nonce n ctr).length = 16 * n
  | 0, _ => by simp [keyStream]
  | n + 1, ctr => by
    simp only [keyStream, List.length_append, hb, length_keyStream b hb nonce n (ctr + 1)]
    omega

theorem length_counterCrypt (b : Block) (hb : ∀ x, (b.encrypt x).length = 16)
    (nonce data : Bytes) : (counterCrypt b nonce data).length = data.length := by
  simp only [counterCrypt, length_xorBytes, length_keyStream b hb]
  omega

/-- Counter mode is its own inverse. -/
theorem counterCrypt_counterCrypt (b : Block) (hb : ∀ x, (b.encrypt x).length = 16)
    (nonce data : Bytes) : counterCrypt b nonce (counterCrypt b nonce data) = data := by
  have hl := length_counterCrypt b hb nonce data
  unfold counterCrypt at hl ⊢
  rw [hl]
  apply xorBytes_cancel
  rw [length_keyStream b hb]
  omega

theorem length_auth (b : Block) (hb : ∀ x, (b.encrypt x).length = 16)
    (nonce aad ct : Bytes) : (auth b nonce aad ct).length = 16 := by
  simp [auth, length_xorBytes, length_natToBE, hb]

theorem length_output (b : Block) (hb : ∀ x, (b.encrypt x).length = 16)
    (nonce plaintext aad : Bytes) :
    (output b nonce plaintext aad).length = plaintext.length + 16 := by
  simp [output, length_auth b hb, length_counterCrypt b hb]

end cipher.gcm

namespace cipher.AEAD

/-- Opening what was sealed under the same key, nonce and additional data
gives the plaintext back. -/
theorem Open_Seal (g : AEAD) (hb : ∀ x, (g.cipher.encrypt x).length = 16)
    (nonce plaintext aad : Bytes) :
    g.Open [] nonce (gcm.output g.cipher nonce plaintext aad) aad = (plaintext, none) := by
  have hl := gcm.length_output g.cipher hb nonce plaintext aad
  have hc := gcm.length_counterCrypt g.cipher hb nonce plaintext
  have ht : (gcm.output g.cipher nonce plaintext aad).take
      ((gcm.output g.cipher nonce plaintext aad).length - gcm.TagSize) =
      gcm.counterCrypt g.cipher nonce plaintext := by
    rw [hl]
    simp [gcm.output, gcm.TagSize, List.take_append_eq_append_take, hc]
  have hd : (gcm.output g.cipher nonce plaintext aad).drop
      ((gcm.output g.cipher nonce plaintext aad).length - gcm.TagSize) =
      gcm.auth g.cipher nonce aad (gcm.counterCrypt g.cipher nonce plaintext) := by
    rw [hl]
    simp [gcm.output, gcm.TagSize, List.drop_append_eq_append_drop, hc]
  unfold Open
  rw [if_neg (by rw [hl]; simp [gcm.TagSize])]
  simp only [ht, hd, ne_eq, not_true_eq_false, if_false, List.nil_append,
    gcm.counterCrypt_counterCrypt g.cipher hb]

/-- An input shorter than the tag is never opened. -/
theorem Open_short (g : AEAD) (dst nonce ciphertext aad : Bytes)
    (h : ciphertext.length < 16) :
    g.Open dst nonce ciphertext aad = ([], some Error.openFailed) := by
  simp [Open, gcm.TagSize, h]

/-- Method `Open` returns a nil slice next to every error, and its only
error is `errOpen`. -/
theorem Open_error (g : AEAD) (dst nonce ciphertext aad : Bytes) (e : Error)
    (h : (g.Open dst nonce ciphertext aad).2 = some e) :
    g.Open dst nonce ciphertext aad = ([], some Error.openFailed) := by
  unfold Open at h ⊢
  by_cases h1 : ciphertext.length < gcm.TagSize
  · rw [if_pos h1]
  · rw [if_neg h1] at h ⊢
    dsimp only at h ⊢
    by_cases h2 : gcm.auth g.cipher nonce aad
        (ciphertext.take (ciphertext.length - gcm.TagSize)) ≠
        ciphertext.drop (ciphertext.length - gcm.TagSize)
    · rw [if_pos h2]
    · rw [if_neg h2] at h
      cases h

/-- Method `Open` on a ciphertext followed by a 16-byte tag: the tag is
compared with the expected one, and only then is the ciphertext decrypted. -/
theorem Open_append (g : AEAD) (nonce ct tag aad : Bytes) (ht : tag.length = 16) :
    g.Open [] nonce (ct ++ tag) aad =
      if gcm.auth g.cipher nonce aad ct ≠ tag then ([], some Error.openFailed)
      else (gcm.counterCrypt g.cipher nonce ct, none) := by
  have h1 : ¬ (ct ++ tag).length < gcm.TagSize := by simp [gcm.TagSize, ht]
  have h2 : (ct ++ tag).length - gcm.TagSize = ct.length := by simp [gcm.TagSize, ht]
  unfold Open
  rw [if_neg h1]
  simp only [h2, List.take_left', List.drop_left', List.nil_append]

/-- Method `Open` returns a nil error exactly when the input holds a tag of 16
bytes that equals the tag expected for the bytes before it; the plaintext is
then the counter-mode decryption of those bytes. -/
theorem Open_ok_iff (g : AEAD) (nonce c aad q : Bytes) :
    g.Open [] nonce c aad = (q, none) ↔
      16 ≤ c.length ∧
        gcm.auth g.cipher nonce aad (c.take (c.length - 16)) = c.drop (c.length - 16) ∧
        q = gcm.counterCrypt g.cipher nonce (c.take (c.length - 16)) := by
  unfold Open
  by_cases h1 : c.length < gcm.TagSize
  · rw [if_pos h1]
    have : ¬ 16 ≤ c.length := by simpa [gcm.TagSize] using h1
    simp [this]
  · rw [if_neg h1]
    have h16 : 16 ≤ c.length := by simpa [gcm.TagSize] using h1
    dsimp only [gcm.TagSize]
    by_cases h2 : gcm.auth g.cipher nonce aad (c.take (c.length - 16)) = c.drop (c.length - 16)
    · simp [h2, h16, eq_comm]
    · simp [h2]

/-- A text that `Open` accepts is the sealing of the plaintext it returns. -/
theorem Open_unique (g : AEAD) (hb : ∀ x, (g.cipher.encrypt x).length = 16)
    (nonce c aad q : Bytes) (h : g.Open [] nonce c aad = (q, none)) :
    c = gcm.output g.cipher nonce q aad := by
  obtain ⟨_, h2, h3⟩ := (Open_ok_iff g nonce c aad q).mp h
  rw [gcm.output, h3, gcm.counterCrypt_counterCrypt g.cipher hb, h2, List.take_append_drop]

end cipher.AEAD

/-! ## Known answers of the primitives

The models of the library primitives reproduce the published test vectors. -/

set_option maxRecDepth 100000 in
/-- SHA-256 of `abc` (FIPS 180-4, appendix B.1). -/
theorem sha256.Sum256_abc : sha256.Sum256 [97, 98, 99] =
    [0xba, 0x78, 0x16, 0xbf, 0x8f, 0x01, 0xcf, 0xea, 0x41, 0x41, 0x40, 0xde, 0x5d, 0xae, 0x22,
     0x23, 0xb0, 0x03, 0x61, 0xa3, 0x96, 0x17, 0x7a, 0x9c, 0xb4, 0x10, 0xff, 0x61, 0xf2, 0x00,
     0x15, 0xad] := by
  decide!

set_option maxRecDepth 100000 in
/-- PBKDF2-HMAC-SHA256 of the password `password` and the salt `salt`, one
iteration, 32 bytes. -/
theorem pbkdf2.Key_password_salt :
    pbkdf2.Key [112, 97, 115, 115, 119, 111, 114, 100] [115, 97, 108, 116] 1 32 =
    [0x12, 0x0f, 0xb6, 0xcf, 0xfc, 0xf8, 0xb3, 0x2c, 0x43, 0xe7, 0x22, 0x52, 0x56, 0xc4, 0xf8,
     0x37, 0xa8, 0x65, 0x48, 0xc9, 0x2c, 0xcc, 0x35, 0x48, 0x08, 0x05, 0x98, 0x7c, 0xb7, 0x0b,
     0xe1, 0x7b] := by
  decide!

set_option maxRecDepth 100000 in
/-- AES-256 on the example block of FIPS 197, appendix C.3. -/
theorem aes.newCipher_fips197 :
    (aes.newCipher ((List.range 32).map Fin.ofNat)).encrypt
      [0x00, 0x11, 0x22, 0x33, 0x44, 0x55, 0x66, 0x77, 0x88, 0x99, 0xaa, 0xbb, 0xcc, 0xdd, 0xee,
       0xff] =
    [0x8e, 0xa2, 0xb7, 0xca, 0x51, 0x67, 0x45, 0xbf, 0xea, 0xfc, 0x49, 0x90, 0x4b, 0x49, 0x60,
     0x89] := by
  decide!

set_option maxRecDepth 100000 in
/-- AES-256-GCM with the zero key and the zero nonce on one zero block (test
case 14 of the GCM specification): the ciphertext and the tag. -/
theorem cipher.AEAD.Seal_zero :
    (cipher.AEAD.mk (aes.newCipher (List.replicate 32 0))).Seal [] (List.replicate 12 0)
      (List.replicate 16 0) [] =
    [0xce, 0xa7, 0x40, 0x3d, 0x4d, 0x60, 0x6b, 0x6e, 0x07, 0x4e, 0xc5, 0xd3, 0xba, 0xf3, 0x9d,
     0x18, 0xd0, 0xd1, 0xc8, 0xa7, 0x99, 0x99, 0x6b, 0xf0, 0x26, 0x5b, 0x98, 0xb5, 0xd4, 0x8a,
     0xb9, 0x19] := by
  decide!

/-- The table `sbox0` lists the S-box of FIPS 197: the inverse in GF(2^8)
followed by the affine map. -/
theorem aes.sbox_eq_sboxField : ∀ a : Fin 256, aes.sbox a.val = aes.sboxField a.val := by
  decide!

/-! ## The encryption service -/

namespace encryption

theorem Service.aead_length (s : Service) (m salt x : Bytes) :
    ((s.aead m salt).cipher.encrypt x).length = 16 :=
  aes.length_newCipher_encrypt _ x

theorem Service.DeriveKey_encoded (s : Service) {k m : Bytes} (salt : Bytes)
    (hk : base64.DecodeString k = some m) :
    s.DeriveKey k (base64.EncodeToString salt) = (pbkdf2.Key m salt s.iterations 32, none) := by
  simp [Service.DeriveKey, hk, base64.DecodeString_EncodeToString]

theorem Service.DeriveKey_invalid (s : Service) {k : Bytes} (salt : Bytes)
    (hk : base64.DecodeString k = none) :
    s.DeriveKey k salt = ([], some (.wrap "failed to decode master key" .corruptInput)) := by
  simp [Service.DeriveKey, hk]

/-- What `Encrypt` returns for a decodable key and successful draws. -/
theorem Service.Encrypt_eq (s : Service) {k m : Bytes} (p salt nonce : Bytes)
    (hk : base64.DecodeString k = some m) :
    s.Encrypt (some salt) (some nonce) p k =
      (base64.EncodeToString
        (salt ++ (nonce ++ cipher.gcm.output (s.aead m salt).cipher nonce p [])), none) := by
  simp only [Service.Encrypt, Service.DeriveKey_encoded s salt hk,
    aes.NewCipher_of_length (pbkdf2.length_Key m salt s.iterations),
    cipher.NewGCM_newCipher, cipher.AEAD.Seal, Service.aead]

/-- What `Decrypt` does with an input that decodes to at least 28 bytes,
under a decodable key: the first 16 bytes are the salt of the key derivation,
the next 12 the nonce, and the rest goes to `Open`. -/
theorem Service.Decrypt_decoded (s : Service) {ed k data m : Bytes}
    (hd : base64.DecodeString ed = some data) (hk : base64.DecodeString k = some m)
    (hl : 28 ≤ data.length) :
    s.Decrypt ed k =
      openOutcome ((s.aead m (data.take 16)).Open [] ((data.drop 16).take 12)
        (data.drop 28) []) := by
  have h1 : ¬ data.length < 16 := by omega
  have h4 : ¬ (data.drop 16).length < cipher.gcm.NonceSize := by
    simp [cipher.gcm.NonceSize]; omega
  simp only [Service.Decrypt, hd, if_neg h1, Service.DeriveKey_encoded s _ hk,
    aes.NewCipher_of_length (pbkdf2.length_Key m _ s.iterations),
    cipher.NewGCM_newCipher, cipher.AEAD.NonceSize, if_neg h4]
  simp only [cipher.gcm.NonceSize, List.drop_drop, Service.aead]
  rfl

/-- The three parts of a blob `salt ++ nonce ++ rest` as `Decrypt` cuts them. -/
theorem blob_parts {salt nonce : Bytes} (rest : Bytes) (hs : salt.length = 16)
    (hn : nonce.length = 12) :
    (salt ++ (nonce ++ rest)).take 16 = salt ∧
      ((salt ++ (nonce ++ rest)).drop 16).take 12 = nonce ∧
      (salt ++ (nonce ++ rest)).drop 28 = rest := by
  have h2 : (salt ++ (nonce ++ rest)).take 16 = salt := by
    rw [← hs]; exact List.take_left' rfl
  have h3 : (salt ++ (nonce ++ rest)).drop 16 = nonce ++ rest := by
    rw [← hs]; exact List.drop_left' rfl
  have h5 : (nonce ++ rest).take 12 = nonce := by
    rw [← hn]; exact List.take_left' rfl
  have h6 : (nonce ++ rest).drop 12 = rest := by
    rw [← hn]; exact List.drop_left' rfl
  refine ⟨h2, by rw [h3, h5], ?_⟩
  have : (salt ++ (nonce ++ rest)).drop 28 = ((salt ++ (nonce ++ rest)).drop 16).drop 12 := by
    rw [List.drop_drop]
  rw [this, h3, h6]

/-- Decrypting a blob `salt ++ nonce ++ rest` under a decodable key. -/
theorem Service.Decrypt_blob (s : Service) {k m : Bytes} (salt nonce rest : Bytes)
    (hk : base64.DecodeString k = some m) (hs : salt.length = 16) (hn : nonce.length = 12) :
    s.Decrypt (base64.EncodeToString (salt ++ (nonce ++ rest))) k =
      openOutcome ((s.aead m salt).Open [] nonce rest []) := by
  obtain ⟨h1, h2, h3⟩ := blob_parts rest hs hn
  rw [Service.Decrypt_decoded s (base64.DecodeString_EncodeToString _) hk
    (by simp only [List.length_append, hs, hn]; omega), h1, h2, h3]

/-- Decrypting under any key from which the key of the encryption is derived
again gives the plaintext back. -/
theorem Service.Decrypt_Encrypt_same_key (s : Service) {k1 k2 m1 m2 : Bytes}
    (p salt nonce : Bytes) (h1 : base64.DecodeString k1 = some m1)
    (h2 : base64.DecodeString k2 = some m2)
    (hkey : pbkdf2.Key m2 salt s.iterations 32 = pbkdf2.Key m1 salt s.iterations 32)
    (hs : salt.length = 16) (hn : nonce.length = 12) :
    s.Decrypt (s.Encrypt (some salt) (some nonce) p k1).1 k2 = (p, none) := by
  have ha : s.aead m2 salt = s.aead m1 salt := by simp only [Service.aead, hkey]
  rw [Service.Encrypt_eq s p salt nonce h1, Service.Decrypt_blob s salt nonce _ h2 hs hn, ha,
    cipher.AEAD.Open_Seal _ (Service.aead_length s m1 salt)]
  rfl

/-- Decrypting under any key that decodes to the bytes of the encryption key
gives the plaintext back. -/
theorem Service.Decrypt_Encrypt_same_bytes (s : Service) {k1 k2 m : Bytes}
    (p salt nonce : Bytes) (h1 : base64.DecodeString k1 = some m)
    (h2 : base64.DecodeString k2 = some m) (hs : salt.length = 16) (hn : nonce.length = 12) :
    s.Decrypt (s.Encrypt (some salt) (some nonce) p k1).1 k2 = (p, none) :=
  Service.Decrypt_Encrypt_same_key s p salt nonce h1 h2 rfl hs hn

/-- The user keys `QQ==` and `QQA=` decode to different bytes, `A` and `A`
followed by a zero byte, and still derive the same key: a blob sealed under
the first is opened under the second. -/
theorem Service.Decrypt_Encrypt_zero_padded (s : Service) (p salt nonce : Bytes)
    (hs : salt.length = 16) (hn : nonce.length = 12) :
    s.Decrypt (s.Encrypt (some salt) (some nonce) p [81, 81, 61, 61]).1 [81, 81, 65, 61] =
      (p, none) :=
  @Service.Decrypt_Encrypt_same_key s [81, 81, 61, 61] [81, 81, 65, 61] [65] ([65] ++ [0])
    p salt nonce (by decide) (by decide)
    (pbkdf2.Key_append_zero [65] salt s.iterations 32 (by decide)) hs hn

/-- The two outcomes of `Decrypt`: an error with the empty string, or the
plaintext that `Open` returned for the three parts of the decoded input. -/
theorem Service.Decrypt_cases (s : Service) (ed uk : Bytes) :
    ((s.Decrypt ed uk).1 = [] ∧ (s.Decrypt ed uk).2 ≠ none ∧
        (s.Decrypt ed uk).2.bind FailureMode.ofError = s.failureMode ed uk ∧
        s.failureMode ed uk ≠ none) ∨
      ((s.Decrypt ed uk).2 = none ∧ s.failureMode ed uk = none ∧
        ∃ data m, base64.DecodeString ed = some data ∧ base64.DecodeString uk = some m ∧
          28 ≤ data.length ∧
          (s.aead m (data.take 16)).Open [] ((data.drop 16).take 12) (data.drop 28) [] =
            ((s.Decrypt ed uk).1, none)) := by
  cases hd : base64.DecodeString ed with
  | none => left; simp [Service.Decrypt, Service.failureMode, hd, FailureMode.ofError]
  | some data =>
    by_cases h16 : data.length < 16
    · left; simp [Service.Decrypt, Service.failureMode, hd, h16, FailureMode.ofError]
    · cases hk : base64.DecodeString uk with
      | none =>
        left
        simp [Service.Decrypt, Service.failureMode, hd, h16, hk,
          Service.DeriveKey_invalid s _ hk, FailureMode.ofError]
      | some m =>
        by_cases h28 : data.length < 28
        · left
          have h4 : (data.drop 16).length < cipher.gcm.NonceSize := by
            simp [cipher.gcm.NonceSize]; omega
          simp only [Service.Decrypt, Service.failureMode, hd, hk, if_neg h16, if_pos h28,
            Service.DeriveKey_encoded s _ hk,
            aes.NewCipher_of_length (pbkdf2.length_Key m _ s.iterations),
            cipher.NewGCM_newCipher, cipher.AEAD.NonceSize, if_pos h4]
          simp [FailureMode.ofError]
        · rw [Service.Decrypt_decoded s hd hk (by omega)]
          simp only [Service.failureMode, hd, hk, if_neg h16, if_neg h28]
          obtain ⟨pt, err, ho⟩ : ∃ pt err, (s.aead m (data.take 16)).Open []
              ((data.drop 16).take 12) (data.drop 28) [] = (pt, err) := ⟨_, _, rfl⟩
          rw [ho]
          cases err with
          | none =>
            right
            exact ⟨rfl, by simp, data, m, rfl, rfl, by omega, ho⟩
          | some e =>
            left
            simp [openOutcome, FailureMode.ofError]

/-! ### Tampering with a sealed blob

What the model settles about a changed byte behind offset 28: a change in the
tag is always rejected, and no changed blob is ever opened to the original
plaintext.  Whether a change in the ciphertext is rejected depends on the hash
subkey of GCM, the encryption of the zero block under the derived key, being
non-zero. -/

/-- A blob with the salt and nonce of `Encrypt(p, k)` but another sealed part
is never decrypted to `p`. -/
theorem Service.Decrypt_changed_ne (s : Service) {k m : Bytes} (p salt nonce rest : Bytes)
    (hk : base64.DecodeString k = some m) (hs : salt.length = 16) (hn : nonce.length = 12)
    (hne : rest ≠ cipher.gcm.output (s.aead m salt).cipher nonce p []) :
    s.Decrypt (base64.EncodeToString (salt ++ (nonce ++ rest))) k ≠ (p, none) := by
  rw [Service.Decrypt_blob s salt nonce rest hk hs hn]
  intro h
  obtain ⟨pt, err, ho⟩ : ∃ pt err, (s.aead m salt).Open [] nonce rest [] = (pt, err) :=
    ⟨_, _, rfl⟩
  rw [ho] at h
  cases err with
  | some e => exact Option.noConfusion (congrArg Prod.snd h)
  | none =>
    have hp : pt = p := congrArg Prod.fst h
    rw [hp] at ho
    exact hne (cipher.AEAD.Open_unique _ (Service.aead_length s m salt) _ _ _ _ ho)

/-- A blob of `Encrypt(p, k)` whose 16-byte tag is replaced by another one is
rejected with the authentication error. -/
theorem Service.Decrypt_changed_tag (s : Service) {k m : Bytes} (p salt nonce tag : Bytes)
    (hk : base64.DecodeString k = some m) (hs : salt.length = 16) (hn : nonce.length = 12)
    (ht : tag.length = 16)
    (hne : tag ≠ cipher.gcm.auth (s.aead m salt).cipher nonce []
      (cipher.gcm.counterCrypt (s.aead m salt).cipher nonce p)) :
    s.Decrypt (base64.EncodeToString (salt ++ (nonce ++
        (cipher.gcm.counterCrypt (s.aead m salt).cipher nonce p ++ tag)))) k =
      ([], some (.wrap "failed to decrypt" .openFailed)) := by
  rw [Service.Decrypt_blob s salt nonce _ hk hs hn, cipher.AEAD.Open_append _ _ _ _ _ ht,
    if_pos (Ne.symm hne)]
  rfl

end encryption

/-! ## The characters of base64 text -/

namespace base64

/-- Every character of an encoding is a character of the alphabet or the
padding character. -/
theorem EncodeToString_chars (bs : Bytes) :
    ∀ c ∈ EncodeToString bs, decodeMap c ≠ none ∨ c = padChar := by
  induction bs using EncodeToString.induct with
  | case1 a b c rest ih =>
    intro x hx
    simp only [EncodeToString, List.mem_cons] at hx
    rcases hx with h | h | h | h | h
    · left; rw [h, decodeMap_encodeStd (Nat.mod_lt _ (by decide))]; simp
    · left; rw [h, decodeMap_encodeStd (Nat.mod_lt _ (by decide))]; simp
    · left; rw [h, decodeMap_encodeStd (Nat.mod_lt _ (by decide))]; simp
    · left; rw [h, decodeMap_encodeStd (Nat.mod_lt _ (by decide))]; simp
    · exact ih x h
  | case2 a b =>
    intro x hx
    simp only [EncodeToString, List.mem_cons, List.mem_singleton, List.not_mem_nil, or_false] at hx
    rcases hx with h | h | h | h
    · left; rw [h, decodeMap_encodeStd (Nat.mod_lt _ (by decide))]; simp
    · left; rw [h, decodeMap_encodeStd (Nat.mod_lt _ (by decide))]; simp
    · left; rw [h, decodeMap_encodeStd (Nat.mod_lt _ (by decide))]; simp
    · right; exact h
  | case3 a =>
    intro x hx
    simp only [EncodeToString, List.mem_cons, List.mem_singleton, List.not_mem_nil, or_false] at hx
    rcases hx with h | h | h | h
    · left; rw [h, decodeMap_encodeStd (Nat.mod_lt _ (by decide))]; simp
    · left; rw [h, decodeMap_encodeStd (Nat.mod_lt _ (by decide))]; simp
    · right; exact h
    · right; exact h
  | case4 => intro x hx; simp [EncodeToString] at hx

end base64

namespace base64

theorem ascii_of_char (c : Byte) (h : decodeMap c ≠ none ∨ c = padChar) : c.val < 128 := by
  rcases h with h | h
  · unfold decodeMap at h
    by_contra hc
    have h1 : ¬ (65 ≤ c.val ∧ c.val ≤ 90) := by omega
    have h2 : ¬ (97 ≤ c.val ∧ c.val ≤ 122) := by omega
    have h3 : ¬ (48 ≤ c.val ∧ c.val ≤ 57) := by omega
    have h4 : ¬ c.val = 43 := by omega
    have h5 : ¬ c.val = 47 := by omega
    simp only [if_neg h1, if_neg h2, if_neg h3, if_neg h4, if_neg h5, ne_eq,
      not_true_eq_false] at h
  · rw [h]; decide

/-- Base64 text is ASCII text. -/
theorem EncodeToString_ascii (bs : Bytes) : ∀ c ∈ EncodeToString bs, c.val < 128 :=
  fun c hc => ascii_of_char c (EncodeToString_chars bs c hc)

theorem EncodeToString_eq_nil {bs : Bytes} (h : EncodeToString bs = []) : bs = [] := by
  have := length_EncodeToString bs
  rw [h] at this
  simp only [List.length_nil] at this
  have h2 : bs.length = 0 := by omega
  exact List.length_eq_zero.mp h2

end base64

/-! ## Facts about paths -/

namespace filepath

theorem splitList_ne_nil (s : Bytes) : splitList s ≠ [] := by
  cases s with
  | nil => simp [splitList]
  | cons c rest =>
    unfold splitList
    split
    · simp
    · split <;> simp

theorem splitList_cons_ne {c : Byte} (hc : c ≠ Separator) {s a : Bytes} {as : List Bytes}
    (h : splitList s = a :: as) : splitList (c :: s) = (c :: a) :: as := by
  simp [splitList, hc, h]

/-- Splitting at a separator splits the list of elements. -/
theorem splitList_append (x y : Bytes) :
    splitList (x ++ Separator :: y) = splitList x ++ splitList y := by
  induction x with
  | nil => simp [splitList]
  | cons c rest ih =>
    by_cases hc : c = Separator
    · simp [splitList, hc, ih]
    · have h1 := splitList_ne_nil rest
      cases hr : splitList rest with
      | nil => exact absurd hr h1
      | cons a as =>
        have h2 : splitList (rest ++ Separator :: y) = a :: (as ++ splitList y) := by
          rw [ih, hr]; rfl
        rw [List.cons_append, splitList_cons_ne hc h2, splitList_cons_ne hc hr]
        rfl

/-- A name without a separator is its own single element. -/
theorem splitList_of_not_mem {s : Bytes} (h : Separator ∉ s) : splitList s = [s] := by
  induction s with
  | nil => rfl
  | cons c rest ih =>
    have hc : c ≠ Separator := fun e => h (by simp [e])
    have hr : Separator ∉ rest := fun e => h (by simp [e])
    simp [splitList, hc, ih hr]

/-- No element of a path has a separator. -/
theorem not_mem_of_mem_splitList (s : Bytes) : ∀ e ∈ splitList s, Separator ∉ e := by
  induction s with
  | nil => simp [splitList]
  | cons c rest ih =>
    by_cases hc : c = Separator
    · intro e he
      simp only [splitList, hc, if_true, List.mem_cons] at he
      rcases he with h | h
      · simp [h]
      · exact ih e h
    · have h1 := splitList_ne_nil rest
      cases hr : splitList rest with
      | nil => exact absurd hr h1
      | cons a as =>
        intro e he
        simp only [splitList, if_neg hc, hr, List.mem_cons] at he
        rw [hr] at ih
        rcases he with h | h
        · rw [h]
          intro hm
          rcases List.mem_cons.mp hm with h2 | h2
          · exact hc h2.symm
          · exact ih a (by simp) h2
        · exact ih e (by simp [h])

theorem Lexical.push_proper (l : Lexical) {e : Bytes} (h : Proper e) :
    l.push e = { l with stack := e :: l.stack } := by
  simp [Lexical.push, h.1, h.2.1, h.2.2.1]

theorem Lexical.foldl_push_proper (es : List Bytes) (h : ∀ e ∈ es, Proper e) :
    ∀ l : Lexical, es.foldl Lexical.push l = { l with stack := es.reverse ++ l.stack } := by
  induction es with
  | nil => intro l; simp
  | cons e rest ih =>
    intro l
    rw [List.foldl_cons, Lexical.push_proper l (h e (by simp)), ih (fun x hx => h x (by simp [hx]))]
    simp

theorem Lexical.push_normal (l : Lexical) (e : Bytes) (hl : l.Normal) (he : Separator ∉ e) :
    (l.push e).Normal := by
  unfold Lexical.push
  split
  · exact hl
  · rename_i h1
    split
    · cases hs : l.stack with
      | nil =>
        by_cases hr : l.rooted = true
        · rw [if_pos hr]
          exact hl
        · rw [if_neg hr]
          exact ⟨by simp, fun h => absurd h hr⟩
      | cons a rest =>
        refine ⟨fun x hx => hl.1 x (by simp [hs, hx]), hl.2⟩
    · rename_i h2
      refine ⟨?_, hl.2⟩
      intro x hx
      rcases List.mem_cons.mp hx with h | h
      · rw [h]
        exact ⟨fun e0 => h1 (Or.inl e0), fun e0 => h1 (Or.inr e0), h2, he⟩
      · exact hl.1 x h

theorem Lexical.foldl_push_normal (es : List Bytes) (hes : ∀ e ∈ es, Separator ∉ e) :
    ∀ l : Lexical, l.Normal → (es.foldl Lexical.push l).Normal := by
  induction es with
  | nil => intro l hl; exact hl
  | cons e rest ih =>
    intro l hl
    exact ih (fun x hx => hes x (by simp [hx])) _ (l.push_normal e hl (hes e (by simp)))

theorem lexical_normal (s : Bytes) : (lexical s).Normal :=
  Lexical.foldl_push_normal _ (not_mem_of_mem_splitList s) _ ⟨by simp, by simp⟩

theorem splitList_joinElems : ∀ (es : List Bytes), es ≠ [] → (∀ e ∈ es, Separator ∉ e) →
    splitList (joinElems es) = es
  | [], h, _ => absurd rfl h
  | [x], _, h => by
    simpa [joinElems] using splitList_of_not_mem (h x (by simp))
  | x :: y :: rest, _, h => by
    rw [joinElems, splitList_append, splitList_of_not_mem (h x (by simp)),
      splitList_joinElems (y :: rest) (by simp) (fun e he => h e (by simp [he]))]
    rfl

theorem joinElems_eq_nil : ∀ (es : List Bytes), (∀ e ∈ es, e ≠ []) → joinElems es = [] →
    es = []
  | [], _, _ => rfl
  | [x], h, he => absurd (by simpa [joinElems] using he) (h x (by simp))
  | x :: y :: rest, _, he => by simp [joinElems] at he

theorem head_joinElems : ∀ (es : List Bytes), (∀ e ∈ es, e ≠ [] ∧ Separator ∉ e) →
    (joinElems es).head? ≠ some Separator
  | [], _ => by simp [joinElems]
  | [x], h => by
    obtain ⟨h1, h2⟩ := h x (by simp)
    cases x with
    | nil => exact absurd rfl h1
    | cons c cs =>
      simp only [joinElems, List.head?_cons, ne_eq, Option.some.injEq]
      intro e
      exact h2 (by simp [e])
  | x :: y :: rest, h => by
    obtain ⟨h1, h2⟩ := h x (by simp)
    cases x with
    | nil => exact absurd rfl h1
    | cons c cs =>
      simp only [joinElems, List.cons_append, List.head?_cons, ne_eq, Option.some.injEq]
      intro e
      exact h2 (by simp [e])

theorem Lexical.foldl_push_dotdot (n : Nat) :
    ∀ k : Nat, (List.replicate n dotdot).foldl Lexical.push ⟨false, k, []⟩ = ⟨false, k + n, []⟩ := by
  induction n with
  | zero => intro k; rfl
  | succ n ih =>
    intro k
    rw [List.replicate_succ, List.foldl_cons]
    have : Lexical.push ⟨false, k, []⟩ dotdot = ⟨false, k + 1, []⟩ := by
      simp [Lexical.push, dotdot, dot]
    rw [this, ih]
    congr 1
    omega

theorem dotdot_ne_nil_not_mem : dotdot ≠ [] ∧ Separator ∉ dotdot := by decide

/-- The lexical form of the path written for a normal lexical form is that
form. -/
theorem lexical_render (l : Lexical) (hl : l.Normal) : lexical l.render = l := by
  obtain ⟨rooted, up, stack⟩ := l
  obtain ⟨hs, hu⟩ := hl
  simp only at hs hu
  have hrev : ∀ e ∈ stack.reverse, Proper e := fun e he => hs e (List.mem_reverse.mp he)
  have hall : ∀ e ∈ List.replicate up dotdot ++ stack.reverse, e ≠ [] ∧ Separator ∉ e := by
    intro e he
    rcases List.mem_append.mp he with h | h
    · rw [(List.mem_replicate.mp h).2]; exact dotdot_ne_nil_not_mem
    · exact ⟨(hrev e h).1, (hrev e h).2.2.2⟩
  cases rooted with
  | true =>
    have hu0 : up = 0 := hu rfl
    subst hu0
    simp only [Lexical.render, List.replicate_zero, List.nil_append, if_true]
    by_cases he : stack.reverse = []
    · have hs0 : stack = [] := by simpa using he
      subst hs0
      rfl
    · unfold lexical
      have hsplit : splitList (Separator :: joinElems stack.reverse) = [] :: stack.reverse := by
        have := splitList_append [] (joinElems stack.reverse)
        rw [List.nil_append] at this
        rw [this, splitList_joinElems _ he (fun e h => (hrev e h).2.2.2)]
        rfl
      rw [hsplit, List.foldl_cons]
      have hp : Lexical.push ⟨(Separator :: joinElems stack.reverse).head? = some Separator, 0, []⟩
          [] = ⟨true, 0, []⟩ := by simp [Lexical.push]
      rw [hp, Lexical.foldl_push_proper _ hrev]
      simp
  | false =>
    simp only [Lexical.render, Bool.false_eq_true, if_false]
    by_cases he : joinElems (List.replicate up dotdot ++ stack.reverse) = []
    · rw [if_pos he]
      have h0 := joinElems_eq_nil _ (fun e h => (hall e h).1) he
      have hu0 : up = 0 := by
        cases up with
        | zero => rfl
        | succ n => simp [List.replicate_succ] at h0
      have hs0 : stack = [] := by
        subst hu0
        simpa using h0
      subst hu0 hs0
      decide
    · rw [if_neg he]
      have hne : List.replicate up dotdot ++ stack.reverse ≠ [] := by
        intro h0
        rw [h0] at he
        exact he rfl
      unfold lexical
      have hh : ((joinElems (List.replicate up dotdot ++ stack.reverse)).head? =
          some Separator) = False := by
        simpa using head_joinElems _ hall
      rw [splitList_joinElems _ hne (fun e h => (hall e h).2), List.foldl_append]
      simp only [hh, decide_False]
      rw [Lexical.foldl_push_dotdot, Lexical.foldl_push_proper _ hrev]
      simp

/-- Cleaning a path does not change its lexical form. -/
theorem lexical_Clean (s : Bytes) : lexical (Clean s) = lexical s :=
  lexical_render _ (lexical_normal s)

theorem Lexical.render_ne_nil (l : Lexical) : l.render ≠ [] := by
  unfold Lexical.render
  by_cases hr : l.rooted = true
  · simp [hr]
  · simp only [hr, if_false]
    by_cases he : joinElems (List.replicate l.up dotdot ++ l.stack.reverse) = []
    · rw [if_pos he]; simp [dot]
    · rw [if_neg he]; exact he

theorem Clean_ne_nil (s : Bytes) : Clean s ≠ [] := Lexical.render_ne_nil _

/-- The lexical form of two paths joined by a separator. -/
theorem lexical_append {x : Bytes} (hx : x ≠ []) (y : Bytes) :
    lexical (x ++ Separator :: y) = (splitList y).foldl Lexical.push (lexical x) := by
  unfold lexical
  rw [splitList_append, List.foldl_append]
  cases x with
  | nil => exact absurd rfl hx
  | cons c cs => rfl

theorem Join_pair {x : Bytes} (hx : x ≠ []) (y : Bytes) :
    Join [x, y] = Clean (x ++ Separator :: y) := by
  cases x with
  | nil => exact absurd rfl hx
  | cons c cs => simp [Join, joinElems]

/-- The lexical form of `Join(x, y)` for a non-empty `x`: the elements of `y`
after those of `x`. -/
theorem lexical_Join_pair {x : Bytes} (hx : x ≠ []) (y : Bytes) :
    lexical (Join [x, y]) = (splitList y).foldl Lexical.push (lexical x) := by
  rw [Join_pair hx, lexical_Clean, lexical_append hx]

end filepath

/-! ## Facts about the file system -/

namespace os

theorem lookup_setEntry_self (es : List (Bytes × Node)) (c : Bytes) (v : Node) :
    (setEntry es c v).lookup c = some v := by
  induction es with
  | nil => simp [setEntry, List.lookup]
  | cons e rest ih =>
    obtain ⟨k, w⟩ := e
    by_cases hk : k = c
    · simp [setEntry, hk, List.lookup]
    · have hck : (c == k) = false := by simpa using fun h => hk h.symm
      simp [setEntry, hk, List.lookup, hck, ih]

theorem lookup_setEntry_ne (es : List (Bytes × Node)) {c d : Bytes} (v : Node) (h : d ≠ c) :
    (setEntry es c v).lookup d = es.lookup d := by
  induction es with
  | nil =>
    have hdc : (d == c) = false := by simpa using h
    simp [setEntry, List.lookup, hdc]
  | cons e rest ih =>
    obtain ⟨k, w⟩ := e
    by_cases hk : k = c
    · have hdk : (d == k) = false := by simpa [hk] using h
      simp [setEntry, hk, List.lookup, hdk]
      rw [← hk, hdk]
    · by_cases hdk : d = k
      · simp [setEntry, hk, List.lookup, hdk]
      · have hdk2 : (d == k) = false := by simpa using hdk
        simp [setEntry, hk, List.lookup, hdk2, ih]

theorem lookup_eraseEntry_self (es : List (Bytes × Node)) (c : Bytes) :
    (eraseEntry es c).lookup c = none := by
  induction es with
  | nil => rfl
  | cons e rest ih =>
    obtain ⟨k, w⟩ := e
    by_cases hk : k = c
    · simpa [eraseEntry, List.filter, hk] using ih
    · have hck : (c == k) = false := by simpa using fun h => hk h.symm
      simp only [eraseEntry, List.filter, hk, ne_eq, not_false_eq_true, decide_True,
        List.lookup, hck]
      exact ih

theorem lookup_eraseEntry_ne (es : List (Bytes × Node)) {c d : Bytes} (h : d ≠ c) :
    (eraseEntry es c).lookup d = es.lookup d := by
  induction es with
  | nil => rfl
  | cons e rest ih =>
    obtain ⟨k, w⟩ := e
    by_cases hk : k = c
    · have hdk : (d == k) = false := by simpa [hk] using h
      simp only [eraseEntry, List.filter, hk, ne_eq, not_true_eq_false, decide_False,
        List.lookup]
      rw [← hk] at ih ⊢
      rw [hdk]
      simpa [eraseEntry, hk] using ih
    · simp only [eraseEntry, List.filter, hk, ne_eq, not_false_eq_true, decide_True,
        List.lookup]
      cases hdk : d == k with
      | true => rfl
      | false => exact ih

/-- After `put` at a path that exists, the new node is found there. -/
theorem Node.find_put_of_ok (new : Node) : ∀ (p : List Bytes) (n x : Node),
    n.find p = .ok x → (n.put p new).find p = .ok new
  | [], n, _, _ => by cases n <;> cases new <;> rfl
  | c :: rest, .file d, x, h => by simp [Node.find] at h
  | c :: rest, .dir es, x, h => by
    cases hl : es.lookup c with
    | none => simp [Node.find, hl] at h
    | some child =>
      simp only [Node.find, hl] at h
      simp only [Node.put, hl, Node.find, lookup_setEntry_self]
      exact Node.find_put_of_ok new rest child x h

/-- After `put` at a missing path in an existing directory, the new node is
found there. -/
theorem Node.find_put_of_parent (new : Node) : ∀ (p : List Bytes) (n : Node)
    (es0 : List (Bytes × Node)),
    n.find p = .error .ENOENT → n.find p.dropLast = .ok (.dir es0) →
    (n.put p new).find p = .ok new
  | [], _, _, h, _ => by simp [Node.find] at h
  | c :: rest, .file d, _, h, _ => by simp [Node.find] at h
  | c :: rest, .dir es, es0, h, hp => by
    cases hl : es.lookup c with
    | none =>
      cases rest with
      | nil => simp [Node.put, hl, Node.find, lookup_setEntry_self]
      | cons c2 rest2 =>
        simp [List.dropLast, Node.find, hl] at hp
    | some child =>
      simp only [Node.find, hl] at h
      cases rest with
      | nil => simp [Node.find] at h
      | cons c2 rest2 =>
        simp only [List.dropLast, Node.find, hl] at hp
        simp only [Node.put, hl, Node.find, lookup_setEntry_self]
        exact Node.find_put_of_parent new (c2 :: rest2) child es0 h hp

/-- Method `put` at a path starting with another element does not change what
is found. -/
theorem Node.find_put_head_ne (new : Node) {x y : Bytes} (hxy : x ≠ y) (xs ys : List Bytes)
    (n : Node) : (n.put (x :: xs) new).find (y :: ys) = n.find (y :: ys) := by
  cases n with
  | file d => rfl
  | dir es =>
    cases hl : es.lookup x with
    | none =>
      cases xs with
      | nil => simp [Node.put, hl, Node.find, lookup_setEntry_ne es new hxy.symm]
      | cons c2 rest2 => simp [Node.put, hl]
    | some child =>
      simp [Node.put, hl, Node.find, lookup_setEntry_ne es _ hxy.symm]

theorem Node.find_put_common (new : Node) {x y : Bytes} (hxy : x ≠ y) (xs ys : List Bytes) :
    ∀ (d : List Bytes) (n : Node),
      (n.put (d ++ x :: xs) new).find (d ++ y :: ys) = n.find (d ++ y :: ys)
  | [], n => Node.find_put_head_ne new hxy xs ys n
  | c :: d, .file _ => rfl
  | c :: d, .dir es => by
    cases hl : es.lookup c with
    | none =>
      cases hd : d ++ x :: xs with
      | nil => simp at hd
      | cons c2 rest2 => simp [Node.put, hl, hd]
    | some child =>
      have ih := Node.find_put_common new hxy xs ys d child
      rw [List.cons_append, List.cons_append]
      simp only [Node.put, hl, Node.find, lookup_setEntry_self]
      exact ih

/-- Method `put` does not change what is found at a path that parts ways with
the path written. -/
theorem Node.find_put_diverge (n new : Node) {p q : List Bytes} (h : Diverge p q) :
    (n.put p new).find q = n.find q := by
  obtain ⟨d, x, xs, y, ys, hp, hq, hxy⟩ := h
  rw [hp, hq]
  exact Node.find_put_common new hxy xs ys d n

theorem Node.find_mkdirAll_head_ne {x y : Bytes} (hxy : x ≠ y) (xs ys : List Bytes)
    (n : Node) : (n.mkdirAll (x :: xs)).find (y :: ys) = n.find (y :: ys) := by
  cases n with
  | file d => rfl
  | dir es =>
    cases hl : es.lookup x with
    | none => simp [Node.mkdirAll, hl, Node.find, lookup_setEntry_ne es _ hxy.symm]
    | some child => simp [Node.mkdirAll, hl, Node.find, lookup_setEntry_ne es _ hxy.symm]

theorem Node.find_mkdirAll_common {x y : Bytes} (hxy : x ≠ y) (xs ys : List Bytes) :
    ∀ (d : List Bytes) (n : Node),
      (n.mkdirAll (d ++ x :: xs)).find (d ++ y :: ys) = n.find (d ++ y :: ys)
  | [], n => Node.find_mkdirAll_head_ne hxy xs ys n
  | c :: d, .file _ => rfl
  | c :: d, .dir es => by
    cases hl : es.lookup c with
    | none =>
      have ih := Node.find_mkdirAll_common hxy xs ys d (.dir [])
      rw [List.cons_append, List.cons_append]
      simp only [Node.mkdirAll, hl, Node.find, lookup_setEntry_self]
      rw [ih]
      cases d with
      | nil => simp [Node.find, List.lookup]
      | cons c2 d2 => simp [Node.find, List.lookup]
    | some child =>
      have ih := Node.find_mkdirAll_common hxy xs ys d child
      rw [List.cons_append, List.cons_append]
      simp only [Node.mkdirAll, hl, Node.find, lookup_setEntry_self]
      exact ih

/-- Method `mkdirAll` does not change what is found at a path that parts ways
with the path created. -/
theorem Node.find_mkdirAll_diverge (n : Node) {p q : List Bytes} (h : Diverge p q) :
    (n.mkdirAll p).find q = n.find q := by
  obtain ⟨d, x, xs, y, ys, hp, hq, hxy⟩ := h
  rw [hp, hq]
  exact Node.find_mkdirAll_common hxy xs ys d n

theorem Node.find_remove_head_ne {x y : Bytes} (hxy : x ≠ y) (xs ys : List Bytes)
    (n : Node) : (n.remove (x :: xs)).find (y :: ys) = n.find (y :: ys) := by
  cases n with
  | file d => rfl
  | dir es =>
    cases xs with
    | nil => simp [Node.remove, Node.find, lookup_eraseEntry_ne es hxy.symm]
    | cons c2 rest2 =>
      cases hl : es.lookup x with
      | none => simp [Node.remove, hl]
      | some child => simp [Node.remove, hl, Node.find, lookup_setEntry_ne es _ hxy.symm]

theorem Node.find_remove_common {x y : Bytes} (hxy : x ≠ y) (xs ys : List Bytes) :
    ∀ (d : List Bytes) (n : Node),
      (n.remove (d ++ x :: xs)).find (d ++ y :: ys) = n.find (d ++ y :: ys)
  | [], n => Node.find_remove_head_ne hxy xs ys n
  | c :: d, .file _ => rfl
  | c :: d, .dir es => by
    have ih := Node.find_remove_common hxy xs ys d
    cases hd : d ++ x :: xs with
    | nil => simp at hd
    | cons c2 rest2 =>
      rw [hd] at ih
      rw [List.cons_append, List.cons_append, hd]
      cases hl : es.lookup c with
      | none => simp [Node.remove, hl]
      | some child =>
        simp only [Node.remove, hl, Node.find, lookup_setEntry_self]
        exact ih child

/-- Method `remove` does not change what is found at a path that parts ways
with the path removed. -/
theorem Node.find_remove_diverge (n : Node) {p q : List Bytes} (h : Diverge p q) :
    (n.remove p).find q = n.find q := by
  obtain ⟨d, x, xs, y, ys, hp, hq, hxy⟩ := h
  rw [hp, hq]
  exact Node.find_remove_common hxy xs ys d n

/-- After `remove` at a path that exists, nothing is found there. -/
theorem Node.find_remove_self : ∀ (p : List Bytes) (n x : Node), p ≠ [] →
    n.find p = .ok x → (n.remove p).find p = .error .ENOENT
  | [], _, _, h, _ => absurd rfl h
  | c :: rest, .file d, x, _, h => by simp [Node.find] at h
  | c :: rest, .dir es, x, _, h => by
    cases rest with
    | nil => simp [Node.remove, Node.find, lookup_eraseEntry_self]
    | cons c2 rest2 =>
      cases hl : es.lookup c with
      | none => simp [Node.find, hl] at h
      | some child =>
        simp only [Node.find, hl] at h
        simp only [Node.remove, hl, Node.find, lookup_setEntry_self]
        exact Node.find_remove_self (c2 :: rest2) child x (by simp) h

end os

/-! ## Facts about the paths of the storage service -/

namespace filepath

/-- Appending text without a separator to a path appends it to the last
element. -/
theorem splitList_append_right (y : Bytes) (hy : Separator ∉ y) : ∀ a : Bytes,
    ∃ init last, splitList a = init ++ [last] ∧ splitList (a ++ y) = init ++ [last ++ y] := by
  intro a
  induction a with
  | nil => exact ⟨[], [], rfl, by simpa using splitList_of_not_mem hy⟩
  | cons c rest ih =>
    obtain ⟨init, last, h1, h2⟩ := ih
    by_cases hc : c = Separator
    · refine ⟨[] :: init, last, ?_, ?_⟩
      · simp [splitList, hc, h1]
      · simp [splitList, hc, h2]
    · cases init with
      | nil =>
        refine ⟨[], c :: last, ?_, ?_⟩
        · simpa using splitList_cons_ne hc h1
        · simpa using splitList_cons_ne hc h2
      | cons i is =>
        refine ⟨(c :: i) :: is, last, ?_, ?_⟩
        · simpa using splitList_cons_ne hc h1
        · simpa using splitList_cons_ne hc h2

end filepath

namespace storage

open filepath

theorem jsonExt_not_mem : Separator ∉ jsonExt := by decide

/-- The name of a record file is an element that `Clean` keeps. -/
theorem proper_append_jsonExt {a : Bytes} (ha : Separator ∉ a) : Proper (a ++ jsonExt) := by
  have hl : (a ++ jsonExt).length = a.length + 5 := by simp [jsonExt]
  refine ⟨?_, ?_, ?_, ?_⟩
  · intro h; rw [h] at hl; simp at hl
  · intro h; rw [h] at hl; simp [dot] at hl
  · intro h; rw [h] at hl; simp [dotdot] at hl
  · intro h
    rcases List.mem_append.mp h with h | h
    · exact ha h
    · exact jsonExt_not_mem h

theorem Service.getUserStoragePath_nil (s : Service) (u : Bytes)
    (h : s.config.LocalStoragePath = []) :
    s.getUserStoragePath u = Clean (usersDir ++ Separator :: u) := by
  unfold Service.getUserStoragePath
  rw [h]
  rfl

theorem Service.getUserStoragePath_cons (s : Service) (u : Bytes) {c : Byte} {cs : Bytes}
    (h : s.config.LocalStoragePath = c :: cs) :
    s.getUserStoragePath u =
      Clean ((c :: cs) ++ Separator :: (usersDir ++ Separator :: u)) := by
  unfold Service.getUserStoragePath
  rw [h]
  rfl

theorem Service.getUserStoragePath_ne_nil (s : Service) (u : Bytes) :
    s.getUserStoragePath u ≠ [] := by
  cases hp : s.config.LocalStoragePath with
  | nil => rw [s.getUserStoragePath_nil u hp]; exact Clean_ne_nil _
  | cons c cs => rw [s.getUserStoragePath_cons u hp]; exact Clean_ne_nil _

/-- The lexical form of the directory of a user: the elements of the user id
below the directory `users` in the storage path. -/
theorem Service.lexical_getUserStoragePath (s : Service) (u : Bytes) :
    lexical (s.getUserStoragePath u) =
      (splitList u).foldl Lexical.push ((lexical s.config.LocalStoragePath).push usersDir) := by
  have hu : usersDir ≠ [] := by decide
  have hsu : splitList usersDir = [usersDir] := by decide
  cases hp : s.config.LocalStoragePath with
  | nil =>
    rw [s.getUserStoragePath_nil u hp, lexical_Clean]
    exact lexical_append hu u
  | cons c cs =>
    rw [s.getUserStoragePath_cons u hp, lexical_Clean, lexical_append (by simp),
      splitList_append, hsu]
    rfl

/-- The lexical form of the name of a record file. -/
theorem Service.lexical_filePath (s : Service) (u a : Bytes) :
    lexical (s.filePath u a) =
      (splitList (a ++ jsonExt)).foldl Lexical.push (lexical (s.getUserStoragePath u)) :=
  lexical_Join_pair (s.getUserStoragePath_ne_nil u) _

end storage

namespace os

open filepath

theorem FS.resolve_eq (fs : FS) (name : Bytes) : fs.resolve name = fs.locate (lexical name) := rfl

theorem FS.locate_push (fs : FS) (l : Lexical) {e : Bytes} (h : Proper e) :
    fs.locate (l.push e) = fs.locate l ++ [e] := by
  rw [Lexical.push_proper l h]
  unfold FS.locate
  by_cases hr : l.rooted = true <;> simp [hr]

theorem FS.locate_push_ne_nil (fs : FS) (l : Lexical) {e : Bytes} (h : Proper e) :
    fs.locate (l.push e) ≠ [] := by
  rw [FS.locate_push fs l h]
  simp

end os

namespace storage

open filepath

/-- The place of a record file with a separator-free article id: the file
`articleID.json` in the directory of the user. -/
theorem Service.resolve_filePath (s : Service) (fs : os.FS) (u : Bytes) {a : Bytes}
    (ha : Separator ∉ a) :
    fs.resolve (s.filePath u a) = fs.resolve (s.getUserStoragePath u) ++ [a ++ jsonExt] := by
  have hp := proper_append_jsonExt ha
  rw [os.FS.resolve_eq, os.FS.resolve_eq, s.lexical_filePath, splitList_of_not_mem hp.2.2.2]
  exact os.FS.locate_push fs _ hp

/-- The place of the directory of a user whose id is a proper element: the
directory `userID` in the directory `users`. -/
theorem Service.resolve_getUserStoragePath (s : Service) (fs : os.FS) {u : Bytes}
    (hu : Proper u) : fs.resolve (s.getUserStoragePath u) = s.usersPlace fs ++ [u] := by
  rw [os.FS.resolve_eq, s.lexical_getUserStoragePath, splitList_of_not_mem hu.2.2.2]
  exact os.FS.locate_push fs _ hu

/-- The place of a record file is never the root. -/
theorem Service.resolve_filePath_ne_nil (s : Service) (fs : os.FS) (u a : Bytes) :
    fs.resolve (s.filePath u a) ≠ [] := by
  obtain ⟨init, last, _, h2⟩ := splitList_append_right jsonExt jsonExt_not_mem a
  have hl : Separator ∉ last := by
    have := not_mem_of_mem_splitList (a ++ jsonExt) (last ++ jsonExt) (by simp [h2])
    intro h
    exact this (List.mem_append.mpr (Or.inl h))
  rw [os.FS.resolve_eq, s.lexical_filePath, h2, List.foldl_append]
  exact os.FS.locate_push_ne_nil fs _ (proper_append_jsonExt hl)

end storage
namespace json.plain

theorem decFrom_string (s : Bytes) : ∀ (tail : Bytes) (l : List Bytes) (r : Bytes),
    decFrom false tail = some (l, r) →
    decFrom false (s.flatMap (fun b => [1, b]) ++ 2 :: tail) = some (s :: l, r) := by
  induction s with
  | nil =>
    intro tail l r h
    simp only [List.flatMap_nil, List.nil_append]
    rw [decFrom, if_neg (by decide), if_pos rfl, h]
  | cons b rest ih =>
    intro tail l r h
    have := ih tail l r h
    simp only [List.flatMap_cons, List.cons_append, List.nil_append, List.append_assoc]
    rw [decFrom, if_neg (by decide), if_neg (by decide), decFrom, this]

theorem decList_encList (l : List Bytes) (rest : Bytes) :
    decList (encList l ++ rest) = some (l, rest) := by
  unfold decList
  induction l with
  | nil =>
    simp only [encList, List.flatMap_nil, List.nil_append, List.cons_append]
    rw [decFrom, if_pos rfl]
  | cons s l ih =>
    have h := decFrom_string s (encList l ++ rest) l rest ih
    simpa [encList, List.flatMap_cons, List.append_assoc] using h

theorem decAll_encList (l : List Bytes) : decAll (encList l) = some l := by
  have := decList_encList l []
  rw [List.append_nil] at this
  simp [decAll, this]

theorem decNat_encNatAux : ∀ (fuel n : Nat), n ≤ fuel → decNat (encNatAux fuel n) = n := by
  intro fuel
  induction fuel with
  | zero =>
    intro n h
    have : n = 0 := by omega
    subst this
    rfl
  | succ f ih =>
    intro n h
    by_cases h0 : n = 0
    · subst h0
      rfl
    · have hlt : n % 256 < 256 := Nat.mod_lt _ (by decide)
      have := ih (n / 256) (by omega)
      simp only [encNatAux, if_neg h0, decNat, this, Fin.ofNat, Nat.mod_mod]
      omega

theorem decNat_encNat (n : Nat) : decNat (encNat n) = n :=
  decNat_encNatAux n n (Nat.le_refl n)

theorem decInt_encInt (i : Int) : decInt (encInt i) = some i := by
  unfold encInt decInt
  simp only [decNat_encNat]
  by_cases h : i < 0
  · simp only [h, if_true, Option.some.injEq]
    omega
  · simp only [h, if_false, Option.some.injEq]
    rw [if_neg (by decide)]
    omega

theorem decTime_encTime (t : time.Time) : decTime (encTime t) = some t := by
  simp [decTime, encTime, decAll_encList, decInt_encInt, decNat_encNat]

theorem decTags_encTags (t : Option (List Bytes)) : decTags (encTags t) = some t := by
  cases t with
  | none => rfl
  | some l => simp [encTags, decTags, decAll_encList]

theorem pairs_flatten (l : List (Bytes × Bytes)) : pairs (flatten l) = some l := by
  induction l with
  | nil => rfl
  | cons e rest ih =>
    obtain ⟨k, v⟩ := e
    simp [flatten, pairs, ih]

theorem decMetadata_encMetadata (m : Option (List (Bytes × Bytes))) :
    decMetadata (encMetadata m) = some m := by
  cases m with
  | none => rfl
  | some l => simp [encMetadata, decMetadata, decAll_encList, pairs_flatten]

theorem Unmarshal_encode (r : storage.ArticleContent) : Unmarshal (encode r) = .ok r := by
  obtain ⟨a1, a2, a3, a4, a5, a6, a7, a8, a9, a10, e⟩ := r
  simp only [Unmarshal, encode, decAll_encList, decTags_encTags, decMetadata_encMetadata,
    decTime_encTime]
  cases e <;> simp

end json.plain

/-- The stand-in codec meets the laws assumed of `encoding/json`. -/
theorem json.plainCodec_lawful : json.plainCodec.Lawful where
  unmarshal_marshal := by
    intro r b h
    cases h
    exact json.plain.Unmarshal_encode r
  normal_unmarshal := by
    intro b r _
    rfl
  str_ascii := by
    intro s _
    rfl
  marshal_ok := by
    intro r _ _
    exact ⟨_, rfl⟩
  okTime_unmarshal := by
    intro b r _
    exact ⟨rfl, rfl⟩

/-! ## Facts about the file operations -/

namespace os

/-- Method `mkdirAll` does not change what is found below the path created. -/
theorem Node.find_mkdirAll_append (c : Bytes) (q : List Bytes) : ∀ (p : List Bytes) (n : Node),
    (n.mkdirAll p).find (p ++ c :: q) = n.find (p ++ c :: q)
  | [], n => by cases n <;> rfl
  | x :: rest, .file _ => rfl
  | x :: rest, .dir es => by
    cases hl : es.lookup x with
    | none =>
      have ih := Node.find_mkdirAll_append c q rest (.dir [])
      rw [List.cons_append]
      simp only [Node.mkdirAll, hl, Node.find, lookup_setEntry_self]
      rw [ih]
      cases rest <;> simp [Node.find, List.lookup]
    | some child =>
      have ih := Node.find_mkdirAll_append c q rest child
      rw [List.cons_append]
      simp only [Node.mkdirAll, hl, Node.find, lookup_setEntry_self]
      exact ih

/-- A path that parts ways with `p ++ [x]` parts ways with `p` or lies below
`p`. -/
theorem Diverge.of_concat {p q : List Bytes} {x : Bytes} (h : Diverge (p ++ [x]) q) :
    Diverge p q ∨ ∃ y ys, q = p ++ y :: ys ∧ x ≠ y := by
  obtain ⟨d, x1, xs, y, ys, h1, h2, hne⟩ := h
  rcases List.eq_nil_or_concat xs with hx | ⟨xs1, z, hx⟩
  · subst hx
    have h3 : p ++ [x] = d ++ [x1] := h1
    obtain ⟨h4, h5⟩ := List.append_inj' h3 rfl
    right
    refine ⟨y, ys, ?_, ?_⟩
    · rw [h4]; exact h2
    · simp only [List.cons.injEq, and_true] at h5
      rw [h5]; exact hne
  · subst hx
    have h3 : p ++ [x] = (d ++ x1 :: xs1) ++ [z] := by
      rw [h1]; simp
    obtain ⟨h4, _⟩ := List.append_inj' h3 rfl
    left
    exact ⟨d, x1, xs1, y, ys, h4, h2, hne⟩

theorem Diverge.concat {p q : List Bytes} (x : Bytes) (h : Diverge p q) :
    Diverge (p ++ [x]) q := by
  obtain ⟨d, x1, xs, y, ys, h1, h2, hne⟩ := h
  exact ⟨d, x1, xs ++ [x], y, ys, by rw [h1]; simp, h2, hne⟩

theorem Diverge.symm {p q : List Bytes} (h : Diverge p q) : Diverge q p := by
  obtain ⟨d, x1, xs, y, ys, h1, h2, hne⟩ := h
  exact ⟨d, y, ys, x1, xs, h2, h1, Ne.symm hne⟩

/-- Method `mkdirAll` on `p` does not change what is found at a path that
parts ways with `p ++ [x]`. -/
theorem Node.find_mkdirAll_concat (n : Node) {p q : List Bytes} {x : Bytes}
    (h : Diverge (p ++ [x]) q) : (n.mkdirAll p).find q = n.find q := by
  rcases h.of_concat with h1 | ⟨y, ys, h1, _⟩
  · exact Node.find_mkdirAll_diverge n h1
  · rw [h1]; exact Node.find_mkdirAll_append y ys p n

/-- A walk that fails keeps failing in the same way when the path is
extended. -/
theorem Node.find_append_error (q : List Bytes) : ∀ (p : List Bytes) (n : Node) (e : Errno),
    n.find p = .error e → n.find (p ++ q) = .error e
  | [], n, e, h => by simp [Node.find] at h
  | c :: rest, .file _, e, h => by simpa [Node.find] using h
  | c :: rest, .dir es, e, h => by
    cases hl : es.lookup c with
    | none => simpa [Node.find, hl] using h
    | some child =>
      simp only [Node.find, hl] at h
      simp only [List.cons_append, Node.find, hl]
      exact Node.find_append_error q rest child e h

/-- Method `mkdirAll` on a beginning of `p` does not change what is found at
a path that parts ways with `p ++ [x]`. -/
theorem Node.find_mkdirAll_prefix (n : Node) {p q t : List Bytes} {x : Bytes} (hq : q <+: p)
    (h : Diverge (p ++ [x]) t) : (n.mkdirAll q).find t = n.find t := by
  obtain ⟨r, hr⟩ := hq
  obtain ⟨d, x1, xs, y, ys, h1, h2, hne⟩ := h
  have h3 : q ++ (r ++ [x]) = d ++ x1 :: xs := by rw [← List.append_assoc, hr, h1]
  rcases List.append_eq_append_iff.mp h3 with ⟨a, ha1, ha2⟩ | ⟨c, hc1, hc2⟩
  · rw [h2, ha1, List.append_assoc]
    cases a with
    | nil => exact Node.find_mkdirAll_append y ys q n
    | cons z zs => exact Node.find_mkdirAll_append z (zs ++ y :: ys) q n
  · cases c with
    | nil =>
      rw [List.append_nil] at hc1
      rw [h2, ← hc1]
      exact Node.find_mkdirAll_append y ys q n
    | cons z zs =>
      simp only [List.cons_append, List.cons.injEq] at hc2
      apply Node.find_mkdirAll_diverge
      refine ⟨d, x1, zs, y, ys, ?_, h2, hne⟩
      rw [hc1, hc2.1]

theorem statNotExist_of_nul {fs : FS} {name : Bytes} (h : (0 : Byte) ∈ name) :
    statNotExist fs name = false := by
  unfold statNotExist Stat
  rw [if_pos h]
  rfl

theorem statNotExist_of_ok {fs : FS} {name : Bytes} {x : Node} (hv : (0 : Byte) ∉ name)
    (h : fs.root.find (fs.resolve name) = .ok x) : statNotExist fs name = false := by
  unfold statNotExist Stat
  rw [if_neg hv, h]
  cases x <;> rfl

theorem statNotExist_of_error {fs : FS} {name : Bytes} {e : Errno} (hv : (0 : Byte) ∉ name)
    (h : fs.root.find (fs.resolve name) = .error e) :
    statNotExist fs name = decide (e = .ENOENT) := by
  unfold statNotExist Stat
  rw [if_neg hv, h]
  cases e <;> rfl

theorem ReadFile_of_nul {fs : FS} {name : Bytes} (h : (0 : Byte) ∈ name) :
    ReadFile fs name = .error (.pathError "open" .EINVAL) := by
  unfold ReadFile
  rw [if_pos h]

theorem ReadFile_of_file {fs : FS} {name d : Bytes} (hv : (0 : Byte) ∉ name)
    (h : fs.root.find (fs.resolve name) = .ok (.file d)) : ReadFile fs name = .ok d := by
  unfold ReadFile
  rw [if_neg hv, h]

theorem ReadFile_of_dir {fs : FS} {name : Bytes} {es : List (Bytes × Node)}
    (hv : (0 : Byte) ∉ name) (h : fs.root.find (fs.resolve name) = .ok (.dir es)) :
    ReadFile fs name = .error (.pathError "read" .EISDIR) := by
  unfold ReadFile
  rw [if_neg hv, h]

theorem ReadFile_of_error {fs : FS} {name : Bytes} {e : Errno} (hv : (0 : Byte) ∉ name)
    (h : fs.root.find (fs.resolve name) = .error e) :
    ReadFile fs name = .error (.pathError "open" e) := by
  unfold ReadFile
  rw [if_neg hv, h]

/-- A name that can be written has no NUL byte. -/
theorem not_nul_of_writable {fs : FS} {name : Bytes} (h : writable fs name = true) :
    (0 : Byte) ∉ name := by
  intro h0
  unfold writable at h
  rw [if_pos h0] at h
  exact Bool.noConfusion h

/-- The file system after `WriteFile`: unchanged after an error, the file put
in place after a success. -/
theorem WriteFile_cases (fs : FS) (name data : Bytes) :
    (∃ e, WriteFile fs name data = (some e, fs) ∧ writable fs name = false) ∨
      (WriteFile fs name data =
          (none, { fs with root := fs.root.put (fs.resolve name) (.file data) }) ∧
        writable fs name = true ∧
        (fs.root.put (fs.resolve name) (.file data)).find (fs.resolve name) =
          .ok (.file data)) := by
  unfold WriteFile writable
  dsimp only
  by_cases hv : (0 : Byte) ∈ name
  · rw [if_pos hv, if_pos hv]
    exact Or.inl ⟨_, rfl, rfl⟩
  · rw [if_neg hv, if_neg hv]
    cases h : fs.root.find (fs.resolve name) with
    | ok x =>
      cases x with
      | file d => exact Or.inr ⟨rfl, rfl, Node.find_put_of_ok _ _ _ _ h⟩
      | dir es => exact Or.inl ⟨_, rfl, rfl⟩
    | error e =>
      cases e with
      | ENOENT =>
        cases hp : fs.root.find (fs.resolve name).dropLast with
        | ok x =>
          cases x with
          | file d => exact Or.inl ⟨_, rfl, rfl⟩
          | dir es => exact Or.inr ⟨rfl, rfl, Node.find_put_of_parent _ _ _ es h hp⟩
        | error e2 => exact Or.inl ⟨_, rfl, rfl⟩
      | ENOTDIR => exact Or.inl ⟨_, rfl, rfl⟩
      | EISDIR => exact Or.inl ⟨_, rfl, rfl⟩
      | ENOTEMPTY => exact Or.inl ⟨_, rfl, rfl⟩
      | EBUSY => exact Or.inl ⟨_, rfl, rfl⟩
      | EINVAL => exact Or.inl ⟨_, rfl, rfl⟩

/-- The file system after `MkdirAll`: unchanged after an error for a regular
file in the way; directories created along a beginning of the path after the
error for a name with a NUL byte; the directories created after a success. -/
theorem MkdirAll_cases (fs : FS) (name : Bytes) :
    (∃ e, MkdirAll fs name = (some e, fs) ∧
        (fs.root.blocked (fs.resolve name) = true ∨ (0 : Byte) ∈ name)) ∨
      (∃ e q, MkdirAll fs name = (some e, { fs with root := fs.root.mkdirAll q }) ∧
        q <+: fs.resolve name ∧ (0 : Byte) ∈ name) ∨
      (MkdirAll fs name = (none, { fs with root := fs.root.mkdirAll (fs.resolve name) }) ∧
        fs.root.blocked (fs.resolve name) = false ∧ (0 : Byte) ∉ name) := by
  unfold MkdirAll
  dsimp only
  by_cases hv : (0 : Byte) ∈ name
  · rw [if_pos hv]
    cases h : fs.root.blocked
        ((fs.resolve name).takeWhile (fun e => decide ((0 : Byte) ∉ e))) with
    | true => exact Or.inl ⟨_, rfl, Or.inr hv⟩
    | false =>
      exact Or.inr (Or.inl ⟨_, _, rfl, List.takeWhile_prefix _, hv⟩)
  · rw [if_neg hv]
    cases h : fs.root.blocked (fs.resolve name) with
    | true => exact Or.inl ⟨_, rfl, Or.inl rfl⟩
    | false => exact Or.inr (Or.inr ⟨rfl, rfl, hv⟩)

/-- The file system after `Remove`. -/
theorem Remove_cases (fs : FS) (name : Bytes) :
    (∃ e, Remove fs name = (some e, fs)) ∨
      (Remove fs name = (none, { fs with root := fs.root.remove (fs.resolve name) }) ∧
        fs.resolve name ≠ [] ∧ (∃ x, fs.root.find (fs.resolve name) = .ok x) ∧
        (0 : Byte) ∉ name) := by
  unfold Remove
  dsimp only
  by_cases hv : (0 : Byte) ∈ name
  · rw [if_pos hv]
    exact Or.inl ⟨_, rfl⟩
  · rw [if_neg hv]
    cases h : fs.root.find (fs.resolve name) with
    | error e => exact Or.inl ⟨_, rfl⟩
    | ok x =>
      cases x with
      | file d =>
        by_cases hp : fs.resolve name = []
        · left; exact ⟨.pathError "remove" .EBUSY, by simp only [if_pos hp]⟩
        · right; exact ⟨by simp only [if_neg hp], hp, ⟨_, rfl⟩, hv⟩
      | dir es =>
        by_cases hp : fs.resolve name = []
        · left; exact ⟨.pathError "remove" .EBUSY, by simp only [if_pos hp]⟩
        · by_cases he : es.isEmpty = true
          · right; exact ⟨by simp only [if_neg hp, if_pos he], hp, ⟨_, rfl⟩, hv⟩
          · left; exact ⟨.pathError "remove" .ENOTEMPTY, by simp only [if_neg hp, if_neg he]⟩

/-- Function `Remove` on a regular file that is not the root. -/
theorem Remove_of_file {fs : FS} {name d : Bytes} (hv : (0 : Byte) ∉ name)
    (h : fs.root.find (fs.resolve name) = .ok (.file d)) (hp : fs.resolve name ≠ []) :
    Remove fs name = (none, { fs with root := fs.root.remove (fs.resolve name) }) := by
  unfold Remove
  dsimp only
  rw [if_neg hv, h]
  simp only [if_neg hp]

theorem Remove_of_nul {fs : FS} {name : Bytes} (h : (0 : Byte) ∈ name) :
    Remove fs name = (some (.pathError "remove" .EINVAL), fs) := by
  unfold Remove
  dsimp only
  rw [if_pos h]

/-- A name that the system accepts has no NUL byte. -/
theorem accepted.not_nul {name : Bytes} (h : accepted name) : (0 : Byte) ∉ name := h.1

end os

/-! ## The storage service -/

namespace storage

open filepath

theorem FS.resolve_root (fs : os.FS) (root : os.Node) (name : Bytes) :
    os.FS.resolve { fs with root := root } name = fs.resolve name := rfl

theorem Service.GetContent_snd (s : Service) (fs : os.FS) (u a : Bytes) :
    (s.GetContent fs u a).2 = fs := by
  unfold Service.GetContent
  dsimp only
  split
  · rfl
  · split <;> rfl

theorem Service.GetContent_of_file (s : Service) {fs : os.FS} {u a d : Bytes}
    (hv : (0 : Byte) ∉ s.filePath u a)
    (h : fs.root.find (fs.resolve (s.filePath u a)) = .ok (.file d)) :
    s.GetContent fs u a = ((d, none), fs) := by
  have h1 : os.statNotExist fs (s.filePath u a) = false := os.statNotExist_of_ok hv h
  have h2 : os.ReadFile fs (s.filePath u a) = .ok d := os.ReadFile_of_file hv h
  unfold Service.filePath at h1 h2
  simp only [Service.GetContent, h1, h2, Bool.false_eq_true, if_false]

theorem Service.GetContent_of_dir (s : Service) {fs : os.FS} {u a : Bytes}
    {es : List (Bytes × os.Node)} (hv : (0 : Byte) ∉ s.filePath u a)
    (h : fs.root.find (fs.resolve (s.filePath u a)) = .ok (.dir es)) :
    s.GetContent fs u a =
      (([], some (.wrap "failed to read file" (.pathError "read" .EISDIR))), fs) := by
  have h1 : os.statNotExist fs (s.filePath u a) = false := os.statNotExist_of_ok hv h
  have h2 := os.ReadFile_of_dir hv h
  unfold Service.filePath at h1 h2
  simp only [Service.GetContent, h1, h2, Bool.false_eq_true, if_false]

theorem Service.GetContent_of_enoent (s : Service) {fs : os.FS} {u a : Bytes}
    (hv : (0 : Byte) ∉ s.filePath u a)
    (h : fs.root.find (fs.resolve (s.filePath u a)) = .error .ENOENT) :
    s.GetContent fs u a = (([], some (.errorfArg "article not found" a)), fs) := by
  have h1 : os.statNotExist fs (s.filePath u a) = true := by
    rw [os.statNotExist_of_error hv h]; rfl
  unfold Service.filePath at h1
  simp only [Service.GetContent, h1, if_true]

theorem Service.GetContent_of_error (s : Service) {fs : os.FS} {u a : Bytes} {e : Errno}
    (hv : (0 : Byte) ∉ s.filePath u a)
    (h : fs.root.find (fs.resolve (s.filePath u a)) = .error e) (he : e ≠ .ENOENT) :
    s.GetContent fs u a =
      (([], some (.wrap "failed to read file" (.pathError "open" e))), fs) := by
  have h1 : os.statNotExist fs (s.filePath u a) = false := by
    rw [os.statNotExist_of_error hv h]; simp [he]
  have h2 := os.ReadFile_of_error hv h
  unfold Service.filePath at h1 h2
  simp only [Service.GetContent, h1, h2, Bool.false_eq_true, if_false]

/-- Function `GetContent` for a record file whose name has a NUL byte: the
error of the read, on any file system. -/
theorem Service.GetContent_of_nul (s : Service) {fs : os.FS} {u a : Bytes}
    (hv : (0 : Byte) ∈ s.filePath u a) :
    s.GetContent fs u a =
      (([], some (.wrap "failed to read file" (.pathError "open" .EINVAL))), fs) := by
  have h1 : os.statNotExist fs (s.filePath u a) = false := os.statNotExist_of_nul hv
  have h2 := @os.ReadFile_of_nul fs _ hv
  unfold Service.filePath at h1 h2
  simp only [Service.GetContent, h1, h2, Bool.false_eq_true, if_false]

/-- What `GetContent` returns depends only on what is found at the place of
the record file. -/
theorem Service.GetContent_congr (s : Service) {fs fs2 : os.FS} (u a : Bytes)
    (hc : fs2.cwd = fs.cwd)
    (hf : fs2.root.find (fs.resolve (s.filePath u a)) =
      fs.root.find (fs.resolve (s.filePath u a))) :
    (s.GetContent fs2 u a).1 = (s.GetContent fs u a).1 := by
  have hr : fs2.resolve (s.filePath u a) = fs.resolve (s.filePath u a) := by
    unfold os.FS.resolve; rw [hc]
  rw [← hr] at hf
  by_cases hv : (0 : Byte) ∈ s.filePath u a
  · rw [s.GetContent_of_nul hv, s.GetContent_of_nul hv]
  cases h : fs.root.find (fs.resolve (s.filePath u a)) with
  | ok x =>
    have h2 := hf
    rw [hr] at h2
    rw [h] at h2
    rw [← hr] at h2
    cases x with
    | file d => rw [s.GetContent_of_file hv h, s.GetContent_of_file hv h2]
    | dir es => rw [s.GetContent_of_dir hv h, s.GetContent_of_dir hv h2]
  | error e =>
    have h2 := hf
    rw [hr] at h2
    rw [h] at h2
    rw [← hr] at h2
    by_cases he : e = .ENOENT
    · subst he
      rw [s.GetContent_of_enoent hv h, s.GetContent_of_enoent hv h2]
    · rw [s.GetContent_of_error hv h he, s.GetContent_of_error hv h2 he]

theorem stamp_fields (r : ArticleContent) (now1 now2 : time.Time) (u a : Bytes) :
    (stamp r now1 now2 u a).Content = r.Content ∧ (stamp r now1 now2 u a).Summary = r.Summary ∧
      (stamp r now1 now2 u a).Title = r.Title ∧ (stamp r now1 now2 u a).URL = r.URL ∧
      (stamp r now1 now2 u a).Tags = r.Tags ∧ (stamp r now1 now2 u a).Metadata = r.Metadata ∧
      (stamp r now1 now2 u a).IsEncrypted = r.IsEncrypted ∧
      (stamp r now1 now2 u a).ID = a ∧ (stamp r now1 now2 u a).UserID = u := by
  unfold stamp
  split <;> exact ⟨rfl, rfl, rfl, rfl, rfl, rfl, rfl, rfl, rfl⟩

/-- The outcomes of `SaveContent`: an error with the empty path, the file
system unchanged but for directories created along a beginning of the path of
the user directory; or the record stamped, serialized and written to the
record file. -/
theorem Service.SaveContent_cases (J : json.Codec) (s : Service) (fs : os.FS)
    (now1 now2 : time.Time) (u a content : Bytes) :
    (∃ e, (s.SaveContent J fs now1 now2 u a content).1 = ([], some e) ∧
        ((s.SaveContent J fs now1 now2 u a content).2 = fs ∨
          ∃ q, q <+: fs.resolve (s.getUserStoragePath u) ∧
            (s.SaveContent J fs now1 now2 u a content).2 =
              { fs with root := fs.root.mkdirAll q })) ∨
      ∃ r b, J.Unmarshal content = .ok r ∧ J.Marshal (stamp r now1 now2 u a) = .ok b ∧
        fs.root.blocked (fs.resolve (s.getUserStoragePath u)) = false ∧
        (0 : Byte) ∉ s.getUserStoragePath u ∧
        os.writable { fs with root := fs.root.mkdirAll (fs.resolve (s.getUserStoragePath u)) }
          (s.filePath u a) = true ∧
        s.SaveContent J fs now1 now2 u a content =
          ((s.filePath u a, none),
            { fs with root := ((fs.root.mkdirAll (fs.resolve (s.getUserStoragePath u))).put
                (fs.resolve (s.filePath u a)) (.file b)) }) ∧
        ((fs.root.mkdirAll (fs.resolve (s.getUserStoragePath u))).put
          (fs.resolve (s.filePath u a)) (.file b)).find (fs.resolve (s.filePath u a)) =
            .ok (.file b) := by
  cases hU : J.Unmarshal content with
  | error e =>
    have hS : s.SaveContent J fs now1 now2 u a content =
        (([], some (.wrap "failed to parse article content" e)), fs) := by
      simp only [Service.SaveContent, hU]
    left
    exact ⟨_, by rw [hS], Or.inl (by rw [hS])⟩
  | ok r =>
    rcases os.MkdirAll_cases fs (s.getUserStoragePath u) with
      ⟨e, hm, _⟩ | ⟨e, q, hm, hq, _⟩ | ⟨hm, hb, hnul⟩
    · have hS : s.SaveContent J fs now1 now2 u a content =
          (([], some (.wrap "failed to create user directory" e)), fs) := by
        simp only [Service.SaveContent, hU, hm]
      left
      exact ⟨_, by rw [hS], Or.inl (by rw [hS])⟩
    · have hS : s.SaveContent J fs now1 now2 u a content =
          (([], some (.wrap "failed to create user directory" e)),
            { fs with root := fs.root.mkdirAll q }) := by
        simp only [Service.SaveContent, hU, hm]
      left
      exact ⟨_, by rw [hS], Or.inr ⟨q, hq, by rw [hS]⟩⟩
    · have hst : (if ({ r with UserID := u, ID := a, UpdatedAt := now1 } :
            ArticleContent).CreatedAt.IsZero = true
          then { r with UserID := u, ID := a, UpdatedAt := now1, CreatedAt := now2 }
          else { r with UserID := u, ID := a, UpdatedAt := now1 }) = stamp r now1 now2 u a := rfl
      cases hM : J.Marshal (stamp r now1 now2 u a) with
      | error e =>
        have hS : s.SaveContent J fs now1 now2 u a content =
            (([], some (.wrap "failed to serialize content" e)),
              { fs with root := fs.root.mkdirAll (fs.resolve (s.getUserStoragePath u)) }) := by
          simp only [Service.SaveContent, hU, hm, hst, hM]
        left
        exact ⟨_, by rw [hS], Or.inr ⟨_, List.prefix_refl _, by rw [hS]⟩⟩
      | ok b =>
        rcases os.WriteFile_cases
          { fs with root := fs.root.mkdirAll (fs.resolve (s.getUserStoragePath u)) }
          (s.filePath u a) b with ⟨e, hw, _⟩ | ⟨hw, hwr, hfind⟩
        · unfold Service.filePath at hw
          have hS : s.SaveContent J fs now1 now2 u a content =
              (([], some (.wrap "failed to write file" e)),
                { fs with root := fs.root.mkdirAll (fs.resolve (s.getUserStoragePath u)) }) := by
            simp only [Service.SaveContent, hU, hm, hst, hM, hw]
          left
          exact ⟨_, by rw [hS], Or.inr ⟨_, List.prefix_refl _, by rw [hS]⟩⟩
        · right
          refine ⟨r, b, rfl, hM, hb, hnul, hwr, ?_, hfind⟩
          unfold Service.filePath at hw
          simp only [Service.SaveContent, hU, hm, hst, hM, hw]
          rfl

end storage

namespace storage

open filepath

/-- After a successful `SaveContent` the record file holds the serialized
stamped record, and `GetContent` returns it. -/
theorem Service.SaveContent_stored (J : json.Codec) (s : Service) (fs : os.FS)
    (now1 now2 : time.Time) (u a content : Bytes)
    (h : (s.SaveContent J fs now1 now2 u a content).1.2 = none) :
    ∃ r b, J.Unmarshal content = .ok r ∧ J.Marshal (stamp r now1 now2 u a) = .ok b ∧
      (s.SaveContent J fs now1 now2 u a content).1 = (s.filePath u a, none) ∧
      (s.SaveContent J fs now1 now2 u a content).2.root.find
        ((s.SaveContent J fs now1 now2 u a content).2.resolve (s.filePath u a)) =
          .ok (.file b) ∧
      s.GetContent (s.SaveContent J fs now1 now2 u a content).2 u a =
        ((b, none), (s.SaveContent J fs now1 now2 u a content).2) := by
  rcases s.SaveContent_cases J fs now1 now2 u a content with
    ⟨e, h1, _⟩ | ⟨r, b, hU, hM, _, _, hw, hS, hfind⟩
  · rw [h1] at h
    exact Option.noConfusion h
  · have hf : (s.SaveContent J fs now1 now2 u a content).2.root.find
        ((s.SaveContent J fs now1 now2 u a content).2.resolve (s.filePath u a)) =
          .ok (.file b) := by
      rw [hS]; exact hfind
    exact ⟨r, b, hU, hM, by rw [hS], hf, s.GetContent_of_file (os.not_nul_of_writable hw) hf⟩

/-- When `SaveContent` succeeds: the content parses, no regular file is in
the way of the directory of the user, the stamped record can be serialized
and the record file can be written. -/
theorem Service.SaveContent_ok (J : json.Codec) (s : Service) (fs : os.FS)
    (now1 now2 : time.Time) (u a content : Bytes) {r : ArticleContent} {b : Bytes}
    (hU : J.Unmarshal content = .ok r) (hM : J.Marshal (stamp r now1 now2 u a) = .ok b)
    (hb : fs.root.blocked (fs.resolve (s.getUserStoragePath u)) = false)
    (hv : (0 : Byte) ∉ s.getUserStoragePath u)
    (hw : os.writable { fs with root := fs.root.mkdirAll (fs.resolve (s.getUserStoragePath u)) }
      (s.filePath u a) = true) :
    (s.SaveContent J fs now1 now2 u a content).1.2 = none := by
  rcases s.SaveContent_cases J fs now1 now2 u a content with
    ⟨e, h1, _⟩ | ⟨r2, b2, _, _, _, _, _, hS, _⟩
  · exfalso
    rcases os.MkdirAll_cases fs (s.getUserStoragePath u) with
      ⟨e1, _, hb1 | hb1⟩ | ⟨e1, q1, _, _, hb1⟩ | ⟨hm, _⟩
    · rw [hb] at hb1
      exact Bool.noConfusion hb1
    · exact hv hb1
    · exact hv hb1
    · have hst : (if ({ r with UserID := u, ID := a, UpdatedAt := now1 } :
            ArticleContent).CreatedAt.IsZero = true
          then { r with UserID := u, ID := a, UpdatedAt := now1, CreatedAt := now2 }
          else { r with UserID := u, ID := a, UpdatedAt := now1 }) = stamp r now1 now2 u a := rfl
      rcases os.WriteFile_cases
        { fs with root := fs.root.mkdirAll (fs.resolve (s.getUserStoragePath u)) }
        (s.filePath u a) b with ⟨e2, _, hw2⟩ | ⟨hw2, _, _⟩
      · rw [hw] at hw2
        exact Bool.noConfusion hw2
      · unfold Service.filePath at hw2
        simp only [Service.SaveContent, hU, hm, hst, hM, hw2] at h1
        exact Option.noConfusion (congrArg Prod.snd h1)
  · rw [hS]

theorem Service.SaveContent_cwd (J : json.Codec) (s : Service) (fs : os.FS)
    (now1 now2 : time.Time) (u a content : Bytes) :
    (s.SaveContent J fs now1 now2 u a content).2.cwd = fs.cwd := by
  rcases s.SaveContent_cases J fs now1 now2 u a content with
    ⟨e, _, h2 | ⟨q, _, h2⟩⟩ | ⟨r, b, _, _, _, _, _, hS, _⟩
  · rw [h2]
  · rw [h2]
  · rw [hS]

/-- For a separator-free article id, `SaveContent` does not change what is
found at a path that parts ways with the place of the record file. -/
theorem Service.SaveContent_find (J : json.Codec) (s : Service) (fs : os.FS)
    (now1 now2 : time.Time) (u : Bytes) {a : Bytes} (content : Bytes) (ha : Separator ∉ a)
    {q : List Bytes} (hq : os.Diverge (fs.resolve (s.filePath u a)) q) :
    (s.SaveContent J fs now1 now2 u a content).2.root.find q = fs.root.find q := by
  have hq1 := hq
  rw [s.resolve_filePath fs u ha] at hq1
  rcases s.SaveContent_cases J fs now1 now2 u a content with
    ⟨e, _, h2 | ⟨p, hp, h2⟩⟩ | ⟨r, b, _, _, _, _, _, hS, _⟩
  · rw [h2]
  · rw [h2]
    exact os.Node.find_mkdirAll_prefix _ hp hq1
  · rw [hS]
    show ((fs.root.mkdirAll (fs.resolve (s.getUserStoragePath u))).put
      (fs.resolve (s.filePath u a)) (.file b)).find q = fs.root.find q
    rw [os.Node.find_put_diverge _ _ hq]
    exact os.Node.find_mkdirAll_concat _ hq1

/-- The outcomes of `DeleteContent`. -/
theorem Service.DeleteContent_cases (s : Service) (fs : os.FS) (u a : Bytes) :
    (∃ e, s.DeleteContent fs u a = (some e, fs)) ∨
      (s.DeleteContent fs u a =
          (none, { fs with root := fs.root.remove (fs.resolve (s.filePath u a)) }) ∧
        (∃ x, fs.root.find (fs.resolve (s.filePath u a)) = .ok x) ∧
        (0 : Byte) ∉ s.filePath u a) := by
  cases hst : os.statNotExist fs (s.filePath u a) with
  | true =>
    left
    unfold Service.filePath at hst
    exact ⟨.errorfArg "article not found" a, by simp only [Service.DeleteContent, hst, if_true]⟩
  | false =>
    rcases os.Remove_cases fs (s.filePath u a) with ⟨e, hr⟩ | ⟨hr, _, hx⟩
    · left
      unfold Service.filePath at hst hr
      exact ⟨.wrap "failed to delete file" e, by
        simp only [Service.DeleteContent, hst, Bool.false_eq_true, if_false, hr]⟩
    · right
      refine ⟨?_, hx⟩
      unfold Service.filePath at hst hr
      simp only [Service.DeleteContent, hst, Bool.false_eq_true, if_false, hr]
      rfl

theorem Service.DeleteContent_of_file (s : Service) {fs : os.FS} {u a d : Bytes}
    (hv : (0 : Byte) ∉ s.filePath u a)
    (h : fs.root.find (fs.resolve (s.filePath u a)) = .ok (.file d)) :
    s.DeleteContent fs u a =
      (none, { fs with root := fs.root.remove (fs.resolve (s.filePath u a)) }) := by
  have h1 : os.statNotExist fs (s.filePath u a) = false := os.statNotExist_of_ok hv h
  have h2 := os.Remove_of_file hv h (s.resolve_filePath_ne_nil fs u a)
  unfold Service.filePath at h1 h2
  simp only [Service.DeleteContent, h1, Bool.false_eq_true, if_false, h2]
  rfl

/-- Method `DeleteContent` for a record file whose name has a NUL byte: the
error of the removal, on any file system. -/
theorem Service.DeleteContent_of_nul (s : Service) {fs : os.FS} {u a : Bytes}
    (hv : (0 : Byte) ∈ s.filePath u a) :
    s.DeleteContent fs u a =
      (some (.wrap "failed to delete file" (.pathError "remove" .EINVAL)), fs) := by
  have h1 : os.statNotExist fs (s.filePath u a) = false := os.statNotExist_of_nul hv
  have h2 := @os.Remove_of_nul fs _ hv
  unfold Service.filePath at h1 h2
  simp only [Service.DeleteContent, h1, Bool.false_eq_true, if_false, h2]

theorem Service.DeleteContent_of_enoent (s : Service) {fs : os.FS} {u a : Bytes}
    (hv : (0 : Byte) ∉ s.filePath u a)
    (h : fs.root.find (fs.resolve (s.filePath u a)) = .error .ENOENT) :
    s.DeleteContent fs u a = (some (.errorfArg "article not found" a), fs) := by
  have h1 : os.statNotExist fs (s.filePath u a) = true := by
    rw [os.statNotExist_of_error hv h]; rfl
  unfold Service.filePath at h1
  simp only [Service.DeleteContent, h1, if_true]

theorem Service.DeleteContent_cwd (s : Service) (fs : os.FS) (u a : Bytes) :
    (s.DeleteContent fs u a).2.cwd = fs.cwd := by
  rcases s.DeleteContent_cases fs u a with ⟨e, h⟩ | ⟨h, _⟩ <;> rw [h]

/-- Method `DeleteContent` does not change what is found at a path that parts
ways with the place of the record file. -/
theorem Service.DeleteContent_find (s : Service) (fs : os.FS) (u a : Bytes)
    {q : List Bytes} (hq : os.Diverge (fs.resolve (s.filePath u a)) q) :
    (s.DeleteContent fs u a).2.root.find q = fs.root.find q := by
  rcases s.DeleteContent_cases fs u a with ⟨e, h⟩ | ⟨h, _⟩
  · rw [h]
  · rw [h]
    exact os.Node.find_remove_diverge _ hq

/-- The record files of two users with proper ids, for separator-free article
ids, part ways when the user ids differ. -/
theorem Service.diverge_users (s : Service) (fs : os.FS) {u1 u2 a1 a2 : Bytes}
    (h1 : Proper u1) (h2 : Proper u2) (hne : u1 ≠ u2) (ha1 : Separator ∉ a1)
    (ha2 : Separator ∉ a2) :
    os.Diverge (fs.resolve (s.filePath u1 a1)) (fs.resolve (s.filePath u2 a2)) := by
  rw [s.resolve_filePath fs u1 ha1, s.resolve_filePath fs u2 ha2,
    s.resolve_getUserStoragePath fs h1, s.resolve_getUserStoragePath fs h2]
  exact ⟨s.usersPlace fs, u1, [a1 ++ jsonExt], u2, [a2 ++ jsonExt], by simp, by simp, hne⟩

/-- The record files of one user for two separator-free article ids part ways
when the ids differ. -/
theorem Service.diverge_articles (s : Service) (fs : os.FS) (u : Bytes) {a1 a2 : Bytes}
    (hne : a1 ≠ a2) (ha1 : Separator ∉ a1) (ha2 : Separator ∉ a2) :
    os.Diverge (fs.resolve (s.filePath u a1)) (fs.resolve (s.filePath u a2)) := by
  rw [s.resolve_filePath fs u ha1, s.resolve_filePath fs u ha2]
  exact ⟨fs.resolve (s.getUserStoragePath u), a1 ++ jsonExt, [], a2 ++ jsonExt, [], rfl, rfl,
    fun h => hne (List.append_cancel_right h)⟩

end storage

/-! ## Encrypted records -/

namespace encryption

/-- Method `Decrypt` reads the user key through the base64 decoder only. -/
theorem Service.Decrypt_congr_key (s : Service) (ed : Bytes) {k1 k2 : Bytes}
    (h : base64.DecodeString k1 = base64.DecodeString k2) : s.Decrypt ed k1 = s.Decrypt ed k2 := by
  unfold Service.Decrypt Service.DeriveKey
  rw [h]

/-- A blob sealed under a decodable key, decrypted under a key that the
decoder rejects: the key-derivation error. -/
theorem Service.Decrypt_Encrypt_invalid (s : Service) {k1 k2 m1 : Bytes} (p salt nonce : Bytes)
    (h1 : base64.DecodeString k1 = some m1) (h2 : base64.DecodeString k2 = none)
    (hs : salt.length = 16) :
    s.Decrypt (s.Encrypt (some salt) (some nonce) p k1).1 k2 =
      ([], some (.wrap "failed to derive key"
        (.wrap "failed to decode master key" .corruptInput))) := by
  have hl : ¬ (salt ++ (nonce ++ cipher.gcm.output (s.aead m1 salt).cipher nonce p [])).length
      < 16 := by simp [hs]
  simp only [Service.Encrypt_eq s p salt nonce h1, Service.Decrypt,
    base64.DecodeString_EncodeToString, if_neg hl, Service.DeriveKey_invalid s _ h2]

/-- A blob sealed under a decodable key, decrypted under a decodable key
under which the recomputed tag differs from the tag in the blob: the
authentication error. -/
theorem Service.Decrypt_Encrypt_tag_ne (s : Service) {k1 k2 m1 m2 : Bytes}
    (p salt nonce : Bytes) (h1 : base64.DecodeString k1 = some m1)
    (h2 : base64.DecodeString k2 = some m2) (hs : salt.length = 16) (hn : nonce.length = 12)
    (hne : cipher.gcm.auth (s.aead m2 salt).cipher nonce []
        (cipher.gcm.counterCrypt (s.aead m1 salt).cipher nonce p) ≠
      cipher.gcm.auth (s.aead m1 salt).cipher nonce []
        (cipher.gcm.counterCrypt (s.aead m1 salt).cipher nonce p)) :
    s.Decrypt (s.Encrypt (some salt) (some nonce) p k1).1 k2 =
      ([], some (.wrap "failed to decrypt" .openFailed)) := by
  rw [Service.Encrypt_eq s p salt nonce h1, Service.Decrypt_blob s salt nonce _ h2 hs hn,
    cipher.gcm.output,
    cipher.AEAD.Open_append _ _ _ _ _ (cipher.gcm.length_auth _ (Service.aead_length s m1 salt)
      _ _ _), if_pos hne]
  rfl

/-- A blob sealed under a decodable key, decrypted under a decodable key
under which the recomputed tag equals the tag in the blob: the ciphertext
decrypted under the second key, and a nil error. -/
theorem Service.Decrypt_Encrypt_tag_eq (s : Service) {k1 k2 m1 m2 : Bytes}
    (p salt nonce : Bytes) (h1 : base64.DecodeString k1 = some m1)
    (h2 : base64.DecodeString k2 = some m2) (hs : salt.length = 16) (hn : nonce.length = 12)
    (heq : cipher.gcm.auth (s.aead m2 salt).cipher nonce []
        (cipher.gcm.counterCrypt (s.aead m1 salt).cipher nonce p) =
      cipher.gcm.auth (s.aead m1 salt).cipher nonce []
        (cipher.gcm.counterCrypt (s.aead m1 salt).cipher nonce p)) :
    s.Decrypt (s.Encrypt (some salt) (some nonce) p k1).1 k2 =
      (cipher.gcm.counterCrypt (s.aead m2 salt).cipher nonce
        (cipher.gcm.counterCrypt (s.aead m1 salt).cipher nonce p), none) := by
  rw [Service.Encrypt_eq s p salt nonce h1, Service.Decrypt_blob s salt nonce _ h2 hs hn,
    cipher.gcm.output,
    cipher.AEAD.Open_append _ _ _ _ _ (cipher.gcm.length_auth _ (Service.aead_length s m1 salt)
      _ _ _), if_neg (not_not.mpr heq)]
  rfl

/-- The blob of `Encrypt` is not empty and is ASCII text. -/
theorem Service.Encrypt_text (s : Service) {k m : Bytes} (p salt nonce : Bytes)
    (hk : base64.DecodeString k = some m) (hs : salt.length = 16) :
    (s.Encrypt (some salt) (some nonce) p k).2 = none ∧
      (s.Encrypt (some salt) (some nonce) p k).1 ≠ [] ∧
      ∀ c ∈ (s.Encrypt (some salt) (some nonce) p k).1, c.val < 128 := by
  rw [Service.Encrypt_eq s p salt nonce hk]
  refine ⟨rfl, ?_, base64.EncodeToString_ascii _⟩
  intro h
  have h2 := congrArg List.length (base64.EncodeToString_eq_nil h)
  simp [hs] at h2

end encryption

namespace storage

open filepath

/-- Method `SaveEncryptedContent` for a content that parses, a decodable key
and successful draws: the sealed record is serialized and handed to
`SaveContent`. -/
theorem Service.SaveEncryptedContent_eq (J : json.Codec) (s : Service) (fs : os.FS)
    (salt1 nonce1 salt2 nonce2 : Bytes) (now1 now2 : time.Time) (u a content k : Bytes)
    {r : ArticleContent} {m : Bytes} (hU : J.Unmarshal content = .ok r)
    (hk : base64.DecodeString k = some m) :
    s.SaveEncryptedContent J fs (some salt1) (some nonce1) (some salt2) (some nonce2) now1 now2
        u a content k =
      match J.Marshal (s.sealedRecord salt1 nonce1 salt2 nonce2 r k) with
      | .error err => (([], some (.wrap "failed to serialize encrypted content" err)), fs)
      | .ok b => s.SaveContent J fs now1 now2 u a b := by
  have h1 := encryption.Service.Encrypt_eq s.encryption r.Content salt1 nonce1 hk
  have h2 := encryption.Service.Encrypt_eq s.encryption r.Summary salt2 nonce2 hk
  unfold Service.sealedRecord sealed
  by_cases hS : r.Summary = []
  · simp only [Service.SaveEncryptedContent, hU, h1, hS, ne_eq, not_true_eq_false, if_false]
  · simp only [Service.SaveEncryptedContent, hU, h1, h2, hS, ne_eq, not_false_eq_true, if_true]

theorem Service.GetDecryptedContent_snd (J : json.Codec) (s : Service) (fs : os.FS)
    (u a k : Bytes) : (s.GetDecryptedContent J fs u a k).2 = fs := by
  have h2 := s.GetContent_snd fs u a
  unfold Service.GetDecryptedContent
  generalize s.GetContent fs u a = g at h2
  obtain ⟨⟨c, e⟩, fs1⟩ := g
  simp only at h2
  subst h2
  cases e with
  | some err => rfl
  | none =>
    dsimp only
    split
    · rfl
    · split
      · rfl
      · split
        · rfl
        · split
          · rfl
          · split <;> rfl

/-- Method `GetDecryptedContent` on a stored encrypted record whose content
the engine rejects. -/
theorem Service.GetDecryptedContent_error (J : json.Codec) (s : Service) {fs : os.FS}
    {u a k b x : Bytes} {rs : ArticleContent} {e : Error}
    (hG : s.GetContent fs u a = ((b, none), fs)) (hU : J.Unmarshal b = .ok rs)
    (hE : rs.IsEncrypted = true) (hD : s.encryption.Decrypt rs.Content k = (x, some e)) :
    s.GetDecryptedContent J fs u a k =
      (([], some (.wrap "failed to decrypt content" e)), fs) := by
  simp only [Service.GetDecryptedContent, hG, hU, hE, Bool.not_true, Bool.false_eq_true,
    if_false, hD]

/-- Method `GetDecryptedContent` on a stored encrypted record whose content
the engine opens does not return an error of the decryption of the content. -/
theorem Service.GetDecryptedContent_opened (J : json.Codec) (s : Service) {fs : os.FS}
    {u a k b pc : Bytes} {rs : ArticleContent} (e : Error)
    (hG : s.GetContent fs u a = ((b, none), fs)) (hU : J.Unmarshal b = .ok rs)
    (hE : rs.IsEncrypted = true) (hD : s.encryption.Decrypt rs.Content k = (pc, none)) :
    s.GetDecryptedContent J fs u a k ≠
      (([], some (.wrap "failed to decrypt content" e)), fs) := by
  intro h
  simp only [Service.GetDecryptedContent, hG, hU, hE, Bool.not_true, Bool.false_eq_true,
    if_false, hD] at h
  split at h
  · rename_i x err hsum
    split at hsum
    · split at hsum
      · simp only [Prod.mk.injEq, Option.some.injEq] at hsum
        rw [← hsum.2] at h
        simp only [Prod.mk.injEq, Option.some.injEq, Error.wrap.injEq, and_true, true_and] at h
        exact absurd h.1 (by decide)
      · exact Option.noConfusion (congrArg Prod.snd hsum)
    · exact Option.noConfusion (congrArg Prod.snd hsum)
  · split at h
    · simp only [Prod.mk.injEq, Option.some.injEq, Error.wrap.injEq, and_true, true_and] at h
      exact absurd h.1 (by decide)
    · exact Option.noConfusion (congrArg Prod.snd (congrArg Prod.fst h))

/-- Method `GetDecryptedContent` on a stored encrypted record whose content
and summary the engine opens. -/
theorem Service.GetDecryptedContent_ok (J : json.Codec) (s : Service) {fs : os.FS}
    {u a k b pc ps b2 : Bytes} {rs : ArticleContent}
    (hG : s.GetContent fs u a = ((b, none), fs)) (hU : J.Unmarshal b = .ok rs)
    (hE : rs.IsEncrypted = true) (hD : s.encryption.Decrypt rs.Content k = (pc, none))
    (hS : (rs.Summary = [] ∧ ps = []) ∨
      (rs.Summary ≠ [] ∧ s.encryption.Decrypt rs.Summary k = (ps, none)))
    (hM : J.Marshal (opened rs pc ps) = .ok b2) :
    s.GetDecryptedContent J fs u a k = ((b2, none), fs) := by
  unfold opened at hM
  rcases hS with ⟨h1, h2⟩ | ⟨h1, h2⟩
  · subst h2
    simp only [Service.GetDecryptedContent, hG, hU, hE, Bool.not_true, Bool.false_eq_true,
      if_false, hD, h1, ne_eq, not_true_eq_false, hM]
  · simp only [Service.GetDecryptedContent, hG, hU, hE, Bool.not_true, Bool.false_eq_true,
      if_false, hD, h1, ne_eq, not_false_eq_true, if_true, h2, hM]

end storage

namespace storage

open filepath

/-- The fields of a record that was read are not changed by a round trip. -/
theorem read_fields {J : json.Codec} (hJ : J.Lawful) {b : Bytes} {r : ArticleContent}
    (hU : J.Unmarshal b = .ok r) :
    J.str r.Content = r.Content ∧ J.str r.Summary = r.Summary ∧ J.str r.Title = r.Title ∧
      J.str r.URL = r.URL ∧ J.tags r.Tags = r.Tags ∧ J.metadata r.Metadata = r.Metadata := by
  have h := hJ.normal_unmarshal b r hU
  exact ⟨congrArg ArticleContent.Content h, congrArg ArticleContent.Summary h,
    congrArg ArticleContent.Title h, congrArg ArticleContent.URL h,
    congrArg ArticleContent.Tags h, congrArg ArticleContent.Metadata h⟩

/-- After a successful `SaveContent`, `GetContent` returns a text that
parses to the stamped record as it is read back. -/
theorem Service.SaveContent_read {J : json.Codec} (hJ : J.Lawful) (s : Service) (fs : os.FS)
    (now1 now2 : time.Time) (u a content : Bytes)
    (h : (s.SaveContent J fs now1 now2 u a content).1.2 = none) :
    ∃ r b, J.Unmarshal content = .ok r ∧
      s.GetContent (s.SaveContent J fs now1 now2 u a content).2 u a =
        ((b, none), (s.SaveContent J fs now1 now2 u a content).2) ∧
      J.Unmarshal b = .ok (J.normal (stamp r now1 now2 u a)) := by
  obtain ⟨r, b, hU, hM, _, _, hG⟩ := s.SaveContent_stored J fs now1 now2 u a content h
  exact ⟨r, b, hU, hG, hJ.unmarshal_marshal _ _ hM⟩

/-- After a successful `SaveEncryptedContent` under a decodable key,
`GetContent` returns a text that parses to a record with the flag set, the
blob of the content, the blob of the summary when there is one, and the other
fields of the record saved. -/
theorem Service.SaveEncryptedContent_stored {J : json.Codec} (hJ : J.Lawful) (s : Service)
    (fs : os.FS) (salt1 nonce1 salt2 nonce2 : Bytes) (now1 now2 : time.Time)
    (u a content k : Bytes) {r : ArticleContent} {m : Bytes}
    (hU : J.Unmarshal content = .ok r) (hk : base64.DecodeString k = some m)
    (hs1 : salt1.length = 16) (hs2 : salt2.length = 16)
    (h : (s.SaveEncryptedContent J fs (some salt1) (some nonce1) (some salt2) (some nonce2)
      now1 now2 u a content k).1.2 = none) :
    ∃ b rs,
      s.GetContent (s.SaveEncryptedContent J fs (some salt1) (some nonce1) (some salt2)
          (some nonce2) now1 now2 u a content k).2 u a =
        ((b, none), (s.SaveEncryptedContent J fs (some salt1) (some nonce1) (some salt2)
          (some nonce2) now1 now2 u a content k).2) ∧
      J.Unmarshal b = .ok rs ∧ rs.IsEncrypted = true ∧
      rs.Content = (s.encryption.Encrypt (some salt1) (some nonce1) r.Content k).1 ∧
      rs.Summary = (if r.Summary ≠ [] then
        (s.encryption.Encrypt (some salt2) (some nonce2) r.Summary k).1 else r.Summary) ∧
      rs.Title = r.Title ∧ rs.URL = r.URL ∧ rs.Tags = r.Tags ∧ rs.Metadata = r.Metadata := by
  have hEq := s.SaveEncryptedContent_eq J fs salt1 nonce1 salt2 nonce2 now1 now2 u a content k
    hU hk
  cases hM : J.Marshal (s.sealedRecord salt1 nonce1 salt2 nonce2 r k) with
  | error e =>
    rw [hM] at hEq
    rw [hEq] at h
    exact Option.noConfusion h
  | ok b1 =>
    rw [hM] at hEq
    simp only at hEq
    rw [hEq] at h ⊢
    obtain ⟨r1, b, hU1, hG, hUb⟩ := s.SaveContent_read hJ fs now1 now2 u a b1 h
    have hr1 : r1 = J.normal (s.sealedRecord salt1 nonce1 salt2 nonce2 r k) := by
      have := hJ.unmarshal_marshal _ _ hM
      rw [hU1] at this
      exact Except.ok.inj this
    obtain ⟨f1, f2, f3, f4, f5, f6⟩ := read_fields hJ hU
    obtain ⟨g1, g2, g3, g4, g5, g6⟩ := read_fields hJ hU1
    obtain ⟨t1, t2, t3, t4, t5, t6, t7, _, _⟩ := stamp_fields r1 now1 now2 u a
    have e1 := (encryption.Service.Encrypt_text s.encryption r.Content salt1 nonce1 hk hs1).2.2
    have e2 := (encryption.Service.Encrypt_text s.encryption r.Summary salt2 nonce2 hk hs2).2.2
    have c1 : r1.Content = (s.encryption.Encrypt (some salt1) (some nonce1) r.Content k).1 := by
      rw [hr1]
      exact hJ.str_ascii _ e1
    have c2 : r1.Summary = (if r.Summary ≠ [] then
        (s.encryption.Encrypt (some salt2) (some nonce2) r.Summary k).1 else r.Summary) := by
      rw [hr1]
      show J.str (if r.Summary ≠ [] then
        (s.encryption.Encrypt (some salt2) (some nonce2) r.Summary k).1 else r.Summary) = _
      by_cases hS : r.Summary = []
      · simp only [hS, ne_eq, not_true_eq_false, if_false]
        exact hJ.str_ascii [] (by simp)
      · simp only [hS, ne_eq, not_false_eq_true, if_true]
        exact hJ.str_ascii _ e2
    have c3 : r1.Title = r.Title := by rw [hr1]; exact f3
    have c4 : r1.URL = r.URL := by rw [hr1]; exact f4
    have c5 : r1.Tags = r.Tags := by rw [hr1]; exact f5
    have c6 : r1.Metadata = r.Metadata := by rw [hr1]; exact f6
    have c7 : r1.IsEncrypted = true := by rw [hr1]; rfl
    refine ⟨b, J.normal (stamp r1 now1 now2 u a), hG, hUb, ?_, ?_, ?_, ?_, ?_, ?_, ?_⟩
    · show (stamp r1 now1 now2 u a).IsEncrypted = true
      rw [t7, c7]
    · show J.str (stamp r1 now1 now2 u a).Content = _
      rw [t1, g1, c1]
    · show J.str (stamp r1 now1 now2 u a).Summary = _
      rw [t2, g2, c2]
    · show J.str (stamp r1 now1 now2 u a).Title = _
      rw [t3, g3, c3]
    · show J.str (stamp r1 now1 now2 u a).URL = _
      rw [t4, g4, c4]
    · show J.tags (stamp r1 now1 now2 u a).Tags = _
      rw [t5, g5, c5]
    · show J.metadata (stamp r1 now1 now2 u a).Metadata = _
      rw [t6, g6, c6]

/-- Method `GetDecryptedContent` on a stored encrypted record whose content
and summary the engine opens: the text returned parses to the record with the
plaintexts in place and the flag cleared. -/
theorem Service.GetDecryptedContent_read {J : json.Codec} (hJ : J.Lawful) (s : Service)
    {fs : os.FS} {u a k b pc ps : Bytes} {rs : ArticleContent}
    (hG : s.GetContent fs u a = ((b, none), fs)) (hU : J.Unmarshal b = .ok rs)
    (hE : rs.IsEncrypted = true) (hD : s.encryption.Decrypt rs.Content k = (pc, none))
    (hS : (rs.Summary = [] ∧ ps = []) ∨
      (rs.Summary ≠ [] ∧ s.encryption.Decrypt rs.Summary k = (ps, none))) :
    ∃ b2, s.GetDecryptedContent J fs u a k = ((b2, none), fs) ∧
      J.Unmarshal b2 = .ok (J.normal (opened rs pc ps)) := by
  obtain ⟨o1, o2⟩ := hJ.okTime_unmarshal b rs hU
  obtain ⟨b2, hM⟩ := hJ.marshal_ok (opened rs pc ps) o1 o2
  exact ⟨b2, s.GetDecryptedContent_ok J hG hU hE hD hS hM, hJ.unmarshal_marshal _ _ hM⟩

/-- The record saved with `SaveEncryptedContent` under a key is read with
`GetDecryptedContent` under every key that decodes to the same bytes. -/
theorem Service.GetDecryptedContent_saved {J : json.Codec} (hJ : J.Lawful) (s : Service)
    (fs : os.FS) (salt1 nonce1 salt2 nonce2 : Bytes) (now1 now2 : time.Time)
    (u a content k k2 : Bytes) {r : ArticleContent} {m : Bytes}
    (hU : J.Unmarshal content = .ok r) (hk : base64.DecodeString k = some m)
    (hk2 : base64.DecodeString k2 = some m)
    (hs1 : salt1.length = 16) (hn1 : nonce1.length = 12) (hs2 : salt2.length = 16)
    (hn2 : nonce2.length = 12)
    (h : (s.SaveEncryptedContent J fs (some salt1) (some nonce1) (some salt2) (some nonce2)
      now1 now2 u a content k).1.2 = none) :
    ∃ b2 rd,
      s.GetDecryptedContent J (s.SaveEncryptedContent J fs (some salt1) (some nonce1)
          (some salt2) (some nonce2) now1 now2 u a content k).2 u a k2 =
        ((b2, none), (s.SaveEncryptedContent J fs (some salt1) (some nonce1) (some salt2)
          (some nonce2) now1 now2 u a content k).2) ∧
      J.Unmarshal b2 = .ok rd ∧ rd.IsEncrypted = false ∧ rd.Content = r.Content ∧
      rd.Summary = r.Summary ∧ rd.Title = r.Title ∧ rd.URL = r.URL ∧ rd.Tags = r.Tags ∧
      rd.Metadata = r.Metadata := by
  obtain ⟨b, rs, hG, hUb, hE, c1, c2, c3, c4, c5, c6⟩ :=
    s.SaveEncryptedContent_stored hJ fs salt1 nonce1 salt2 nonce2 now1 now2 u a content k
      hU hk hs1 hs2 h
  obtain ⟨f1, f2, f3, f4, f5, f6⟩ := read_fields hJ hU
  obtain ⟨g1, g2, g3, g4, g5, g6⟩ := read_fields hJ hUb
  have hD : s.encryption.Decrypt rs.Content k2 = (r.Content, none) := by
    rw [c1]
    exact encryption.Service.Decrypt_Encrypt_same_bytes s.encryption r.Content salt1 nonce1
      hk hk2 hs1 hn1
  have hS : (rs.Summary = [] ∧ r.Summary = []) ∨
      (rs.Summary ≠ [] ∧ s.encryption.Decrypt rs.Summary k2 = (r.Summary, none)) := by
    by_cases h0 : r.Summary = []
    · left
      rw [c2]
      simp only [h0, ne_eq, not_true_eq_false, if_false, and_self]
    · right
      rw [c2]
      simp only [h0, ne_eq, not_false_eq_true, if_true]
      exact ⟨(encryption.Service.Encrypt_text s.encryption r.Summary salt2 nonce2 hk hs2).2.1,
        encryption.Service.Decrypt_Encrypt_same_bytes s.encryption r.Summary salt2 nonce2
          hk hk2 hs2 hn2⟩
  obtain ⟨b2, hGd, hU2⟩ := s.GetDecryptedContent_read hJ hG hUb hE hD hS
  refine ⟨b2, _, hGd, hU2, rfl, f1, f2, ?_, ?_, ?_, ?_⟩
  · show J.str rs.Title = r.Title
    rw [g3, c3]
  · show J.str rs.URL = r.URL
    rw [g4, c4]
  · show J.tags rs.Tags = r.Tags
    rw [g5, c5]
  · show J.metadata rs.Metadata = r.Metadata
    rw [g6, c6]

/-- A record without a summary that was saved with `SaveEncryptedContent`
under a key is returned by `GetDecryptedContent` under every key under which
the engine opens the blob of the content. -/
theorem Service.GetDecryptedContent_opens {J : json.Codec} (hJ : J.Lawful) (s : Service)
    (fs : os.FS) (salt1 nonce1 salt2 nonce2 : Bytes) (now1 now2 : time.Time)
    (u a content k k2 : Bytes) {r : ArticleContent} {m pc : Bytes}
    (hU : J.Unmarshal content = .ok r) (hk : base64.DecodeString k = some m)
    (hs1 : salt1.length = 16) (hs2 : salt2.length = 16) (hsum : r.Summary = [])
    (h : (s.SaveEncryptedContent J fs (some salt1) (some nonce1) (some salt2) (some nonce2)
      now1 now2 u a content k).1.2 = none)
    (hD : s.encryption.Decrypt
      (s.encryption.Encrypt (some salt1) (some nonce1) r.Content k).1 k2 = (pc, none)) :
    ∃ b2,
      s.GetDecryptedContent J (s.SaveEncryptedContent J fs (some salt1) (some nonce1)
          (some salt2) (some nonce2) now1 now2 u a content k).2 u a k2 =
        ((b2, none), (s.SaveEncryptedContent J fs (some salt1) (some nonce1) (some salt2)
          (some nonce2) now1 now2 u a content k).2) := by
  obtain ⟨b, rs, hG, hUb, hE, c1, c2, _⟩ :=
    s.SaveEncryptedContent_stored hJ fs salt1 nonce1 salt2 nonce2 now1 now2 u a content k
      hU hk hs1 hs2 h
  rw [← c1] at hD
  have hS : rs.Summary = [] := by
    rw [c2, hsum]
    simp only [ne_eq, not_true_eq_false, if_false]
  obtain ⟨b2, hGd, _⟩ := s.GetDecryptedContent_read hJ hG hUb hE hD (Or.inl ⟨hS, rfl⟩)
  exact ⟨b2, hGd⟩

end storage

namespace storage

/-- With the stand-in codec, `SaveEncryptedContent` of an encoded record
succeeds under a decodable key when no regular file is in the way of the
directory of the user and the record file can be written. -/
theorem Service.SaveEncryptedContent_plain_ok (s : Service) (fs : os.FS)
    (salt1 nonce1 salt2 nonce2 : Bytes) (now1 now2 : time.Time) (u a k : Bytes)
    (r : ArticleContent) {m : Bytes} (hk : base64.DecodeString k = some m)
    (hb : fs.root.blocked (fs.resolve (s.getUserStoragePath u)) = false)
    (hv : (0 : Byte) ∉ s.getUserStoragePath u)
    (hw : os.writable { fs with root := fs.root.mkdirAll (fs.resolve (s.getUserStoragePath u)) }
      (s.filePath u a) = true) :
    (s.SaveEncryptedContent json.plainCodec fs (some salt1) (some nonce1) (some salt2)
      (some nonce2) now1 now2 u a (json.plain.encode r) k).1.2 = none := by
  rw [s.SaveEncryptedContent_eq json.plainCodec fs salt1 nonce1 salt2 nonce2 now1 now2 u a
    (json.plain.encode r) k (json.plain.Unmarshal_encode r) hk]
  exact s.SaveContent_ok json.plainCodec fs now1 now2 u a _ (json.plain.Unmarshal_encode _) rfl
    hb hv hw

/-- A successful `GetContent` has found a regular file, under a name
without a NUL byte. -/
theorem Service.GetContent_ok_file (s : Service) {fs : os.FS} {u a : Bytes}
    (h : (s.GetContent fs u a).1.2 = none) :
    (0 : Byte) ∉ s.filePath u a ∧
      ∃ d, fs.root.find (fs.resolve (s.filePath u a)) = .ok (.file d) := by
  by_cases hv : (0 : Byte) ∈ s.filePath u a
  · rw [s.GetContent_of_nul hv] at h
    exact Option.noConfusion h
  refine ⟨hv, ?_⟩
  cases hf : fs.root.find (fs.resolve (s.filePath u a)) with
  | ok x =>
    cases x with
    | file d => exact ⟨d, rfl⟩
    | dir es =>
      rw [s.GetContent_of_dir hv hf] at h
      exact Option.noConfusion h
  | error e =>
    by_cases he : e = .ENOENT
    · subst he
      rw [s.GetContent_of_enoent hv hf] at h
      exact Option.noConfusion h
    · rw [s.GetContent_of_error hv hf he] at h
      exact Option.noConfusion h

end storage

/-! ## Facts about the code points of a string -/

namespace utf8

theorem first_spec {s0 sz lo hi : Nat} (h : first s0 = some (sz, lo, hi)) :
    128 ≤ lo ∧ hi ≤ 191 ∧
      ((sz = 2 ∧ 2 ≤ s0 % 32) ∨ (sz = 3 ∧ (1 ≤ s0 % 16 ∨ 160 ≤ lo)) ∨
        (sz = 4 ∧ (1 ≤ s0 % 8 ∨ 144 ≤ lo))) := by
  unfold first at h
  split at h
  · cases h; omega
  · split at h
    · cases h; omega
    · split at h
      · cases h; omega
      · split at h
        · cases h; omega
        · split at h
          · cases h; omega
          · split at h
            · cases h; omega
            · split at h
              · cases h; omega
              · split at h
                · cases h; omega
                · exact Option.noConfusion h

theorem DecodeRuneInString_ascii {s0 : Byte} (rest : Bytes) (h : s0.val < 128) :
    DecodeRuneInString (s0 :: rest) = (s0.val, 1) := by
  simp only [DecodeRuneInString, if_pos h]

/-- A byte from `0x80` on starts a code point from `0x80` on, and the bytes
that the code point takes are all from `0x80` on. -/
theorem DecodeRuneInString_high {s0 : Byte} (rest : Bytes) (h : 128 ≤ s0.val) :
    128 ≤ (DecodeRuneInString (s0 :: rest)).1 ∧ 1 ≤ (DecodeRuneInString (s0 :: rest)).2 ∧
      ∀ x ∈ (s0 :: rest).take (DecodeRuneInString (s0 :: rest)).2, 128 ≤ x.val := by
  have h0 : ¬ s0.val < 128 := by omega
  have base : (128 : Nat) ≤ RuneError ∧ 1 ≤ 1 ∧ ∀ x ∈ (s0 :: rest).take 1, 128 ≤ x.val := by
    refine ⟨by decide, Nat.le_refl 1, ?_⟩
    intro x hx
    simp only [List.take_succ_cons, List.take_zero, List.mem_singleton] at hx
    rw [hx]; exact h
  simp only [DecodeRuneInString, if_neg h0]
  cases hf : first s0.val with
  | none => exact base
  | some t =>
    obtain ⟨sz, lo, hi⟩ := t
    obtain ⟨hlo, hhi, hsz⟩ := first_spec hf
    simp only
    split
    · exact base
    · cases rest with
      | nil => exact base
      | cons s1 rest1 =>
        simp only
        split
        · exact base
        · rename_i h1
          have h1a : lo ≤ s1.val := by omega
          have h1b : s1.val ≤ hi := by omega
          split
          · refine ⟨by omega, by omega, ?_⟩
            intro x hx
            simp only [List.take_succ_cons, List.take_zero, List.mem_cons, List.not_mem_nil,
              or_false] at hx
            rcases hx with hx | hx <;> rw [hx] <;> omega
          · cases rest1 with
            | nil => exact base
            | cons s2 rest2 =>
              simp only
              split
              · exact base
              · rename_i h2
                split
                · refine ⟨by omega, by omega, ?_⟩
                  intro x hx
                  simp only [List.take_succ_cons, List.take_zero, List.mem_cons,
                    List.not_mem_nil, or_false] at hx
                  rcases hx with hx | hx | hx <;> rw [hx] <;> omega
                · cases rest2 with
                  | nil => exact base
                  | cons s3 rest3 =>
                    simp only
                    split
                    · exact base
                    · rename_i h3
                      refine ⟨by omega, by omega, ?_⟩
                      intro x hx
                      simp only [List.take_succ_cons, List.take_zero, List.mem_cons,
                        List.not_mem_nil, or_false] at hx
                      rcases hx with hx | hx | hx | hx <;> rw [hx] <;> omega

theorem DecodeRuneInString_size_le (s0 : Byte) (rest : Bytes) :
    1 ≤ (DecodeRuneInString (s0 :: rest)).2 := by
  by_cases h : s0.val < 128
  · rw [DecodeRuneInString_ascii rest h]
  · exact (DecodeRuneInString_high rest (by omega)).2.1

/-- An ASCII code point is yielded exactly when it is a byte of the string. -/
theorem mem_runesAux {c : Nat} (hc : c < 128) : ∀ (fuel : Nat) (s : Bytes), s.length ≤ fuel →
    (c ∈ runesAux fuel s ↔ ∃ b ∈ s, b.val = c) := by
  intro fuel
  induction fuel with
  | zero =>
    intro s hs
    have : s = [] := List.length_eq_zero.mp (by omega)
    subst this
    simp [runesAux]
  | succ f ih =>
    intro s hs
    cases s with
    | nil => simp [runesAux]
    | cons s0 rest =>
      simp only [runesAux, List.mem_cons]
      by_cases h : s0.val < 128
      · rw [DecodeRuneInString_ascii rest h]
        simp only [List.drop_succ_cons, List.drop_zero]
        rw [ih rest (by simpa using hs)]
        constructor
        · rintro (h1 | ⟨b, hb, h1⟩)
          · exact ⟨s0, Or.inl rfl, h1.symm⟩
          · exact ⟨b, Or.inr hb, h1⟩
        · rintro ⟨b, hb | hb, h1⟩
          · left; rw [← h1, hb]
          · right; exact ⟨b, hb, h1⟩
      · obtain ⟨h1, h2, h3⟩ := DecodeRuneInString_high rest (by omega : 128 ≤ s0.val)
        have hlen : ((s0 :: rest).drop (DecodeRuneInString (s0 :: rest)).2).length ≤ f := by
          rw [List.length_drop]
          simp only [List.length_cons] at hs ⊢
          omega
        rw [ih _ hlen]
        constructor
        · rintro (h4 | ⟨b, hb, h4⟩)
          · omega
          · exact ⟨b, List.mem_cons.mp (List.mem_of_mem_drop hb), h4⟩
        · rintro ⟨b, hb, h4⟩
          right
          refine ⟨b, ?_, h4⟩
          have hb2 : b ∈ (s0 :: rest) := List.mem_cons.mpr hb
          rw [← List.take_append_drop (DecodeRuneInString (s0 :: rest)).2 (s0 :: rest)] at hb2
          rcases List.mem_append.mp hb2 with h5 | h5
          · have := h3 b h5
            omega
          · exact h5

/-- A string of ASCII bytes yields its bytes. -/
theorem runesAux_ascii : ∀ (fuel : Nat) (s : Bytes), s.length ≤ fuel →
    (∀ b ∈ s, b.val < 128) → runesAux fuel s = s.map (fun b => b.val) := by
  intro fuel
  induction fuel with
  | zero =>
    intro s hs _
    have : s = [] := List.length_eq_zero.mp (by omega)
    subst this
    rfl
  | succ f ih =>
    intro s hs ha
    cases s with
    | nil => rfl
    | cons s0 rest =>
      have h0 := ha s0 (by simp)
      simp only [runesAux, DecodeRuneInString_ascii rest h0, List.drop_succ_cons, List.drop_zero,
        List.map_cons]
      rw [ih rest (by simpa using hs) (fun b hb => ha b (by simp [hb]))]

/-- When every code point yielded is ASCII, every byte is. -/
theorem ascii_of_runesAux : ∀ (fuel : Nat) (s : Bytes), s.length ≤ fuel →
    (∀ r ∈ runesAux fuel s, r < 128) → ∀ b ∈ s, b.val < 128 := by
  intro fuel
  induction fuel with
  | zero =>
    intro s hs _ b hb
    have : s = [] := List.length_eq_zero.mp (by omega)
    subst this
    simp at hb
  | succ f ih =>
    intro s hs hr
    cases s with
    | nil => intro b hb; simp at hb
    | cons s0 rest =>
      simp only [runesAux, List.mem_cons, forall_eq_or_imp] at hr
      by_cases h : s0.val < 128
      · rw [DecodeRuneInString_ascii rest h] at hr
        simp only [List.drop_succ_cons, List.drop_zero] at hr
        intro b hb
        rcases List.mem_cons.mp hb with hb | hb
        · rw [hb]; exact h
        · exact ih rest (by simpa using hs) hr.2 b hb
      · have := (DecodeRuneInString_high rest (by omega : 128 ≤ s0.val)).1
        omega

theorem mem_runes {c : Nat} (hc : c < 128) (s : Bytes) :
    c ∈ runes s ↔ ∃ b ∈ s, b.val = c :=
  mem_runesAux hc s.length s (Nat.le_refl _)

theorem runes_ascii {s : Bytes} (h : ∀ b ∈ s, b.val < 128) : runes s = s.map (fun b => b.val) :=
  runesAux_ascii s.length s (Nat.le_refl _) h

theorem ascii_of_runes {s : Bytes} (h : ∀ r ∈ runes s, r < 128) : ∀ b ∈ s, b.val < 128 :=
  ascii_of_runesAux s.length s (Nat.le_refl _) h

end utf8

/-! ## Facts about the validators of `auth` -/

namespace auth

theorem runes_specialChars : utf8.runes specialChars = specialChars.map (fun b => b.val) := by
  decide

theorem isSpecialChar.loop_eq (char : Nat) (l : List Nat) :
    isSpecialChar.loop char l = true ↔ char ∈ l := by
  induction l with
  | nil => simp [isSpecialChar.loop]
  | cons x rest ih =>
    simp only [isSpecialChar.loop, List.mem_cons]
    by_cases h : char = x
    · simp [h]
    · simp [h, ih]

theorem isSpecialChar_iff (char : Nat) :
    isSpecialChar char = true ↔ char ∈ specialChars.map (fun b => b.val) := by
  unfold isSpecialChar
  rw [isSpecialChar.loop_eq, runes_specialChars]

theorem specialChars_map : specialChars.map (fun b => b.val) =
    [33, 64, 35, 36, 37, 94, 38, 42, 40, 41, 95, 43, 45, 61, 91, 93, 123, 125, 124, 59, 58, 44,
      46, 60, 62, 63] := by
  decide

/-- A special character is no letter and no digit, and it is ASCII. -/
theorem special_class {char : Nat} (h : char ∈ specialChars.map (fun b => b.val)) :
    ¬ (65 ≤ char ∧ char ≤ 90) ∧ ¬ (97 ≤ char ∧ char ≤ 122) ∧ ¬ (48 ≤ char ∧ char ≤ 57) ∧
      char < 128 := by
  rw [specialChars_map] at h
  simp only [List.mem_cons, List.not_mem_nil, or_false] at h
  omega

theorem passwordStep_hasUpper (f : PasswordFlags) (x : Nat) :
    (passwordStep f x).hasUpper = true ↔ f.hasUpper = true ∨ (65 ≤ x ∧ x ≤ 90) := by
  by_cases h1 : 65 ≤ x ∧ x ≤ 90
  · simp [passwordStep, h1]
  · by_cases h2 : 97 ≤ x ∧ x ≤ 122
    · simp [passwordStep, h1, h2]
    · by_cases h3 : 48 ≤ x ∧ x ≤ 57
      · simp [passwordStep, h1, h2, h3]
      · by_cases h4 : isSpecialChar x = true <;> simp [passwordStep, h1, h2, h3, h4]

theorem passwordStep_hasLower (f : PasswordFlags) (x : Nat) :
    (passwordStep f x).hasLower = true ↔ f.hasLower = true ∨ (97 ≤ x ∧ x ≤ 122) := by
  by_cases h1 : 65 ≤ x ∧ x ≤ 90
  · have h2 : ¬ (97 ≤ x ∧ x ≤ 122) := by omega
    simp [passwordStep, h1, h2]
  · by_cases h2 : 97 ≤ x ∧ x ≤ 122
    · simp [passwordStep, h1, h2]
    · by_cases h3 : 48 ≤ x ∧ x ≤ 57
      · simp [passwordStep, h1, h2, h3]
      · by_cases h4 : isSpecialChar x = true <;> simp [passwordStep, h1, h2, h3, h4]

theorem passwordStep_hasDigit (f : PasswordFlags) (x : Nat) :
    (passwordStep f x).hasDigit = true ↔ f.hasDigit = true ∨ (48 ≤ x ∧ x ≤ 57) := by
  by_cases h1 : 65 ≤ x ∧ x ≤ 90
  · have h3 : ¬ (48 ≤ x ∧ x ≤ 57) := by omega
    simp [passwordStep, h1, h3]
  · by_cases h2 : 97 ≤ x ∧ x ≤ 122
    · have h3 : ¬ (48 ≤ x ∧ x ≤ 57) := by omega
      simp [passwordStep, h1, h2, h3]
    · by_cases h3 : 48 ≤ x ∧ x ≤ 57
      · simp [passwordStep, h1, h2, h3]
      · by_cases h4 : isSpecialChar x = true <;> simp [passwordStep, h1, h2, h3, h4]

theorem passwordStep_hasSpecial (f : PasswordFlags) (x : Nat) :
    (passwordStep f x).hasSpecial = true ↔
      f.hasSpecial = true ∨ x ∈ specialChars.map (fun b => b.val) := by
  by_cases h4 : x ∈ specialChars.map (fun b => b.val)
  · obtain ⟨h1, h2, h3, _⟩ := special_class h4
    have h5 := (isSpecialChar_iff x).mpr h4
    simp only [passwordStep, if_neg h1, if_neg h2, if_neg h3, if_pos h5, h4, or_true]
  · have h5 : ¬ isSpecialChar x = true := fun h => h4 ((isSpecialChar_iff x).mp h)
    by_cases h1 : 65 ≤ x ∧ x ≤ 90
    · simp only [passwordStep, if_pos h1, h4, or_false]
    · by_cases h2 : 97 ≤ x ∧ x ≤ 122
      · simp only [passwordStep, if_neg h1, if_pos h2, h4, or_false]
      · by_cases h3 : 48 ≤ x ∧ x ≤ 57
        · simp only [passwordStep, if_neg h1, if_neg h2, if_pos h3, h4, or_false]
        · simp only [passwordStep, if_neg h1, if_neg h2, if_neg h3, if_neg h5, h4, or_false]

/-- The flags after the loop of `ValidatePassword`. -/
theorem foldl_passwordStep (l : List Nat) : ∀ f : PasswordFlags,
    ((l.foldl passwordStep f).hasUpper = true ↔
        f.hasUpper = true ∨ ∃ c ∈ l, 65 ≤ c ∧ c ≤ 90) ∧
      ((l.foldl passwordStep f).hasLower = true ↔
        f.hasLower = true ∨ ∃ c ∈ l, 97 ≤ c ∧ c ≤ 122) ∧
      ((l.foldl passwordStep f).hasDigit = true ↔
        f.hasDigit = true ∨ ∃ c ∈ l, 48 ≤ c ∧ c ≤ 57) ∧
      ((l.foldl passwordStep f).hasSpecial = true ↔
        f.hasSpecial = true ∨ ∃ c ∈ l, c ∈ specialChars.map (fun b => b.val)) := by
  induction l with
  | nil => intro f; simp
  | cons x rest ih =>
    intro f
    obtain ⟨i1, i2, i3, i4⟩ := ih (passwordStep f x)
    simp only [List.foldl_cons, List.mem_cons, exists_eq_or_imp]
    rw [i1, i2, i3, i4, passwordStep_hasUpper, passwordStep_hasLower, passwordStep_hasDigit,
      passwordStep_hasSpecial]
    simp only [or_assoc, and_self]

/-- What `ValidatePassword` accepts: at least 8 bytes, and a code point of
each of the four classes. -/
theorem Service.ValidatePassword_eq_none (s : Service) (p : Bytes) :
    s.ValidatePassword p = none ↔
      8 ≤ p.length ∧ (∃ c ∈ utf8.runes p, 65 ≤ c ∧ c ≤ 90) ∧
        (∃ c ∈ utf8.runes p, 97 ≤ c ∧ c ≤ 122) ∧ (∃ c ∈ utf8.runes p, 48 ≤ c ∧ c ≤ 57) ∧
        ∃ c ∈ utf8.runes p, c ∈ specialChars.map (fun b => b.val) := by
  obtain ⟨i1, i2, i3, i4⟩ := foldl_passwordStep (utf8.runes p) ⟨false, false, false, false⟩
  simp only [Bool.false_eq_true, false_or] at i1 i2 i3 i4
  rw [← i1, ← i2, ← i3, ← i4]
  unfold Service.ValidatePassword
  by_cases hl : p.length < 8
  · simp only [if_pos hl]
    constructor
    · intro h; exact Option.noConfusion h
    · intro h; omega
  · simp only [if_neg hl]
    cases (utf8.runes p).foldl passwordStep ⟨false, false, false, false⟩ with
    | mk a b c d =>
      cases a <;> cases b <;> cases c <;> cases d <;> simp
      omega

/-- The loop of `ValidateUsername` finds no fault exactly when every code
point is a letter, a digit, an underscore or a hyphen. -/
theorem ValidateUsername.loop_eq_none (l : List Nat) :
    ValidateUsername.loop l = none ↔
      ∀ c ∈ l, isAlphanumeric c = true ∨ c = 95 ∨ c = 45 := by
  induction l with
  | nil => simp [ValidateUsername.loop]
  | cons x rest ih =>
    simp only [ValidateUsername.loop, List.mem_cons, forall_eq_or_imp]
    by_cases h : isAlphanumeric x = true ∨ x = 95 ∨ x = 45
    · have : (!isAlphanumeric x && decide (x ≠ 95) && decide (x ≠ 45)) = false := by
        rcases h with h | h | h <;> simp [h]
      simp only [this, Bool.false_eq_true, if_false, ih, h, true_and]
    · have h2 : (!isAlphanumeric x && decide (x ≠ 95) && decide (x ≠ 45)) = true := by
        simp only [not_or] at h
        simp [h.1, h.2.1, h.2.2]
      simp only [h2, if_true, h, false_and, iff_false]
      exact fun e => Option.noConfusion e

theorem allowed_ascii {c : Nat} (h : isAlphanumeric c = true ∨ c = 95 ∨ c = 45) : c < 128 := by
  rcases h with h | h | h
  · simp only [isAlphanumeric, Bool.or_eq_true, Bool.and_eq_true, decide_eq_true_eq] at h
    omega
  · omega
  · omega

theorem index_zero (c0 : Byte) (rest : Bytes) : index (c0 :: rest) 0 = some c0 := by
  simp [index]

theorem index_last (c0 : Byte) (rest : Bytes) :
    ∃ cl, index (c0 :: rest) (((c0 :: rest).length : Int) - 1) = some cl ∧
      (c0 :: rest).getLast? = some cl := by
  have hne : (c0 :: rest) ≠ [] := by simp
  refine ⟨(c0 :: rest).getLast hne, ?_, List.getLast?_eq_getLast _ hne⟩
  unfold index
  have hnn : ¬ (((c0 :: rest).length : Int) - 1 < 0) := by
    simp only [List.length_cons]; omega
  rw [if_neg hnn]
  have e : (((c0 :: rest).length : Int) - 1).toNat = (c0 :: rest).length - 1 := by
    simp only [List.length_cons]; omega
  rw [e, List.getLast_eq_getElem, List.get?_eq_getElem?]
  exact List.getElem?_eq_getElem _

/-- Method `ValidateUsername` never panics, and what it accepts: a length of
3 to 50 bytes, no fault found by the loop, and a first and a last byte that
are no underscore and no hyphen. -/
theorem Service.ValidateUsername_spec (s : Service) (name : Bytes) :
    ∃ r, s.ValidateUsername name = some r ∧
      (r = none ↔
        3 ≤ name.length ∧ name.length ≤ 50 ∧ ValidateUsername.loop (utf8.runes name) = none ∧
          (∀ c, name.head? = some c → c.val ≠ 95 ∧ c.val ≠ 45) ∧
          (∀ c, name.getLast? = some c → c.val ≠ 95 ∧ c.val ≠ 45)) := by
  unfold Service.ValidateUsername
  by_cases h3 : name.length < 3
  · refine ⟨_, by rw [if_pos h3], ?_⟩
    simp only [reduceCtorEq, false_iff, not_and]
    intro h; omega
  · by_cases h50 : name.length > 50
    · refine ⟨_, by rw [if_neg h3, if_pos h50], ?_⟩
      simp only [reduceCtorEq, false_iff, not_and]
      intro _ h; omega
    · rw [if_neg h3, if_neg h50]
      cases hloop : ValidateUsername.loop (utf8.runes name) with
      | some err =>
        refine ⟨some err, rfl, ?_⟩
        simp only [reduceCtorEq, false_iff, not_and]
        intro _ _ h; exact h.elim
      | none =>
        cases name with
        | nil => simp at h3
        | cons c0 rest =>
          obtain ⟨cl, hil, hgl⟩ := index_last c0 rest
          simp only [index_zero, hil]
          have hlen : 3 ≤ (c0 :: rest).length ∧ (c0 :: rest).length ≤ 50 := by omega
          by_cases hs : c0.val = 95 ∨ c0.val = 45
          · refine ⟨_, by rw [if_pos hs], ?_⟩
            simp only [reduceCtorEq, false_iff, not_and]
            intro _ _ _ hh
            have := hh c0 rfl
            omega
          · by_cases he : cl.val = 95 ∨ cl.val = 45
            · refine ⟨_, by rw [if_neg hs, if_pos he], ?_⟩
              simp only [reduceCtorEq, false_iff, not_and]
              intro _ _ _ _ hh
              have := hh cl hgl
              omega
            · refine ⟨none, by rw [if_neg hs, if_neg he], ?_⟩
              simp only [true_iff]
              refine ⟨hlen.1, hlen.2, trivial, ?_, ?_⟩
              · intro c hc
                cases hc
                omega
              · intro c hc
                rw [hgl] at hc
                cases hc
                omega

end auth

/-! ## Hexadecimal text as base64 text -/

namespace base64

/-- The decoder reads a string of `4 * n` alphabet characters as `3 * n`
bytes. -/
theorem decodeLoop_alphabet : ∀ (n : Nat) (s : Bytes), s.length = 4 * n →
    (∀ c ∈ s, decodeMap c ≠ none) → ∃ out, decodeLoop s [] = some out ∧ out.length = 3 * n := by
  intro n
  induction n with
  | zero =>
    intro s hs _
    have : s = [] := List.length_eq_zero.mp (by omega)
    subst this
    exact ⟨[], by simp [decodeLoop], rfl⟩
  | succ k ih =>
    intro s hs ha
    match s, hs, ha with
    | c0 :: c1 :: c2 :: c3 :: rest, hs, ha =>
      obtain ⟨v0, h0⟩ := Option.ne_none_iff_exists'.mp (ha c0 (by simp))
      obtain ⟨v1, h1⟩ := Option.ne_none_iff_exists'.mp (ha c1 (by simp))
      obtain ⟨v2, h2⟩ := Option.ne_none_iff_exists'.mp (ha c2 (by simp))
      obtain ⟨v3, h3⟩ := Option.ne_none_iff_exists'.mp (ha c3 (by simp))
      obtain ⟨out, ho, hl⟩ := ih rest (by simp only [List.length_cons] at hs; omega)
        (fun c hc => ha c (by simp [hc]))
      refine ⟨quantumBytes v0 v1 v2 v3 ++ out, ?_, ?_⟩
      · simp [decodeLoop, h0, h1, h2, h3, ho]
      · simp only [List.length_append, hl, quantumBytes, List.length_cons, List.length_nil]
        omega
    | [], hs, _ => simp only [List.length_cons, List.length_nil] at hs; omega
    | [_], hs, _ => simp only [List.length_cons, List.length_nil] at hs; omega
    | [_, _], hs, _ => simp only [List.length_cons, List.length_nil] at hs; omega
    | [_, _, _], hs, _ => simp only [List.length_cons, List.length_nil] at hs; omega

end base64

namespace hex

theorem hextable_getD : ∀ i : Fin 16, hextable.getD i.val 0 ∈ hextable := by decide

set_option maxRecDepth 8000 in
theorem hextable_alphabet : ∀ c ∈ hextable, base64.decodeMap c ≠ none ∧ c ≠ base64.padChar := by
  decide

theorem mem_EncodeToString (src : Bytes) : ∀ c ∈ EncodeToString src, c ∈ hextable := by
  intro c hc
  simp only [EncodeToString, List.mem_flatMap, List.mem_cons, List.not_mem_nil, or_false] at hc
  obtain ⟨v, _, h | h⟩ := hc
  · rw [h]
    exact hextable_getD ⟨v.val / 16, by have := v.isLt; omega⟩
  · rw [h]
    exact hextable_getD ⟨v.val % 16, Nat.mod_lt _ (by decide)⟩

theorem EncodeToString_length (src : Bytes) : (EncodeToString src).length = 2 * src.length := by
  induction src with
  | nil => rfl
  | cons v rest ih =>
    simp only [EncodeToString, List.flatMap_cons, List.length_append, List.length_cons,
      List.length_nil] at ih ⊢
    omega

/-- The hexadecimal text of an even number of bytes is base64 text: `2 * n`
bytes are written as `4 * n` characters, which the decoder reads as `3 * n`
bytes. -/
theorem DecodeString_hex (src : Bytes) (n : Nat) (h : src.length = 2 * n) :
    ∃ m, base64.DecodeString (EncodeToString src) = some m ∧ m.length = 3 * n :=
  base64.decodeLoop_alphabet n (EncodeToString src) (by rw [EncodeToString_length, h]; omega)
    (fun c hc => (hextable_alphabet c (mem_EncodeToString src c hc)).1)

end hex

/-! ## Facts about `strings` -/

namespace strings

theorem HasPrefix_iff (s pre : Bytes) : HasPrefix s pre = true ↔ pre <+: s := by
  simp [HasPrefix]

theorem HasPrefix_length {s pre : Bytes} (h : HasPrefix s pre = true) : pre.length ≤ s.length :=
  ((HasPrefix_iff s pre).mp h).length_le

/-- A prefix is the first bytes of the string. -/
theorem HasPrefix_iff_take (s pre : Bytes) :
    HasPrefix s pre = true ↔ pre.length ≤ s.length ∧ s.take pre.length = pre := by
  rw [HasPrefix_iff]
  constructor
  · intro h
    exact ⟨h.length_le, (List.prefix_iff_eq_take.mp h).symm⟩
  · intro h
    rw [← h.2]
    exact List.take_prefix _ _

/-- What `Index` finds: the first position at which `substr` starts. -/
theorem Index_eq_some (substr : Bytes) : ∀ (s : Bytes) (m : Nat),
    Index s substr = some m ↔
      m ≤ s.length ∧ HasPrefix (s.drop m) substr = true ∧
        ∀ j, j < m → HasPrefix (s.drop j) substr = false := by
  intro s
  induction s with
  | nil =>
    intro m
    by_cases hs : substr = []
    · subst hs
      simp only [Index, if_true, Option.some.injEq, List.length_nil, Nat.le_zero_eq,
        List.drop_nil]
      constructor
      · intro h
        subst h
        exact ⟨rfl, rfl, fun j hj => absurd hj (Nat.not_lt_zero j)⟩
      · intro h
        exact h.1.symm
    · simp only [Index, if_neg hs, List.length_nil, Nat.le_zero_eq, List.drop_nil, reduceCtorEq,
        false_iff]
      intro h
      have := HasPrefix_length h.2.1
      simp only [List.length_nil, Nat.le_zero_eq] at this
      exact hs (List.length_eq_zero.mp this)
  | cons c rest ih =>
    intro m
    by_cases hp : HasPrefix (c :: rest) substr = true
    · simp only [Index, if_pos hp, Option.some.injEq]
      constructor
      · intro h
        subst h
        exact ⟨Nat.zero_le _, hp, fun j hj => absurd hj (Nat.not_lt_zero j)⟩
      · intro h
        cases m with
        | zero => rfl
        | succ k =>
          have := h.2.2 0 (Nat.succ_pos k)
          rw [List.drop_zero, hp] at this
          exact absurd this (by simp)
    · simp only [Index, if_neg hp]
      cases m with
      | zero =>
        simp only [List.drop_zero]
        constructor
        · intro h
          cases hI : Index rest substr with
          | none => rw [hI] at h; simp at h
          | some q => rw [hI] at h; simp at h
        · intro h
          exact absurd h.2.1 hp
      | succ k =>
        have e : (Index rest substr).map (· + 1) = some (k + 1) ↔ Index rest substr = some k := by
          cases Index rest substr with
          | none => simp
          | some q => simp
        rw [e, ih k]
        simp only [List.length_cons, Nat.add_le_add_iff_right, List.drop_succ_cons]
        constructor
        · intro h
          refine ⟨h.1, h.2.1, ?_⟩
          intro j hj
          cases j with
          | zero => simpa using hp
          | succ i =>
            rw [List.drop_succ_cons]
            exact h.2.2 i (by omega)
        · intro h
          refine ⟨h.1, h.2.1, ?_⟩
          intro j hj
          have := h.2.2 (j + 1) (by omega)
          rwa [List.drop_succ_cons] at this

/-- Function `Index` finds nothing exactly when `substr` starts nowhere. -/
theorem Index_eq_none (substr : Bytes) : ∀ (s : Bytes),
    Index s substr = none ↔ ∀ j, j ≤ s.length → HasPrefix (s.drop j) substr = false := by
  intro s
  induction s with
  | nil =>
    by_cases hs : substr = []
    · subst hs
      simp only [Index, if_true, List.length_nil, Nat.le_zero_eq, List.drop_nil, reduceCtorEq,
        false_iff]
      intro h
      exact absurd (h 0 rfl) (by decide)
    · simp only [Index, if_neg hs, List.length_nil, Nat.le_zero_eq, List.drop_nil, true_iff]
      intro j _
      cases hp : HasPrefix [] substr with
      | false => rfl
      | true =>
        have := HasPrefix_length hp
        simp only [List.length_nil, Nat.le_zero_eq] at this
        exact absurd (List.length_eq_zero.mp this) hs
  | cons c rest ih =>
    by_cases hp : HasPrefix (c :: rest) substr = true
    · simp only [Index, if_pos hp, reduceCtorEq, false_iff]
      intro h
      have := h 0 (Nat.zero_le _)
      rw [List.drop_zero, hp] at this
      exact absurd this (by simp)
    · have e : (Index rest substr).map (· + 1) = none ↔ Index rest substr = none := by
        cases Index rest substr with
        | none => simp
        | some q => simp
      simp only [Index, if_neg hp]
      rw [e, ih]
      constructor
      · intro h j hj
        cases j with
        | zero => simpa using hp
        | succ i =>
          rw [List.drop_succ_cons]
          exact h i (by simp only [List.length_cons] at hj; omega)
      · intro h j hj
        have := h (j + 1) (by simp only [List.length_cons]; omega)
        rwa [List.drop_succ_cons] at this

theorem Join_cons (x : Bytes) (sep : Bytes) : ∀ (rest : List Bytes), rest ≠ [] →
    Join (x :: rest) sep = x ++ sep ++ Join rest sep
  | [], h => absurd rfl h
  | _ :: _, _ => rfl

theorem genSplit.loop_ne_nil (sep : Bytes) : ∀ (n : Nat) (s : Bytes), genSplit.loop sep n s ≠ []
  | 0, s => by simp [genSplit.loop]
  | n + 1, s => by
    unfold genSplit.loop
    cases Index s sep <;> simp

/-- A piece before the first instance of `sep` holds no instance of `sep`. -/
theorem Index_take {s sep : Bytes} {m : Nat} (hsep : sep ≠ []) (h : Index s sep = some m) :
    Index (s.take m) sep = none := by
  obtain ⟨hm, hp, hn⟩ := (Index_eq_some sep s m).mp h
  rw [Index_eq_none]
  intro j hj
  cases hq : HasPrefix ((s.take m).drop j) sep with
  | false => rfl
  | true =>
    have hl := HasPrefix_length hq
    simp only [List.length_drop, List.length_take] at hl hj
    have hpos : 0 < sep.length := List.length_pos.mpr hsep
    have hjm : j < m := by omega
    have h1 := hn j hjm
    have h2 : sep <+: (s.take m).drop j := (HasPrefix_iff _ _).mp hq
    have h3 : (s.take m).drop j <+: s.drop j := by
      rw [List.drop_take]
      exact List.take_prefix _ _
    have h4 : HasPrefix (s.drop j) sep = true := (HasPrefix_iff _ _).mpr (h2.trans h3)
    rw [h4] at h1
    exact absurd h1 (by simp)

end strings

namespace strings

theorem countAux_none {sep s : Bytes} (f : Nat) (h : Index s sep = none) :
    countAux sep f s = 0 := by
  cases f with
  | zero => rfl
  | succ k => simp only [countAux, h]

theorem countAux_some {sep s : Bytes} {m : Nat} (f : Nat) (h : Index s sep = some m) :
    countAux sep (f + 1) s = countAux sep f (s.drop (m + sep.length)) + 1 := by
  simp only [countAux, h]
  omega

theorem genSplit.loop_some {sep s : Bytes} {m : Nat} (n : Nat) (h : Index s sep = some m) :
    genSplit.loop sep (n + 1) s = s.take m :: genSplit.loop sep n (s.drop (m + sep.length)) := by
  simp only [genSplit.loop, h]

theorem genSplit.loop_zero (sep s : Bytes) : genSplit.loop sep 0 s = [s] := rfl

/-- An instance of `sep` at `m` cuts the string into the bytes before it,
`sep`, and the bytes after it. -/
theorem take_sep_drop {s sep : Bytes} {m : Nat} (hp : HasPrefix (s.drop m) sep = true) :
    s.take m ++ sep ++ s.drop (m + sep.length) = s := by
  have h1 := ((HasPrefix_iff_take _ _).mp hp).2
  have h2 : s.drop m = sep ++ s.drop (m + sep.length) := by
    conv_lhs => rw [← List.take_append_drop sep.length (s.drop m), h1]
    rw [List.drop_drop]
  conv_rhs => rw [← List.take_append_drop m s, h2]
  rw [List.append_assoc]

/-- The pieces that `genSplit` cuts with `Count(s, sep)` steps: joined with
`sep` they are the string, and none of them holds `sep`. -/
theorem genSplit_spec {sep : Bytes} (hsep : sep ≠ []) : ∀ (f : Nat) (t : Bytes),
    t.length ≤ f →
      Join (genSplit.loop sep (countAux sep f t) t) sep = t ∧
        ∀ p ∈ genSplit.loop sep (countAux sep f t) t, Index p sep = none := by
  intro f
  induction f with
  | zero =>
    intro t ht
    have : t = [] := List.length_eq_zero.mp (by omega)
    subst this
    refine ⟨rfl, ?_⟩
    intro p hp
    simp only [countAux, genSplit.loop, List.mem_singleton] at hp
    subst hp
    simp only [Index, if_neg hsep]
  | succ k ih =>
    intro t ht
    cases hI : Index t sep with
    | none =>
      rw [countAux_none _ hI, genSplit.loop_zero]
      refine ⟨rfl, ?_⟩
      intro p hp
      rw [List.mem_singleton] at hp
      subst hp
      exact hI
    | some m =>
      obtain ⟨hm, hp, _⟩ := (Index_eq_some sep t m).mp hI
      have hpos : 0 < sep.length := List.length_pos.mpr hsep
      obtain ⟨hj, hn⟩ := ih (t.drop (m + sep.length)) (by rw [List.length_drop]; omega)
      rw [countAux_some _ hI, genSplit.loop_some _ hI]
      constructor
      · rw [Join_cons _ _ _ (genSplit.loop_ne_nil _ _ _), hj]
        exact take_sep_drop hp
      · intro p hmem
        rcases List.mem_cons.mp hmem with h | h
        · rw [h]
          exact Index_take hsep hI
        · exact hn p h

end strings

/-! ## Facts about `splitString` -/

namespace config

theorem slice_nat (s : Bytes) (lo hi : Nat) (h1 : lo ≤ hi) (h2 : hi ≤ s.length) :
    slice s (lo : Int) (hi : Int) = some ((s.take hi).drop lo) := by
  unfold slice
  rw [if_pos ⟨Int.ofNat_nonneg _, by omega, by omega⟩]
  simp

/-- The comparison `s[i:i+len(sep)] == sep` tests for `sep` at `i`. -/
theorem slice_eq_sep (s sep : Bytes) (i : Nat) (h : i + sep.length ≤ s.length) :
    (s.take (i + sep.length)).drop i = sep ↔ strings.HasPrefix (s.drop i) sep = true := by
  rw [strings.HasPrefix_iff_take, List.drop_take]
  simp only [List.length_drop, Nat.add_sub_cancel_left]
  constructor
  · intro e
    exact ⟨by omega, e⟩
  · intro e
    exact e.2

/-- The loop of `splitString` from an index `i` with no instance of `sep`
between `start` and `i`: it ends, and appends the pieces that `strings.Split`
cuts from `s[start:]`. -/
theorem splitString.loop_spec (s sep : Bytes) (hsep : sep ≠ []) :
    ∀ (fuel i start : Nat) (parts : List Bytes) (f : Nat),
      start ≤ i → i ≤ s.length →
      (∀ j, start ≤ j → j < i → strings.HasPrefix (s.drop j) sep = false) →
      s.length + 1 ≤ fuel + i → s.length ≤ f + start →
      splitString.loop s sep fuel (i : Int) (start : Int) parts =
        some (.ok (parts ++
          strings.genSplit.loop sep (strings.countAux sep f (s.drop start)) (s.drop start))) := by
  have hpos : 0 < sep.length := List.length_pos.mpr hsep
  intro fuel
  induction fuel with
  | zero =>
    intro i start parts f _ h2 _ h4 _
    omega
  | succ k ih =>
    intro i start parts f h1 h2 h3 h4 h5
    unfold splitString.loop
    by_cases hc : (i : Int) ≤ (s.length : Int) - (sep.length : Int)
    · have hle : i + sep.length ≤ s.length := by omega
      rw [if_pos hc]
      have e1 : (i : Int) + (sep.length : Int) = ((i + sep.length : Nat) : Int) := by
        push_cast
        rfl
      rw [e1, slice_nat s i (i + sep.length) (by omega) hle]
      dsimp only
      by_cases hx : (s.take (i + sep.length)).drop i = sep
      · rw [if_pos hx, slice_nat s start i h1 h2]
        dsimp only
        have hp := (slice_eq_sep s sep i hle).mp hx
        have hI : strings.Index (s.drop start) sep = some (i - start) := by
          rw [strings.Index_eq_some]
          refine ⟨by rw [List.length_drop]; omega, ?_, ?_⟩
          · rw [List.drop_drop]
            have : start + (i - start) = i := by omega
            rw [this]
            exact hp
          · intro j hj
            rw [List.drop_drop]
            exact h3 (start + j) (by omega) (by omega)
        obtain ⟨g, hg⟩ : ∃ g, f = g + 1 := ⟨f - 1, by omega⟩
        subst hg
        have e2 : (i : Int) + ((sep.length : Int) - 1) + 1 = ((i + sep.length : Nat) : Int) := by
          push_cast
          omega
        rw [e2, ih (i + sep.length) (i + sep.length) _ g (Nat.le_refl _) hle
          (fun j hj1 hj2 => absurd hj2 (by omega)) (by omega) (by omega)]
        rw [strings.countAux_some _ hI, strings.genSplit.loop_some _ hI]
        have e3 : (s.drop start).drop (i - start + sep.length) = s.drop (i + sep.length) := by
          rw [List.drop_drop]
          congr 1
          omega
        have e4 : (s.drop start).take (i - start) = (s.take i).drop start := by
          rw [List.drop_take]
        rw [e3, e4, List.append_assoc]
        rfl
      · rw [if_neg hx]
        have hp : strings.HasPrefix (s.drop i) sep = false := by
          cases hq : strings.HasPrefix (s.drop i) sep with
          | false => rfl
          | true => exact absurd ((slice_eq_sep s sep i hle).mpr hq) hx
        have e2 : (i : Int) + 1 = ((i + 1 : Nat) : Int) := by push_cast; rfl
        rw [e2]
        exact ih (i + 1) start parts f (by omega) (by omega)
          (fun j hj1 hj2 => by
            by_cases hji : j = i
            · rw [hji]; exact hp
            · exact h3 j hj1 (by omega)) (by omega) h5
    · rw [if_neg hc]
      rw [slice_nat s start s.length (by omega) (Nat.le_refl _)]
      dsimp only
      have hI : strings.Index (s.drop start) sep = none := by
        rw [strings.Index_eq_none]
        intro j hj
        rw [List.drop_drop]
        by_cases hji : start + j < i
        · exact h3 (start + j) (by omega) hji
        · cases hq : strings.HasPrefix (s.drop (start + j)) sep with
          | false => rfl
          | true =>
            have := strings.HasPrefix_length hq
            rw [List.length_drop] at this
            omega
      rw [strings.countAux_none _ hI, strings.genSplit.loop_zero, List.take_length]

end config

/-! ## Facts about the middleware -/

namespace strings

/-- A string with the prefix cut off is the rest of the string. -/
theorem TrimPrefix_append (pre token : Bytes) : TrimPrefix (pre ++ token) pre = token := by
  have h : HasPrefix (pre ++ token) pre = true := (HasPrefix_iff _ _).mpr (List.prefix_append _ _)
  simp only [TrimPrefix, h, if_true, List.drop_left]

/-- Function `TrimPrefix` with a non-empty prefix returns its argument exactly
when the argument has not the prefix. -/
theorem TrimPrefix_eq_self (s pre : Bytes) (hpre : pre ≠ []) :
    TrimPrefix s pre = s ↔ ¬ ∃ token, s = pre ++ token := by
  constructor
  · rintro h ⟨token, rfl⟩
    rw [TrimPrefix_append] at h
    have := congrArg List.length h
    rw [List.length_append] at this
    have hpos : 0 < pre.length := List.length_pos.mpr hpre
    omega
  · intro h
    have hp : HasPrefix s pre = false := by
      cases hq : HasPrefix s pre with
      | false => rfl
      | true =>
        obtain ⟨t, ht⟩ := (HasPrefix_iff _ _).mp hq
        exact absurd ⟨t, ht.symm⟩ h
    simp only [TrimPrefix, hp, Bool.false_eq_true, if_false]

end strings

namespace auth

/-- The parser refuses a token without a dot, whatever the verifier. -/
theorem Service.ValidateJWT_one_segment (a : Service) (verify : jwt.Verifier Claims)
    (now : time.Time) (token : Bytes) (h : strings.Split token [46] = [token]) :
    a.ValidateJWT verify now token =
      .error (.wrap "failed to parse token"
        (.errorf "token is malformed: token contains an invalid number of segments")) := by
  simp only [Service.ValidateJWT, jwt.ParseWithClaims, h]

end auth

namespace middleware

theorem Split_placeholderToken : strings.Split placeholderToken [46] = [placeholderToken] := by
  decide

theorem Split_newPlaceholderToken :
    strings.Split newPlaceholderToken [46] = [newPlaceholderToken] := by
  decide

theorem bearer_ne_nil : bearer ≠ [] := by decide

/-- The four outcomes of the handler. -/
theorem Auth_cases (a : auth.Service) (verify : jwt.Verifier auth.Claims) (now : time.Time)
    (c : gin.Context) :
    ((¬ ∃ token, c.authorization = bearer ++ token) ∧
        Refused c (Auth a verify now c)) ∨
      (∃ token, c.authorization = bearer ++ token ∧
        (token = placeholderToken ∨ token = newPlaceholderToken) ∧
        (Auth a verify now c).passed = true ∧ (Auth a verify now c).status = c.status ∧
        (Auth a verify now c).aborted = c.aborted) ∨
      (∃ token err, c.authorization = bearer ++ token ∧
        token ≠ placeholderToken ∧ token ≠ newPlaceholderToken ∧
        a.ValidateJWT verify now token = .error err ∧ Refused c (Auth a verify now c)) ∨
      (∃ token claims, c.authorization = bearer ++ token ∧
        a.ValidateJWT verify now token = .ok claims ∧
        (Auth a verify now c).passed = true ∧ (Auth a verify now c).status = c.status ∧
        (Auth a verify now c).aborted = c.aborted) := by
  unfold Auth
  simp only [gin.Context.GetHeader]
  by_cases h0 : c.authorization = []
  · left
    rw [if_pos h0]
    refine ⟨?_, rfl, rfl, rfl, rfl⟩
    rintro ⟨token, ht⟩
    rw [h0] at ht
    have := congrArg List.length ht
    simp [bearer] at this
  · rw [if_neg h0]
    by_cases h1 : strings.TrimPrefix c.authorization bearer = c.authorization
    · left
      rw [if_pos h1]
      exact ⟨(strings.TrimPrefix_eq_self _ _ bearer_ne_nil).mp h1, rfl, rfl, rfl, rfl⟩
    · rw [if_neg h1]
      have h2 : ∃ token, c.authorization = bearer ++ token := by
        by_contra hn
        exact h1 ((strings.TrimPrefix_eq_self _ _ bearer_ne_nil).mpr hn)
      obtain ⟨token, ht⟩ := h2
      rw [ht, strings.TrimPrefix_append]
      right
      by_cases h3 : token = placeholderToken ∨ token = newPlaceholderToken
      · left
        rw [if_pos h3]
        exact ⟨token, rfl, h3, rfl, rfl, rfl⟩
      · right
        rw [if_neg h3]
        cases hv : a.ValidateJWT verify now token with
        | error err =>
          left
          exact ⟨token, err, rfl, fun h => h3 (Or.inl h), fun h => h3 (Or.inr h), hv, rfl, rfl,
            rfl, rfl⟩
        | ok claims =>
          right
          exact ⟨token, claims, rfl, hv, rfl, rfl, rfl⟩

end middleware

/-! ## Facts about file trees -/

namespace os

open filepath

/-- The walk along a path and on along a second one. -/
theorem Node.find_append (q : List Bytes) : ∀ (p : List Bytes) (n m : Node),
    n.find p = .ok m → n.find (p ++ q) = m.find q := by
  intro p
  induction p with
  | nil =>
    intro n m h
    cases n <;> simp only [Node.find, Except.ok.injEq] at h <;> subst h <;> rfl
  | cons c rest ih =>
    intro n m h
    cases n with
    | file d => simp [Node.find] at h
    | dir es =>
      simp only [Node.find, List.cons_append] at h ⊢
      cases hl : es.lookup c with
      | none => rw [hl] at h; simp at h
      | some child =>
        rw [hl] at h
        exact ih child m h

theorem mem_of_lookup {es : List (Bytes × Node)} {c : Bytes} {v : Node}
    (h : es.lookup c = some v) : (c, v) ∈ es := by
  induction es with
  | nil => simp [List.lookup] at h
  | cons e rest ih =>
    obtain ⟨k, w⟩ := e
    by_cases hk : c = k
    · subst hk
      simp only [List.lookup, beq_self_eq_true, Option.some.injEq] at h
      subst h
      exact List.mem_cons_self _ _
    · have hb : (c == k) = false := by simpa using hk
      simp only [List.lookup, hb] at h
      exact List.mem_cons_of_mem _ (ih h)

theorem Node.wellFormedList_not_seen : ∀ (es : List (Bytes × Node)) (seen : List Bytes),
    Node.wellFormedList es seen = true → ∀ e ∈ es, e.1 ∉ seen
  | [], _, _, e, he => absurd he (List.not_mem_nil e)
  | (name, n) :: rest, seen, h, e, he => by
    simp only [Node.wellFormedList, Bool.and_eq_true, decide_eq_true_eq] at h
    rcases List.mem_cons.mp he with h1 | h1
    · rw [h1]
      exact h.1.1.2
    · intro hs
      exact Node.wellFormedList_not_seen rest (name :: seen) h.2 e h1 (List.mem_cons_of_mem _ hs)

/-- A node is the first of its entries. -/
theorem Node.entries_self (n : Node) : ([], n) ∈ n.entries := by
  cases n with
  | file d =>
    rw [Node.entries]
    exact List.mem_singleton_self _
  | dir es =>
    rw [Node.entries]
    exact List.mem_cons_self _ _

mutual

/-- In a well-formed tree every listed node is found along its names, which
are elements that `Clean` keeps. -/
theorem Node.entries_find : ∀ (n : Node), n.wellFormed = true →
    ∀ e ∈ n.entries, n.find e.1 = .ok e.2 ∧ ∀ name ∈ e.1, Proper name
  | .file d, _, e, he => by
    simp only [Node.entries, List.mem_singleton] at he
    subst he
    exact ⟨rfl, fun name hn => absurd hn (List.not_mem_nil name)⟩
  | .dir es, h, e, he => by
    simp only [Node.entries, List.mem_cons] at he
    rcases he with he | he
    · subst he
      exact ⟨rfl, fun name hn => absurd hn (List.not_mem_nil name)⟩
    · simp only [Node.wellFormed] at h
      obtain ⟨name, rest, child, h1, h2, h3, h4, h5⟩ := Node.entriesList_find es [] h e he
      rw [h1]
      refine ⟨?_, ?_⟩
      · simp only [Node.find, h2]
        exact h4
      · intro x hx
        rcases List.mem_cons.mp hx with hx | hx
        · rw [hx]; exact h3
        · exact h5 x hx

/-- The same for the entries of a directory. -/
theorem Node.entriesList_find : ∀ (es : List (Bytes × Node)) (seen : List Bytes),
    Node.wellFormedList es seen = true →
    ∀ e ∈ Node.entriesList es, ∃ (name : Bytes) (rest : List Bytes) (child : Node),
      e.1 = name :: rest ∧ es.lookup name = some child ∧ Proper name ∧
        child.find rest = .ok e.2 ∧ ∀ x ∈ rest, Proper x
  | [], _, _, e, he => by
    simp only [Node.entriesList] at he
    exact absurd he (List.not_mem_nil e)
  | (name, n) :: tail, seen, h, e, he => by
    have h0 := h
    simp only [Node.wellFormedList, Bool.and_eq_true, decide_eq_true_eq] at h
    obtain ⟨⟨⟨hp, _⟩, hn⟩, ht⟩ := h
    simp only [Node.entriesList, List.mem_append, List.mem_map] at he
    rcases he with ⟨e0, he0, rfl⟩ | he
    · obtain ⟨hf, hpr⟩ := Node.entries_find n hn e0 he0
      exact ⟨name, e0.1, n, rfl, by simp [List.lookup], hp, hf, hpr⟩
    · obtain ⟨name2, rest, child, h1, h2, h3, h4, h5⟩ :=
        Node.entriesList_find tail (name :: seen) ht e he
      refine ⟨name2, rest, child, h1, ?_, h3, h4, h5⟩
      have hne : name2 ≠ name := by
        intro heq
        have hmem := Node.wellFormedList_not_seen tail (name :: seen) ht _ (mem_of_lookup h2)
        exact hmem (by rw [heq]; exact List.mem_cons_self _ _)
      have hb : (name2 == name) = false := by simpa using hne
      simp only [List.lookup, hb]
      exact h2

end

end os

/-! ## Facts about `Ext` and the paths of a walk -/

namespace filepath

/-- The scan of `Ext` does not pass a separator. -/
theorem Ext.loop_append (t : Bytes) (ht : t = [] ∨ t.head? = some Separator) :
    ∀ (r scanned : Bytes), Ext.loop (r ++ t) scanned = Ext.loop r scanned := by
  intro r
  induction r with
  | nil =>
    intro scanned
    rcases ht with ht | ht
    · rw [ht]
      rfl
    · cases t with
      | nil => rfl
      | cons c rest =>
        simp only [List.head?_cons, Option.some.injEq] at ht
        simp only [List.nil_append, Ext.loop, ht, if_true]
  | cons c rest ih =>
    intro scanned
    simp only [List.cons_append, Ext.loop, List.append_eq, ih]

/-- The extension of a path that ends in an element after a separator is the
extension of the element. -/
theorem Ext_append (x name : Bytes) (hx : x = [] ∨ x.getLast? = some Separator) :
    Ext (x ++ name) = Ext name := by
  unfold Ext
  rw [List.reverse_append]
  apply Ext.loop_append
  rcases hx with hx | hx
  · left
    rw [hx]
    rfl
  · right
    rw [List.head?_reverse]
    exact hx

/-- What the scan of `Ext` returns is the end of the path. -/
theorem Ext.loop_suffix : ∀ (r scanned : Bytes), Ext.loop r scanned ≠ [] →
    Ext.loop r scanned <:+ r.reverse ++ scanned := by
  intro r
  induction r with
  | nil =>
    intro scanned h
    exact absurd rfl h
  | cons c rest ih =>
    intro scanned h
    simp only [Ext.loop] at h ⊢
    by_cases h1 : c = Separator
    · rw [if_pos h1] at h
      exact absurd rfl h
    · rw [if_neg h1] at h ⊢
      by_cases h2 : c = 46
      · rw [if_pos h2]
        rw [List.reverse_cons, List.append_assoc]
        exact List.suffix_append _ _
      · rw [if_neg h2] at h ⊢
        have := ih (c :: scanned) h
        rw [List.reverse_cons, List.append_assoc]
        exact this

/-- The extension is `.json` exactly when the name ends in `.json`. -/
theorem Ext_eq_jsonExt (name : Bytes) :
    Ext name = storage.jsonExt ↔ storage.jsonExt <:+ name := by
  constructor
  · intro h
    have := Ext.loop_suffix name.reverse [] (by
      change Ext name ≠ []
      rw [h]
      decide)
    rw [List.reverse_reverse, List.append_nil] at this
    change Ext name <:+ name at this
    rwa [h] at this
  · rintro ⟨p, rfl⟩
    unfold Ext
    rw [List.reverse_append]
    simp [storage.jsonExt, Ext.loop, Separator]

theorem joinElems_concat : ∀ (es : List Bytes) (x : Bytes), es ≠ [] →
    joinElems (es ++ [x]) = joinElems es ++ Separator :: x
  | [], _, h => absurd rfl h
  | [y], x, _ => by simp [joinElems]
  | y :: z :: rest, x, _ => by
    have := joinElems_concat (z :: rest) x (by simp)
    simp only [List.cons_append] at this
    simp only [List.cons_append, joinElems, List.append_eq, this, List.append_assoc]

/-- The rendering of a lexical form that ends in a proper element ends in the
element, after nothing or after a separator. -/
theorem Lexical.render_push (l : Lexical) {e : Bytes} (h : Proper e) :
    ∃ x : Bytes, (l.push e).render = x ++ e ∧ (x = [] ∨ x.getLast? = some Separator) := by
  rw [Lexical.push_proper l h]
  unfold Lexical.render
  simp only [List.reverse_cons, ← List.append_assoc]
  by_cases hes : List.replicate l.up dotdot ++ l.stack.reverse = []
  · rw [hes]
    simp only [List.nil_append, joinElems]
    by_cases hr : l.rooted = true
    · rw [if_pos hr]
      exact ⟨[Separator], rfl, Or.inr rfl⟩
    · rw [if_neg hr, if_neg h.1]
      exact ⟨[], rfl, Or.inl rfl⟩
  · rw [joinElems_concat _ _ hes]
    by_cases hr : l.rooted = true
    · rw [if_pos hr]
      refine ⟨Separator :: (joinElems (List.replicate l.up dotdot ++ l.stack.reverse) ++
        [Separator]), by simp, Or.inr ?_⟩
      rw [← List.cons_append, List.getLast?_append]
      rfl
    · rw [if_neg hr, if_neg (by simp)]
      refine ⟨joinElems (List.replicate l.up dotdot ++ l.stack.reverse) ++ [Separator],
        by simp, Or.inr ?_⟩
      rw [List.getLast?_append]
      rfl

/-- The path `Join(path, name)` for a proper element `name`. -/
theorem Join_proper {path : Bytes} (hp : path ≠ []) {name : Bytes} (h : Proper name) :
    Join [path, name] = ((lexical path).push name).render := by
  rw [Join_pair hp]
  unfold Clean
  rw [lexical_append hp, splitList_of_not_mem h.2.2.2]
  rfl

theorem Join_proper_ne_nil {path : Bytes} (hp : path ≠ []) {name : Bytes} (h : Proper name) :
    Join [path, name] ≠ [] := by
  rw [Join_proper hp h]
  exact Lexical.render_ne_nil _

theorem Ext_Join {path : Bytes} (hp : path ≠ []) {name : Bytes} (h : Proper name) :
    Ext (Join [path, name]) = Ext name := by
  obtain ⟨x, hx, hl⟩ := Lexical.render_push (lexical path) h
  rw [Join_proper hp h, hx]
  exact Ext_append x name hl

theorem walkPath_concat (root : Bytes) (rel : List Bytes) (name : Bytes) :
    walkPath root (rel ++ [name]) = Join [walkPath root rel, name] := by
  simp only [walkPath, List.foldl_append, List.foldl_cons, List.foldl_nil]

theorem walkPath_ne_nil : ∀ (rel : List Bytes) (root : Bytes), root ≠ [] →
    (∀ name ∈ rel, Proper name) → walkPath root rel ≠ [] := by
  intro rel
  induction rel with
  | nil => intro root h _; exact h
  | cons name rest ih =>
    intro root h hp
    simp only [walkPath, List.foldl_cons]
    exact ih _ (Join_proper_ne_nil h (hp name (List.mem_cons_self _ _)))
      (fun x hx => hp x (List.mem_cons_of_mem _ hx))

end filepath

namespace os

open filepath

/-- The place of `Join(path, name)` for a proper element `name`. -/
theorem FS.resolve_Join (fs : FS) {path : Bytes} (hp : path ≠ []) {name : Bytes}
    (h : Proper name) : fs.resolve (Join [path, name]) = fs.resolve path ++ [name] := by
  rw [FS.resolve_eq, FS.resolve_eq, lexical_Join_pair hp, splitList_of_not_mem h.2.2.2]
  exact FS.locate_push fs _ h

/-- The place of a path of the walk. -/
theorem FS.resolve_walkPath (fs : FS) : ∀ (rel : List Bytes) (root : Bytes), root ≠ [] →
    (∀ name ∈ rel, Proper name) → fs.resolve (walkPath root rel) = fs.resolve root ++ rel := by
  intro rel
  induction rel with
  | nil => intro root _ _; simp [walkPath]
  | cons name rest ih =>
    intro root h hp
    have hn := hp name (List.mem_cons_self _ _)
    have := ih (Join [root, name]) (Join_proper_ne_nil h hn)
      (fun x hx => hp x (List.mem_cons_of_mem _ hx))
    simp only [walkPath, List.foldl_cons] at this ⊢
    rw [this, FS.resolve_Join fs h hn, List.append_assoc]
    rfl

end os

/-! ## Facts about the walk of a namespace -/

namespace storage

open filepath

/-- The root of a walk is no record file. -/
theorem isRecordFile_nil (m : os.Node) : isRecordFile ([], m) = false := rfl

theorem isRecordFile_dir (rel : List Bytes) (es : List (Bytes × os.Node)) :
    isRecordFile (rel, .dir es) = false := by
  unfold isRecordFile
  cases rel.getLast? <;> rfl

theorem isRecordFile_file (init : List Bytes) (name d : Bytes) :
    isRecordFile (init ++ [name], .file d) = jsonExt.isSuffixOf name := by
  unfold isRecordFile
  simp

/-- What the walk functions see of a node below a directory of a well-formed
tree whose paths have no NUL byte: the test of the entry and of the extension
finds the record files, and a record file is read with its content. -/
theorem entry_facts {fsys : os.FS} {root : Bytes} {es : List (Bytes × os.Node)}
    (hroot : root ≠ []) (hfind : fsys.root.find (fsys.resolve root) = .ok (.dir es))
    (hwf : (os.Node.dir es).wellFormed = true)
    (hnul : ∀ x ∈ (os.Node.dir es).entries, (0 : Byte) ∉ walkPath root x.1)
    (e : List Bytes × os.Node) (he : e ∈ (os.Node.dir es).entries) :
    (e.2.dirEntry.IsDir || decide (Ext (walkPath root e.1) ≠ jsonExt)) = !isRecordFile e ∧
      (isRecordFile e = true →
        os.ReadFile fsys (walkPath root e.1) = .ok (nodeData e.2) ∧
          e.2.dirEntry.Info = .ok ⟨false, (nodeData e.2).length⟩) := by
  obtain ⟨hf, hp⟩ := os.Node.entries_find _ hwf e he
  have hv := hnul e he
  obtain ⟨rel, m⟩ := e
  simp only at hf hp hv ⊢
  rcases List.eq_nil_or_concat rel with hrel | ⟨init, name, hrel⟩
  · subst hrel
    simp only [os.Node.find, Except.ok.injEq] at hf
    subst hf
    exact ⟨rfl, fun h => absurd h (by simp [isRecordFile_nil])⟩
  · rw [List.concat_eq_append] at hrel
    subst hrel
    cases m with
    | dir es2 =>
      rw [isRecordFile_dir]
      exact ⟨rfl, fun h => absurd h (by simp)⟩
    | file d =>
      have hname : Proper name := hp name (by simp)
      have hinit : ∀ x ∈ init, Proper x := fun x hx => hp x (by simp [hx])
      have hne := walkPath_ne_nil init root hroot hinit
      rw [isRecordFile_file, walkPath_concat, Ext_Join hne hname]
      constructor
      · by_cases hs : jsonExt <:+ name
        · have h1 : jsonExt.isSuffixOf name = true := by simpa using hs
          have h2 := (Ext_eq_jsonExt name).mpr hs
          simp [os.Node.dirEntry, fs.DirEntry.IsDir, h1, h2]
        · have h1 : jsonExt.isSuffixOf name = false := by
            rw [Bool.eq_false_iff]
            simpa using hs
          have h2 : Ext name ≠ jsonExt := fun h => hs ((Ext_eq_jsonExt name).mp h)
          simp [os.Node.dirEntry, fs.DirEntry.IsDir, h1, h2]
      · intro _
        refine ⟨?_, rfl⟩
        rw [walkPath_concat] at hv
        apply os.ReadFile_of_file hv
        rw [← walkPath_concat, os.FS.resolve_walkPath fsys _ root hroot hp,
          os.Node.find_append _ _ _ _ hfind]
        simpa using hf

end storage

namespace storage

open filepath

/-- The step of `GetStorageStats` at a node below the directory of a
well-formed tree: a record file is counted with its size, and once more when
it parses as an encrypted record. -/
theorem Service.GetStorageStats_fn_entry (J : json.Codec) {fsys : os.FS} {root : Bytes}
    {es : List (Bytes × os.Node)} (hroot : root ≠ [])
    (hfind : fsys.root.find (fsys.resolve root) = .ok (.dir es))
    (hwf : (os.Node.dir es).wellFormed = true)
    (hnul : ∀ x ∈ (os.Node.dir es).entries, (0 : Byte) ∉ walkPath root x.1)
    (e : List Bytes × os.Node) (he : e ∈ (os.Node.dir es).entries) (st : Stats) :
    Service.GetStorageStats.fn J fsys st (walkPath root e.1) (.ok e.2.dirEntry) =
      (if isRecordFile e then
        ⟨st.total_articles + 1, st.total_size + (nodeData e.2).length,
          st.encrypted_articles + (if parsesEncrypted J (nodeData e.2) then 1 else 0)⟩
      else st, none) := by
  obtain ⟨h1, h2⟩ := entry_facts hroot hfind hwf hnul e he
  unfold Service.GetStorageStats.fn
  simp only [h1]
  cases hr : isRecordFile e with
  | false => simp
  | true =>
    obtain ⟨h3, h4⟩ := h2 hr
    cases hu : J.Unmarshal (nodeData e.2) with
    | error err =>
      simp [h3, h4, parsesEncrypted, hu]
    | ok article =>
      cases ha : article.IsEncrypted <;> simp [h3, h4, parsesEncrypted, hu, ha]

/-- The step of `ListUserContent` at a node below the directory of a
well-formed tree: the record of a record file that parses is appended. -/
theorem Service.ListUserContent_fn_entry (J : json.Codec) {fsys : os.FS} {root : Bytes}
    {es : List (Bytes × os.Node)} (hroot : root ≠ [])
    (hfind : fsys.root.find (fsys.resolve root) = .ok (.dir es))
    (hwf : (os.Node.dir es).wellFormed = true)
    (hnul : ∀ x ∈ (os.Node.dir es).entries, (0 : Byte) ∉ walkPath root x.1)
    (e : List Bytes × os.Node) (he : e ∈ (os.Node.dir es).entries) (st : Option (List ArticleContent)) :
    Service.ListUserContent.fn J fsys st (walkPath root e.1) (.ok e.2.dirEntry) =
      (if isRecordFile e then
        match parsed J (nodeData e.2) with
        | some article => some (st.getD [] ++ [article])
        | none => st
      else st, none) := by
  obtain ⟨h1, h2⟩ := entry_facts hroot hfind hwf hnul e he
  unfold Service.ListUserContent.fn
  simp only [h1]
  cases hr : isRecordFile e with
  | false => simp
  | true =>
    obtain ⟨h3, _⟩ := h2 hr
    cases hu : J.Unmarshal (nodeData e.2) <;> simp [h3, parsed, hu]

/-- The walk of `GetStorageStats` over nodes below the directory of a
well-formed tree. -/
theorem Service.GetStorageStats_run (J : json.Codec) {fsys : os.FS} {root : Bytes}
    {es : List (Bytes × os.Node)} (hroot : root ≠ [])
    (hfind : fsys.root.find (fsys.resolve root) = .ok (.dir es))
    (hwf : (os.Node.dir es).wellFormed = true)
    (hnul : ∀ x ∈ (os.Node.dir es).entries, (0 : Byte) ∉ walkPath root x.1) :
    ∀ (l : List (List Bytes × os.Node)) (st : Stats), (∀ e ∈ l, e ∈ (os.Node.dir es).entries) →
      WalkDir.run (Service.GetStorageStats.fn J fsys)
          (l.map (fun e => (walkPath root e.1, e.2.dirEntry))) st =
        (⟨st.total_articles + ((l.filter isRecordFile).map (fun e => nodeData e.2)).length,
          st.total_size +
            (((l.filter isRecordFile).map (fun e => nodeData e.2)).map List.length).sum,
          st.encrypted_articles +
            (((l.filter isRecordFile).map (fun e => nodeData e.2)).filter
              (parsesEncrypted J)).length⟩, none) := by
  intro l
  induction l with
  | nil => intro st _; rfl
  | cons e rest ih =>
    intro st hl
    have he := hl e (List.mem_cons_self _ _)
    have hrest : ∀ x ∈ rest, x ∈ (os.Node.dir es).entries :=
      fun x hx => hl x (List.mem_cons_of_mem _ hx)
    simp only [List.map_cons, WalkDir.run,
      Service.GetStorageStats_fn_entry J hroot hfind hwf hnul e he st]
    rw [ih _ hrest]
    cases hr : isRecordFile e with
    | false => simp [List.filter_cons, hr]
    | true =>
      cases hq : parsesEncrypted J (nodeData e.2) with
      | false =>
        simp [List.filter_cons, hr, hq]
        omega
      | true =>
        simp [List.filter_cons, hr, hq]
        omega

/-- The walk of `ListUserContent` over nodes below the directory of a
well-formed tree. -/
theorem Service.ListUserContent_run (J : json.Codec) {fsys : os.FS} {root : Bytes}
    {es : List (Bytes × os.Node)} (hroot : root ≠ [])
    (hfind : fsys.root.find (fsys.resolve root) = .ok (.dir es))
    (hwf : (os.Node.dir es).wellFormed = true)
    (hnul : ∀ x ∈ (os.Node.dir es).entries, (0 : Byte) ∉ walkPath root x.1) :
    ∀ (l : List (List Bytes × os.Node)) (st : Option (List ArticleContent)),
      (∀ e ∈ l, e ∈ (os.Node.dir es).entries) →
      WalkDir.run (Service.ListUserContent.fn J fsys)
          (l.map (fun e => (walkPath root e.1, e.2.dirEntry))) st =
        (listed st (((l.filter isRecordFile).map (fun e => nodeData e.2)).filterMap (parsed J)),
          none) := by
  intro l
  induction l with
  | nil => intro st _; rfl
  | cons e rest ih =>
    intro st hl
    have he := hl e (List.mem_cons_self _ _)
    have hrest : ∀ x ∈ rest, x ∈ (os.Node.dir es).entries :=
      fun x hx => hl x (List.mem_cons_of_mem _ hx)
    simp only [List.map_cons, WalkDir.run,
      Service.ListUserContent_fn_entry J hroot hfind hwf hnul e he st]
    rw [ih _ hrest]
    cases hr : isRecordFile e with
    | false => simp [List.filter_cons, hr]
    | true =>
      cases hq : parsed J (nodeData e.2) with
      | none => simp [List.filter_cons, hr, hq]
      | some article =>
        simp only [List.filter_cons, hr, if_true, List.map_cons, List.filterMap_cons, hq]
        generalize List.filterMap (parsed J)
          (List.map (fun x => nodeData x.2) (List.filter isRecordFile rest)) = tl
        unfold listed
        cases tl with
        | nil => simp
        | cons a tl2 => simp

end storage

namespace filepath

/-- A walk function that returns no error for an entry ends the walk without
an error. -/
theorem WalkDir.run_total {σ : Type}
    (fn : σ → Bytes → Except Error fs.DirEntry → σ × Option Error)
    (h : ∀ st path d, (fn st path (.ok d)).2 = none) :
    ∀ (l : List (Bytes × fs.DirEntry)) (st : σ), (WalkDir.run fn l st).2 = none := by
  intro l
  induction l with
  | nil => intro st; rfl
  | cons v rest ih =>
    intro st
    obtain ⟨path, d⟩ := v
    have h1 := h st path d
    unfold WalkDir.run
    cases hf : fn st path (.ok d) with
    | mk st1 err =>
      rw [hf] at h1
      simp only at h1
      subst h1
      exact ih st1

end filepath

namespace storage

open filepath

theorem Service.GetStorageStats_fn_total (J : json.Codec) (fsys : os.FS) (st : Stats)
    (path : Bytes) (d : fs.DirEntry) : (Service.GetStorageStats.fn J fsys st path (.ok d)).2 = none := by
  unfold Service.GetStorageStats.fn
  simp only
  split
  · rfl
  · split
    · rfl
    · split
      · rfl
      · split
        · rfl
        · split <;> rfl

theorem Service.ListUserContent_fn_total (J : json.Codec) (fsys : os.FS)
    (st : Option (List ArticleContent)) (path : Bytes) (d : fs.DirEntry) :
    (Service.ListUserContent.fn J fsys st path (.ok d)).2 = none := by
  unfold Service.ListUserContent.fn
  simp only
  split
  · rfl
  · split
    · rfl
    · split <;> rfl

/-- The nodes of the walk are the nodes of the tree. -/
theorem walkOrder_perm (n : os.Node) : n.walkOrder.Perm n.entries :=
  List.perm_insertionSort _ _

/-- The record files that the walk passes are the record files of the tree. -/
theorem recordFiles_perm (n : os.Node) :
    ((n.walkOrder.filter isRecordFile).map (fun e => nodeData e.2)).Perm (recordFiles n) :=
  ((walkOrder_perm n).filter _).map _

/-- Method `GetStorageStats` without a namespace: zeros. -/
theorem Service.GetStorageStats_not_exist (J : json.Codec) (s : Service) (fsys : os.FS)
    (u : Bytes) (h : os.statNotExist fsys (s.getUserStoragePath u) = true) :
    s.GetStorageStats J fsys u = (some ⟨0, 0, 0⟩, none) := by
  unfold Service.GetStorageStats
  rw [if_pos h]

/-- Method `GetStorageStats` on a path with a NUL byte: the error of the
walk. -/
theorem Service.GetStorageStats_nul (J : json.Codec) (s : Service) (fsys : os.FS)
    (u : Bytes) (h : (0 : Byte) ∈ s.getUserStoragePath u) :
    s.GetStorageStats J fsys u =
      (none, some (.wrap "failed to calculate storage stats" (.pathError "lstat" .EINVAL))) := by
  unfold Service.GetStorageStats
  rw [os.statNotExist_of_nul h]
  simp only [Bool.false_eq_true, if_false]
  unfold WalkDir
  rw [if_pos h]
  rfl

/-- Method `GetStorageStats` on a path that `os.Stat` finds returns no error. -/
theorem Service.GetStorageStats_found (J : json.Codec) (s : Service) (fsys : os.FS)
    (u : Bytes) (n : os.Node) (hv : (0 : Byte) ∉ s.getUserStoragePath u) (h : fsys.root.find (fsys.resolve (s.getUserStoragePath u)) = .ok n) :
    ∃ stats, s.GetStorageStats J fsys u = (some stats, none) := by
  unfold Service.GetStorageStats
  rw [os.statNotExist_of_ok hv h]
  simp only [Bool.false_eq_true, if_false]
  unfold WalkDir
  rw [if_neg hv]
  simp only [h]
  have := WalkDir.run_total (Service.GetStorageStats.fn J fsys)
    (Service.GetStorageStats_fn_total J fsys)
    (n.walkOrder.map (fun e => (walkPath (s.getUserStoragePath u) e.1, e.2.dirEntry))) ⟨0, 0, 0⟩
  cases hr : WalkDir.run (Service.GetStorageStats.fn J fsys)
    (n.walkOrder.map (fun e => (walkPath (s.getUserStoragePath u) e.1, e.2.dirEntry)))
    ⟨0, 0, 0⟩ with
  | mk st err =>
    rw [hr] at this
    simp only at this
    subst this
    exact ⟨st, rfl⟩

/-- Method `GetStorageStats` on the directory of a well-formed tree. -/
theorem Service.GetStorageStats_dir (J : json.Codec) (s : Service) (fsys : os.FS) (u : Bytes)
    (es : List (Bytes × os.Node))
    (hfind : fsys.root.find (fsys.resolve (s.getUserStoragePath u)) = .ok (.dir es))
    (hwf : (os.Node.dir es).wellFormed = true)
    (hnul : ∀ x ∈ (os.Node.dir es).entries,
      (0 : Byte) ∉ walkPath (s.getUserStoragePath u) x.1) :
    s.GetStorageStats J fsys u =
      (some ⟨(recordFiles (.dir es)).length, ((recordFiles (.dir es)).map List.length).sum,
        ((recordFiles (.dir es)).filter (parsesEncrypted J)).length⟩, none) := by
  unfold Service.GetStorageStats
  have hv : (0 : Byte) ∉ s.getUserStoragePath u :=
    hnul ([], .dir es) (os.Node.entries_self _)
  rw [os.statNotExist_of_ok hv hfind]
  simp only [Bool.false_eq_true, if_false]
  unfold WalkDir
  rw [if_neg hv]
  simp only [hfind]
  rw [Service.GetStorageStats_run J (s.getUserStoragePath_ne_nil u) hfind hwf hnul _ _
    (fun e he => (walkOrder_perm _).mem_iff.mp he)]
  have hp := recordFiles_perm (.dir es)
  simp only [Nat.zero_add, hp.length_eq, (hp.map List.length).sum_eq,
    (hp.filter (parsesEncrypted J)).length_eq]

/-- Method `ListUserContent` without a namespace: the empty slice. -/
theorem Service.ListUserContent_not_exist (J : json.Codec) (s : Service) (fsys : os.FS)
    (u : Bytes) (h : os.statNotExist fsys (s.getUserStoragePath u) = true) :
    s.ListUserContent J fsys u = (some [], none) := by
  unfold Service.ListUserContent
  rw [if_pos h]

/-- Method `ListUserContent` on a path with a NUL byte: the error of the
walk. -/
theorem Service.ListUserContent_nul (J : json.Codec) (s : Service) (fsys : os.FS)
    (u : Bytes) (h : (0 : Byte) ∈ s.getUserStoragePath u) :
    s.ListUserContent J fsys u =
      (none, some (.wrap "failed to list user content" (.pathError "lstat" .EINVAL))) := by
  unfold Service.ListUserContent
  rw [os.statNotExist_of_nul h]
  simp only [Bool.false_eq_true, if_false]
  unfold WalkDir
  rw [if_pos h]
  rfl

/-- Method `ListUserContent` on a path that `os.Stat` finds returns no error. -/
theorem Service.ListUserContent_found (J : json.Codec) (s : Service) (fsys : os.FS)
    (u : Bytes) (n : os.Node) (hv : (0 : Byte) ∉ s.getUserStoragePath u) (h : fsys.root.find (fsys.resolve (s.getUserStoragePath u)) = .ok n) :
    (s.ListUserContent J fsys u).2 = none := by
  unfold Service.ListUserContent
  rw [os.statNotExist_of_ok hv h]
  simp only [Bool.false_eq_true, if_false]
  unfold WalkDir
  rw [if_neg hv]
  simp only [h]
  have := WalkDir.run_total (Service.ListUserContent.fn J fsys)
    (Service.ListUserContent_fn_total J fsys)
    (n.walkOrder.map (fun e => (walkPath (s.getUserStoragePath u) e.1, e.2.dirEntry))) none
  cases hr : WalkDir.run (Service.ListUserContent.fn J fsys)
    (n.walkOrder.map (fun e => (walkPath (s.getUserStoragePath u) e.1, e.2.dirEntry)))
    none with
  | mk st err =>
    rw [hr] at this
    simp only at this
    subst this
    rfl

/-- Method `ListUserContent` on the directory of a well-formed tree. -/
theorem Service.ListUserContent_dir (J : json.Codec) (s : Service) (fsys : os.FS) (u : Bytes)
    (es : List (Bytes × os.Node))
    (hfind : fsys.root.find (fsys.resolve (s.getUserStoragePath u)) = .ok (.dir es))
    (hwf : (os.Node.dir es).wellFormed = true)
    (hnul : ∀ x ∈ (os.Node.dir es).entries,
      (0 : Byte) ∉ walkPath (s.getUserStoragePath u) x.1) :
    s.ListUserContent J fsys u =
      (listed none
        ((((os.Node.dir es).walkOrder.filter isRecordFile).map
          (fun e => nodeData e.2)).filterMap (parsed J)), none) := by
  unfold Service.ListUserContent
  have hv : (0 : Byte) ∉ s.getUserStoragePath u :=
    hnul ([], .dir es) (os.Node.entries_self _)
  rw [os.statNotExist_of_ok hv hfind]
  simp only [Bool.false_eq_true, if_false]
  unfold WalkDir
  rw [if_neg hv]
  simp only [hfind]
  rw [Service.ListUserContent_run J (s.getUserStoragePath_ne_nil u) hfind hwf hnul _ _
    (fun e he => (walkOrder_perm _).mem_iff.mp he)]

end storage

/-! ## Two keys and one tag -/

namespace encryption

/-- The plaintext `SU<3Le;QP@ZE2Ds<` of the collision. -/
theorem collision_text_length :
    ([83, 85, 60, 51, 76, 101, 59, 81, 80, 64, 90, 69, 50, 68, 115, 60] : Bytes).length = 16 :=
  rfl

set_option maxRecDepth 100000 in
/-- In an engine of one iteration, the blob of the plaintext
`SU<3Le;QP@ZE2Ds<` under the key `QQ==`, for the zero salt and the nonce
`00 00 00 00 00 00 00 00 00 04 56 24`. -/
theorem Service.Encrypt_collision :
    (NewService 1).Encrypt (some (List.replicate 16 0))
        (some [0, 0, 0, 0, 0, 0, 0, 0, 0, 4, 86, 36])
        [83, 85, 60, 51, 76, 101, 59, 81, 80, 64, 90, 69, 50, 68, 115, 60] [81, 81, 61, 61] =
      ([65, 65, 65, 65, 65, 65, 65, 65, 65, 65, 65, 65, 65, 65, 65, 65, 65, 65, 65, 65, 65, 65,
        65, 65, 65, 65, 65, 65, 65, 65, 65, 65, 65, 65, 82, 87, 74, 65, 77, 83, 86, 49, 70, 88,
        87, 80, 51, 48, 90, 71, 73, 86, 78, 105, 97, 113, 86, 51, 100, 56, 75, 53, 68, 72, 66,
        109, 102, 115, 80, 98, 75, 106, 102, 66, 70, 97, 121, 68, 103, 69], none) := by
  decide!

set_option maxRecDepth 100000 in
/-- In an engine of one iteration, the blob of `Service.Encrypt_collision` is
opened under the key `Qg==`: the tag in it is also the tag of its ciphertext
under the key derived from `Qg==`. -/
theorem Service.Decrypt_collision :
    (NewService 1).Decrypt
        [65, 65, 65, 65, 65, 65, 65, 65, 65, 65, 65, 65, 65, 65, 65, 65, 65, 65, 65, 65, 65, 65,
        65, 65, 65, 65, 65, 65, 65, 65, 65, 65, 65, 65, 82, 87, 74, 65, 77, 83, 86, 49, 70, 88,
        87, 80, 51, 48, 90, 71, 73, 86, 78, 105, 97, 113, 86, 51, 100, 56, 75, 53, 68, 72, 66,
        109, 102, 115, 80, 98, 75, 106, 102, 66, 70, 97, 121, 68, 103, 69]
        [81, 103, 61, 61] =
      ([209, 78, 179, 42, 22, 90, 22, 205, 202, 205, 215, 141, 224, 52, 133, 224], none) := by
  decide!

set_option maxRecDepth 100000 in
/-- In an engine of one iteration, for the zero salt and the zero nonce, the
tag of the ciphertext of `hi` under the key derived from `A` is not its tag
under the key derived from `B`. -/
theorem Service.auth_ne_example :
    cipher.gcm.auth ((NewService 1).aead [66] (List.replicate 16 0)).cipher
        (List.replicate 12 0) []
        (cipher.gcm.counterCrypt ((NewService 1).aead [65] (List.replicate 16 0)).cipher
          (List.replicate 12 0) [104, 105]) ≠
      cipher.gcm.auth ((NewService 1).aead [65] (List.replicate 16 0)).cipher
        (List.replicate 12 0) []
        (cipher.gcm.counterCrypt ((NewService 1).aead [65] (List.replicate 16 0)).cipher
          (List.replicate 12 0) [104, 105]) := by
  decide!

end encryption

/-! ## The claims about the encryption engine -/

namespace encryption

/-- C1 (round trip): for every user key `k` that the base64 decoder accepts,
every plaintext `p` (the empty one and any length included) and every salt of
16 bytes and nonce of 12 bytes drawn by `Encrypt`, `Encrypt(p, k)` succeeds
and `Decrypt(Encrypt(p, k), k)` returns exactly `p` with a nil error. -/
theorem C1_round_trip (s : Service) (k p salt nonce : Bytes) (hk : base64.Valid k)
    (hs : salt.length = 16) (hn : nonce.length = 12) :
    (s.Encrypt (some salt) (some nonce) p k).2 = none ∧
      s.Decrypt (s.Encrypt (some salt) (some nonce) p k).1 k = (p, none) := by
  obtain ⟨m, hm⟩ := hk
  refine ⟨?_, Service.Decrypt_Encrypt_same_bytes s p salt nonce hm hm hs hn⟩
  rw [Service.Encrypt_eq s p salt nonce hm]

/-- C1, at the key `AAAA…A=` (32 zero bytes), the plaintext `hi`, a zero salt
and a zero nonce. -/
theorem C1_round_trip_witness :
    base64.Valid (List.replicate 43 65 ++ [61]) ∧
      (List.replicate 16 (0 : Byte)).length = 16 ∧
      (List.replicate 12 (0 : Byte)).length = 12 ∧
      ((NewService 1000).Encrypt (some (List.replicate 16 0)) (some (List.replicate 12 0))
        [104, 105] (List.replicate 43 65 ++ [61])).2 = none ∧
      (NewService 1000).Decrypt
        ((NewService 1000).Encrypt (some (List.replicate 16 0)) (some (List.replicate 12 0))
          [104, 105] (List.replicate 43 65 ++ [61])).1
        (List.replicate 43 65 ++ [61]) = ([104, 105], none) :=
  ⟨by decide, by decide, by decide,
    C1_round_trip (NewService 1000) (List.replicate 43 65 ++ [61]) [104, 105]
      (List.replicate 16 0) (List.replicate 12 0) (by decide) (by decide) (by decide)⟩

/-- C2 fails as stated, and not only for keys that are read alike.  The user
keys `QQ==` and `QR==` are different strings, the decoder reads both as the
single byte `A`, and a blob sealed under the first is opened under the
second: `Decrypt` returns the plaintext `hi` and a nil error.  The keys
`QQ==` and `QQA=` decode to different bytes, `A` and `A` followed by a zero
byte, derive the same AES key and open the blobs of each other too.  The keys
`QQ==` and `Qg==` decode to the different bytes `A` and `B` and derive
different AES keys for the zero salt in an engine of one iteration; for the
plaintext `SU<3Le;QP@ZE2Ds<` and the nonce `00 00 00 00 00 00 00 00 00 04 56
24` the tag of the ciphertext is the same under both keys, and `Decrypt` of
the blob under `Qg==` returns sixteen other bytes and a nil error: GCM does
not commit to its key. -/
theorem C2_key_isolation_counterexample :
    (([81, 81, 61, 61] : Bytes) ≠ [81, 82, 61, 61] ∧
      (NewService 1000).Decrypt
        ((NewService 1000).Encrypt (some (List.replicate 16 0)) (some (List.replicate 12 0))
          [104, 105] [81, 81, 61, 61]).1
        [81, 82, 61, 61] = ([104, 105], none)) ∧
      (base64.DecodeString [81, 81, 61, 61] = some [65] ∧
        base64.DecodeString [81, 81, 65, 61] = some [65, 0] ∧
        (NewService 1000).Decrypt
          ((NewService 1000).Encrypt (some (List.replicate 16 0)) (some (List.replicate 12 0))
            [104, 105] [81, 81, 61, 61]).1
          [81, 81, 65, 61] = ([104, 105], none)) ∧
      (base64.DecodeString [81, 81, 61, 61] = some [65] ∧
        base64.DecodeString [81, 103, 61, 61] = some [66] ∧
        pbkdf2.Key [65] (List.replicate 16 0) 1 32 ≠ pbkdf2.Key [66] (List.replicate 16 0) 1 32 ∧
        (NewService 1).Encrypt (some (List.replicate 16 0))
          (some [0, 0, 0, 0, 0, 0, 0, 0, 0, 4, 86, 36])
          [83, 85, 60, 51, 76, 101, 59, 81, 80, 64, 90, 69, 50, 68, 115, 60] [81, 81, 61, 61] =
          ([65, 65, 65, 65, 65, 65, 65, 65, 65, 65, 65, 65, 65, 65, 65, 65, 65, 65, 65, 65, 65,
          65, 65, 65, 65, 65, 65, 65, 65, 65, 65, 65, 65, 65, 82, 87, 74, 65, 77, 83, 86, 49,
          70, 88, 87, 80, 51, 48, 90, 71, 73, 86, 78, 105, 97, 113, 86, 51, 100, 56, 75, 53,
          68, 72, 66, 109, 102, 115, 80, 98, 75, 106, 102, 66, 70, 97, 121, 68, 103, 69], none) ∧
        (NewService 1).Decrypt
          [65, 65, 65, 65, 65, 65, 65, 65, 65, 65, 65, 65, 65, 65, 65, 65, 65, 65, 65, 65, 65,
          65, 65, 65, 65, 65, 65, 65, 65, 65, 65, 65, 65, 65, 82, 87, 74, 65, 77, 83, 86, 49,
          70, 88, 87, 80, 51, 48, 90, 71, 73, 86, 78, 105, 97, 113, 86, 51, 100, 56, 75, 53,
          68, 72, 66, 109, 102, 115, 80, 98, 75, 106, 102, 66, 70, 97, 121, 68, 103, 69]
          [81, 103, 61, 61] =
          ([209, 78, 179, 42, 22, 90, 22, 205, 202, 205, 215, 141, 224, 52, 133, 224], none)) :=
  ⟨⟨by decide,
      Service.Decrypt_Encrypt_same_bytes (NewService 1000) [104, 105] (List.replicate 16 0)
        (List.replicate 12 0) (m := [65]) (by decide) (by decide) (by decide) (by decide)⟩,
    ⟨by decide, by decide,
      Service.Decrypt_Encrypt_zero_padded (NewService 1000) [104, 105] (List.replicate 16 0)
        (List.replicate 12 0) (by decide) (by decide)⟩,
    ⟨by decide, by decide,
      fun hkey => absurd
        ((@Service.Decrypt_Encrypt_same_key (NewService 1) [81, 81, 61, 61] [81, 103, 61, 61]
            [65] [66] [83, 85, 60, 51, 76, 101, 59, 81, 80, 64, 90, 69, 50, 68, 115, 60]
            (List.replicate 16 0) [0, 0, 0, 0, 0, 0, 0, 0, 0, 4, 86, 36] (by decide) (by decide)
            hkey.symm (by decide) (by decide)).symm.trans
          ((congrArg (fun b => (NewService 1).Decrypt b [81, 103, 61, 61])
            (congrArg Prod.fst Service.Encrypt_collision)).trans Service.Decrypt_collision))
        (by decide),
      Service.Encrypt_collision, Service.Decrypt_collision⟩⟩

/-- C2, as amended: for a blob sealed under a decodable key `k1`, `Decrypt`
under `k2` fails with the key-derivation error when the decoder rejects `k2`;
when the decoder accepts `k2` it fails with the authentication error exactly
when the tag recomputed under the key derived from `k2` differs from the tag
in the blob, and when the two tags are equal it returns with a nil error the
ciphertext decrypted under the key derived from `k2`; this is the plaintext
when `k2` derives the key of `k1` again, as it does when `k2` decodes to the
bytes of `k1`. -/
theorem C2_key_isolation_amended (s : Service) (k1 k2 m1 p salt nonce : Bytes)
    (h1 : base64.DecodeString k1 = some m1) (hs : salt.length = 16)
    (hn : nonce.length = 12) :
    (base64.DecodeString k2 = none →
        s.Decrypt (s.Encrypt (some salt) (some nonce) p k1).1 k2 =
          ([], some (.wrap "failed to derive key"
            (.wrap "failed to decode master key" .corruptInput)))) ∧
      (∀ m2, base64.DecodeString k2 = some m2 →
        (s.Decrypt (s.Encrypt (some salt) (some nonce) p k1).1 k2 =
            ([], some (.wrap "failed to decrypt" .openFailed)) ↔
          cipher.gcm.auth (s.aead m2 salt).cipher nonce []
              (cipher.gcm.counterCrypt (s.aead m1 salt).cipher nonce p) ≠
            cipher.gcm.auth (s.aead m1 salt).cipher nonce []
              (cipher.gcm.counterCrypt (s.aead m1 salt).cipher nonce p))) ∧
      (∀ m2, base64.DecodeString k2 = some m2 →
        cipher.gcm.auth (s.aead m2 salt).cipher nonce []
            (cipher.gcm.counterCrypt (s.aead m1 salt).cipher nonce p) =
          cipher.gcm.auth (s.aead m1 salt).cipher nonce []
            (cipher.gcm.counterCrypt (s.aead m1 salt).cipher nonce p) →
        s.Decrypt (s.Encrypt (some salt) (some nonce) p k1).1 k2 =
          (cipher.gcm.counterCrypt (s.aead m2 salt).cipher nonce
            (cipher.gcm.counterCrypt (s.aead m1 salt).cipher nonce p), none)) ∧
      (∀ m2, base64.DecodeString k2 = some m2 →
        pbkdf2.Key m2 salt s.iterations 32 = pbkdf2.Key m1 salt s.iterations 32 →
        s.Decrypt (s.Encrypt (some salt) (some nonce) p k1).1 k2 = (p, none)) ∧
      (base64.DecodeString k2 = some m1 →
        s.Decrypt (s.Encrypt (some salt) (some nonce) p k1).1 k2 = (p, none)) := by
  have hopen : ∀ m2, base64.DecodeString k2 = some m2 →
      s.Decrypt (s.Encrypt (some salt) (some nonce) p k1).1 k2 =
        openOutcome
          (if cipher.gcm.auth (s.aead m2 salt).cipher nonce []
              (cipher.gcm.counterCrypt (s.aead m1 salt).cipher nonce p) ≠
            cipher.gcm.auth (s.aead m1 salt).cipher nonce []
              (cipher.gcm.counterCrypt (s.aead m1 salt).cipher nonce p)
          then ([], some Error.openFailed)
          else (cipher.gcm.counterCrypt (s.aead m2 salt).cipher nonce
            (cipher.gcm.counterCrypt (s.aead m1 salt).cipher nonce p), none)) := by
    intro m2 h2
    rw [Service.Encrypt_eq s p salt nonce h1, Service.Decrypt_blob s salt nonce _ h2 hs hn,
      cipher.gcm.output,
      cipher.AEAD.Open_append _ _ _ _ _ (cipher.gcm.length_auth _ (Service.aead_length s m1 salt)
        _ _ _)]
  refine ⟨?_, ?_, ?_, ?_, ?_⟩
  · intro h2
    exact Service.Decrypt_Encrypt_invalid s p salt nonce h1 h2 hs
  · intro m2 h2
    rw [hopen m2 h2]
    by_cases hne : cipher.gcm.auth (s.aead m2 salt).cipher nonce []
        (cipher.gcm.counterCrypt (s.aead m1 salt).cipher nonce p) ≠
        cipher.gcm.auth (s.aead m1 salt).cipher nonce []
          (cipher.gcm.counterCrypt (s.aead m1 salt).cipher nonce p)
    · rw [if_pos hne]
      simp only [openOutcome, hne, ne_eq, not_false_eq_true]
    · rw [if_neg hne]
      simp only [openOutcome, hne, iff_false]
      intro h
      exact Option.noConfusion (congrArg Prod.snd h)
  · intro m2 h2 heq
    rw [hopen m2 h2, if_neg (not_not.mpr heq)]
    rfl
  · intro m2 h2 hkey
    exact Service.Decrypt_Encrypt_same_key s p salt nonce h1 h2 hkey hs hn
  · intro h2
    exact Service.Decrypt_Encrypt_same_bytes s p salt nonce h1 h2 hs hn

/-- C2 as amended, in an engine of one iteration, for the plaintext `hi`
sealed under `QQ==` with a zero salt and a zero nonce: the key `Qg==` is
decodable, differs from `QQ==` in its bytes, and is rejected with the
authentication error. -/
theorem C2_key_isolation_amended_witness :
    base64.DecodeString [81, 81, 61, 61] = some [65] ∧
      base64.DecodeString [81, 103, 61, 61] = some [66] ∧
      (NewService 1).Decrypt
        ((NewService 1).Encrypt (some (List.replicate 16 0)) (some (List.replicate 12 0))
          [104, 105] [81, 81, 61, 61]).1
        [81, 103, 61, 61] = ([], some (.wrap "failed to decrypt" .openFailed)) :=
  ⟨by decide, by decide,
    ((C2_key_isolation_amended (NewService 1) [81, 81, 61, 61] [81, 103, 61, 61] [65]
      [104, 105] (List.replicate 16 0) (List.replicate 12 0) (by decide) (by decide)
      (by decide)).2.1 [66] (by decide)).mpr Service.auth_ne_example⟩

/-- C4 (layout of the sealed blob): for a decodable key and draws of 16 and
12 bytes, `Encrypt` succeeds and its result decodes to
`salt ++ nonce ++ sealed`, where `sealed` is the GCM output (ciphertext of
the length of the plaintext, then the 16-byte tag) of AES-256 under
`DeriveKey(k, salt)`; the decoded length is `len(p) + 44`; and `Decrypt` cuts
the blob at the offsets 16 and 28: under any decodable key it derives the key
from `salt` and hands `nonce` and `sealed` to `Open`. -/
theorem C4_blob_layout (s : Service) (k m p salt nonce : Bytes)
    (hk : base64.DecodeString k = some m) (hs : salt.length = 16) (hn : nonce.length = 12) :
    ∃ key ct tag : Bytes,
      s.DeriveKey k (base64.EncodeToString salt) = (key, none) ∧ key.length = 32 ∧
      aes.NewCipher key = .ok (s.aead m salt).cipher ∧
      (s.Encrypt (some salt) (some nonce) p k).2 = none ∧
      base64.DecodeString (s.Encrypt (some salt) (some nonce) p k).1 =
        some (salt ++ nonce ++ (ct ++ tag)) ∧
      ct ++ tag = (s.aead m salt).Seal [] nonce p [] ∧
      ct.length = p.length ∧ tag.length = 16 ∧
      (salt ++ nonce ++ (ct ++ tag)).length = p.length + 44 ∧
      (salt ++ nonce ++ (ct ++ tag)).take 16 = salt ∧
      ((salt ++ nonce ++ (ct ++ tag)).drop 16).take 12 = nonce ∧
      (salt ++ nonce ++ (ct ++ tag)).drop 28 = ct ++ tag ∧
      ∀ k2 m2, base64.DecodeString k2 = some m2 →
        s.Decrypt (s.Encrypt (some salt) (some nonce) p k).1 k2 =
          openOutcome ((s.aead m2 salt).Open [] nonce (ct ++ tag) []) := by
  have hb := Service.aead_length s m salt
  obtain ⟨p1, p2, p3⟩ := blob_parts
    (cipher.gcm.output (s.aead m salt).cipher nonce p []) hs hn
  refine ⟨pbkdf2.Key m salt s.iterations 32,
    cipher.gcm.counterCrypt (s.aead m salt).cipher nonce p,
    cipher.gcm.auth (s.aead m salt).cipher nonce []
      (cipher.gcm.counterCrypt (s.aead m salt).cipher nonce p),
    Service.DeriveKey_encoded s salt hk, pbkdf2.length_Key _ _ _,
    aes.NewCipher_of_length (pbkdf2.length_Key _ _ _), ?_, ?_, ?_,
    cipher.gcm.length_counterCrypt _ hb _ _, cipher.gcm.length_auth _ hb _ _ _, ?_, ?_, ?_, ?_,
    ?_⟩
  · rw [Service.Encrypt_eq s p salt nonce hk]
  · rw [Service.Encrypt_eq s p salt nonce hk, base64.DecodeString_EncodeToString,
      List.append_assoc]
    rfl
  · simp [cipher.AEAD.Seal, cipher.gcm.output]
  · simp only [List.length_append, hs, hn, cipher.gcm.length_counterCrypt _ hb,
      cipher.gcm.length_auth _ hb]
    omega
  · rw [List.append_assoc]; exact p1
  · rw [List.append_assoc]; exact p2
  · rw [List.append_assoc]; exact p3
  · intro k2 m2 h2
    rw [Service.Encrypt_eq s p salt nonce hk, Service.Decrypt_blob s salt nonce _ h2 hs hn]
    rfl

/-- C4, at the key `QQ==`, the plaintext `hi`, a zero salt and a zero nonce. -/
theorem C4_blob_layout_witness :
    base64.DecodeString [81, 81, 61, 61] = some [65] ∧
      ∃ key ct tag : Bytes,
        (NewService 1000).DeriveKey [81, 81, 61, 61]
          (base64.EncodeToString (List.replicate 16 0)) = (key, none) ∧
        key.length = 32 ∧
        aes.NewCipher key = .ok ((NewService 1000).aead [65] (List.replicate 16 0)).cipher ∧
        ((NewService 1000).Encrypt (some (List.replicate 16 0)) (some (List.replicate 12 0))
          [104, 105] [81, 81, 61, 61]).2 = none ∧
        base64.DecodeString ((NewService 1000).Encrypt (some (List.replicate 16 0))
          (some (List.replicate 12 0)) [104, 105] [81, 81, 61, 61]).1 =
          some (List.replicate 16 0 ++ List.replicate 12 0 ++ (ct ++ tag)) ∧
        ct ++ tag = ((NewService 1000).aead [65] (List.replicate 16 0)).Seal []
          (List.replicate 12 0) [104, 105] [] ∧
        ct.length = ([104, 105] : Bytes).length ∧ tag.length = 16 ∧
        (List.replicate 16 0 ++ List.replicate 12 0 ++ (ct ++ tag)).length =
          ([104, 105] : Bytes).length + 44 ∧
        (List.replicate 16 0 ++ List.replicate 12 0 ++ (ct ++ tag)).take 16 =
          List.replicate 16 0 ∧
        ((List.replicate 16 0 ++ List.replicate 12 0 ++ (ct ++ tag)).drop 16).take 12 =
          List.replicate 12 0 ∧
        (List.replicate 16 0 ++ List.replicate 12 0 ++ (ct ++ tag)).drop 28 = ct ++ tag ∧
        ∀ k2 m2, base64.DecodeString k2 = some m2 →
          (NewService 1000).Decrypt ((NewService 1000).Encrypt (some (List.replicate 16 0))
            (some (List.replicate 12 0)) [104, 105] [81, 81, 61, 61]).1 k2 =
            openOutcome (((NewService 1000).aead m2 (List.replicate 16 0)).Open []
              (List.replicate 12 0) (ct ++ tag) []) :=
  ⟨by decide,
    C4_blob_layout (NewService 1000) [81, 81, 61, 61] [65] [104, 105] (List.replicate 16 0)
      (List.replicate 12 0) (by decide) (by decide) (by decide)⟩

/-- C5 (fresh randomness): for a fixed plaintext and decodable key, two calls
of `Encrypt` whose draws `(salt, nonce)` differ return different strings, and
each of the two decrypts under the key to the plaintext. -/
theorem C5_distinct_blobs (s : Service) (k p salt1 nonce1 salt2 nonce2 : Bytes)
    (hk : base64.Valid k) (hs1 : salt1.length = 16) (hn1 : nonce1.length = 12)
    (hs2 : salt2.length = 16) (hn2 : nonce2.length = 12)
    (hne : (salt1, nonce1) ≠ (salt2, nonce2)) :
    (s.Encrypt (some salt1) (some nonce1) p k).1 ≠ (s.Encrypt (some salt2) (some nonce2) p k).1 ∧
      s.Decrypt (s.Encrypt (some salt1) (some nonce1) p k).1 k = (p, none) ∧
      s.Decrypt (s.Encrypt (some salt2) (some nonce2) p k).1 k = (p, none) := by
  obtain ⟨m, hm⟩ := hk
  refine ⟨?_, Service.Decrypt_Encrypt_same_bytes s p salt1 nonce1 hm hm hs1 hn1,
    Service.Decrypt_Encrypt_same_bytes s p salt2 nonce2 hm hm hs2 hn2⟩
  rw [Service.Encrypt_eq s p salt1 nonce1 hm, Service.Encrypt_eq s p salt2 nonce2 hm]
  intro h
  have h' := base64.EncodeToString_injective h
  obtain ⟨a1, a2, _⟩ := blob_parts (cipher.gcm.output (s.aead m salt1).cipher nonce1 p []) hs1 hn1
  obtain ⟨b1, b2, _⟩ := blob_parts (cipher.gcm.output (s.aead m salt2).cipher nonce2 p []) hs2 hn2
  apply hne
  have e1 : salt1 = salt2 := by rw [← a1, ← b1, h']
  have e2 : nonce1 = nonce2 := by rw [← a2, ← b2, h']
  rw [e1, e2]

/-- C5, at the key `QQ==`, the plaintext `hi`, and two draws that differ in
the first byte of the nonce. -/
theorem C5_distinct_blobs_witness :
    base64.Valid [81, 81, 61, 61] ∧
      ((List.replicate 16 (0 : Byte), List.replicate 12 (0 : Byte)) ≠
        (List.replicate 16 0, 1 :: List.replicate 11 0)) ∧
      ((NewService 1000).Encrypt (some (List.replicate 16 0)) (some (List.replicate 12 0))
          [104, 105] [81, 81, 61, 61]).1 ≠
        ((NewService 1000).Encrypt (some (List.replicate 16 0)) (some (1 :: List.replicate 11 0))
          [104, 105] [81, 81, 61, 61]).1 ∧
      (NewService 1000).Decrypt ((NewService 1000).Encrypt (some (List.replicate 16 0))
        (some (List.replicate 12 0)) [104, 105] [81, 81, 61, 61]).1 [81, 81, 61, 61] =
        ([104, 105], none) ∧
      (NewService 1000).Decrypt ((NewService 1000).Encrypt (some (List.replicate 16 0))
        (some (1 :: List.replicate 11 0)) [104, 105] [81, 81, 61, 61]).1 [81, 81, 61, 61] =
        ([104, 105], none) :=
  ⟨by decide, by decide,
    C5_distinct_blobs (NewService 1000) [81, 81, 61, 61] [104, 105] (List.replicate 16 0)
      (List.replicate 12 0) (List.replicate 16 0) (1 :: List.replicate 11 0) (by decide)
      (by decide) (by decide) (by decide) (by decide) (by decide)⟩

/-- C6 (key derivation): `DeriveKey` returns an error exactly when the
decoder rejects the master key or the salt; when it accepts both, `DeriveKey`
returns a nil error and the 32-byte PBKDF2 key of the decoded bytes, which
depends on the service through its iteration count only; and the encodings of
any two byte strings, the empty one included, are accepted. -/
theorem C6_derive_key (s : Service) (masterKey salt : Bytes) :
    ((s.DeriveKey masterKey salt).2 ≠ none ↔
        ¬ base64.Valid masterKey ∨ ¬ base64.Valid salt) ∧
      ((s.DeriveKey masterKey salt).2 ≠ none → (s.DeriveKey masterKey salt).1 = []) ∧
      (∀ a b, base64.DecodeString masterKey = some a → base64.DecodeString salt = some b →
        s.DeriveKey masterKey salt = (pbkdf2.Key a b s.iterations 32, none) ∧
        (s.DeriveKey masterKey salt).1.length = 32 ∧
        ∀ s2 : Service, s2.iterations = s.iterations →
          s2.DeriveKey masterKey salt = s.DeriveKey masterKey salt) ∧
      (∀ a b : Bytes,
        s.DeriveKey (base64.EncodeToString a) (base64.EncodeToString b) =
          (pbkdf2.Key a b s.iterations 32, none)) ∧
      s.DeriveKey [] [] = (pbkdf2.Key [] [] s.iterations 32, none) := by
  refine ⟨?_, ?_, ?_, ?_, ?_⟩
  · unfold Service.DeriveKey base64.Valid
    cases h1 : base64.DecodeString masterKey with
    | none => simp
    | some a =>
      cases h2 : base64.DecodeString salt with
      | none => simp
      | some b => simp
  · unfold Service.DeriveKey
    cases h1 : base64.DecodeString masterKey with
    | none => simp
    | some a =>
      cases h2 : base64.DecodeString salt with
      | none => simp
      | some b => simp
  · intro a b h1 h2
    have h : s.DeriveKey masterKey salt = (pbkdf2.Key a b s.iterations 32, none) := by
      simp [Service.DeriveKey, h1, h2]
    refine ⟨h, ?_, ?_⟩
    · rw [h]; exact pbkdf2.length_Key a b s.iterations
    · intro s2 hs2
      simp [Service.DeriveKey, h1, h2, hs2]
  · intro a b
    simp [Service.DeriveKey, base64.DecodeString_EncodeToString]
  · rfl

/-- C7 (short blobs): when the input is not decodable or decodes to fewer
than 44 bytes (16 of salt, 12 of nonce, 16 of tag), `Decrypt` returns an
error, under every key. -/
theorem C7_short_blob (s : Service) (encryptedData userKey : Bytes)
    (h : ∀ data, base64.DecodeString encryptedData = some data → data.length < 44) :
    (s.Decrypt encryptedData userKey).2 ≠ none := by
  cases hd : base64.DecodeString encryptedData with
  | none => simp [Service.Decrypt, hd]
  | some data =>
    have hlen := h data hd
    by_cases h16 : data.length < 16
    · simp [Service.Decrypt, hd, h16]
    · cases hk : base64.DecodeString userKey with
      | none => simp [Service.Decrypt, hd, h16, Service.DeriveKey_invalid s _ hk]
      | some m =>
        by_cases h28 : data.length < 28
        · have h4 : (data.drop 16).length < cipher.gcm.NonceSize := by
            simp [cipher.gcm.NonceSize]; omega
          simp only [Service.Decrypt, hd, if_neg h16, Service.DeriveKey_encoded s _ hk,
            aes.NewCipher_of_length (pbkdf2.length_Key m _ s.iterations),
            cipher.NewGCM_newCipher, cipher.AEAD.NonceSize, if_pos h4]
          simp
        · rw [Service.Decrypt_decoded s hd hk (by omega),
            cipher.AEAD.Open_short _ _ _ _ _ (by simp; omega)]
          simp [openOutcome]

/-- C7, at the input `QUJD`, which decodes to the three bytes `ABC`. -/
theorem C7_short_blob_witness :
    (∀ data, base64.DecodeString [81, 85, 74, 68] = some data → data.length < 44) ∧
      ((NewService 1000).Decrypt [81, 85, 74, 68] [81, 81, 61, 61]).2 ≠ none :=
  ⟨by decide,
    C7_short_blob (NewService 1000) [81, 85, 74, 68] [81, 81, 61, 61] (by decide)⟩

/-- C8 (no partial plaintext): whenever `Decrypt` returns an error its string
is empty; and when it returns a nil error, the input decodes to at least 44
bytes, the tag in its last 16 bytes equals the tag expected for the whole
ciphertext between offset 28 and the tag under the key derived from the user
key and the first 16 bytes, and the string returned is the decryption of
that whole ciphertext, as returned by `Open`. -/
theorem C8_no_partial_plaintext (s : Service) (encryptedData userKey : Bytes) :
    ((s.Decrypt encryptedData userKey).2 ≠ none → (s.Decrypt encryptedData userKey).1 = []) ∧
      ((s.Decrypt encryptedData userKey).2 = none →
        ∃ data m, base64.DecodeString encryptedData = some data ∧
          base64.DecodeString userKey = some m ∧ 44 ≤ data.length ∧
          (s.aead m (data.take 16)).Open [] ((data.drop 16).take 12) (data.drop 28) [] =
            ((s.Decrypt encryptedData userKey).1, none) ∧
          cipher.gcm.auth (s.aead m (data.take 16)).cipher ((data.drop 16).take 12) []
            ((data.drop 28).take (data.length - 44)) = data.drop (data.length - 16) ∧
          (s.Decrypt encryptedData userKey).1 =
            cipher.gcm.counterCrypt (s.aead m (data.take 16)).cipher ((data.drop 16).take 12)
              ((data.drop 28).take (data.length - 44))) := by
  rcases Service.Decrypt_cases s encryptedData userKey with ⟨h1, h2, _⟩ | ⟨h1, _, data, m, hd, hk, hl, ho⟩
  · exact ⟨fun _ => h1, fun h => absurd h h2⟩
  · refine ⟨fun h => absurd h1 h, fun _ => ⟨data, m, hd, hk, ?_⟩⟩
    obtain ⟨a, b, c⟩ := (cipher.AEAD.Open_ok_iff _ _ _ _ _).mp ho
    have hlen : (data.drop 28).length = data.length - 28 := by simp
    have e1 : (data.drop 28).length - 16 = data.length - 44 := by omega
    have e2 : (data.drop 28).drop (data.length - 44) = data.drop (data.length - 16) := by
      rw [List.drop_drop]
      congr 1
      omega
    rw [e1] at b c
    rw [e2] at b
    exact ⟨by omega, ho, b, c⟩

/-- C9 (distinct error kinds): the failure mode of a run of `Decrypt` (an
undecodable input, a blob too short for salt and nonce, an undecodable user
key, a tag that does not verify) can be read off the error it returns; there
is an error exactly when there is a failure mode; and two runs with different
failure modes return different errors. -/
theorem C9_distinct_errors (s : Service) (encryptedData userKey : Bytes) :
    (s.Decrypt encryptedData userKey).2.bind FailureMode.ofError =
        s.failureMode encryptedData userKey ∧
      ((s.Decrypt encryptedData userKey).2 = none ↔
        s.failureMode encryptedData userKey = none) ∧
      ∀ (s2 : Service) (encryptedData2 userKey2 : Bytes),
        s.failureMode encryptedData userKey ≠ s2.failureMode encryptedData2 userKey2 →
        (s.Decrypt encryptedData userKey).2 ≠ (s2.Decrypt encryptedData2 userKey2).2 := by
  have key : ∀ (t : Service) (a b : Bytes),
      (t.Decrypt a b).2.bind FailureMode.ofError = t.failureMode a b := by
    intro t a b
    rcases Service.Decrypt_cases t a b with ⟨_, _, h, _⟩ | ⟨h1, h2, _⟩
    · exact h
    · rw [h1, h2]; rfl
  refine ⟨key s encryptedData userKey, ?_, ?_⟩
  · rcases Service.Decrypt_cases s encryptedData userKey with ⟨_, h2, _, h4⟩ | ⟨h1, h2, _⟩
    · exact ⟨fun h => absurd h h2, fun h => absurd h h4⟩
    · exact ⟨fun _ => h2, fun _ => h1⟩
  · intro s2 e2 u2 hne heq
    apply hne
    rw [← key s encryptedData userKey, ← key s2 e2 u2, heq]

/-- C10 (the blob differs from the plaintext): for a decodable key and draws
of 16 and 12 bytes, the string returned by `Encrypt(p, k)` has
`4 * ceil((len(p) + 44) / 3)` characters, which is more than `len(p)`, so it
is not `p`. -/
theorem C10_blob_differs (s : Service) (k p salt nonce : Bytes) (hk : base64.Valid k)
    (hs : salt.length = 16) (hn : nonce.length = 12) :
    (s.Encrypt (some salt) (some nonce) p k).1 ≠ p ∧
      (s.Encrypt (some salt) (some nonce) p k).1.length = 4 * ((p.length + 44 + 2) / 3) ∧
      p.length < (s.Encrypt (some salt) (some nonce) p k).1.length := by
  obtain ⟨m, hm⟩ := hk
  have hlen : (s.Encrypt (some salt) (some nonce) p k).1.length =
      4 * ((p.length + 44 + 2) / 3) := by
    rw [Service.Encrypt_eq s p salt nonce hm]
    simp only [base64.length_EncodeToString, List.length_append, hs, hn,
      cipher.gcm.length_output _ (Service.aead_length s m salt)]
    congr 2
    omega
  have hlt : p.length < (s.Encrypt (some salt) (some nonce) p k).1.length := by
    rw [hlen]; omega
  refine ⟨?_, hlen, hlt⟩
  intro h
  rw [h] at hlt
  exact Nat.lt_irrefl _ hlt

/-- C10, at the key `QQ==`, the plaintext `hi`, a zero salt and a zero nonce. -/
theorem C10_blob_differs_witness :
    base64.Valid [81, 81, 61, 61] ∧
      ((NewService 1000).Encrypt (some (List.replicate 16 0)) (some (List.replicate 12 0))
        [104, 105] [81, 81, 61, 61]).1 ≠ [104, 105] ∧
      ((NewService 1000).Encrypt (some (List.replicate 16 0)) (some (List.replicate 12 0))
        [104, 105] [81, 81, 61, 61]).1.length = 4 * ((([104, 105] : Bytes).length + 44 + 2) / 3) ∧
      ([104, 105] : Bytes).length <
        ((NewService 1000).Encrypt (some (List.replicate 16 0)) (some (List.replicate 12 0))
          [104, 105] [81, 81, 61, 61]).1.length :=
  ⟨by decide,
    C10_blob_differs (NewService 1000) [81, 81, 61, 61] [104, 105] (List.replicate 16 0)
      (List.replicate 12 0) (by decide) (by decide) (by decide)⟩

end encryption

/-! ## The claims about key generation and file encryption -/

namespace encryption

/-- C11 (key generation): for every successful draw of 32 bytes,
`GenerateUserKey` returns a nil error and a non-empty string of 44 characters
of the standard base64 alphabet and padding that decodes to exactly the 32
bytes drawn (256 bits); and two draws that differ give different strings. -/
theorem C11_generate_user_key (s : Service) (key key2 : Bytes) (h : key.length = 32) :
    (s.GenerateUserKey (some key)).2 = none ∧
      (s.GenerateUserKey (some key)).1 ≠ [] ∧
      (s.GenerateUserKey (some key)).1.length = 44 ∧
      (∀ c ∈ (s.GenerateUserKey (some key)).1, base64.decodeMap c ≠ none ∨ c = base64.padChar) ∧
      base64.DecodeString (s.GenerateUserKey (some key)).1 = some key ∧
      (∀ b, base64.DecodeString (s.GenerateUserKey (some key)).1 = some b → b.length * 8 = 256) ∧
      (key ≠ key2 →
        (s.GenerateUserKey (some key)).1 ≠ (s.GenerateUserKey (some key2)).1) := by
  have hl : (base64.EncodeToString key).length = 44 := by
    rw [base64.length_EncodeToString, h]
  refine ⟨rfl, ?_, hl, base64.EncodeToString_chars key, base64.DecodeString_EncodeToString key,
    ?_, ?_⟩
  · intro he
    have : (s.GenerateUserKey (some key)).1.length = 44 := hl
    rw [he] at this
    simp at this
  · intro b hb
    have hb2 : base64.DecodeString (base64.EncodeToString key) = some b := hb
    rw [base64.DecodeString_EncodeToString] at hb2
    cases hb2
    rw [h]
  · intro hne he
    exact hne (base64.EncodeToString_injective he)

/-- C11, at the draw of 32 zero bytes and the draw of 32 bytes `1`. -/
theorem C11_generate_user_key_witness :
    (List.replicate 32 (0 : Byte)).length = 32 ∧ (List.replicate 32 (1 : Byte)).length = 32 ∧
      ((NewService 1000).GenerateUserKey (some (List.replicate 32 0))).1.length = 44 ∧
      base64.DecodeString ((NewService 1000).GenerateUserKey (some (List.replicate 32 0))).1 =
        some (List.replicate 32 0) ∧
      ((NewService 1000).GenerateUserKey (some (List.replicate 32 0))).1 ≠
        ((NewService 1000).GenerateUserKey (some (List.replicate 32 1))).1 :=
  have h := C11_generate_user_key (NewService 1000) (List.replicate 32 0) (List.replicate 32 1)
    (by decide)
  ⟨by decide, by decide, h.2.2.1, h.2.2.2.2.1, h.2.2.2.2.2.2 (by decide)⟩

/-- C12 (file round trip): for every byte sequence `c`, every user key that
the base64 decoder accepts and every draw of a 16-byte salt and a 12-byte
nonce, `EncryptFile(c, k)` succeeds and `DecryptFile` of its result under `k`
returns exactly `c` with a nil error. -/
theorem C12_file_round_trip (s : Service) (k c salt nonce : Bytes) (hk : base64.Valid k)
    (hs : salt.length = 16) (hn : nonce.length = 12) :
    (s.EncryptFile (some salt) (some nonce) c k).2 = none ∧
      s.DecryptFile (s.EncryptFile (some salt) (some nonce) c k).1 k = (c, none) := by
  obtain ⟨m, hm⟩ := hk
  have he := Service.Encrypt_eq s c salt nonce hm
  have hd := Service.Decrypt_Encrypt_same_bytes s c salt nonce hm hm hs hn
  rw [he] at hd
  simp only [Service.EncryptFile, Service.DecryptFile, he, hd, and_self]

/-- C12, at the key `QQ==` and the content `00 ff 80`, which has a NUL byte
and is not valid UTF-8. -/
theorem C12_file_round_trip_witness :
    base64.Valid [81, 81, 61, 61] ∧
      ((NewService 1000).EncryptFile (some (List.replicate 16 0)) (some (List.replicate 12 0))
        [0, 255, 128] [81, 81, 61, 61]).2 = none ∧
      (NewService 1000).DecryptFile
        ((NewService 1000).EncryptFile (some (List.replicate 16 0)) (some (List.replicate 12 0))
          [0, 255, 128] [81, 81, 61, 61]).1 [81, 81, 61, 61] = ([0, 255, 128], none) :=
  ⟨by decide,
    C12_file_round_trip (NewService 1000) [81, 81, 61, 61] [0, 255, 128] (List.replicate 16 0)
      (List.replicate 12 0) (by decide) (by decide) (by decide)⟩

end encryption

/-! ## The claims about the content store -/

namespace storage

open filepath

/-- C13 fails as stated: `SaveContent` keeps the flag of the record it is
given.  In an empty store, under the service with the storage path `d`, the
record with the content `hi` and `is_encrypted` set is saved for the user `u`
and the article `a`; the save succeeds, and `GetContent` returns the record
with `is_encrypted` still set. -/
theorem C13_plaintext_round_trip_counterexample :
    ((NewService ⟨[100]⟩).SaveContent json.plainCodec ⟨[], .dir []⟩ ⟨1, 0, 0⟩ ⟨1, 0, 0⟩ [117] [97]
        (json.plain.encode
          ⟨[], [], [116], [], [104, 105], [], none, none, ⟨0, 0, 0⟩, ⟨0, 0, 0⟩, true⟩)).1.2 = none ∧
      ((NewService ⟨[100]⟩).GetContent
        ((NewService ⟨[100]⟩).SaveContent json.plainCodec ⟨[], .dir []⟩ ⟨1, 0, 0⟩ ⟨1, 0, 0⟩ [117]
          [97] (json.plain.encode
            ⟨[], [], [116], [], [104, 105], [], none, none, ⟨0, 0, 0⟩, ⟨0, 0, 0⟩, true⟩)).2
        [117] [97]).1 =
        (json.plain.encode
          ⟨[97], [117], [116], [], [104, 105], [], none, none, ⟨1, 0, 0⟩, ⟨1, 0, 0⟩, true⟩, none) ∧
      json.plainCodec.Unmarshal (json.plain.encode
          ⟨[97], [117], [116], [], [104, 105], [], none, none, ⟨1, 0, 0⟩, ⟨1, 0, 0⟩, true⟩) =
        .ok ⟨[97], [117], [116], [], [104, 105], [], none, none, ⟨1, 0, 0⟩, ⟨1, 0, 0⟩, true⟩ :=
  ⟨by decide, by decide, rfl⟩

/-- C13, as amended: after `SaveContent(u, a, r)` succeeds, `GetContent(u, a)`
succeeds and returns a record whose content equals the content of `r` and
whose `is_encrypted` equals that of `r`: false when it is false in `r`. -/
theorem C13_plaintext_round_trip_amended (J : json.Codec) (hJ : J.Lawful) (s : Service)
    (fs : os.FS) (now1 now2 : time.Time) (u a content : Bytes)
    (h : (s.SaveContent J fs now1 now2 u a content).1.2 = none) :
    ∃ r b rg, J.Unmarshal content = .ok r ∧
      s.GetContent (s.SaveContent J fs now1 now2 u a content).2 u a =
        ((b, none), (s.SaveContent J fs now1 now2 u a content).2) ∧
      J.Unmarshal b = .ok rg ∧ rg.Content = r.Content ∧ rg.IsEncrypted = r.IsEncrypted ∧
      (r.IsEncrypted = false → rg.IsEncrypted = false) := by
  obtain ⟨r, b, hU, hG, hUb⟩ := s.SaveContent_read hJ fs now1 now2 u a content h
  obtain ⟨f1, _⟩ := read_fields hJ hU
  obtain ⟨t1, _, _, _, _, _, t7, _⟩ := stamp_fields r now1 now2 u a
  have hc : (J.normal (stamp r now1 now2 u a)).Content = r.Content := by
    show J.str (stamp r now1 now2 u a).Content = r.Content
    rw [t1, f1]
  have he : (J.normal (stamp r now1 now2 u a)).IsEncrypted = r.IsEncrypted := t7
  exact ⟨r, b, _, hU, hG, hUb, hc, he, fun h0 => he.trans h0⟩

/-- C13 as amended, in an empty store: the record with the content `hi` and
`is_encrypted` cleared, for the user `u` and the article `a`. -/
theorem C13_plaintext_round_trip_amended_witness :
    json.plainCodec.Lawful ∧
      ((NewService ⟨[100]⟩).SaveContent json.plainCodec ⟨[], .dir []⟩ ⟨1, 0, 0⟩ ⟨1, 0, 0⟩ [117] [97]
        (json.plain.encode
          ⟨[], [], [116], [], [104, 105], [], none, none, ⟨0, 0, 0⟩, ⟨0, 0, 0⟩, false⟩)).1.2 =
        none ∧
      ∃ r b rg, json.plainCodec.Unmarshal (json.plain.encode
          ⟨[], [], [116], [], [104, 105], [], none, none, ⟨0, 0, 0⟩, ⟨0, 0, 0⟩, false⟩) = .ok r ∧
        (NewService ⟨[100]⟩).GetContent
          ((NewService ⟨[100]⟩).SaveContent json.plainCodec ⟨[], .dir []⟩ ⟨1, 0, 0⟩ ⟨1, 0, 0⟩
            [117] [97] (json.plain.encode
              ⟨[], [], [116], [], [104, 105], [], none, none, ⟨0, 0, 0⟩, ⟨0, 0, 0⟩, false⟩)).2
          [117] [97] =
          ((b, none), ((NewService ⟨[100]⟩).SaveContent json.plainCodec ⟨[], .dir []⟩ ⟨1, 0, 0⟩
            ⟨1, 0, 0⟩ [117] [97] (json.plain.encode
              ⟨[], [], [116], [], [104, 105], [], none, none, ⟨0, 0, 0⟩, ⟨0, 0, 0⟩, false⟩)).2) ∧
        json.plainCodec.Unmarshal b = .ok rg ∧ rg.Content = r.Content ∧
        rg.IsEncrypted = r.IsEncrypted ∧ (r.IsEncrypted = false → rg.IsEncrypted = false) :=
  ⟨json.plainCodec_lawful, by decide,
    C13_plaintext_round_trip_amended json.plainCodec json.plainCodec_lawful (NewService ⟨[100]⟩)
      ⟨[], .dir []⟩ ⟨1, 0, 0⟩ ⟨1, 0, 0⟩ [117] [97] _ (by decide)⟩

end storage

namespace storage

open filepath

/-- C14 (store round trip, encrypted path): after `SaveEncryptedContent`
succeeds for a content that parses to the record `r`, a key that the base64
decoder accepts and draws of 16-byte salts and 12-byte nonces,
`GetContent(u, a)` returns a record with `is_encrypted` set whose content is
the sealed blob of the content of `r` (base64 text of the salt, the nonce and
the GCM output), and `GetDecryptedContent(u, a, k)` returns a record with
`is_encrypted` cleared whose content, summary, title, url, tags and metadata
are those of `r`. -/
theorem C14_encrypted_round_trip (J : json.Codec) (hJ : J.Lawful) (s : Service) (fs : os.FS)
    (salt1 nonce1 salt2 nonce2 : Bytes) (now1 now2 : time.Time) (u a content k : Bytes)
    (r : ArticleContent) (hU : J.Unmarshal content = .ok r) (hk : base64.Valid k)
    (hs1 : salt1.length = 16) (hn1 : nonce1.length = 12) (hs2 : salt2.length = 16)
    (hn2 : nonce2.length = 12)
    (h : (s.SaveEncryptedContent J fs (some salt1) (some nonce1) (some salt2) (some nonce2)
      now1 now2 u a content k).1.2 = none) :
    ∃ b rs b2 rd m,
      s.GetContent (s.SaveEncryptedContent J fs (some salt1) (some nonce1) (some salt2)
          (some nonce2) now1 now2 u a content k).2 u a =
        ((b, none), (s.SaveEncryptedContent J fs (some salt1) (some nonce1) (some salt2)
          (some nonce2) now1 now2 u a content k).2) ∧
      J.Unmarshal b = .ok rs ∧ rs.IsEncrypted = true ∧
      rs.Content = (s.encryption.Encrypt (some salt1) (some nonce1) r.Content k).1 ∧
      base64.DecodeString k = some m ∧
      base64.DecodeString rs.Content = some (salt1 ++ (nonce1 ++
        cipher.gcm.output (s.encryption.aead m salt1).cipher nonce1 r.Content [])) ∧
      s.GetDecryptedContent J (s.SaveEncryptedContent J fs (some salt1) (some nonce1)
          (some salt2) (some nonce2) now1 now2 u a content k).2 u a k =
        ((b2, none), (s.SaveEncryptedContent J fs (some salt1) (some nonce1) (some salt2)
          (some nonce2) now1 now2 u a content k).2) ∧
      J.Unmarshal b2 = .ok rd ∧ rd.IsEncrypted = false ∧ rd.Content = r.Content ∧
      rd.Summary = r.Summary ∧ rd.Title = r.Title ∧ rd.URL = r.URL ∧ rd.Tags = r.Tags ∧
      rd.Metadata = r.Metadata := by
  obtain ⟨m, hm⟩ := hk
  obtain ⟨b, rs, hG, hUb, hE, c1, _⟩ :=
    s.SaveEncryptedContent_stored hJ fs salt1 nonce1 salt2 nonce2 now1 now2 u a content k
      hU hm hs1 hs2 h
  obtain ⟨b2, rd, hGd, hU2, d1, d2, d3, d4, d5, d6, d7⟩ :=
    s.GetDecryptedContent_saved hJ fs salt1 nonce1 salt2 nonce2 now1 now2 u a content k k
      hU hm hm hs1 hn1 hs2 hn2 h
  refine ⟨b, rs, b2, rd, m, hG, hUb, hE, c1, hm, ?_, hGd, hU2, d1, d2, d3, d4, d5, d6, d7⟩
  rw [c1, encryption.Service.Encrypt_eq s.encryption r.Content salt1 nonce1 hm,
    base64.DecodeString_EncodeToString]

/-- C14, in an empty store: the record with the title `t` and the content
`hi` for the user `u` and the article `a`, under the key `QQ==`. -/
theorem C14_encrypted_round_trip_witness :
    json.plainCodec.Lawful ∧ base64.Valid [81, 81, 61, 61] ∧
      ((NewService ⟨[100]⟩).SaveEncryptedContent json.plainCodec ⟨[], .dir []⟩
        (some (List.replicate 16 0)) (some (List.replicate 12 0)) (some (List.replicate 16 1))
        (some (List.replicate 12 1)) ⟨1, 0, 0⟩ ⟨1, 0, 0⟩ [117] [97]
        (json.plain.encode
          ⟨[], [], [116], [], [104, 105], [], none, none, ⟨0, 0, 0⟩, ⟨0, 0, 0⟩, false⟩)
        [81, 81, 61, 61]).1.2 = none ∧
      ∃ b2 rd,
        ((NewService ⟨[100]⟩).GetDecryptedContent json.plainCodec
          ((NewService ⟨[100]⟩).SaveEncryptedContent json.plainCodec ⟨[], .dir []⟩
            (some (List.replicate 16 0)) (some (List.replicate 12 0))
            (some (List.replicate 16 1)) (some (List.replicate 12 1)) ⟨1, 0, 0⟩ ⟨1, 0, 0⟩ [117]
            [97] (json.plain.encode
              ⟨[], [], [116], [], [104, 105], [], none, none, ⟨0, 0, 0⟩, ⟨0, 0, 0⟩, false⟩)
            [81, 81, 61, 61]).2 [117] [97] [81, 81, 61, 61]).1 = (b2, none) ∧
        json.plainCodec.Unmarshal b2 = .ok rd ∧ rd.IsEncrypted = false ∧
        rd.Content = [104, 105] ∧ rd.Title = [116] :=
  have hs : ((NewService ⟨[100]⟩).SaveEncryptedContent json.plainCodec ⟨[], .dir []⟩
      (some (List.replicate 16 0)) (some (List.replicate 12 0)) (some (List.replicate 16 1))
      (some (List.replicate 12 1)) ⟨1, 0, 0⟩ ⟨1, 0, 0⟩ [117] [97]
      (json.plain.encode
        ⟨[], [], [116], [], [104, 105], [], none, none, ⟨0, 0, 0⟩, ⟨0, 0, 0⟩, false⟩)
      [81, 81, 61, 61]).1.2 = none :=
    Service.SaveEncryptedContent_plain_ok (NewService ⟨[100]⟩) ⟨[], .dir []⟩ _ _ _ _ _ _ [117]
      [97] [81, 81, 61, 61] _ (m := [65]) (by decide) (by decide) (by decide) (by decide)
  have h := C14_encrypted_round_trip json.plainCodec json.plainCodec_lawful (NewService ⟨[100]⟩)
    ⟨[], .dir []⟩ (List.replicate 16 0) (List.replicate 12 0) (List.replicate 16 1)
    (List.replicate 12 1) ⟨1, 0, 0⟩ ⟨1, 0, 0⟩ [117] [97]
    (json.plain.encode
      ⟨[], [], [116], [], [104, 105], [], none, none, ⟨0, 0, 0⟩, ⟨0, 0, 0⟩, false⟩)
    [81, 81, 61, 61]
    ⟨[], [], [116], [], [104, 105], [], none, none, ⟨0, 0, 0⟩, ⟨0, 0, 0⟩, false⟩
    rfl (by decide) (by decide) (by decide) (by decide) (by decide) hs
  ⟨json.plainCodec_lawful, by decide, hs,
    match h with
    | ⟨_, _, b2, rd, _, _, _, _, _, _, _, hG, hU, h1, h2, _, h4, _⟩ =>
      ⟨b2, rd, congrArg Prod.fst hG, hU, h1, h2, h4⟩⟩

/-- C15 fails as stated, and not only for keys that are read alike.  The user
keys `QQ==` and `QR==` are different strings that the decoder reads as the
same byte: in an empty store the record with the content `hi` is saved with
`SaveEncryptedContent` under `QQ==`, and `GetDecryptedContent` under `QR==`
succeeds and returns the record with the content `hi`.  The keys `QQ==` and
`Qg==` decode to the different bytes `A` and `B`: in a store with an engine
of one iteration the record with the content `SU<3Le;QP@ZE2Ds<` is saved
under `QQ==` with the zero salt and the nonce `00 00 00 00 00 00 00 00 00 04
56 24`, and `GetDecryptedContent` under `Qg==` returns a record and no error,
since the tag of the ciphertext is the same under both derived keys. -/
theorem C15_wrong_key_counterexample :
    (([81, 81, 61, 61] : Bytes) ≠ [81, 82, 61, 61] ∧
      ((NewService ⟨[100]⟩).SaveEncryptedContent json.plainCodec ⟨[], .dir []⟩
        (some (List.replicate 16 0)) (some (List.replicate 12 0)) (some (List.replicate 16 1))
        (some (List.replicate 12 1)) ⟨1, 0, 0⟩ ⟨1, 0, 0⟩ [117] [97]
        (json.plain.encode
          ⟨[], [], [116], [], [104, 105], [], none, none, ⟨0, 0, 0⟩, ⟨0, 0, 0⟩, false⟩)
        [81, 81, 61, 61]).1.2 = none ∧
      ∃ b2 rd,
        ((NewService ⟨[100]⟩).GetDecryptedContent json.plainCodec
          ((NewService ⟨[100]⟩).SaveEncryptedContent json.plainCodec ⟨[], .dir []⟩
            (some (List.replicate 16 0)) (some (List.replicate 12 0))
            (some (List.replicate 16 1)) (some (List.replicate 12 1)) ⟨1, 0, 0⟩ ⟨1, 0, 0⟩ [117]
            [97] (json.plain.encode
              ⟨[], [], [116], [], [104, 105], [], none, none, ⟨0, 0, 0⟩, ⟨0, 0, 0⟩, false⟩)
            [81, 81, 61, 61]).2 [117] [97] [81, 82, 61, 61]).1 = (b2, none) ∧
        json.plainCodec.Unmarshal b2 = .ok rd ∧ rd.IsEncrypted = false ∧
        rd.Content = [104, 105]) ∧
      (base64.DecodeString [81, 81, 61, 61] = some [65] ∧
        base64.DecodeString [81, 103, 61, 61] = some [66] ∧
        ((Service.mk ⟨[100]⟩ (encryption.NewService 1)).SaveEncryptedContent json.plainCodec
          ⟨[], .dir []⟩ (some (List.replicate 16 0)) (some [0, 0, 0, 0, 0, 0, 0, 0, 0, 4, 86, 36])
          (some (List.replicate 16 1)) (some (List.replicate 12 1)) ⟨1, 0, 0⟩ ⟨1, 0, 0⟩ [117] [97]
          (json.plain.encode
            ⟨[], [], [116], [], [83, 85, 60, 51, 76, 101, 59, 81, 80, 64, 90, 69, 50, 68, 115, 60],
              [], none, none, ⟨0, 0, 0⟩, ⟨0, 0, 0⟩, false⟩)
          [81, 81, 61, 61]).1.2 = none ∧
        ((Service.mk ⟨[100]⟩ (encryption.NewService 1)).GetDecryptedContent json.plainCodec
          ((Service.mk ⟨[100]⟩ (encryption.NewService 1)).SaveEncryptedContent json.plainCodec
            ⟨[], .dir []⟩ (some (List.replicate 16 0))
            (some [0, 0, 0, 0, 0, 0, 0, 0, 0, 4, 86, 36])
            (some (List.replicate 16 1)) (some (List.replicate 12 1)) ⟨1, 0, 0⟩ ⟨1, 0, 0⟩ [117]
            [97] (json.plain.encode
              ⟨[], [], [116], [],
                [83, 85, 60, 51, 76, 101, 59, 81, 80, 64, 90, 69, 50, 68, 115, 60],
                [], none, none, ⟨0, 0, 0⟩, ⟨0, 0, 0⟩, false⟩)
            [81, 81, 61, 61]).2 [117] [97] [81, 103, 61, 61]).1.2 = none) :=
  have hs : ((NewService ⟨[100]⟩).SaveEncryptedContent json.plainCodec ⟨[], .dir []⟩
      (some (List.replicate 16 0)) (some (List.replicate 12 0)) (some (List.replicate 16 1))
      (some (List.replicate 12 1)) ⟨1, 0, 0⟩ ⟨1, 0, 0⟩ [117] [97]
      (json.plain.encode
        ⟨[], [], [116], [], [104, 105], [], none, none, ⟨0, 0, 0⟩, ⟨0, 0, 0⟩, false⟩)
      [81, 81, 61, 61]).1.2 = none :=
    Service.SaveEncryptedContent_plain_ok (NewService ⟨[100]⟩) ⟨[], .dir []⟩ _ _ _ _ _ _ [117]
      [97] [81, 81, 61, 61] _ (m := [65]) (by decide) (by decide) (by decide) (by decide)
  have h := Service.GetDecryptedContent_saved json.plainCodec_lawful (NewService ⟨[100]⟩)
    ⟨[], .dir []⟩ (List.replicate 16 0) (List.replicate 12 0) (List.replicate 16 1)
    (List.replicate 12 1) ⟨1, 0, 0⟩ ⟨1, 0, 0⟩ [117] [97]
    (json.plain.encode
      ⟨[], [], [116], [], [104, 105], [], none, none, ⟨0, 0, 0⟩, ⟨0, 0, 0⟩, false⟩)
    [81, 81, 61, 61] [81, 82, 61, 61]
    (r := ⟨[], [], [116], [], [104, 105], [], none, none, ⟨0, 0, 0⟩, ⟨0, 0, 0⟩, false⟩)
    (m := [65]) rfl (by decide) (by decide) (by decide) (by decide) (by decide) (by decide) hs
  have hs2 : ((Service.mk ⟨[100]⟩ (encryption.NewService 1)).SaveEncryptedContent
      json.plainCodec ⟨[], .dir []⟩ (some (List.replicate 16 0))
      (some [0, 0, 0, 0, 0, 0, 0, 0, 0, 4, 86, 36])
      (some (List.replicate 16 1)) (some (List.replicate 12 1)) ⟨1, 0, 0⟩ ⟨1, 0, 0⟩ [117] [97]
      (json.plain.encode
        ⟨[], [], [116], [], [83, 85, 60, 51, 76, 101, 59, 81, 80, 64, 90, 69, 50, 68, 115, 60],
          [], none, none, ⟨0, 0, 0⟩, ⟨0, 0, 0⟩, false⟩)
      [81, 81, 61, 61]).1.2 = none :=
    Service.SaveEncryptedContent_plain_ok (Service.mk ⟨[100]⟩ (encryption.NewService 1))
      ⟨[], .dir []⟩ _ _ _ _ _ _ [117]
      [97] [81, 81, 61, 61] _ (m := [65]) (by decide) (by decide) (by decide) (by decide)
  have hD : (encryption.NewService 1).Decrypt
      ((encryption.NewService 1).Encrypt (some (List.replicate 16 0))
        (some [0, 0, 0, 0, 0, 0, 0, 0, 0, 4, 86, 36])
        [83, 85, 60, 51, 76, 101, 59, 81, 80, 64, 90, 69, 50, 68, 115, 60] [81, 81, 61, 61]).1
      [81, 103, 61, 61] =
      ([209, 78, 179, 42, 22, 90, 22, 205, 202, 205, 215, 141, 224, 52, 133, 224], none) :=
    (congrArg (fun b => (encryption.NewService 1).Decrypt b [81, 103, 61, 61])
      (congrArg Prod.fst encryption.Service.Encrypt_collision)).trans
      encryption.Service.Decrypt_collision
  ⟨⟨by decide, hs,
      match h with
      | ⟨b2, rd, hG, hU, h1, h2, _⟩ => ⟨b2, rd, congrArg Prod.fst hG, hU, h1, h2⟩⟩,
    ⟨by decide, by decide, hs2,
      match Service.GetDecryptedContent_opens json.plainCodec_lawful
        (Service.mk ⟨[100]⟩ (encryption.NewService 1)) ⟨[], .dir []⟩ (List.replicate 16 0)
        [0, 0, 0, 0, 0, 0, 0, 0, 0, 4, 86, 36] (List.replicate 16 1) (List.replicate 12 1)
        ⟨1, 0, 0⟩ ⟨1, 0, 0⟩ [117] [97]
        (json.plain.encode
          ⟨[], [], [116], [], [83, 85, 60, 51, 76, 101, 59, 81, 80, 64, 90, 69, 50, 68, 115, 60],
            [], none, none, ⟨0, 0, 0⟩, ⟨0, 0, 0⟩, false⟩)
        [81, 81, 61, 61] [81, 103, 61, 61]
        (r := ⟨[], [], [116], [], [83, 85, 60, 51, 76, 101, 59, 81, 80, 64, 90, 69, 50, 68, 115, 60],
          [], none, none, ⟨0, 0, 0⟩, ⟨0, 0, 0⟩, false⟩)
        (m := [65]) rfl (by decide) (by decide) (by decide) rfl hs2 hD with
      | ⟨_, hG⟩ => congrArg (fun x => x.1.2) hG⟩⟩

/-- C15, as amended: for a record saved with `SaveEncryptedContent` under a
decodable key `k1`, `GetDecryptedContent` under `k2` returns no record and
the error of the engine, wrapped as `failed to decrypt content`, whenever the
engine rejects the blob of the content under `k2`: the key-derivation error
when the decoder rejects `k2`, and, when the decoder accepts `k2`, the
authentication error exactly when the tag recomputed under the key derived
from `k2` differs from the tag in the blob.  When the two tags are equal and
the record has no summary, a record is returned without an error; under a key
`k2` that decodes to the bytes of `k1` the record saved is read. -/
theorem C15_wrong_key_amended (J : json.Codec) (hJ : J.Lawful) (s : Service) (fs : os.FS)
    (salt1 nonce1 salt2 nonce2 : Bytes) (now1 now2 : time.Time) (u a content k1 k2 : Bytes)
    (r : ArticleContent) (m1 : Bytes) (hU : J.Unmarshal content = .ok r)
    (h1 : base64.DecodeString k1 = some m1)
    (hs1 : salt1.length = 16) (hn1 : nonce1.length = 12) (hs2 : salt2.length = 16)
    (hn2 : nonce2.length = 12)
    (h : (s.SaveEncryptedContent J fs (some salt1) (some nonce1) (some salt2) (some nonce2)
      now1 now2 u a content k1).1.2 = none) :
    (∀ x e, s.encryption.Decrypt
          (s.encryption.Encrypt (some salt1) (some nonce1) r.Content k1).1 k2 = (x, some e) →
        s.GetDecryptedContent J (s.SaveEncryptedContent J fs (some salt1) (some nonce1)
            (some salt2) (some nonce2) now1 now2 u a content k1).2 u a k2 =
          (([], some (.wrap "failed to decrypt content" e)),
            (s.SaveEncryptedContent J fs (some salt1) (some nonce1) (some salt2) (some nonce2)
              now1 now2 u a content k1).2)) ∧
      (base64.DecodeString k2 = none →
        s.GetDecryptedContent J (s.SaveEncryptedContent J fs (some salt1) (some nonce1)
            (some salt2) (some nonce2) now1 now2 u a content k1).2 u a k2 =
          (([], some (.wrap "failed to decrypt content" (.wrap "failed to derive key"
              (.wrap "failed to decode master key" .corruptInput)))),
            (s.SaveEncryptedContent J fs (some salt1) (some nonce1) (some salt2) (some nonce2)
              now1 now2 u a content k1).2)) ∧
      (∀ m2, base64.DecodeString k2 = some m2 →
        (s.GetDecryptedContent J (s.SaveEncryptedContent J fs (some salt1) (some nonce1)
            (some salt2) (some nonce2) now1 now2 u a content k1).2 u a k2 =
          (([], some (.wrap "failed to decrypt content"
              (.wrap "failed to decrypt" .openFailed))),
            (s.SaveEncryptedContent J fs (some salt1) (some nonce1) (some salt2) (some nonce2)
              now1 now2 u a content k1).2) ↔
        cipher.gcm.auth (s.encryption.aead m2 salt1).cipher nonce1 []
            (cipher.gcm.counterCrypt (s.encryption.aead m1 salt1).cipher nonce1 r.Content) ≠
          cipher.gcm.auth (s.encryption.aead m1 salt1).cipher nonce1 []
            (cipher.gcm.counterCrypt (s.encryption.aead m1 salt1).cipher nonce1 r.Content))) ∧
      (∀ m2, base64.DecodeString k2 = some m2 →
        cipher.gcm.auth (s.encryption.aead m2 salt1).cipher nonce1 []
            (cipher.gcm.counterCrypt (s.encryption.aead m1 salt1).cipher nonce1 r.Content) =
          cipher.gcm.auth (s.encryption.aead m1 salt1).cipher nonce1 []
            (cipher.gcm.counterCrypt (s.encryption.aead m1 salt1).cipher nonce1 r.Content) →
        r.Summary = [] →
        ∃ b2,
          s.GetDecryptedContent J (s.SaveEncryptedContent J fs (some salt1) (some nonce1)
              (some salt2) (some nonce2) now1 now2 u a content k1).2 u a k2 =
            ((b2, none), (s.SaveEncryptedContent J fs (some salt1) (some nonce1) (some salt2)
              (some nonce2) now1 now2 u a content k1).2)) ∧
      (base64.DecodeString k2 = some m1 →
        ∃ b2 rd,
          s.GetDecryptedContent J (s.SaveEncryptedContent J fs (some salt1) (some nonce1)
              (some salt2) (some nonce2) now1 now2 u a content k1).2 u a k2 =
            ((b2, none), (s.SaveEncryptedContent J fs (some salt1) (some nonce1) (some salt2)
              (some nonce2) now1 now2 u a content k1).2) ∧
          J.Unmarshal b2 = .ok rd ∧ rd.IsEncrypted = false ∧ rd.Content = r.Content) := by
  obtain ⟨b, rs, hG, hUb, hE, c1, _⟩ :=
    s.SaveEncryptedContent_stored hJ fs salt1 nonce1 salt2 nonce2 now1 now2 u a content k1
      hU h1 hs1 hs2 h
  have key : ∀ x e, s.encryption.Decrypt
        (s.encryption.Encrypt (some salt1) (some nonce1) r.Content k1).1 k2 = (x, some e) →
      s.GetDecryptedContent J (s.SaveEncryptedContent J fs (some salt1) (some nonce1)
          (some salt2) (some nonce2) now1 now2 u a content k1).2 u a k2 =
        (([], some (.wrap "failed to decrypt content" e)),
          (s.SaveEncryptedContent J fs (some salt1) (some nonce1) (some salt2) (some nonce2)
            now1 now2 u a content k1).2) := by
    intro x e hD
    rw [← c1] at hD
    exact s.GetDecryptedContent_error J hG hUb hE hD
  refine ⟨key, ?_, ?_, ?_, ?_⟩
  · intro h2
    exact key _ _ (encryption.Service.Decrypt_Encrypt_invalid s.encryption r.Content salt1
      nonce1 h1 h2 hs1)
  · intro m2 h2
    constructor
    · intro hres
      by_contra hne
      have hD := encryption.Service.Decrypt_Encrypt_tag_eq s.encryption r.Content salt1 nonce1
        h1 h2 hs1 hn1 hne
      rw [← c1] at hD
      exact s.GetDecryptedContent_opened J _ hG hUb hE hD hres
    · intro hne
      exact key _ _ (encryption.Service.Decrypt_Encrypt_tag_ne s.encryption r.Content salt1
        nonce1 h1 h2 hs1 hn1 hne)
  · intro m2 h2 heq hsum
    exact s.GetDecryptedContent_opens hJ fs salt1 nonce1 salt2 nonce2 now1 now2 u a content
      k1 k2 hU h1 hs1 hs2 hsum h
      (encryption.Service.Decrypt_Encrypt_tag_eq s.encryption r.Content salt1 nonce1
        h1 h2 hs1 hn1 heq)
  · intro h2
    obtain ⟨b2, rd, hGd, hU2, d1, d2, _⟩ :=
      s.GetDecryptedContent_saved hJ fs salt1 nonce1 salt2 nonce2 now1 now2 u a content k1 k2
        hU h1 h2 hs1 hn1 hs2 hn2 h
    exact ⟨b2, rd, hGd, hU2, d1, d2⟩

/-- C15 as amended, in an empty store with an engine of one iteration: the
record with the content `hi` is saved under the key `QQ==` and read under the
key `Qg==`, which is decodable, differs from `QQ==` in its bytes, and is
answered with the authentication error of the engine. -/
theorem C15_wrong_key_amended_witness :
    json.plainCodec.Lawful ∧ base64.DecodeString [81, 81, 61, 61] = some [65] ∧
      base64.DecodeString [81, 103, 61, 61] = some [66] ∧
      ((Service.mk ⟨[100]⟩ (encryption.NewService 1)).SaveEncryptedContent json.plainCodec
        ⟨[], .dir []⟩
        (some (List.replicate 16 0)) (some (List.replicate 12 0)) (some (List.replicate 16 1))
        (some (List.replicate 12 1)) ⟨1, 0, 0⟩ ⟨1, 0, 0⟩ [117] [97]
        (json.plain.encode
          ⟨[], [], [116], [], [104, 105], [], none, none, ⟨0, 0, 0⟩, ⟨0, 0, 0⟩, false⟩)
        [81, 81, 61, 61]).1.2 = none ∧
      ((Service.mk ⟨[100]⟩ (encryption.NewService 1)).GetDecryptedContent json.plainCodec
        ((Service.mk ⟨[100]⟩ (encryption.NewService 1)).SaveEncryptedContent json.plainCodec
          ⟨[], .dir []⟩
          (some (List.replicate 16 0)) (some (List.replicate 12 0))
          (some (List.replicate 16 1)) (some (List.replicate 12 1)) ⟨1, 0, 0⟩ ⟨1, 0, 0⟩ [117]
          [97] (json.plain.encode
            ⟨[], [], [116], [], [104, 105], [], none, none, ⟨0, 0, 0⟩, ⟨0, 0, 0⟩, false⟩)
          [81, 81, 61, 61]).2 [117] [97] [81, 103, 61, 61]).1 =
        ([], some (.wrap "failed to decrypt content" (.wrap "failed to decrypt" .openFailed))) :=
  have hs : ((Service.mk ⟨[100]⟩ (encryption.NewService 1)).SaveEncryptedContent
      json.plainCodec ⟨[], .dir []⟩
      (some (List.replicate 16 0)) (some (List.replicate 12 0)) (some (List.replicate 16 1))
      (some (List.replicate 12 1)) ⟨1, 0, 0⟩ ⟨1, 0, 0⟩ [117] [97]
      (json.plain.encode
        ⟨[], [], [116], [], [104, 105], [], none, none, ⟨0, 0, 0⟩, ⟨0, 0, 0⟩, false⟩)
      [81, 81, 61, 61]).1.2 = none :=
    Service.SaveEncryptedContent_plain_ok (Service.mk ⟨[100]⟩ (encryption.NewService 1))
      ⟨[], .dir []⟩ _ _ _ _ _ _ [117]
      [97] [81, 81, 61, 61] _ (m := [65]) (by decide) (by decide) (by decide) (by decide)
  have h := C15_wrong_key_amended json.plainCodec json.plainCodec_lawful
    (Service.mk ⟨[100]⟩ (encryption.NewService 1))
    ⟨[], .dir []⟩ (List.replicate 16 0) (List.replicate 12 0) (List.replicate 16 1)
    (List.replicate 12 1) ⟨1, 0, 0⟩ ⟨1, 0, 0⟩ [117] [97]
    (json.plain.encode
      ⟨[], [], [116], [], [104, 105], [], none, none, ⟨0, 0, 0⟩, ⟨0, 0, 0⟩, false⟩)
    [81, 81, 61, 61] [81, 103, 61, 61]
    ⟨[], [], [116], [], [104, 105], [], none, none, ⟨0, 0, 0⟩, ⟨0, 0, 0⟩, false⟩ [65]
    rfl (by decide) (by decide) (by decide) (by decide) (by decide) hs
  ⟨json.plainCodec_lawful, by decide, by decide, hs,
    congrArg Prod.fst ((h.2.2.1 [66] (by decide)).mpr encryption.Service.auth_ne_example)⟩

end storage

namespace storage

open filepath

/-- C16 fails as stated: an article id is a part of the path and may lead out
of the directory of the user.  The store holds the record file
`d/users/v/a.json` of the user `v`; `DeleteContent` for the other user `u`
with the article id `../v/a` succeeds, and `GetContent(v, a)`, which returned
the record before, reports afterwards that the article is not found. -/
theorem C16_namespace_isolation_counterexample :
    ([117] : Bytes) ≠ [118] ∧
      ((NewService ⟨[100]⟩).GetContent
        ⟨[], .dir [([100], .dir [([117, 115, 101, 114, 115],
          .dir [([118], .dir [([97, 46, 106, 115, 111, 110], .file [123, 125])])])])]⟩
        [118] [97]).1 = ([123, 125], none) ∧
      ((NewService ⟨[100]⟩).DeleteContent
        ⟨[], .dir [([100], .dir [([117, 115, 101, 114, 115],
          .dir [([118], .dir [([97, 46, 106, 115, 111, 110], .file [123, 125])])])])]⟩
        [117] [46, 46, 47, 118, 47, 97]).1 = none ∧
      ((NewService ⟨[100]⟩).GetContent
        ((NewService ⟨[100]⟩).DeleteContent
          ⟨[], .dir [([100], .dir [([117, 115, 101, 114, 115],
            .dir [([118], .dir [([97, 46, 106, 115, 111, 110], .file [123, 125])])])])]⟩
          [117] [46, 46, 47, 118, 47, 97]).2
        [118] [97]).1 = ([], some (.errorfArg "article not found" [97])) :=
  ⟨by decide, by decide, by decide, by decide⟩

/-- C16, as amended: for user ids `u1 ≠ u2` that are proper path elements
(not empty, not `.` or `..`, without a separator) and article ids `a1`, `a2`
without a separator, `SaveContent(u1, a1, ...)` and `DeleteContent(u1, a1)`
work on the file `a1.json` in the directory of `u1` and change nothing that
is found at a path parting ways with it, so the result of
`GetContent(u2, a2)` is the same before and after. -/
theorem C16_namespace_isolation_amended (J : json.Codec) (s : Service) (fs : os.FS)
    (now1 now2 : time.Time) (u1 u2 a1 a2 content : Bytes) (h1 : Proper u1) (h2 : Proper u2)
    (hne : u1 ≠ u2) (ha1 : Separator ∉ a1) (ha2 : Separator ∉ a2) :
    fs.resolve (s.filePath u1 a1) = s.usersPlace fs ++ [u1] ++ [a1 ++ jsonExt] ∧
      (∀ q, os.Diverge (fs.resolve (s.filePath u1 a1)) q →
        (s.SaveContent J fs now1 now2 u1 a1 content).2.root.find q = fs.root.find q ∧
        (s.DeleteContent fs u1 a1).2.root.find q = fs.root.find q) ∧
      (s.GetContent (s.SaveContent J fs now1 now2 u1 a1 content).2 u2 a2).1 =
        (s.GetContent fs u2 a2).1 ∧
      (s.GetContent (s.DeleteContent fs u1 a1).2 u2 a2).1 = (s.GetContent fs u2 a2).1 := by
  have hd := s.diverge_users fs h1 h2 hne ha1 ha2
  refine ⟨?_, ?_, ?_, ?_⟩
  · rw [s.resolve_filePath fs u1 ha1, s.resolve_getUserStoragePath fs h1]
  · intro q hq
    exact ⟨s.SaveContent_find J fs now1 now2 u1 content ha1 hq, s.DeleteContent_find fs u1 a1 hq⟩
  · exact s.GetContent_congr u2 a2 (s.SaveContent_cwd J fs now1 now2 u1 a1 content)
      (s.SaveContent_find J fs now1 now2 u1 content ha1 hd)
  · exact s.GetContent_congr u2 a2 (s.DeleteContent_cwd fs u1 a1)
      (s.DeleteContent_find fs u1 a1 hd)

/-- C16 as amended, at the users `u` and `v` and the article `a` of both, in
the store that holds the record file `d/users/v/a.json`. -/
theorem C16_namespace_isolation_amended_witness :
    Proper [117] ∧ Proper [118] ∧ ([117] : Bytes) ≠ [118] ∧ Separator ∉ ([97] : Bytes) ∧
      ((NewService ⟨[100]⟩).GetContent
        ((NewService ⟨[100]⟩).SaveContent json.plainCodec
          ⟨[], .dir [([100], .dir [([117, 115, 101, 114, 115],
            .dir [([118], .dir [([97, 46, 106, 115, 111, 110], .file [123, 125])])])])]⟩
          ⟨1, 0, 0⟩ ⟨1, 0, 0⟩ [117] [97] (json.plain.encode
            ⟨[], [], [116], [], [104, 105], [], none, none, ⟨0, 0, 0⟩, ⟨0, 0, 0⟩, false⟩)).2
        [118] [97]).1 =
      ((NewService ⟨[100]⟩).GetContent
        ⟨[], .dir [([100], .dir [([117, 115, 101, 114, 115],
          .dir [([118], .dir [([97, 46, 106, 115, 111, 110], .file [123, 125])])])])]⟩
        [118] [97]).1 :=
  ⟨by decide, by decide, by decide, by decide,
    (C16_namespace_isolation_amended json.plainCodec (NewService ⟨[100]⟩)
      ⟨[], .dir [([100], .dir [([117, 115, 101, 114, 115],
        .dir [([118], .dir [([97, 46, 106, 115, 111, 110], .file [123, 125])])])])]⟩
      ⟨1, 0, 0⟩ ⟨1, 0, 0⟩ [117] [118] [97] [97] _ (by decide) (by decide) (by decide)
      (by decide) (by decide)).2.2.1⟩

/-- C17 fails as stated: a user id is a part of the path too.  In an empty
store a record is saved for the user `x/a.json` and the article `b`, which
creates the directory `d/users/x/a.json`.  No record is stored for the user
`x` and the article `a`, and `GetContent(x, a)` fails with the error of
reading a directory, not with the not-found error.  And in an empty store,
where no record is stored at all, `GetContent` for the user `u` and an
article id that is a single NUL byte fails with the error of the read, since
the system refuses the name before it looks anything up. -/
theorem C17_missing_record_counterexample :
    ((NewService ⟨[100]⟩).SaveContent json.plainCodec ⟨[], .dir []⟩ ⟨1, 0, 0⟩ ⟨1, 0, 0⟩
        [120, 47, 97, 46, 106, 115, 111, 110] [98] (json.plain.encode
          ⟨[], [], [116], [], [104, 105], [], none, none, ⟨0, 0, 0⟩, ⟨0, 0, 0⟩, false⟩)).1.2 =
        none ∧
      ((NewService ⟨[100]⟩).GetContent
        ((NewService ⟨[100]⟩).SaveContent json.plainCodec ⟨[], .dir []⟩ ⟨1, 0, 0⟩ ⟨1, 0, 0⟩
          [120, 47, 97, 46, 106, 115, 111, 110] [98] (json.plain.encode
            ⟨[], [], [116], [], [104, 105], [], none, none, ⟨0, 0, 0⟩, ⟨0, 0, 0⟩, false⟩)).2
        [120] [97]).1 =
        ([], some (.wrap "failed to read file" (.pathError "read" .EISDIR))) ∧
      ((NewService ⟨[100]⟩).GetContent ⟨[], .dir []⟩ [117] [0]).1 =
        ([], some (.wrap "failed to read file" (.pathError "open" .EINVAL))) :=
  ⟨by decide, by decide, by decide⟩

/-- C17, as amended: for every user `u` and article `a` such that the path of
the record file is a name that the system accepts, without a NUL byte and
within the limits on the lengths of names, and nothing exists at that path,
as is the case for an article id without a separator when the directory of
the user does not exist, `GetContent(u, a)` fails with the not-found error
naming the article and returns an empty string.  When the path of the record
file has a NUL byte, `GetContent(u, a)` fails with the error of the read. -/
theorem C17_missing_record_amended (s : Service) (fs : os.FS) (u a : Bytes) :
    (os.accepted (s.filePath u a) →
      (fs.root.find (fs.resolve (s.filePath u a)) = .error .ENOENT ∨
        (Separator ∉ a ∧
          fs.root.find (fs.resolve (s.getUserStoragePath u)) = .error .ENOENT)) →
      s.GetContent fs u a = (([], some (.errorfArg "article not found" a)), fs)) ∧
    ((0 : Byte) ∈ s.filePath u a →
      s.GetContent fs u a =
        (([], some (.wrap "failed to read file" (.pathError "open" .EINVAL))), fs)) := by
  refine ⟨fun hacc h => ?_, fun hv => s.GetContent_of_nul hv⟩
  rcases h with h | ⟨ha, h⟩
  · exact s.GetContent_of_enoent hacc.not_nul h
  · apply s.GetContent_of_enoent hacc.not_nul
    rw [s.resolve_filePath fs u ha]
    exact os.Node.find_append_error _ _ _ _ h

/-- C17 as amended, in an empty store, for the user `u` and the article `a`. -/
theorem C17_missing_record_amended_witness :
    os.accepted ((NewService ⟨[100]⟩).filePath [117] [97]) ∧
      (Separator ∉ ([97] : Bytes) ∧
        (⟨[], .dir []⟩ : os.FS).root.find ((⟨[], .dir []⟩ : os.FS).resolve
          ((NewService ⟨[100]⟩).getUserStoragePath [117])) = .error .ENOENT) ∧
      (NewService ⟨[100]⟩).GetContent ⟨[], .dir []⟩ [117] [97] =
        (([], some (.errorfArg "article not found" [97])), ⟨[], .dir []⟩) :=
  ⟨by decide, ⟨by decide, rfl⟩,
    (C17_missing_record_amended (NewService ⟨[100]⟩) ⟨[], .dir []⟩ [117] [97]).1 (by decide)
      (Or.inr ⟨by decide, rfl⟩)⟩

end storage

namespace storage

open filepath

/-- C18 fails as stated in its last part: where a directory is at the path of
the record file, no record is stored and `DeleteContent` does not report
not-found.  In an empty store a record is saved for the user `x/a.json` and
the article `b`, which creates the directory `d/users/x/a.json`.  Then
`DeleteContent(x, a)` fails with the error of removing a directory that is
not empty; and once the record of `x/a.json` is deleted, `DeleteContent(x, a)`
succeeds and removes the directory `d/users/x/a.json`, which `Stat` found
before.  And in an empty store, where no record is stored at all,
`DeleteContent` for the user `u` and an article id that is a single NUL byte
fails with the error of the removal, since the system refuses the name before
it looks anything up. -/
theorem C18_delete_counterexample :
    ((NewService ⟨[100]⟩).SaveContent json.plainCodec ⟨[], .dir []⟩ ⟨1, 0, 0⟩ ⟨1, 0, 0⟩
        [120, 47, 97, 46, 106, 115, 111, 110] [98] (json.plain.encode
          ⟨[], [], [116], [], [104, 105], [], none, none, ⟨0, 0, 0⟩, ⟨0, 0, 0⟩, false⟩)).1.2 =
        none ∧
      ((NewService ⟨[100]⟩).DeleteContent
        ((NewService ⟨[100]⟩).SaveContent json.plainCodec ⟨[], .dir []⟩ ⟨1, 0, 0⟩ ⟨1, 0, 0⟩
          [120, 47, 97, 46, 106, 115, 111, 110] [98] (json.plain.encode
            ⟨[], [], [116], [], [104, 105], [], none, none, ⟨0, 0, 0⟩, ⟨0, 0, 0⟩, false⟩)).2
        [120] [97]).1 =
        some (.wrap "failed to delete file" (.pathError "remove" .ENOTEMPTY)) ∧
      ((NewService ⟨[100]⟩).DeleteContent
        ((NewService ⟨[100]⟩).DeleteContent
          ((NewService ⟨[100]⟩).SaveContent json.plainCodec ⟨[], .dir []⟩ ⟨1, 0, 0⟩ ⟨1, 0, 0⟩
            [120, 47, 97, 46, 106, 115, 111, 110] [98] (json.plain.encode
              ⟨[], [], [116], [], [104, 105], [], none, none, ⟨0, 0, 0⟩, ⟨0, 0, 0⟩, false⟩)).2
          [120, 47, 97, 46, 106, 115, 111, 110] [98]).2
        [120] [97]).1 = none ∧
      os.Stat
        ((NewService ⟨[100]⟩).DeleteContent
          ((NewService ⟨[100]⟩).SaveContent json.plainCodec ⟨[], .dir []⟩ ⟨1, 0, 0⟩ ⟨1, 0, 0⟩
            [120, 47, 97, 46, 106, 115, 111, 110] [98] (json.plain.encode
              ⟨[], [], [116], [], [104, 105], [], none, none, ⟨0, 0, 0⟩, ⟨0, 0, 0⟩, false⟩)).2
          [120, 47, 97, 46, 106, 115, 111, 110] [98]).2
        [100, 47, 117, 115, 101, 114, 115, 47, 120, 47, 97, 46, 106, 115, 111, 110] =
        .ok ⟨true, 0⟩ ∧
      os.Stat
        ((NewService ⟨[100]⟩).DeleteContent
          ((NewService ⟨[100]⟩).DeleteContent
            ((NewService ⟨[100]⟩).SaveContent json.plainCodec ⟨[], .dir []⟩ ⟨1, 0, 0⟩ ⟨1, 0, 0⟩
              [120, 47, 97, 46, 106, 115, 111, 110] [98] (json.plain.encode
                ⟨[], [], [116], [], [104, 105], [], none, none, ⟨0, 0, 0⟩, ⟨0, 0, 0⟩, false⟩)).2
            [120, 47, 97, 46, 106, 115, 111, 110] [98]).2
          [120] [97]).2
        [100, 47, 117, 115, 101, 114, 115, 47, 120, 47, 97, 46, 106, 115, 111, 110] =
        .error (.pathError "stat" .ENOENT) ∧
      ((NewService ⟨[100]⟩).DeleteContent ⟨[], .dir []⟩ [117] [0]).1 =
        some (.wrap "failed to delete file" (.pathError "remove" .EINVAL)) :=
  ⟨by decide, by decide, by decide, rfl, rfl, by decide⟩

/-- C18, as amended: `DeleteContent(u, a)` on a stored record, one that
`GetContent(u, a)` returns, succeeds and removes it, so a following
`GetContent(u, a)` fails with not-found and a second `DeleteContent(u, a)`
also fails with not-found; when the path of the record file is a name that
the system accepts, without a NUL byte and within the limits on the lengths
of names, and nothing exists at that path, `DeleteContent(u, a)` fails with
not-found and leaves the store unchanged; and when the path has a NUL byte,
`DeleteContent(u, a)` fails with the error of the removal and leaves the
store unchanged. -/
theorem C18_delete_amended (s : Service) (fs : os.FS) (u a : Bytes) :
    ((s.GetContent fs u a).1.2 = none →
      (s.DeleteContent fs u a).1 = none ∧
        s.GetContent (s.DeleteContent fs u a).2 u a =
          (([], some (.errorfArg "article not found" a)), (s.DeleteContent fs u a).2) ∧
        s.DeleteContent (s.DeleteContent fs u a).2 u a =
          (some (.errorfArg "article not found" a), (s.DeleteContent fs u a).2)) ∧
      (os.accepted (s.filePath u a) →
        fs.root.find (fs.resolve (s.filePath u a)) = .error .ENOENT →
        s.DeleteContent fs u a = (some (.errorfArg "article not found" a), fs)) ∧
      ((0 : Byte) ∈ s.filePath u a →
        s.DeleteContent fs u a =
          (some (.wrap "failed to delete file" (.pathError "remove" .EINVAL)), fs)) := by
  refine ⟨fun h => ?_, fun hacc h0 => s.DeleteContent_of_enoent hacc.not_nul h0,
    fun hv => s.DeleteContent_of_nul hv⟩
  obtain ⟨hv, d, hf⟩ := s.GetContent_ok_file h
  have hD := s.DeleteContent_of_file hv hf
  have hgone : (s.DeleteContent fs u a).2.root.find
      ((s.DeleteContent fs u a).2.resolve (s.filePath u a)) = .error .ENOENT := by
    rw [hD]
    exact os.Node.find_remove_self _ _ _ (s.resolve_filePath_ne_nil fs u a) hf
  exact ⟨by rw [hD], s.GetContent_of_enoent hv hgone, s.DeleteContent_of_enoent hv hgone⟩

/-- C18 as amended, in the store that holds the record file
`d/users/v/a.json`, for the user `v` and the article `a`, and in an empty
store for the same ids. -/
theorem C18_delete_amended_witness :
    ((NewService ⟨[100]⟩).GetContent
        ⟨[], .dir [([100], .dir [([117, 115, 101, 114, 115],
          .dir [([118], .dir [([97, 46, 106, 115, 111, 110], .file [123, 125])])])])]⟩
        [118] [97]).1.2 = none ∧
      ((NewService ⟨[100]⟩).DeleteContent
        ⟨[], .dir [([100], .dir [([117, 115, 101, 114, 115],
          .dir [([118], .dir [([97, 46, 106, 115, 111, 110], .file [123, 125])])])])]⟩
        [118] [97]).1 = none ∧
      ((NewService ⟨[100]⟩).GetContent
        ((NewService ⟨[100]⟩).DeleteContent
          ⟨[], .dir [([100], .dir [([117, 115, 101, 114, 115],
            .dir [([118], .dir [([97, 46, 106, 115, 111, 110], .file [123, 125])])])])]⟩
          [118] [97]).2 [118] [97]).1 = ([], some (.errorfArg "article not found" [97])) ∧
      os.accepted ((NewService ⟨[100]⟩).filePath [118] [97]) ∧
      (NewService ⟨[100]⟩).DeleteContent ⟨[], .dir []⟩ [118] [97] =
        (some (.errorfArg "article not found" [97]), ⟨[], .dir []⟩) :=
  have h := (C18_delete_amended (NewService ⟨[100]⟩)
    ⟨[], .dir [([100], .dir [([117, 115, 101, 114, 115],
      .dir [([118], .dir [([97, 46, 106, 115, 111, 110], .file [123, 125])])])])]⟩
    [118] [97]).1 (by decide)
  ⟨by decide, h.1, congrArg Prod.fst h.2.1, by decide,
    (C18_delete_amended (NewService ⟨[100]⟩) ⟨[], .dir []⟩ [118] [97]).2.1 (by decide) rfl⟩

/-- C19 fails as stated in its last part: two article ids may name the same
file.  The store holds the file `d/users/u/x.json`, which `GetContent`
returns for the user `u` under the article id `./x`; after two saves for the
user `u` under the other article id `x`, `GetContent(u, ./x)` returns the
record of the second save. -/
theorem C19_last_write_wins_counterexample :
    ([120] : Bytes) ≠ [46, 47, 120] ∧
      ((NewService ⟨[100]⟩).GetContent
        ⟨[], .dir [([100], .dir [([117, 115, 101, 114, 115],
          .dir [([117], .dir [([120, 46, 106, 115, 111, 110], .file [123, 125])])])])]⟩
        [117] [46, 47, 120]).1 = ([123, 125], none) ∧
      ((NewService ⟨[100]⟩).GetContent
        ((NewService ⟨[100]⟩).SaveContent json.plainCodec
          ((NewService ⟨[100]⟩).SaveContent json.plainCodec
            ⟨[], .dir [([100], .dir [([117, 115, 101, 114, 115],
              .dir [([117], .dir [([120, 46, 106, 115, 111, 110], .file [123, 125])])])])]⟩
            ⟨1, 0, 0⟩ ⟨1, 0, 0⟩ [117] [120] (json.plain.encode
              ⟨[], [], [116], [], [49], [], none, none, ⟨0, 0, 0⟩, ⟨0, 0, 0⟩, false⟩)).2
          ⟨2, 0, 0⟩ ⟨2, 0, 0⟩ [117] [120] (json.plain.encode
            ⟨[], [], [116], [], [50], [], none, none, ⟨0, 0, 0⟩, ⟨0, 0, 0⟩, false⟩)).2
        [117] [46, 47, 120]).1 =
        (json.plain.encode
          ⟨[120], [117], [116], [], [50], [], none, none, ⟨2, 0, 0⟩, ⟨2, 0, 0⟩, false⟩, none) :=
  ⟨by decide, by decide, by decide⟩

/-- C19, as amended: after `SaveContent(u, a, r1)` followed by a successful
`SaveContent(u, a, r2)`, `GetContent(u, a)` returns the record stored by the
second save, with the content of `r2`; and for every other article id `a2`,
both ids without a separator, the result of `GetContent(u, a2)` is the same
as before the two saves. -/
theorem C19_last_write_wins_amended (J : json.Codec) (hJ : J.Lawful) (s : Service) (fs : os.FS)
    (t1 t2 t3 t4 : time.Time) (u a content1 content2 : Bytes)
    (h : (s.SaveContent J (s.SaveContent J fs t1 t2 u a content1).2 t3 t4 u a content2).1.2 =
      none) :
    (∃ r2 b rg, J.Unmarshal content2 = .ok r2 ∧
        s.GetContent
            (s.SaveContent J (s.SaveContent J fs t1 t2 u a content1).2 t3 t4 u a content2).2
            u a =
          ((b, none),
            (s.SaveContent J (s.SaveContent J fs t1 t2 u a content1).2 t3 t4 u a content2).2) ∧
        J.Unmarshal b = .ok rg ∧ rg.Content = r2.Content ∧ rg.IsEncrypted = r2.IsEncrypted) ∧
      ∀ a2 : Bytes, a2 ≠ a → Separator ∉ a → Separator ∉ a2 →
        (s.GetContent
          (s.SaveContent J (s.SaveContent J fs t1 t2 u a content1).2 t3 t4 u a content2).2
          u a2).1 = (s.GetContent fs u a2).1 := by
  constructor
  · obtain ⟨r, b, hU, hG, hUb⟩ := s.SaveContent_read hJ _ t3 t4 u a content2 h
    obtain ⟨f1, _⟩ := read_fields hJ hU
    obtain ⟨c1, _, _, _, _, _, c7, _⟩ := stamp_fields r t3 t4 u a
    have hc : (J.normal (stamp r t3 t4 u a)).Content = r.Content := by
      show J.str (stamp r t3 t4 u a).Content = r.Content
      rw [c1, f1]
    exact ⟨r, b, _, hU, hG, hUb, hc, c7⟩
  · intro a2 hne ha ha2
    have hc1 := s.SaveContent_cwd J fs t1 t2 u a content1
    have hr : ∀ name, (s.SaveContent J fs t1 t2 u a content1).2.resolve name = fs.resolve name := by
      intro name
      unfold os.FS.resolve
      rw [hc1]
    have hd := s.diverge_articles fs u (Ne.symm hne) ha ha2
    have hd1 : os.Diverge ((s.SaveContent J fs t1 t2 u a content1).2.resolve (s.filePath u a))
        ((s.SaveContent J fs t1 t2 u a content1).2.resolve (s.filePath u a2)) := by
      rw [hr, hr]; exact hd
    have e1 := @Service.GetContent_congr s fs _ u a2 hc1
      (s.SaveContent_find J fs t1 t2 u content1 ha hd)
    have e2 := @Service.GetContent_congr s (s.SaveContent J fs t1 t2 u a content1).2 _ u a2
      (s.SaveContent_cwd J _ t3 t4 u a content2)
      (s.SaveContent_find J _ t3 t4 u content2 ha hd1)
    exact e2.trans e1

/-- C19 as amended, in an empty store, for the user `u`, the article `x` and
the contents `1` and `2`. -/
theorem C19_last_write_wins_amended_witness :
    ((NewService ⟨[100]⟩).SaveContent json.plainCodec
        ((NewService ⟨[100]⟩).SaveContent json.plainCodec ⟨[], .dir []⟩ ⟨1, 0, 0⟩ ⟨1, 0, 0⟩ [117]
          [120] (json.plain.encode
            ⟨[], [], [116], [], [49], [], none, none, ⟨0, 0, 0⟩, ⟨0, 0, 0⟩, false⟩)).2
        ⟨2, 0, 0⟩ ⟨2, 0, 0⟩ [117] [120] (json.plain.encode
          ⟨[], [], [116], [], [50], [], none, none, ⟨0, 0, 0⟩, ⟨0, 0, 0⟩, false⟩)).1.2 = none ∧
      ∃ r2 b rg, json.plainCodec.Unmarshal (json.plain.encode
          ⟨[], [], [116], [], [50], [], none, none, ⟨0, 0, 0⟩, ⟨0, 0, 0⟩, false⟩) = .ok r2 ∧
        (NewService ⟨[100]⟩).GetContent
            ((NewService ⟨[100]⟩).SaveContent json.plainCodec
              ((NewService ⟨[100]⟩).SaveContent json.plainCodec ⟨[], .dir []⟩ ⟨1, 0, 0⟩ ⟨1, 0, 0⟩
                [117] [120] (json.plain.encode
                  ⟨[], [], [116], [], [49], [], none, none, ⟨0, 0, 0⟩, ⟨0, 0, 0⟩, false⟩)).2
              ⟨2, 0, 0⟩ ⟨2, 0, 0⟩ [117] [120] (json.plain.encode
                ⟨[], [], [116], [], [50], [], none, none, ⟨0, 0, 0⟩, ⟨0, 0, 0⟩, false⟩)).2
            [117] [120] =
          ((b, none),
            ((NewService ⟨[100]⟩).SaveContent json.plainCodec
              ((NewService ⟨[100]⟩).SaveContent json.plainCodec ⟨[], .dir []⟩ ⟨1, 0, 0⟩ ⟨1, 0, 0⟩
                [117] [120] (json.plain.encode
                  ⟨[], [], [116], [], [49], [], none, none, ⟨0, 0, 0⟩, ⟨0, 0, 0⟩, false⟩)).2
              ⟨2, 0, 0⟩ ⟨2, 0, 0⟩ [117] [120] (json.plain.encode
                ⟨[], [], [116], [], [50], [], none, none, ⟨0, 0, 0⟩, ⟨0, 0, 0⟩, false⟩)).2) ∧
        json.plainCodec.Unmarshal b = .ok rg ∧ rg.Content = r2.Content ∧
        rg.IsEncrypted = r2.IsEncrypted :=
  ⟨by decide,
    (C19_last_write_wins_amended json.plainCodec json.plainCodec_lawful (NewService ⟨[100]⟩)
      ⟨[], .dir []⟩ ⟨1, 0, 0⟩ ⟨1, 0, 0⟩ ⟨2, 0, 0⟩ ⟨2, 0, 0⟩ [117] [120] _ _ (by decide)).1⟩

/-- C20 (decrypting is read-only): `GetDecryptedContent(u, a, k)` returns the
store it was given, whether it succeeds or fails, so `GetContent(u, a)`
returns afterwards what it returned before: the same string, with the same
`is_encrypted` and the same blob in `content`. -/
theorem C20_decrypt_read_only (J : json.Codec) (s : Service) (fs : os.FS) (u a k : Bytes) :
    (s.GetDecryptedContent J fs u a k).2 = fs ∧
      s.GetContent (s.GetDecryptedContent J fs u a k).2 u a = s.GetContent fs u a ∧
      ∀ b rs, (s.GetContent fs u a).1 = (b, none) → J.Unmarshal b = .ok rs →
        (s.GetContent (s.GetDecryptedContent J fs u a k).2 u a).1 = (b, none) ∧
        (rs.IsEncrypted = true → ∃ rs2, J.Unmarshal
          (s.GetContent (s.GetDecryptedContent J fs u a k).2 u a).1.1 = .ok rs2 ∧
          rs2.IsEncrypted = true ∧ rs2.Content = rs.Content) := by
  have h := s.GetDecryptedContent_snd J fs u a k
  refine ⟨h, by rw [h], ?_⟩
  intro b rs hb hU
  rw [h]
  refine ⟨hb, fun hE => ⟨rs, ?_, hE, rfl⟩⟩
  rw [hb]
  exact hU

end storage

/-! ## The claims about reading, counting and listing records -/

namespace storage

open filepath

/-- C21 (unencrypted pass-through): when `GetContent(u, a)` returns a text
that parses to a record with `is_encrypted` cleared, `GetDecryptedContent(u,
a, k)` returns exactly that text with a nil error, for every key `k`, and so
it does with every encryption engine in the place of the one of the service:
the engine is not consulted. -/
theorem C21_unencrypted_pass_through (J : json.Codec) (s : Service) (fs : os.FS)
    (u a k b : Bytes) (rs : ArticleContent) (hG : (s.GetContent fs u a).1 = (b, none))
    (hU : J.Unmarshal b = .ok rs) (hE : rs.IsEncrypted = false) :
    (s.GetDecryptedContent J fs u a k).1 = (s.GetContent fs u a).1 ∧
      s.GetDecryptedContent J fs u a k = ((b, none), fs) ∧
      ∀ (e : encryption.Service) (k2 : Bytes),
        Service.GetDecryptedContent J ⟨s.config, e⟩ fs u a k2 = ((b, none), fs) := by
  have hG2 : s.GetContent fs u a = ((b, none), fs) :=
    Prod.ext hG (s.GetContent_snd fs u a)
  have key : ∀ (e : encryption.Service) (k2 : Bytes),
      Service.GetDecryptedContent J ⟨s.config, e⟩ fs u a k2 = ((b, none), fs) := by
    intro e k2
    have hG3 : Service.GetContent ⟨s.config, e⟩ fs u a = ((b, none), fs) := hG2
    simp only [Service.GetDecryptedContent, hG3, hU, hE, Bool.not_false, if_true]
  have h0 := key s.encryption k
  refine ⟨?_, h0, key⟩
  rw [h0, hG]

/-- C21, in the store that holds the record file `d/users/v/a.json` with a
record whose `is_encrypted` is cleared, under the key `!`, which is no valid
key. -/
theorem C21_unencrypted_pass_through_witness :
    ((NewService ⟨[100]⟩).GetContent
        ⟨[], .dir [([100], .dir [([117, 115, 101, 114, 115], .dir [([118],
          .dir [([97, 46, 106, 115, 111, 110], .file (json.plain.encode
            ⟨[97], [118], [116], [], [104, 105], [], none, none, ⟨1, 0, 0⟩, ⟨1, 0, 0⟩,
              false⟩))])])])]⟩
        [118] [97]).1 =
        (json.plain.encode
          ⟨[97], [118], [116], [], [104, 105], [], none, none, ⟨1, 0, 0⟩, ⟨1, 0, 0⟩, false⟩,
          none) ∧
      ¬ base64.Valid [33] ∧
      ((NewService ⟨[100]⟩).GetDecryptedContent json.plainCodec
        ⟨[], .dir [([100], .dir [([117, 115, 101, 114, 115], .dir [([118],
          .dir [([97, 46, 106, 115, 111, 110], .file (json.plain.encode
            ⟨[97], [118], [116], [], [104, 105], [], none, none, ⟨1, 0, 0⟩, ⟨1, 0, 0⟩,
              false⟩))])])])]⟩
        [118] [97] [33]).1 =
        (json.plain.encode
          ⟨[97], [118], [116], [], [104, 105], [], none, none, ⟨1, 0, 0⟩, ⟨1, 0, 0⟩, false⟩,
          none) :=
  ⟨by decide, by decide,
    congrArg Prod.fst (C21_unencrypted_pass_through json.plainCodec (NewService ⟨[100]⟩)
      ⟨[], .dir [([100], .dir [([117, 115, 101, 114, 115], .dir [([118],
        .dir [([97, 46, 106, 115, 111, 110], .file (json.plain.encode
          ⟨[97], [118], [116], [], [104, 105], [], none, none, ⟨1, 0, 0⟩, ⟨1, 0, 0⟩,
            false⟩))])])])]⟩
      [118] [97] [33]
      (json.plain.encode
        ⟨[97], [118], [116], [], [104, 105], [], none, none, ⟨1, 0, 0⟩, ⟨1, 0, 0⟩, false⟩)
      ⟨[97], [118], [116], [], [104, 105], [], none, none, ⟨1, 0, 0⟩, ⟨1, 0, 0⟩, false⟩
      (by decide) rfl rfl).2.1⟩

end storage

namespace storage

open filepath

/-- C22 fails as stated in its first part: a namespace that does not exist
because a regular file is in the way of its path is answered with an error.
In an empty store a record is saved for the user `u` and the article `a`,
which creates the file `d/users/u/a.json`.  The namespace of the user
`u/a.json/z` does not exist, nothing can exist below a regular file, and
`GetStorageStats` returns the error of `Lstat`, not zeros.  And in an empty
store, where no namespace exists at all, `GetStorageStats` for a user id that
is a single NUL byte returns the error of `Lstat` too, since the system
refuses the name before it looks anything up. -/
theorem C22_storage_stats_counterexample :
    ((NewService ⟨[100]⟩).SaveContent json.plainCodec ⟨[], .dir []⟩ ⟨1, 0, 0⟩ ⟨1, 0, 0⟩ [117]
          [97] (json.plain.encode
            ⟨[], [], [116], [], [104, 105], [], none, none, ⟨0, 0, 0⟩, ⟨0, 0, 0⟩, false⟩)).1.2 = none ∧
      ((NewService ⟨[100]⟩).SaveContent json.plainCodec ⟨[], .dir []⟩ ⟨1, 0, 0⟩ ⟨1, 0, 0⟩ [117]
          [97] (json.plain.encode
            ⟨[], [], [116], [], [104, 105], [], none, none, ⟨0, 0, 0⟩, ⟨0, 0, 0⟩, false⟩)).2.root.find
          (((NewService ⟨[100]⟩).SaveContent json.plainCodec ⟨[], .dir []⟩ ⟨1, 0, 0⟩ ⟨1, 0, 0⟩ [117]
          [97] (json.plain.encode
            ⟨[], [], [116], [], [104, 105], [], none, none, ⟨0, 0, 0⟩, ⟨0, 0, 0⟩, false⟩)).2.resolve
            ((NewService ⟨[100]⟩).getUserStoragePath [117, 47, 97, 46, 106, 115, 111, 110, 47, 122])) =
        .error .ENOTDIR ∧
      (NewService ⟨[100]⟩).GetStorageStats json.plainCodec
          ((NewService ⟨[100]⟩).SaveContent json.plainCodec ⟨[], .dir []⟩ ⟨1, 0, 0⟩ ⟨1, 0, 0⟩ [117]
          [97] (json.plain.encode
            ⟨[], [], [116], [], [104, 105], [], none, none, ⟨0, 0, 0⟩, ⟨0, 0, 0⟩, false⟩)).2
          [117, 47, 97, 46, 106, 115, 111, 110, 47, 122] =
        (none, some (.wrap "failed to calculate storage stats" (.pathError "lstat" .ENOTDIR))) ∧
      (NewService ⟨[100]⟩).GetStorageStats json.plainCodec ⟨[], .dir []⟩ [0] =
        (none, some (.wrap "failed to calculate storage stats" (.pathError "lstat" .EINVAL))) :=
  ⟨by decide, by rfl, by decide, by decide⟩

/-- C22, as amended: when the path of the namespace of `u` is a name that the
system accepts, without a NUL byte and within the limits on the lengths of
names, and nothing exists at it, `GetStorageStats(u)` returns all-zero counts
and no error; when something exists there and the paths of the walk are names
that the system accepts, it returns counts and no error.  When the namespace
is a directory of a well-formed file tree with such paths, `total_articles`
is the number of record files below it, the regular files at any depth whose
name ends in `.json`, `total_size` is the sum of their sizes, and
`encrypted_articles` is the number of those whose content parses as a record
with `is_encrypted` set.  When the path of the namespace has a NUL byte,
`GetStorageStats(u)` returns the error of the walk. -/
theorem C22_storage_stats_amended (J : json.Codec) (s : Service) (fsys : os.FS) (u : Bytes) :
    (os.accepted (s.getUserStoragePath u) →
        fsys.root.find (fsys.resolve (s.getUserStoragePath u)) = .error .ENOENT →
        s.GetStorageStats J fsys u = (some ⟨0, 0, 0⟩, none)) ∧
      (∀ n, fsys.root.find (fsys.resolve (s.getUserStoragePath u)) = .ok n →
        (∀ e ∈ n.entries, os.accepted (walkPath (s.getUserStoragePath u) e.1)) →
        ∃ stats, s.GetStorageStats J fsys u = (some stats, none)) ∧
      (∀ es, fsys.root.find (fsys.resolve (s.getUserStoragePath u)) = .ok (.dir es) →
        (os.Node.dir es).wellFormed = true →
        (∀ e ∈ (os.Node.dir es).entries,
          os.accepted (walkPath (s.getUserStoragePath u) e.1)) →
        s.GetStorageStats J fsys u =
          (some ⟨(recordFiles (.dir es)).length, ((recordFiles (.dir es)).map List.length).sum,
            ((recordFiles (.dir es)).filter (parsesEncrypted J)).length⟩, none)) ∧
      ((0 : Byte) ∈ s.getUserStoragePath u →
        s.GetStorageStats J fsys u =
          (none, some (.wrap "failed to calculate storage stats"
            (.pathError "lstat" .EINVAL)))) :=
  ⟨fun hacc h => s.GetStorageStats_not_exist J fsys u
      ((os.statNotExist_of_error hacc.not_nul h).trans (decide_eq_true rfl)),
    fun n h hacc => s.GetStorageStats_found J fsys u n
      (hacc ([], n) (os.Node.entries_self n)).not_nul h,
    fun es h hwf hacc => s.GetStorageStats_dir J fsys u es h hwf
      (fun e he => (hacc e he).not_nul),
    fun hv => s.GetStorageStats_nul J fsys u hv⟩

/-- C22 as amended, in three stores.  In an empty store the counts are zero.
In a namespace with the record files `b.json` (encrypted), `a.json` (not
encrypted) and `c.json` (which does not parse) and the file `n`, three
record files are counted, one of them encrypted.  After one plaintext save
and one encrypted save for the user `u`, with an engine of one iteration, the
counts are 2 articles, 252 bytes and 1 encrypted article. -/
theorem C22_storage_stats_amended_witness :
    (NewService ⟨[100]⟩).GetStorageStats json.plainCodec ⟨[], .dir []⟩ [117] =
        (some ⟨0, 0, 0⟩, none) ∧
      (NewService ⟨[100]⟩).GetStorageStats json.plainCodec
          ⟨[], .dir [([100], .dir [(usersDir, .dir [([117], .dir
          [([98, 46, 106, 115, 111, 110], .file (json.plain.encode
              ⟨[98], [117], [116], [], [120], [], none, none, ⟨1, 0, 0⟩, ⟨1, 0, 0⟩, true⟩)),
            ([110], .file [123]),
            ([97, 46, 106, 115, 111, 110], .file (json.plain.encode
              ⟨[97], [117], [116], [], [104, 105], [], none, none, ⟨1, 0, 0⟩, ⟨1, 0, 0⟩, false⟩)),
            ([99, 46, 106, 115, 111, 110], .file [123])])])])]⟩ [117] =
        (some ⟨3, 127, 1⟩, none) ∧
      (Service.mk ⟨[100]⟩ (encryption.NewService 1)).GetStorageStats json.plainCodec
          ((Service.mk ⟨[100]⟩ (encryption.NewService 1)).SaveEncryptedContent json.plainCodec
          ((Service.mk ⟨[100]⟩ (encryption.NewService 1)).SaveContent json.plainCodec
            ⟨[], .dir []⟩ ⟨1, 0, 0⟩ ⟨1, 0, 0⟩ [117] [97] (json.plain.encode
              ⟨[], [], [116], [], [104, 105], [], none, none, ⟨0, 0, 0⟩, ⟨0, 0, 0⟩, false⟩)).2
          (some (List.replicate 16 0)) (some (List.replicate 12 0)) (some (List.replicate 16 1))
          (some (List.replicate 12 1)) ⟨1, 0, 0⟩ ⟨1, 0, 0⟩ [117] [98] (json.plain.encode
            ⟨[], [], [116], [], [104, 105], [], none, none, ⟨0, 0, 0⟩, ⟨0, 0, 0⟩, false⟩)
          [81, 81, 61, 61]).2 [117] =
        (some ⟨2, 252, 1⟩, none) :=
  ⟨(C22_storage_stats_amended json.plainCodec (NewService ⟨[100]⟩) ⟨[], .dir []⟩ [117]).1
      (by decide) rfl,
    (C22_storage_stats_amended json.plainCodec (NewService ⟨[100]⟩)
      ⟨[], .dir [([100], .dir [(usersDir, .dir [([117], .dir
          [([98, 46, 106, 115, 111, 110], .file (json.plain.encode
              ⟨[98], [117], [116], [], [120], [], none, none, ⟨1, 0, 0⟩, ⟨1, 0, 0⟩, true⟩)),
            ([110], .file [123]),
            ([97, 46, 106, 115, 111, 110], .file (json.plain.encode
              ⟨[97], [117], [116], [], [104, 105], [], none, none, ⟨1, 0, 0⟩, ⟨1, 0, 0⟩, false⟩)),
            ([99, 46, 106, 115, 111, 110], .file [123])])])])]⟩ [117]).2.2.1
      [([98, 46, 106, 115, 111, 110], .file (json.plain.encode
          ⟨[98], [117], [116], [], [120], [], none, none, ⟨1, 0, 0⟩, ⟨1, 0, 0⟩, true⟩)),
        ([110], .file [123]),
        ([97, 46, 106, 115, 111, 110], .file (json.plain.encode
          ⟨[97], [117], [116], [], [104, 105], [], none, none, ⟨1, 0, 0⟩, ⟨1, 0, 0⟩, false⟩)),
        ([99, 46, 106, 115, 111, 110], .file [123])] rfl (by decide) (by decide),
    by decide!⟩

/-- C23 fails as stated in its first part: a namespace that does not exist
because a regular file is in the way of its path is answered with an error.
In an empty store a record is saved for the user `u` and the article `a`,
which creates the file `d/users/u/a.json`.  The namespace of the user
`u/a.json/z` does not exist, nothing can exist below a regular file, and
`ListUserContent` returns the error of `Lstat`, not an empty sequence.  And
in an empty store, where no namespace exists at all, `ListUserContent` for a
user id that is a single NUL byte returns the error of `Lstat` too, since the
system refuses the name before it looks anything up. -/
theorem C23_list_user_content_counterexample :
    ((NewService ⟨[100]⟩).SaveContent json.plainCodec ⟨[], .dir []⟩ ⟨1, 0, 0⟩ ⟨1, 0, 0⟩ [117]
          [97] (json.plain.encode
            ⟨[], [], [116], [], [104, 105], [], none, none, ⟨0, 0, 0⟩, ⟨0, 0, 0⟩, false⟩)).1.2 = none ∧
      ((NewService ⟨[100]⟩).SaveContent json.plainCodec ⟨[], .dir []⟩ ⟨1, 0, 0⟩ ⟨1, 0, 0⟩ [117]
          [97] (json.plain.encode
            ⟨[], [], [116], [], [104, 105], [], none, none, ⟨0, 0, 0⟩, ⟨0, 0, 0⟩, false⟩)).2.root.find
          (((NewService ⟨[100]⟩).SaveContent json.plainCodec ⟨[], .dir []⟩ ⟨1, 0, 0⟩ ⟨1, 0, 0⟩ [117]
          [97] (json.plain.encode
            ⟨[], [], [116], [], [104, 105], [], none, none, ⟨0, 0, 0⟩, ⟨0, 0, 0⟩, false⟩)).2.resolve
            ((NewService ⟨[100]⟩).getUserStoragePath [117, 47, 97, 46, 106, 115, 111, 110, 47, 122])) =
        .error .ENOTDIR ∧
      (NewService ⟨[100]⟩).ListUserContent json.plainCodec
          ((NewService ⟨[100]⟩).SaveContent json.plainCodec ⟨[], .dir []⟩ ⟨1, 0, 0⟩ ⟨1, 0, 0⟩ [117]
          [97] (json.plain.encode
            ⟨[], [], [116], [], [104, 105], [], none, none, ⟨0, 0, 0⟩, ⟨0, 0, 0⟩, false⟩)).2
          [117, 47, 97, 46, 106, 115, 111, 110, 47, 122] =
        (none, some (.wrap "failed to list user content" (.pathError "lstat" .ENOTDIR))) ∧
      (NewService ⟨[100]⟩).ListUserContent json.plainCodec ⟨[], .dir []⟩ [0] =
        (none, some (.wrap "failed to list user content" (.pathError "lstat" .EINVAL))) :=
  ⟨by decide, by rfl, by decide, by decide⟩

/-- C23, as amended: when the path of the namespace of `u` is a name that the
system accepts, without a NUL byte and within the limits on the lengths of
names, and nothing exists at it, `ListUserContent(u)` returns an empty
sequence and no error; when something exists there and the paths of the walk
are names that the system accepts, it returns no error.  When the namespace
is a directory of a well-formed file tree with such paths, it returns, in the
order of the walk, the records of the record files below it that parse as a
content record, which are exactly the records of the record files of the tree
that parse; a record file that does not parse is skipped.  The slice returned
is nil when no record is listed.  When the path of the namespace has a NUL
byte, `ListUserContent(u)` returns the error of the walk. -/
theorem C23_list_user_content_amended (J : json.Codec) (s : Service) (fsys : os.FS)
    (u : Bytes) :
    (os.accepted (s.getUserStoragePath u) →
        fsys.root.find (fsys.resolve (s.getUserStoragePath u)) = .error .ENOENT →
        s.ListUserContent J fsys u = (some [], none)) ∧
      (∀ n, fsys.root.find (fsys.resolve (s.getUserStoragePath u)) = .ok n →
        (∀ e ∈ n.entries, os.accepted (walkPath (s.getUserStoragePath u) e.1)) →
        (s.ListUserContent J fsys u).2 = none) ∧
      (∀ es, fsys.root.find (fsys.resolve (s.getUserStoragePath u)) = .ok (.dir es) →
        (os.Node.dir es).wellFormed = true →
        (∀ e ∈ (os.Node.dir es).entries,
          os.accepted (walkPath (s.getUserStoragePath u) e.1)) →
        ∃ l : List ArticleContent,
          s.ListUserContent J fsys u = (if l = [] then none else some l, none) ∧
            l = (((os.Node.dir es).walkOrder.filter isRecordFile).map
              (fun e => nodeData e.2)).filterMap (parsed J) ∧
            l.Perm ((recordFiles (.dir es)).filterMap (parsed J))) ∧
      ((0 : Byte) ∈ s.getUserStoragePath u →
        s.ListUserContent J fsys u =
          (none, some (.wrap "failed to list user content" (.pathError "lstat" .EINVAL)))) := by
  refine ⟨fun hacc h => s.ListUserContent_not_exist J fsys u
      ((os.statNotExist_of_error hacc.not_nul h).trans (decide_eq_true rfl)),
    fun n h hacc => s.ListUserContent_found J fsys u n
      (hacc ([], n) (os.Node.entries_self n)).not_nul h,
    fun es h hwf hacc => ⟨_, ?_, rfl, ?_⟩, fun hv => s.ListUserContent_nul J fsys u hv⟩
  · rw [s.ListUserContent_dir J fsys u es h hwf (fun e he => (hacc e he).not_nul)]
    unfold listed
    simp only [Option.getD_none, List.nil_append]
  · exact (recordFiles_perm (.dir es)).filterMap _

/-- C23 as amended, in three stores.  In an empty store the list is empty.
In a namespace with the record files `b.json`, `a.json` and `c.json` (which
does not parse) and the file `n`, the records of `a.json` and `b.json` are
listed in this order.  After one plaintext save and one encrypted save for
the user `u`, with an engine of one iteration, two records are listed. -/
theorem C23_list_user_content_amended_witness :
    (NewService ⟨[100]⟩).ListUserContent json.plainCodec ⟨[], .dir []⟩ [117] =
        (some [], none) ∧
      (∃ l : List ArticleContent,
        (NewService ⟨[100]⟩).ListUserContent json.plainCodec
            ⟨[], .dir [([100], .dir [(usersDir, .dir [([117], .dir
          [([98, 46, 106, 115, 111, 110], .file (json.plain.encode
              ⟨[98], [117], [116], [], [120], [], none, none, ⟨1, 0, 0⟩, ⟨1, 0, 0⟩, true⟩)),
            ([110], .file [123]),
            ([97, 46, 106, 115, 111, 110], .file (json.plain.encode
              ⟨[97], [117], [116], [], [104, 105], [], none, none, ⟨1, 0, 0⟩, ⟨1, 0, 0⟩, false⟩)),
            ([99, 46, 106, 115, 111, 110], .file [123])])])])]⟩ [117] =
          (if l = [] then none else some l, none) ∧
          l = [⟨[97], [117], [116], [], [104, 105], [], none, none, ⟨1, 0, 0⟩, ⟨1, 0, 0⟩, false⟩,
            ⟨[98], [117], [116], [], [120], [], none, none, ⟨1, 0, 0⟩, ⟨1, 0, 0⟩, true⟩]) ∧
      ((Service.mk ⟨[100]⟩ (encryption.NewService 1)).ListUserContent json.plainCodec
          ((Service.mk ⟨[100]⟩ (encryption.NewService 1)).SaveEncryptedContent json.plainCodec
          ((Service.mk ⟨[100]⟩ (encryption.NewService 1)).SaveContent json.plainCodec
            ⟨[], .dir []⟩ ⟨1, 0, 0⟩ ⟨1, 0, 0⟩ [117] [97] (json.plain.encode
              ⟨[], [], [116], [], [104, 105], [], none, none, ⟨0, 0, 0⟩, ⟨0, 0, 0⟩, false⟩)).2
          (some (List.replicate 16 0)) (some (List.replicate 12 0)) (some (List.replicate 16 1))
          (some (List.replicate 12 1)) ⟨1, 0, 0⟩ ⟨1, 0, 0⟩ [117] [98] (json.plain.encode
            ⟨[], [], [116], [], [104, 105], [], none, none, ⟨0, 0, 0⟩, ⟨0, 0, 0⟩, false⟩)
          [81, 81, 61, 61]).2 [117]).1.map List.length =
        some 2 :=
  ⟨(C23_list_user_content_amended json.plainCodec (NewService ⟨[100]⟩) ⟨[], .dir []⟩ [117]).1
      (by decide) rfl,
    match (C23_list_user_content_amended json.plainCodec (NewService ⟨[100]⟩)
      ⟨[], .dir [([100], .dir [(usersDir, .dir [([117], .dir
          [([98, 46, 106, 115, 111, 110], .file (json.plain.encode
              ⟨[98], [117], [116], [], [120], [], none, none, ⟨1, 0, 0⟩, ⟨1, 0, 0⟩, true⟩)),
            ([110], .file [123]),
            ([97, 46, 106, 115, 111, 110], .file (json.plain.encode
              ⟨[97], [117], [116], [], [104, 105], [], none, none, ⟨1, 0, 0⟩, ⟨1, 0, 0⟩, false⟩)),
            ([99, 46, 106, 115, 111, 110], .file [123])])])])]⟩ [117]).2.2.1
      [([98, 46, 106, 115, 111, 110], .file (json.plain.encode
          ⟨[98], [117], [116], [], [120], [], none, none, ⟨1, 0, 0⟩, ⟨1, 0, 0⟩, true⟩)),
        ([110], .file [123]),
        ([97, 46, 106, 115, 111, 110], .file (json.plain.encode
          ⟨[97], [117], [116], [], [104, 105], [], none, none, ⟨1, 0, 0⟩, ⟨1, 0, 0⟩, false⟩)),
        ([99, 46, 106, 115, 111, 110], .file [123])] rfl (by decide) (by decide) with
    | ⟨l, h1, h2, _⟩ => ⟨l, h1, h2.trans (by decide)⟩,
    by decide!⟩

end storage

namespace storage

open filepath

/-- C24 (summary substitution): after `SaveEncryptedContent` succeeds for a
content that parses to `r`, under a decodable key and draws of 16-byte salts
and 12-byte nonces, the stored record has `is_encrypted` set; its summary is
the sealed blob of the summary of `r` when that is not empty, and is empty
when that is empty, and the empty string is no sealed blob: `Decrypt` rejects
it.  `GetDecryptedContent` under the same key succeeds and returns the
summary of `r`, the empty one included. -/
theorem C24_summary_substitution (J : json.Codec) (hJ : J.Lawful) (s : Service) (fs : os.FS)
    (salt1 nonce1 salt2 nonce2 : Bytes) (now1 now2 : time.Time) (u a content k : Bytes)
    (r : ArticleContent) (m : Bytes) (hU : J.Unmarshal content = .ok r)
    (hk : base64.DecodeString k = some m)
    (hs1 : salt1.length = 16) (hn1 : nonce1.length = 12) (hs2 : salt2.length = 16)
    (hn2 : nonce2.length = 12)
    (h : (s.SaveEncryptedContent J fs (some salt1) (some nonce1) (some salt2) (some nonce2)
      now1 now2 u a content k).1.2 = none) :
    ∃ b rs b2 rd,
      s.GetContent (s.SaveEncryptedContent J fs (some salt1) (some nonce1) (some salt2)
          (some nonce2) now1 now2 u a content k).2 u a =
        ((b, none), (s.SaveEncryptedContent J fs (some salt1) (some nonce1) (some salt2)
          (some nonce2) now1 now2 u a content k).2) ∧
      J.Unmarshal b = .ok rs ∧ rs.IsEncrypted = true ∧
      (r.Summary ≠ [] →
        rs.Summary = (s.encryption.Encrypt (some salt2) (some nonce2) r.Summary k).1 ∧
        base64.DecodeString rs.Summary = some (salt2 ++ (nonce2 ++
          cipher.gcm.output (s.encryption.aead m salt2).cipher nonce2 r.Summary [])) ∧
        s.encryption.Decrypt rs.Summary k = (r.Summary, none)) ∧
      (r.Summary = [] → rs.Summary = []) ∧
      (rs.Summary ≠ [] ↔ r.Summary ≠ []) ∧
      s.encryption.Decrypt [] k = ([], some (.errorf "encrypted data too short")) ∧
      s.GetDecryptedContent J (s.SaveEncryptedContent J fs (some salt1) (some nonce1)
          (some salt2) (some nonce2) now1 now2 u a content k).2 u a k =
        ((b2, none), (s.SaveEncryptedContent J fs (some salt1) (some nonce1) (some salt2)
          (some nonce2) now1 now2 u a content k).2) ∧
      J.Unmarshal b2 = .ok rd ∧ rd.IsEncrypted = false ∧ rd.Summary = r.Summary ∧
      (r.Summary = [] → rd.Summary = []) := by
  obtain ⟨b, rs, hG, hUb, hE, _, c2, _⟩ :=
    s.SaveEncryptedContent_stored hJ fs salt1 nonce1 salt2 nonce2 now1 now2 u a content k
      hU hk hs1 hs2 h
  obtain ⟨b2, rd, hGd, hU2, d1, _, d3, _⟩ :=
    s.GetDecryptedContent_saved hJ fs salt1 nonce1 salt2 nonce2 now1 now2 u a content k k
      hU hk hk hs1 hn1 hs2 hn2 h
  have hne := (encryption.Service.Encrypt_text s.encryption r.Summary salt2 nonce2 hk hs2).2.1
  have hnon : r.Summary ≠ [] →
      rs.Summary = (s.encryption.Encrypt (some salt2) (some nonce2) r.Summary k).1 := by
    intro h0
    rw [c2, if_pos h0]
  have hemp : r.Summary = [] → rs.Summary = [] := by
    intro h0
    rw [c2, if_neg (not_not.mpr h0), h0]
  refine ⟨b, rs, b2, rd, hG, hUb, hE, ?_, hemp, ?_, ?_, hGd, hU2, d1, d3, ?_⟩
  · intro h0
    refine ⟨hnon h0, ?_, ?_⟩
    · rw [hnon h0, encryption.Service.Encrypt_eq s.encryption r.Summary salt2 nonce2 hk,
        base64.DecodeString_EncodeToString]
    · rw [hnon h0]
      exact encryption.Service.Decrypt_Encrypt_same_bytes s.encryption r.Summary salt2 nonce2
        hk hk hs2 hn2
  · constructor
    · intro h1 h0
      exact h1 (hemp h0)
    · intro h0
      rw [hnon h0]
      exact hne
  · simp [encryption.Service.Decrypt, base64.DecodeString, base64.decodeLoop]
  · intro h0
    rw [d3, h0]

/-- C24, in an empty store: the record with the content `hi` and an empty
summary for the user `u` and the article `a`, under the key `QQ==`. -/
theorem C24_summary_substitution_witness :
    json.plainCodec.Lawful ∧ base64.DecodeString [81, 81, 61, 61] = some [65] ∧
      ((NewService ⟨[100]⟩).SaveEncryptedContent json.plainCodec ⟨[], .dir []⟩
        (some (List.replicate 16 0)) (some (List.replicate 12 0)) (some (List.replicate 16 1))
        (some (List.replicate 12 1)) ⟨1, 0, 0⟩ ⟨1, 0, 0⟩ [117] [97]
        (json.plain.encode
          ⟨[], [], [116], [], [104, 105], [], none, none, ⟨0, 0, 0⟩, ⟨0, 0, 0⟩, false⟩)
        [81, 81, 61, 61]).1.2 = none ∧
      ∃ b rs,
        ((NewService ⟨[100]⟩).GetContent
          ((NewService ⟨[100]⟩).SaveEncryptedContent json.plainCodec ⟨[], .dir []⟩
            (some (List.replicate 16 0)) (some (List.replicate 12 0))
            (some (List.replicate 16 1)) (some (List.replicate 12 1)) ⟨1, 0, 0⟩ ⟨1, 0, 0⟩ [117]
            [97] (json.plain.encode
              ⟨[], [], [116], [], [104, 105], [], none, none, ⟨0, 0, 0⟩, ⟨0, 0, 0⟩, false⟩)
            [81, 81, 61, 61]).2 [117] [97]).1 = (b, none) ∧
        json.plainCodec.Unmarshal b = .ok rs ∧ rs.IsEncrypted = true ∧ rs.Summary = [] :=
  have hs : ((NewService ⟨[100]⟩).SaveEncryptedContent json.plainCodec ⟨[], .dir []⟩
      (some (List.replicate 16 0)) (some (List.replicate 12 0)) (some (List.replicate 16 1))
      (some (List.replicate 12 1)) ⟨1, 0, 0⟩ ⟨1, 0, 0⟩ [117] [97]
      (json.plain.encode
        ⟨[], [], [116], [], [104, 105], [], none, none, ⟨0, 0, 0⟩, ⟨0, 0, 0⟩, false⟩)
      [81, 81, 61, 61]).1.2 = none :=
    Service.SaveEncryptedContent_plain_ok (NewService ⟨[100]⟩) ⟨[], .dir []⟩ _ _ _ _ _ _ [117]
      [97] [81, 81, 61, 61] _ (m := [65]) (by decide) (by decide) (by decide) (by decide)
  have h := C24_summary_substitution json.plainCodec json.plainCodec_lawful (NewService ⟨[100]⟩)
    ⟨[], .dir []⟩ (List.replicate 16 0) (List.replicate 12 0) (List.replicate 16 1)
    (List.replicate 12 1) ⟨1, 0, 0⟩ ⟨1, 0, 0⟩ [117] [97]
    (json.plain.encode
      ⟨[], [], [116], [], [104, 105], [], none, none, ⟨0, 0, 0⟩, ⟨0, 0, 0⟩, false⟩)
    [81, 81, 61, 61]
    ⟨[], [], [116], [], [104, 105], [], none, none, ⟨0, 0, 0⟩, ⟨0, 0, 0⟩, false⟩ [65]
    rfl (by decide) (by decide) (by decide) (by decide) (by decide) hs
  ⟨json.plainCodec_lawful, by decide, hs,
    match h with
    | ⟨b, rs, _, _, hG, hU, hE, _, hemp, _⟩ =>
      ⟨b, rs, congrArg Prod.fst hG, hU, hE, hemp rfl⟩⟩

end storage

/-! ## The claims about the validators and the keys of `auth` -/

namespace auth

/-- C25 fails as stated: the length that `ValidatePassword` tests is
`len(password)`, a number of bytes.  The password `Aa1!éé` has six characters
in eight bytes, an uppercase letter, a lowercase letter, a digit and a special
character, and `ValidatePassword` returns no error. -/
theorem C25_validate_password_counterexample :
    utf8.runes [65, 97, 49, 33, 195, 169, 195, 169] = [65, 97, 49, 33, 233, 233] ∧
      (utf8.runes [65, 97, 49, 33, 195, 169, 195, 169]).length < 8 ∧
      Service.ValidatePassword ⟨⟨[]⟩⟩ [65, 97, 49, 33, 195, 169, 195, 169] = none :=
  ⟨by decide, by decide, by decide⟩

/-- C25, as amended: `ValidatePassword` returns no error if and only if the
password is at least 8 bytes long and contains at least one uppercase letter
`A`-`Z`, one lowercase letter `a`-`z`, one digit `0`-`9` and one special
character of `!@#$%^&*()_+-=[]{}|;:,.<>?`; a letter, digit or special
character is contained as a character exactly when it is contained as a byte.
For a password of ASCII bytes the bytes are the characters, so that the
length is the number of characters. -/
theorem C25_validate_password_amended (s : Service) (p : Bytes) :
    (s.ValidatePassword p = none ↔
        8 ≤ p.length ∧ (∃ c ∈ utf8.runes p, 65 ≤ c ∧ c ≤ 90) ∧
          (∃ c ∈ utf8.runes p, 97 ≤ c ∧ c ≤ 122) ∧ (∃ c ∈ utf8.runes p, 48 ≤ c ∧ c ≤ 57) ∧
          ∃ c ∈ utf8.runes p, c ∈ specialChars.map (fun b => b.val)) ∧
      (s.ValidatePassword p = none ↔
        8 ≤ p.length ∧ (∃ b ∈ p, 65 ≤ b.val ∧ b.val ≤ 90) ∧
          (∃ b ∈ p, 97 ≤ b.val ∧ b.val ≤ 122) ∧ (∃ b ∈ p, 48 ≤ b.val ∧ b.val ≤ 57) ∧
          ∃ b ∈ p, b ∈ specialChars) ∧
      ((∀ b ∈ p, b.val < 128) →
        (utf8.runes p).length = p.length ∧
        (s.ValidatePassword p = none ↔
          8 ≤ (utf8.runes p).length ∧ (∃ c ∈ utf8.runes p, 65 ≤ c ∧ c ≤ 90) ∧
            (∃ c ∈ utf8.runes p, 97 ≤ c ∧ c ≤ 122) ∧ (∃ c ∈ utf8.runes p, 48 ≤ c ∧ c ≤ 57) ∧
            ∃ c ∈ utf8.runes p, c ∈ specialChars.map (fun b => b.val))) := by
  have h1 := s.ValidatePassword_eq_none p
  have conv : ∀ (P : Nat → Prop), (∀ c, P c → c < 128) →
      ((∃ c ∈ utf8.runes p, P c) ↔ ∃ b ∈ p, P b.val) := by
    intro P hP
    constructor
    · rintro ⟨c, hc, hp⟩
      obtain ⟨b, hb, e⟩ := (utf8.mem_runes (hP c hp) p).mp hc
      exact ⟨b, hb, by rw [e]; exact hp⟩
    · rintro ⟨b, hb, hp⟩
      exact ⟨b.val, (utf8.mem_runes (hP _ hp) p).mpr ⟨b, hb, rfl⟩, hp⟩
  refine ⟨h1, ?_, ?_⟩
  · rw [h1, conv (fun c => 65 ≤ c ∧ c ≤ 90) (fun c h => by omega),
      conv (fun c => 97 ≤ c ∧ c ≤ 122) (fun c h => by omega),
      conv (fun c => 48 ≤ c ∧ c ≤ 57) (fun c h => by omega),
      conv (fun c => c ∈ specialChars.map (fun b => b.val)) (fun c h => (special_class h).2.2.2)]
    have e : (∃ b ∈ p, b.val ∈ specialChars.map (fun b => b.val)) ↔ ∃ b ∈ p, b ∈ specialChars := by
      constructor
      · rintro ⟨b, hb, h⟩
        obtain ⟨x, hx, e⟩ := List.mem_map.mp h
        exact ⟨b, hb, by rw [← Fin.ext e]; exact hx⟩
      · rintro ⟨b, hb, h⟩
        exact ⟨b, hb, List.mem_map.mpr ⟨b, h, rfl⟩⟩
    rw [e]
  · intro ha
    have hl : (utf8.runes p).length = p.length := by
      rw [utf8.runes_ascii ha, List.length_map]
    exact ⟨hl, by rw [hl]; exact h1⟩

/-- C25 as amended, at `Passw0rd!`, which is accepted, and at `Password!`,
which has no digit and is refused. -/
theorem C25_validate_password_amended_witness :
    Service.ValidatePassword ⟨⟨[]⟩⟩ [80, 97, 115, 115, 119, 48, 114, 100, 33] = none ∧
      Service.ValidatePassword ⟨⟨[]⟩⟩ [80, 97, 115, 115, 119, 111, 114, 100, 33] ≠ none :=
  ⟨(C25_validate_password_amended ⟨⟨[]⟩⟩ [80, 97, 115, 115, 119, 48, 114, 100, 33]).2.1.mpr
      (by decide),
    fun h => absurd
      ((C25_validate_password_amended ⟨⟨[]⟩⟩
        [80, 97, 115, 115, 119, 111, 114, 100, 33]).2.1.mp h) (by decide)⟩

end auth

/-! ## The claim about the middleware -/

namespace middleware

/-- C26, at the header `Bearer placeholder-jwt-token` and at the header
`Bearer new-placeholder-jwt-token`: the comment on `Auth` says that the
middleware validates JWT tokens, and `ValidateJWT` refuses both tokens, which
have no dot, for every secret, every verifier of the signature and every
time; the handler still passes both requests on to the next handler, writes
no answer and does not abort, without a call of `ValidateJWT`. -/
theorem C26_auth_bypass (a : auth.Service) (verify : jwt.Verifier auth.Claims)
    (now : time.Time) :
    a.ValidateJWT verify now placeholderToken =
        .error (.wrap "failed to parse token"
          (.errorf "token is malformed: token contains an invalid number of segments")) ∧
      a.ValidateJWT verify now newPlaceholderToken =
        .error (.wrap "failed to parse token"
          (.errorf "token is malformed: token contains an invalid number of segments")) ∧
      (Auth a verify now ⟨bearer ++ placeholderToken, none, none, false, [], false⟩).passed =
        true ∧
      (Auth a verify now ⟨bearer ++ placeholderToken, none, none, false, [], false⟩).status =
        none ∧
      (Auth a verify now ⟨bearer ++ placeholderToken, none, none, false, [], false⟩).aborted =
        false ∧
      (Auth a verify now ⟨bearer ++ newPlaceholderToken, none, none, false, [], false⟩).passed =
        true ∧
      (Auth a verify now ⟨bearer ++ newPlaceholderToken, none, none, false, [], false⟩).status =
        none ∧
      (Auth a verify now ⟨bearer ++ newPlaceholderToken, none, none, false, [], false⟩).aborted =
        false :=
  ⟨auth.Service.ValidateJWT_one_segment a verify now _ Split_placeholderToken,
    auth.Service.ValidateJWT_one_segment a verify now _ Split_newPlaceholderToken,
    rfl, rfl, rfl, rfl, rfl, rfl⟩

end middleware

namespace storage

open filepath

/-- C27 (save metadata): after `SaveContent(u, a, r)` succeeds, the record
file holds the serialization of a record whose id is `a` and whose user id is
`u`, whatever they are in `r`, whose `updated_at` is the first clock reading
of the save, and whose `created_at` is that of `r` when it is not zero and the
second clock reading of the save otherwise; title, url, content, summary,
tags, metadata and `is_encrypted` are those of `r`.  `GetContent` returns
that serialization, which parses to the record as it is read back. -/
theorem C27_save_metadata (J : json.Codec) (hJ : J.Lawful) (s : Service) (fs : os.FS)
    (now1 now2 : time.Time) (u a content : Bytes)
    (h : (s.SaveContent J fs now1 now2 u a content).1.2 = none) :
    ∃ r b st, J.Unmarshal content = .ok r ∧
      s.GetContent (s.SaveContent J fs now1 now2 u a content).2 u a =
        ((b, none), (s.SaveContent J fs now1 now2 u a content).2) ∧
      J.Marshal st = .ok b ∧ J.Unmarshal b = .ok (J.normal st) ∧
      st.ID = a ∧ st.UserID = u ∧ st.UpdatedAt = now1 ∧
      (r.CreatedAt.IsZero = false → st.CreatedAt = r.CreatedAt) ∧
      (r.CreatedAt.IsZero = true → st.CreatedAt = now2) ∧
      st.Title = r.Title ∧ st.URL = r.URL ∧ st.Content = r.Content ∧ st.Summary = r.Summary ∧
      st.Tags = r.Tags ∧ st.Metadata = r.Metadata ∧ st.IsEncrypted = r.IsEncrypted := by
  obtain ⟨r, b, hU, hM, _, _, hG⟩ := s.SaveContent_stored J fs now1 now2 u a content h
  obtain ⟨t1, t2, t3, t4, t5, t6, t7, t8, t9⟩ := stamp_fields r now1 now2 u a
  refine ⟨r, b, stamp r now1 now2 u a, hU, hG, hM, hJ.unmarshal_marshal _ _ hM, t8, t9, ?_, ?_,
    ?_, t3, t4, t1, t2, t5, t6, t7⟩
  · unfold stamp
    split <;> rfl
  · intro hz
    unfold stamp
    rw [if_neg (by rw [hz]; simp)]
  · intro hz
    unfold stamp
    rw [if_pos hz]

/-- C27, in an empty store: a record with the id `z`, the user id `y` and a
zero creation time is saved for the user `u` and the article `a` at the clock
readings 1 and 2. -/
theorem C27_save_metadata_witness :
    json.plainCodec.Lawful ∧
      ((NewService ⟨[100]⟩).SaveContent json.plainCodec ⟨[], .dir []⟩ ⟨1, 0, 0⟩ ⟨2, 0, 0⟩ [117] [97]
        (json.plain.encode
          ⟨[122], [121], [116], [], [104, 105], [], none, none, ⟨0, 0, 0⟩, ⟨0, 0, 0⟩,
            false⟩)).1.2 = none ∧
      ((NewService ⟨[100]⟩).GetContent
        ((NewService ⟨[100]⟩).SaveContent json.plainCodec ⟨[], .dir []⟩ ⟨1, 0, 0⟩ ⟨2, 0, 0⟩ [117]
          [97] (json.plain.encode
            ⟨[122], [121], [116], [], [104, 105], [], none, none, ⟨0, 0, 0⟩, ⟨0, 0, 0⟩,
              false⟩)).2 [117] [97]).1 =
        (json.plain.encode
          ⟨[97], [117], [116], [], [104, 105], [], none, none, ⟨2, 0, 0⟩, ⟨1, 0, 0⟩, false⟩,
          none) ∧
      ∃ r b st, json.plainCodec.Unmarshal (json.plain.encode
          ⟨[122], [121], [116], [], [104, 105], [], none, none, ⟨0, 0, 0⟩, ⟨0, 0, 0⟩,
            false⟩) = .ok r ∧
        json.plainCodec.Marshal st = .ok b ∧ st.ID = [97] ∧ st.UserID = [117] ∧
        st.UpdatedAt = ⟨1, 0, 0⟩ ∧ st.Title = r.Title :=
  ⟨json.plainCodec_lawful, by decide, by decide,
    match C27_save_metadata json.plainCodec json.plainCodec_lawful (NewService ⟨[100]⟩)
      ⟨[], .dir []⟩ ⟨1, 0, 0⟩ ⟨2, 0, 0⟩ [117] [97]
      (json.plain.encode
        ⟨[122], [121], [116], [], [104, 105], [], none, none, ⟨0, 0, 0⟩, ⟨0, 0, 0⟩, false⟩)
      (by decide) with
    | ⟨r, b, st, hU, _, hM, _, h1, h2, h3, _, _, h6, _⟩ => ⟨r, b, st, hU, hM, h1, h2, h3, h6⟩⟩

end storage

namespace auth

/-- C28 (username validation): for every string, the empty one included,
`ValidateUsername` returns without a run-time panic, and it returns no error
if and only if the name has between 3 and 50 characters, each of them an
ASCII letter, a digit, an underscore or a hyphen, and neither the first nor
the last is an underscore or a hyphen.  Such a name has as many bytes as
characters. -/
theorem C28_validate_username (s : Service) (name : Bytes) :
    ∃ r, s.ValidateUsername name = some r ∧
      (r = none ↔
        3 ≤ (utf8.runes name).length ∧ (utf8.runes name).length ≤ 50 ∧
          (∀ c ∈ utf8.runes name, isAlphanumeric c = true ∨ c = 95 ∨ c = 45) ∧
          (∀ c, (utf8.runes name).head? = some c → c ≠ 95 ∧ c ≠ 45) ∧
          (∀ c, (utf8.runes name).getLast? = some c → c ≠ 95 ∧ c ≠ 45)) ∧
      (r = none → utf8.runes name = name.map (fun b => b.val)) := by
  obtain ⟨r, hr, hiff⟩ := s.ValidateUsername_spec name
  have hconv : (∀ c ∈ utf8.runes name, isAlphanumeric c = true ∨ c = 95 ∨ c = 45) →
      utf8.runes name = name.map (fun b => b.val) := by
    intro hall
    exact utf8.runes_ascii (utf8.ascii_of_runes (fun r hr => allowed_ascii (hall r hr)))
  refine ⟨r, hr, ?_, ?_⟩
  · rw [hiff, ValidateUsername.loop_eq_none]
    constructor
    · rintro ⟨h1, h2, h3, h4, h5⟩
      have e := hconv h3
      refine ⟨by rw [e, List.length_map]; exact h1, by rw [e, List.length_map]; exact h2, h3,
        ?_, ?_⟩
      · intro c hc
        rw [e, List.head?_map] at hc
        cases hh : name.head? with
        | none => rw [hh] at hc; exact Option.noConfusion hc
        | some b =>
          rw [hh] at hc
          cases hc
          exact h4 b hh
      · intro c hc
        rw [e, List.getLast?_map] at hc
        cases hh : name.getLast? with
        | none => rw [hh] at hc; exact Option.noConfusion hc
        | some b =>
          rw [hh] at hc
          cases hc
          exact h5 b hh
    · rintro ⟨h1, h2, h3, h4, h5⟩
      have e := hconv h3
      rw [e, List.length_map] at h1 h2
      refine ⟨h1, h2, h3, ?_, ?_⟩
      · intro b hb
        exact h4 b.val (by rw [e, List.head?_map, hb]; rfl)
      · intro b hb
        exact h5 b.val (by rw [e, List.getLast?_map, hb]; rfl)
  · intro h0
    exact hconv ((ValidateUsername.loop_eq_none _).mp ((hiff.mp h0).2.2.1))

end auth

namespace auth

/-- C29 (key-format compatibility): for every draw of 32 bytes,
`GenerateUserEncryptionKey` returns its hexadecimal text: 64 characters of
`0123456789abcdef`, without a padding character.  The base64 decoder of the
encryption engine accepts this text and reads 48 bytes, so `DeriveKey`,
`Encrypt` and `Decrypt` accept it as a master key, and the round trip of
`Encrypt` and `Decrypt` holds under it. -/
theorem C29_key_format (a : Service) (e : encryption.Service) (bytes p salt nonce : Bytes)
    (hb : bytes.length = 32) (hs : salt.length = 16) (hn : nonce.length = 12) :
    (a.GenerateUserEncryptionKey (some bytes)).2 = none ∧
      (a.GenerateUserEncryptionKey (some bytes)).1 = hex.EncodeToString bytes ∧
      (a.GenerateUserEncryptionKey (some bytes)).1.length = 64 ∧
      (∀ c ∈ (a.GenerateUserEncryptionKey (some bytes)).1,
        c ∈ hex.hextable ∧ c ≠ base64.padChar) ∧
      (∃ m, base64.DecodeString (a.GenerateUserEncryptionKey (some bytes)).1 = some m ∧
        m.length = 48) ∧
      (e.DeriveKey (a.GenerateUserEncryptionKey (some bytes)).1
        (base64.EncodeToString salt)).2 = none ∧
      (e.Encrypt (some salt) (some nonce) p (a.GenerateUserEncryptionKey (some bytes)).1).2 =
        none ∧
      e.Decrypt
          (e.Encrypt (some salt) (some nonce) p (a.GenerateUserEncryptionKey (some bytes)).1).1
          (a.GenerateUserEncryptionKey (some bytes)).1 = (p, none) := by
  obtain ⟨m, hm, hl⟩ := hex.DecodeString_hex bytes 16 (by omega)
  have hk : (a.GenerateUserEncryptionKey (some bytes)).1 = hex.EncodeToString bytes := rfl
  rw [hk]
  refine ⟨rfl, rfl, by rw [hex.EncodeToString_length, hb], ?_, ⟨m, hm, hl⟩, ?_, ?_, ?_⟩
  · intro c hc
    have h1 := hex.mem_EncodeToString bytes c hc
    exact ⟨h1, (hex.hextable_alphabet c h1).2⟩
  · rw [encryption.Service.DeriveKey_encoded e salt hm]
  · rw [encryption.Service.Encrypt_eq e p salt nonce hm]
  · exact encryption.Service.Decrypt_Encrypt_same_bytes e p salt nonce hm hm hs hn

/-- C29, at the draw of 32 zero bytes, the plaintext `hi`, a zero salt and a
zero nonce. -/
theorem C29_key_format_witness :
    (List.replicate 32 (0 : Byte)).length = 32 ∧
      (Service.GenerateUserEncryptionKey ⟨⟨[]⟩⟩ (some (List.replicate 32 0))).1 =
        List.replicate 64 48 ∧
      (encryption.NewService 100000).Decrypt
        ((encryption.NewService 100000).Encrypt (some (List.replicate 16 0))
          (some (List.replicate 12 0)) [104, 105]
          (Service.GenerateUserEncryptionKey ⟨⟨[]⟩⟩ (some (List.replicate 32 0))).1).1
        (Service.GenerateUserEncryptionKey ⟨⟨[]⟩⟩ (some (List.replicate 32 0))).1 =
        ([104, 105], none) :=
  ⟨by decide, by decide,
    (C29_key_format ⟨⟨[]⟩⟩ (encryption.NewService 100000) (List.replicate 32 0) [104, 105]
      (List.replicate 16 0) (List.replicate 12 0) (by decide) (by decide)
      (by decide)).2.2.2.2.2.2.2⟩

end auth

/-! ## The claim about `splitString` -/

namespace config

/-- C30 (refinement of the standard library split): for every `s` and every
non-empty `sep`, `splitString(s, sep)` ends without a panic, after at most
`len(s) + 1` tests of its loop condition.  For an empty `s` it returns the
empty list; for a non-empty `s` it returns the parts of `strings.Split(s,
sep)`, which joined with `sep` give back `s` and none of which contains
`sep`. -/
theorem C30_splitString (s sep : Bytes) (hsep : sep ≠ []) :
    ∃ parts : List Bytes,
      (∀ fuel, s.length < fuel → splitString fuel s sep = some (.ok parts)) ∧
        (s = [] → parts = []) ∧
        (s ≠ [] →
          parts = strings.Split s sep ∧ strings.Join parts sep = s ∧
            ∀ part ∈ parts, strings.Contains part sep = false) := by
  by_cases hs : s = []
  · refine ⟨[], ?_, fun _ => rfl, fun h => absurd hs h⟩
    intro fuel _
    simp only [splitString, if_pos hs]
  · refine ⟨strings.Split s sep, ?_, fun h => absurd h hs, fun _ => ⟨rfl, ?_, ?_⟩⟩
    · intro fuel hf
      have h := splitString.loop_spec s sep hsep fuel 0 0 [] s.length (Nat.le_refl _)
        (Nat.zero_le _) (fun j _ hj => absurd hj (Nat.not_lt_zero j)) (by omega) (by omega)
      simp only [splitString, if_neg hs]
      simp only [strings.Split, if_neg hsep, strings.Count]
      simpa using h
    · simp only [strings.Split, if_neg hsep, strings.Count]
      exact (strings.genSplit_spec hsep s.length s (Nat.le_refl _)).1
    · intro part hp
      simp only [strings.Split, if_neg hsep, strings.Count] at hp
      simp only [strings.Contains,
        (strings.genSplit_spec hsep s.length s (Nat.le_refl _)).2 part hp, Option.isSome_none]

/-- C30, at `a,b,,c` and the separator `,`: the parts are `a`, `b`, the empty
string and `c`. -/
theorem C30_splitString_witness :
    ([44] : Bytes) ≠ [] ∧
      splitString 7 [97, 44, 98, 44, 44, 99] [44] = some (.ok [[97], [98], [], [99]]) ∧
      ∃ parts : List Bytes,
        (∀ fuel, ([97, 44, 98, 44, 44, 99] : Bytes).length < fuel →
          splitString fuel [97, 44, 98, 44, 44, 99] [44] = some (.ok parts)) ∧
          (([97, 44, 98, 44, 44, 99] : Bytes) = [] → parts = []) ∧
          (([97, 44, 98, 44, 44, 99] : Bytes) ≠ [] →
            parts = strings.Split [97, 44, 98, 44, 44, 99] [44] ∧
              strings.Join parts [44] = [97, 44, 98, 44, 44, 99] ∧
              ∀ part ∈ parts, strings.Contains part [44] = false) :=
  ⟨by decide, by rfl, C30_splitString [97, 44, 98, 44, 44, 99] [44] (by decide)⟩

end config

end Pochew
